import Mathlib

/-!
# A shallow embedding of `jsonparser.cc`

The JSON reader and printer of libmusicbrainz (`src/src/jsonparser.cc`,
`src/include/musicbrainz5/jsonparser.h`) translated into pure functions.

* A text is the byte sequence of the `std::string` handed to `parse`; the cursor
  (`const char *current`) is an index into it.  Index `length` is the terminating NUL
  of `c_str()`; a read beyond it is undefined behaviour and is reported as
  `JsonError.outOfBounds`.
* `JsonValue` keeps every field of the C++ class, the inactive ones included.
* Methods that mutate `this` take the receiver and return it next to the outcome, so the
  receiver is also known when an exception leaves the method.
* Loops and the mutual recursion of the parser run on a fuel counter; the entry points
  supply enough fuel for every text.
* The C library (`isspace`, `strncmp`, `strtol`, `strtod`, `std::to_string`, stream output of
  a `double`) is modelled after ISO C for the "C" locale on an LP64 platform, with IEEE-754
  binary64 doubles and round-to-nearest conversions.
-/

namespace Jsonparser

/-! ## Bytes and C strings -/

/-- The byte read by `*ptr` when `ptr` points at index `i` of the text; the terminator
(index `length`) reads as 0. -/
def byteAt (t : List Nat) (i : Nat) : Nat := t.getD i 0

/-- The C string starting at index `i`: the bytes up to the first NUL. This is what
`std::string(ptr)` copies into an exception. -/
def cstr (t : List Nat) (i : Nat) : List Nat := (t.drop i).takeWhile (fun c => c != 0)

/-- The bytes of an ASCII string literal of the source. -/
def lit (s : String) : List Nat := s.toList.map Char.toNat

/-- The function `isspace` of the "C" locale: space, and the five controls 9 to 13
(tab, newline, vertical tab, form feed, carriage return). -/
def isspace (c : Nat) : Bool := c == 32 || (9 ≤ c && c ≤ 13)

/-- The test `0 == strncmp(current, s, strlen(s))` for a literal `s` without NUL. -/
def startsWith (t : List Nat) (current : Nat) (s : List Nat) : Bool :=
  (t.drop current).take s.length == s

/-- Conversion of an integer to `char`: the low eight bits. -/
def toChar (n : Nat) : Nat := n % 256

/-! ## Integers of the C library -/

/-- The constant `LONG_MAX` of an LP64 platform. -/
def LONG_MAX : Int := 9223372036854775807

/-- The constant `LONG_MIN` of an LP64 platform. -/
def LONG_MIN : Int := -9223372036854775808

/-- The value of a byte as a digit in the given base, if it is one. -/
def digitVal (base : Nat) (c : Nat) : Option Nat :=
  let d :=
    if 48 ≤ c ∧ c ≤ 57 then some (c - 48)
    else if 97 ≤ c ∧ c ≤ 122 then some (c - 97 + 10)
    else if 65 ≤ c ∧ c ≤ 90 then some (c - 65 + 10)
    else none
  match d with
  | some v => if v < base then some v else none
  | none => none

/-- Whether a byte is a digit of the given base. -/
def isDigitOf (base : Nat) (c : Nat) : Bool := (digitVal base c).isSome

/-- The number written by a run of digits, most significant first. -/
def digitsValue (base : Nat) (ds : List Nat) : Nat :=
  ds.foldl (fun acc c => acc * base + (digitVal base c).getD 0) 0

/-- The value `strtol` returns for the magnitude `mag` read with or without a minus sign:
the number itself, or `LONG_MIN` or `LONG_MAX` when it is out of range. -/
def saturate (neg : Bool) (mag : Nat) : Int :=
  if neg then (if -(mag : Int) < LONG_MIN then LONG_MIN else -(mag : Int))
  else (if (mag : Int) > LONG_MAX then LONG_MAX else (mag : Int))

/-- The longest run of digits of the given base at the head of `s`: the value and the number
of digits, or nothing when there is no digit. -/
def strtolRun (neg : Bool) (base : Nat) (s : List Nat) : Option (Int × Nat) :=
  if (s.takeWhile (isDigitOf base)).isEmpty then none
  else some (saturate neg (digitsValue base (s.takeWhile (isDigitOf base))),
    (s.takeWhile (isDigitOf base)).length)

/-- Whether `s` starts with `0x` or `0X` and a hexadecimal digit. -/
def hexPrefix (s : List Nat) : Bool :=
  match s with
  | 48 :: x :: d :: _ => (x == 120 || x == 88) && isDigitOf 16 d
  | _ => false

/-- The number at the head of `s`, after white space and sign, for base 0: hexadecimal after
`0x`, octal after `0`, otherwise decimal; the value and the number of bytes, or nothing. -/
def strtolUnsigned (neg : Bool) (s : List Nat) : Option (Int × Nat) :=
  if hexPrefix s then (strtolRun neg 16 (s.drop 2)).map (fun r => (r.1, 2 + r.2))
  else if s.head? == some 48 then strtolRun neg 8 s
  else strtolRun neg 10 s

/-- The conversion `strtol(s, &end, 0)` on the C string `s`: optional white space, optional
sign, a base chosen by the prefix (`0x` hexadecimal, `0` octal, otherwise decimal), the longest
run of digits of that base. The result is the value, saturated to `LONG_MIN` or `LONG_MAX`,
and the number of bytes from `s` to `end`; when no digit is found both are 0. -/
def strtolAt (s : List Nat) : Int × Nat :=
  let s1 := s.dropWhile isspace
  let signed := s1.head? == some 45 || s1.head? == some 43
  match strtolUnsigned (s1.head? == some 45) (if signed then s1.tail else s1) with
  | some r => (r.1, s.length - s1.length + (if signed then 1 else 0) + r.2)
  | none => (0, 0)

/-- The call `strtol(current, &endPtr, 0)` with `current` pointing at index `current` of the
text: the value and `endPtr`. -/
def strtol (t : List Nat) (current : Nat) : Int × Nat :=
  ((strtolAt (t.drop current)).1, current + (strtolAt (t.drop current)).2)

/-- The decimal digits of a natural number, most significant first (`fuel` bounds the number
of digits). -/
def decimalDigits : Nat → Nat → List Nat
  | 0, _ => []
  | fuel + 1, n => if n < 10 then [48 + n] else decimalDigits fuel (n / 10) ++ [48 + n % 10]

/-- The text of a natural number in decimal, without leading zeros. -/
def natToDecimal (n : Nat) : List Nat := decimalDigits (n + 1) n

/-- The result of `std::to_string` on a `long` or an `int`: a minus sign for negative numbers
and the decimal digits. -/
def to_string (n : Int) : List Nat :=
  if n < 0 then 45 :: natToDecimal n.natAbs else natToDecimal n.natAbs

/-! ## Doubles of the C library -/

/-- An IEEE-754 binary64 value. A finite value is `(-1)^neg * mant * 2^exp` in canonical form:
`2^52 ≤ mant < 2^53` and `-1074 ≤ exp ≤ 971` (normal), or `mant < 2^52` and `exp = -1074`
(zero and subnormal). `infinite false` is `HUGE_VAL`. -/
inductive Double where
  | finite (neg : Bool) (mant : Nat) (exp : Int)
  | infinite (neg : Bool)
  | nan
deriving DecidableEq, Repr

/-- The constant `HUGE_VAL`. -/
def HUGE_VAL : Double := Double.infinite false

/-- Unary minus on doubles. -/
def Double.negate : Double → Double
  | Double.finite s m e => Double.finite (!s) m e
  | Double.infinite s => Double.infinite (!s)
  | Double.nan => Double.nan

/-- The canonical form of a finite double with significand `m` and exponent `e`: zero or
subnormal (`m < 2^52`, `e = -1074`) or normal (`2^52 ≤ m < 2^53`, `-1074 ≤ e ≤ 971`). -/
def canonical (m : Nat) (e : Int) : Prop :=
  (m < 2 ^ 52 ∧ e = -1074) ∨ (2 ^ 52 ≤ m ∧ m < 2 ^ 53 ∧ -1074 ≤ e ∧ e ≤ 971)

/-- The quotient `a / b` rounded to the nearest integer, ties to even. -/
def roundDiv (a b : Nat) : Nat :=
  let q := a / b
  let r := a % b
  if 2 * r < b then q else if b < 2 * r then q + 1 else if q % 2 = 0 then q else q + 1

/-- The number of binary digits of a natural number (`fuel` bounds the count). -/
def bitLength : Nat → Nat → Nat
  | 0, _ => 0
  | fuel + 1, n => if n = 0 then 0 else bitLength fuel (n / 2) + 1

/-- The fraction `num / den` divided by `2^k`, as a fraction. -/
def scaleBy (num den : Nat) (k : Int) : Nat × Nat :=
  if 0 ≤ k then (num, den * 2 ^ k.toNat) else (num * 2 ^ (-k).toNat, den)

/-- The double nearest to `(-1)^neg * num / den` (round to nearest, ties to even), infinite
when the rounded magnitude exceeds the largest finite double. -/
def toDouble (neg : Bool) (num den : Nat) : Double :=
  if num = 0 ∨ den = 0 then Double.finite neg 0 (-1074)
  else
    let e0 : Int := (bitLength (num + 1) num : Int) - (bitLength (den + 1) den : Int)
    let s := scaleBy num den e0
    let fl : Int := if s.2 ≤ s.1 then e0 else e0 - 1
    let k : Int := max (fl - 52) (-1074)
    let r := scaleBy num den k
    let n := roundDiv r.1 r.2
    let n1 := if n = 2 ^ 53 then 2 ^ 52 else n
    let k1 := if n = 2 ^ 53 then k + 1 else k
    if 971 < k1 then Double.infinite neg else Double.finite neg n1 k1

/-- Conversion of a `long` to `double`. -/
def Double.ofLong (n : Int) : Double := toDouble (decide (n < 0)) n.natAbs 1

/-- The number of decimal digits of a positive natural number, minus one. -/
def decimalExponentNat (n : Nat) : Nat := (natToDecimal n).length - 1

/-- The least `j` below `fuel` with `den ≤ num * 10^j`, counted from `j`. -/
def leastScale : Nat → Nat → Nat → Nat → Nat
  | 0, _, _, j => j
  | fuel + 1, num, den, j => if den ≤ num * 10 ^ j then j else leastScale fuel num den (j + 1)

/-- The decimal exponent `x` of a positive fraction: `10^x ≤ num / den < 10^(x+1)`. -/
def decimalExponent (num den : Nat) : Int :=
  if den ≤ num then (decimalExponentNat (num / den) : Int)
  else -((leastScale 400 num den 0 : Nat) : Int)

/-- The fraction `num / den` divided by `10^x`, rounded to the nearest integer, ties to even. -/
def scaledDigits (num den : Nat) (x : Int) : Nat :=
  if 0 ≤ x then roundDiv num (den * 10 ^ x.toNat) else roundDiv (num * 10 ^ (-x).toNat) den

/-- The natural number `n` written with at least `width` decimal digits. -/
def padDecimal (width n : Nat) : List Nat :=
  List.replicate (width - (natToDecimal n).length) 48 ++ natToDecimal n

/-- The text a stream prints for a `double` with `std::scientific` and precision 16: one digit,
the point, sixteen digits, `e`, the sign of the exponent and at least two exponent digits. -/
def formatDouble : Double → List Nat
  | Double.nan => [110, 97, 110]
  | Double.infinite s => (if s then [45] else []) ++ [105, 110, 102]
  | Double.finite s m e =>
    let sign := if s then [45] else []
    if m = 0 then sign ++ [48, 46] ++ List.replicate 16 48 ++ [101, 43, 48, 48]
    else
      let fr := scaleBy m 1 (-e)
      let x0 := decimalExponent fr.1 fr.2
      let d0 := scaledDigits fr.1 fr.2 (x0 - 16)
      let d := if d0 = 10 ^ 17 then 10 ^ 16 else d0
      let x := if d0 = 10 ^ 17 then x0 + 1 else x0
      let ds := padDecimal 17 d
      sign ++ ds.take 1 ++ [46] ++ ds.drop 1 ++ [101]
        ++ (if x < 0 then [45] else [43]) ++ padDecimal 2 x.natAbs

/-- The exponent part at the head of `s`: the marker byte (`e` or `p`, either case), an
optional sign and a non-empty run of decimal digits; the exponent value and the number of
bytes of the part, or nothing when `s` does not start with an exponent part. -/
def scanExponent (s : List Nat) (lower upper : Nat) : Option (Int × Nat) :=
  match s with
  | m :: rest =>
    if m == lower || m == upper then
      let neg := rest.head? == some 45
      let signed := rest.head? == some 45 || rest.head? == some 43
      let ds := (if signed then rest.tail else rest).takeWhile (isDigitOf 10)
      if ds.isEmpty then none
      else some (if neg then -(digitsValue 10 ds : Int) else (digitsValue 10 ds : Int),
        1 + (if signed then 1 else 0) + ds.length)
    else none
  | [] => none

/-- The magnitude `mant * base^scale` as a double with sign `neg`. -/
def scaledDouble (neg : Bool) (mant base : Nat) (scale : Int) : Double :=
  if 0 ≤ scale then toDouble neg (mant * base ^ scale.toNat) 1
  else toDouble neg mant (base ^ (-scale).toNat)

/-- A number of the form digits, optional point and digits, optional exponent, at the head
of `s`, in base 10 (`hex = false`) or base 16 (`hex = true`, after the `0x`). The value and the
number of bytes of the number, or nothing when there is no digit. -/
def scanMantissa (s : List Nat) (neg : Bool) (hex : Bool) : Option (Double × Nat) :=
  let base := if hex then 16 else 10
  let ip := s.takeWhile (isDigitOf base)
  let s1 := s.drop ip.length
  let hasPoint := s1.head? == some 46
  let fp := if hasPoint then s1.tail.takeWhile (isDigitOf base) else []
  if ip.isEmpty && fp.isEmpty then none
  else
    let used := if hasPoint then ip.length + 1 + fp.length else ip.length
    let mant := digitsValue base (ip ++ fp)
    let ex := if hex then scanExponent (s.drop used) 112 80 else scanExponent (s.drop used) 101 69
    let expVal : Int := match ex with
      | some (v, _) => v
      | none => 0
    let expLen : Nat := match ex with
      | some (_, k) => k
      | none => 0
    let value := if hex then scaledDouble neg mant 2 (expVal - 4 * (fp.length : Int))
      else scaledDouble neg mant 10 (expVal - (fp.length : Int))
    some (value, used + expLen)

/-- The bytes that can occur in a number read by `strtod`: the hexadecimal digits (the
exponent marker `e` among them), the signs, the point, and the letters x and p. -/
def numberByte (c : Nat) : Bool :=
  isDigitOf 16 c || c == 43 || c == 45 || c == 46 || c == 120 || c == 88 || c == 112 || c == 80

/-- The number at the head of `s`, after white space and sign: a hexadecimal floating
constant after `0x`, or else a decimal one; the value and the number of bytes, or nothing. -/
def strtodUnsigned (s : List Nat) (neg : Bool) : Option (Double × Nat) :=
  let hexForm : Option (Double × Nat) := match s with
    | 48 :: x :: rest =>
      if x == 120 || x == 88 then (scanMantissa rest neg true).map (fun r => (r.1, 2 + r.2))
      else none
    | _ => none
  match hexForm with
  | some r => some r
  | none => scanMantissa s neg false

/-- The conversion `strtod(s, &end)` on the C string `s`: optional white space, optional sign,
then a hexadecimal floating constant after `0x`, or a decimal one. The result is the nearest
double (`HUGE_VAL` with the sign on overflow) and the number of bytes from `s` to `end`; when
nothing converts the value is zero and the count is 0. The number is looked for in the run of
`numberByte` bytes after the white space: no byte after that run is read. The spellings of
infinity and NaN are not modelled: `parseValue` calls `strtod` only on a text whose first byte
after white space and sign is a digit or a point. -/
def strtodAt (s : List Nat) : Double × Nat :=
  let s1 := s.dropWhile isspace
  let tok := s1.takeWhile numberByte
  let neg := tok.head? == some 45
  let signed := tok.head? == some 45 || tok.head? == some 43
  match strtodUnsigned (if signed then tok.tail else tok) neg with
  | some r => (r.1, s.length - s1.length + (if signed then 1 else 0) + r.2)
  | none => (Double.finite false 0 (-1074), 0)

/-- The call `strtod(current, &endPtr)` with `current` pointing at index `current` of the text:
the value and `endPtr`. -/
def strtod (t : List Nat) (current : Nat) : Double × Nat :=
  ((strtodAt (t.drop current)).1, current + (strtodAt (t.drop current)).2)

/-! ## The value tree -/

/-- The enumeration `JsonValue::VAL_TYPE`. -/
inductive VAL_TYPE where
  | JSON_OBJECT
  | JSON_ARRAY
  | JSON_STRING
  | JSON_NUMBER
  | JSON_BOOL
  | JSON_NULL
  | JSON_FLOAT
deriving DecidableEq, Repr

open VAL_TYPE

/-- The exceptions of `jsonparser.h`, with the message each one carries; a parse exception also
carries the text at `objStart`. The last two are not C++ exceptions: `outOfBounds` is a read
beyond the terminator of the text, `outOfFuel` an exhausted fuel counter. -/
inductive JsonError where
  | JsonParseException (msg : String) (obj : List Nat)
  | NotFoundException (msg : List Nat)
  | AccessTypeException (msg : String)
  | NullTypeException (msg : String)
  | InternalErrorException (msg : String)
  | outOfBounds
  | outOfFuel
deriving DecidableEq, Repr

open JsonError

deriving instance DecidableEq for Except

/-- The data members of class `JsonValue`. `nameValPairs_f` is the `std::map`, held as the list
of its entries in increasing key order; `nameValsInOrder_f` is the `std::list` of pairs. -/
structure JsonValue where
  type_f : VAL_TYPE
  nameValPairs_f : List (List Nat × JsonValue)
  nameValsInOrder_f : List (List Nat × JsonValue)
  theString_f : List Nat
  theBool_f : Bool
  theInteger_f : Int
  theFloat_f : Double
  theArray_f : List JsonValue

/-- A default-constructed `JsonValue`: tag `JSON_NULL` and empty containers. The three scalar
members have no initialiser in the class; they are given fixed values here and are
never read before they are written. -/
def JsonValue.fresh : JsonValue :=
  { type_f := JSON_NULL, nameValPairs_f := [], nameValsInOrder_f := [], theString_f := [],
    theBool_f := false, theInteger_f := 0, theFloat_f := Double.finite false 0 (-1074),
    theArray_f := [] }

/-- The order of `std::string` keys in a `std::map`: lexicographic on unsigned bytes. -/
def keyLess : List Nat → List Nat → Bool
  | [], [] => false
  | [], _ :: _ => true
  | _ :: _, [] => false
  | a :: as, b :: bs => a < b || (a == b && keyLess as bs)

/-- The statement `m[key] = value` on a `std::map`: the entry of `key` is overwritten, or a new
entry is put at its place in key order. -/
def mapAssign (m : List (List Nat × JsonValue)) (key : List Nat) (value : JsonValue) :
    List (List Nat × JsonValue) :=
  match m with
  | [] => [(key, value)]
  | (k, v) :: rest =>
    if key = k then (key, value) :: rest
    else if keyLess key k then (key, value) :: (k, v) :: rest
    else (k, v) :: mapAssign rest key value

/-- The call `m.find(key)` on a `std::map`: the mapped value, or nothing for `end()`. -/
def mapFind (m : List (List Nat × JsonValue)) (key : List Nat) : Option JsonValue :=
  match m with
  | [] => none
  | (k, v) :: rest => if key = k then some v else mapFind rest key

/-! ## The parser -/

/-- The digit a byte stands for in `getUtf16`: `0`-`9`, `A`-`F`, `a`-`f`. -/
def hexDigit (inch : Nat) : Option Nat :=
  if 48 ≤ inch ∧ inch ≤ 57 then some (inch - 48)
  else if 65 ≤ inch ∧ inch ≤ 70 then some (inch - 65 + 10)
  else if 97 ≤ inch ∧ inch ≤ 102 then some (inch - 97 + 10)
  else none

/-- The `for` loop of `getUtf16`, with `n` digits still to read. `code` is a `uint16_t`. -/
def getUtf16Loop (t : List Nat) : Nat → Nat → Nat → Except JsonError (Nat × Nat)
  | 0, ptr, code => Except.ok (code, ptr)
  | n + 1, ptr, code =>
    match hexDigit (byteAt t ptr) with
    | some digit => getUtf16Loop t n (ptr + 1) ((code * 16 + digit) % 65536)
    | none => Except.error (JsonParseException "\\u not followed by four hex digits" [])

/-- The function `getUtf16`: reads `\uXXXX` at `current`; the code unit and the cursor after the
escape. The cursor of the caller moves only when the function returns. -/
def getUtf16 (t : List Nat) (current : Nat) : Except JsonError (Nat × Nat) :=
  if byteAt t current != 92 || byteAt t (current + 1) != 117 then
    Except.error (JsonParseException "Missing \\u" [])
  else getUtf16Loop t 4 (current + 2) 0

/-- The inner loop of `skipWhitespace`: `while (isspace(*ptr) && (*ptr != 0)) ptr++`. -/
def skipSpaces (t : List Nat) : Nat → Nat → Nat
  | 0, ptr => ptr
  | fuel + 1, ptr =>
    if isspace (byteAt t ptr) && byteAt t ptr != 0 then skipSpaces t fuel (ptr + 1) else ptr

/-- The comment loop of `skipWhitespace`: `while (*ptr != 10) ptr++`. There is no test for the
terminator: the loop leaves the text when no newline follows, which gives `none`. -/
def skipComment (t : List Nat) : Nat → Nat → Option Nat
  | 0, _ => none
  | fuel + 1, ptr =>
    if t.length < ptr then none
    else if byteAt t ptr != 10 then skipComment t fuel (ptr + 1)
    else some ptr

/-- The outer loop of `skipWhitespace`. -/
def skipWhitespaceLoop (t : List Nat) : Nat → Nat → Except JsonError Nat
  | 0, _ => Except.error outOfFuel
  | fuel + 1, ptr =>
    let ptr1 := skipSpaces t (t.length - ptr) ptr
    if byteAt t ptr1 == 35 then
      match skipComment t (t.length + 2 - ptr1) ptr1 with
      | some ptr2 => skipWhitespaceLoop t fuel ptr2
      | none => Except.error outOfBounds
    else Except.ok ptr1

/-- The method `JsonValue::skipWhitespace`: the cursor after white space and `#` comments. -/
def skipWhitespace (t : List Nat) (buffer : Nat) : Except JsonError Nat :=
  skipWhitespaceLoop t (t.length - buffer + 1) buffer

/-- The bytes `parseString` appends for the code point `unicode`. -/
def encodeUtf8 (unicode : Nat) : List Nat :=
  if unicode ≥ 0x10000 then
    [toChar (0xf0 + ((unicode &&& 0x1c0000) >>> 18)),
     toChar (0x80 + ((unicode &&& 0x3f000) >>> 12)),
     toChar (0x80 + ((unicode &&& 0xfc0) >>> 6)),
     toChar (0x80 + (unicode &&& 0x3f))]
  else if unicode ≥ 0x800 then
    [toChar (0xe0 + ((unicode &&& 0xf000) >>> 12)),
     toChar (0x80 + ((unicode &&& 0xfc0) >>> 6)),
     toChar (0x80 + (unicode &&& 0x3f))]
  else if unicode ≥ 0x80 then
    [toChar (0xc0 + ((unicode &&& 0x3c0) >>> 6)),
     toChar (0x80 + (unicode &&& 0x3f))]
  else
    [toChar (unicode &&& 0x3f)]

/-- The `case 117` (the letter u) of `parseString`, entered with `current` on the backslash of
the escape: the code point and the cursor after the escape, or after both escapes of a
surrogate pair. -/
def readUnicode (t : List Nat) (current : Nat) : Except JsonError (Nat × Nat) :=
  match getUtf16 t current with
  | Except.error e => Except.error e
  | Except.ok (utf16, current1) =>
    if utf16 ≥ 0xd800 && utf16 ≤ 0xdbff then
      let highBits := ((utf16 - 0xd800) <<< 10) % 4294967296
      let startLow := current1
      match getUtf16 t current1 with
      | Except.ok (lowUtf16, current2) =>
        if lowUtf16 ≥ 0xdc00 && lowUtf16 ≤ 0xdfff then
          Except.ok ((highBits + (lowUtf16 - 0xdc00) + 0x10000) % 4294967296, current2)
        else Except.ok (utf16, startLow)
      | Except.error _ => Except.ok (utf16, startLow)
    else Except.ok (utf16, current1)

/-- The `while` loop of `parseString`: `current` is the cursor, `theString` the bytes read so
far, `buffer` the cursor the method was called with. -/
def parseStringLoop (t : List Nat) (buffer : Nat) :
    Nat → Nat → List Nat → Except JsonError (List Nat × Nat)
  | 0, _, _ => Except.error outOfFuel
  | fuel + 1, current, theString =>
    let c := byteAt t current
    if c == 34 then Except.ok (theString, current + 1)
    else if c == 0 then
      Except.error (JsonParseException "Unexpected EOF during string read." (cstr t buffer))
    else if c == 92 then
      let e := byteAt t (current + 1)
      if e == 0 then
        Except.error
          (JsonParseException "Unexpected EOF during string escape read." (cstr t buffer))
      else if e == 34 || e == 92 || e == 47 then
        parseStringLoop t buffer fuel (current + 2) (theString ++ [e])
      else if e == 98 then parseStringLoop t buffer fuel (current + 2) (theString ++ [8])
      else if e == 102 then parseStringLoop t buffer fuel (current + 2) (theString ++ [12])
      else if e == 110 then parseStringLoop t buffer fuel (current + 2) (theString ++ [10])
      else if e == 114 then parseStringLoop t buffer fuel (current + 2) (theString ++ [13])
      else if e == 116 then parseStringLoop t buffer fuel (current + 2) (theString ++ [9])
      else if e == 117 then
        match readUnicode t current with
        | Except.error err => Except.error err
        | Except.ok (unicode, next) =>
          parseStringLoop t buffer fuel next (theString ++ encodeUtf8 unicode)
      else Except.error (JsonParseException "Unsupported escape character" (cstr t buffer))
    else parseStringLoop t buffer fuel (current + 1) (theString ++ [c])

/-- The method `JsonValue::parseString`: the decoded string and the cursor after the closing
quote. -/
def parseString (t : List Nat) (buffer : Nat) : Except JsonError (List Nat × Nat) :=
  match skipWhitespace t buffer with
  | Except.error e => Except.error e
  | Except.ok current =>
    if byteAt t current != 34 then
      Except.error (JsonParseException "No opening quote when reading string" (cstr t buffer))
    else parseStringLoop t buffer (t.length + 1 - current) (current + 1) []

/-- The number branch of `parseValue` (the last `else` of the `default` case), entered with
the cursor after white space. -/
def parseNumber (t : List Nat) (self : JsonValue) (current : Nat) :
    JsonValue × Except JsonError Nat :=
  let self1 := { self with type_f := JSON_NUMBER }
  let r := strtol t current
  let self2 := { self1 with theInteger_f := r.1 }
  let endPtr := r.2
  if r.1 = LONG_MIN ∨ r.1 = LONG_MAX then
    (self2, Except.error (JsonParseException "Integer out of range" (cstr t current)))
  else if endPtr = current ∧ byteAt t current ≠ 46 then
    (self2, Except.error
      (JsonParseException "Unexpected character in integer value" (cstr t current)))
  else if byteAt t endPtr = 69 ∨ byteAt t endPtr = 101 ∨ byteAt t endPtr = 46 then
    let self3 := { self2 with type_f := JSON_FLOAT }
    let d := strtod t current
    let self4 := { self3 with theFloat_f := d.1 }
    if d.1 = HUGE_VAL ∨ d.1 = HUGE_VAL.negate then
      (self4, Except.error (JsonParseException "Float out of range" (cstr t current)))
    else if d.2 = current then
      (self4, Except.error
        (JsonParseException "Unexpected character in float value" (cstr t current)))
    else (self4, Except.ok d.2)
  else (self2, Except.ok endPtr)

mutual

/-- The method `JsonValue::parseValue` on the receiver `self`. -/
def parseValue : Nat → List Nat → JsonValue → Nat → JsonValue × Except JsonError Nat
  | 0, _, self, _ => (self, Except.error outOfFuel)
  | fuel + 1, t, self, current0 =>
    match skipWhitespace t current0 with
    | Except.error e => (self, Except.error e)
    | Except.ok current =>
      let c := byteAt t current
      if c = 0 then
        (self, Except.error
          (JsonParseException "Unexpected EOF while looking for value" (cstr t current)))
      else if c = 34 then
        match parseString t current with
        | Except.error e => ({ self with type_f := JSON_STRING }, Except.error e)
        | Except.ok (str, next) =>
          ({ self with type_f := JSON_STRING, theString_f := str }, Except.ok next)
      else if c = 123 then
        parseObjectLoop fuel t { self with type_f := JSON_OBJECT } (current + 1) (current + 1)
      else if c = 91 then
        parseArrayLoop fuel t { self with type_f := JSON_ARRAY } (current + 1) (current + 1)
      else if startsWith t current (lit "true") then
        ({ self with type_f := JSON_BOOL, theBool_f := true }, Except.ok (current + 4))
      else if startsWith t current (lit "false") then
        ({ self with type_f := JSON_BOOL, theBool_f := false }, Except.ok (current + 5))
      else if startsWith t current (lit "null") then
        ({ self with type_f := JSON_NULL }, Except.ok (current + 4))
      else parseNumber t self current
termination_by structural fuel => fuel

/-- The `while (true)` loop of `JsonValue::parseObject`. -/
def parseObjectLoop :
    Nat → List Nat → JsonValue → Nat → Nat → JsonValue × Except JsonError Nat
  | 0, _, self, _, _ => (self, Except.error outOfFuel)
  | fuel + 1, t, self, objStart, current0 =>
    match skipWhitespace t current0 with
    | Except.error e => (self, Except.error e)
    | Except.ok current =>
      if byteAt t current = 125 then (self, Except.ok (current + 1))
      else if byteAt t current = 0 then
        (self, Except.error
          (JsonParseException "Unexpected end of file while reading object" (cstr t objStart)))
      else
        let objStart1 := current
        match parseString t current with
        | Except.error e => (self, Except.error e)
        | Except.ok (nameString, current1) =>
          match skipWhitespace t current1 with
          | Except.error e => (self, Except.error e)
          | Except.ok current2 =>
            if byteAt t current2 ≠ 58 then
              (self, Except.error
                (JsonParseException "Missing : between name and value while reading object"
                  (cstr t objStart1)))
            else
              match parseValue fuel t JsonValue.fresh (current2 + 1) with
              | (_, Except.error e) => (self, Except.error e)
              | (value, Except.ok current3) =>
                let self1 := { self with
                  nameValPairs_f := mapAssign self.nameValPairs_f nameString value,
                  nameValsInOrder_f := self.nameValsInOrder_f ++ [(nameString, value)] }
                match skipWhitespace t current3 with
                | Except.error e => (self1, Except.error e)
                | Except.ok current4 =>
                  if byteAt t current4 = 44 then
                    parseObjectLoop fuel t self1 objStart1 (current4 + 1)
                  else if byteAt t current4 = 125 then
                    parseObjectLoop fuel t self1 objStart1 current4
                  else
                    (self1, Except.error
                      (JsonParseException
                        "Unexpected character after parsing name/value while reading"
                        (cstr t objStart1)))
termination_by structural fuel => fuel

/-- The `while (true)` loop of `JsonValue::parseArray`. -/
def parseArrayLoop :
    Nat → List Nat → JsonValue → Nat → Nat → JsonValue × Except JsonError Nat
  | 0, _, self, _, _ => (self, Except.error outOfFuel)
  | fuel + 1, t, self, objStart, current0 =>
    match skipWhitespace t current0 with
    | Except.error e => (self, Except.error e)
    | Except.ok current =>
      if byteAt t current = 0 then
        (self, Except.error
          (JsonParseException "Unexpected EOF while looking for array" (cstr t objStart)))
      else if byteAt t current = 93 then (self, Except.ok (current + 1))
      else if byteAt t current = 44 then parseArrayLoop fuel t self objStart (current + 1)
      else
        match parseValue fuel t JsonValue.fresh current with
        | (_, Except.error e) => (self, Except.error e)
        | (newVal, Except.ok current1) =>
          parseArrayLoop fuel t { self with theArray_f := self.theArray_f ++ [newVal] }
            objStart current1
termination_by structural fuel => fuel

end

/-- The method `JsonValue::parseObject`, entered with the cursor after the opening brace. -/
def parseObject (fuel : Nat) (t : List Nat) (self : JsonValue) (current : Nat) :
    JsonValue × Except JsonError Nat :=
  parseObjectLoop fuel t { self with type_f := JSON_OBJECT } current current

/-- The method `JsonValue::parseArray`, entered with the cursor after the opening bracket. -/
def parseArray (fuel : Nat) (t : List Nat) (self : JsonValue) (current : Nat) :
    JsonValue × Except JsonError Nat :=
  parseArrayLoop fuel t { self with type_f := JSON_ARRAY } current current

/-- The fuel `parse` gives the recursion: two units for every byte of the text. -/
def parseFuel (t : List Nat) : Nat := 2 * t.length + 2

/-- The method `JsonValue::parse(jsonText)` on the receiver `self`: the receiver after the
call, and `ok` when the method returns, or the exception that leaves it. -/
def parse (self : JsonValue) (jsonText : List Nat) : JsonValue × Except JsonError Unit :=
  match skipWhitespace jsonText 0 with
  | Except.error e => (self, Except.error e)
  | Except.ok current =>
    if byteAt jsonText current ≠ 123 then
      (self, Except.error
        (JsonParseException "Top level object does not start with curly brace" []))
    else
      match parseObject (parseFuel jsonText) jsonText self (current + 1) with
      | (self1, Except.error e) => (self1, Except.error e)
      | (self1, Except.ok objectEnd) =>
        match skipWhitespace jsonText objectEnd with
        | Except.error e => (self1, Except.error e)
        | Except.ok current1 =>
          if byteAt jsonText current1 ≠ 0 then
            (self1, Except.error
              (JsonParseException "Unexpected text after end of top level object"
                (cstr jsonText objectEnd)))
          else (self1, Except.ok ())

/-! ## The accessors -/

/-- The method `JsonValue::checkForNull`. -/
def checkForNull (self : JsonValue) : Except JsonError Unit :=
  if self.type_f = JSON_NULL then Except.error (NullTypeException "Element is null")
  else Except.ok ()

/-- The method `operator[](std::string &name)`; the overload for `const char *` builds the
string and calls this one. The exception is built from `name.c_str()`, a C string: it holds
the bytes of the name up to the first NUL. -/
def operatorIndexName (self : JsonValue) (name : List Nat) : Except JsonError JsonValue :=
  match checkForNull self with
  | Except.error e => Except.error e
  | Except.ok _ =>
    if self.type_f ≠ JSON_OBJECT then
      Except.error (AccessTypeException "Can't index non-object with string")
    else
      match mapFind self.nameValPairs_f name with
      | none => Except.error (NotFoundException (cstr name 0))
      | some v => Except.ok v

/-- The method `has(std::string &name)`; the overload for `const char *` calls this one. -/
def has (self : JsonValue) (name : List Nat) : Except JsonError Bool :=
  match checkForNull self with
  | Except.error e => Except.error e
  | Except.ok _ =>
    if self.type_f ≠ JSON_OBJECT then
      Except.error (AccessTypeException "Can't index non-object with string")
    else Except.ok (mapFind self.nameValPairs_f name).isSome

/-- The method `operator[](unsigned idx)`. -/
def operatorIndexUnsigned (self : JsonValue) (idx : Nat) : Except JsonError JsonValue :=
  match checkForNull self with
  | Except.error e => Except.error e
  | Except.ok _ =>
    if self.type_f ≠ JSON_ARRAY then
      Except.error (AccessTypeException "Can't index non-array with integer")
    else if idx ≥ self.theArray_f.length then
      Except.error (NotFoundException (to_string idx))
    else
      match self.theArray_f.get? idx with
      | some v => Except.ok v
      | none => Except.error (NotFoundException (to_string idx))

/-- The method `operator[](int idx)`. -/
def operatorIndexInt (self : JsonValue) (idx : Int) : Except JsonError JsonValue :=
  if idx < 0 then Except.error (NotFoundException (to_string idx))
  else operatorIndexUnsigned self idx.toNat

/-- The method `JsonValue::length`. -/
def length (self : JsonValue) : Except JsonError Nat :=
  match checkForNull self with
  | Except.error e => Except.error e
  | Except.ok _ =>
    if self.type_f = JSON_ARRAY then Except.ok self.theArray_f.length
    else Except.error (AccessTypeException "Can't get length of non-array")

/-- The method `JsonValue::getMap`. -/
def getMap (self : JsonValue) : Except JsonError (List (List Nat × JsonValue)) :=
  match checkForNull self with
  | Except.error e => Except.error e
  | Except.ok _ =>
    if self.type_f = JSON_OBJECT then Except.ok self.nameValPairs_f
    else Except.error (AccessTypeException "Can't get object map for non-object")

/-- The method `JsonValue::getArray`. -/
def getArray (self : JsonValue) : Except JsonError (List JsonValue) :=
  match checkForNull self with
  | Except.error e => Except.error e
  | Except.ok _ =>
    if self.type_f = JSON_ARRAY then Except.ok self.theArray_f
    else Except.error (AccessTypeException "Can't get array for non-array")

/-- The method `JsonValue::getString`. -/
def getString (self : JsonValue) : Except JsonError (List Nat) :=
  match checkForNull self with
  | Except.error e => Except.error e
  | Except.ok _ =>
    if self.type_f = JSON_STRING then Except.ok self.theString_f
    else Except.error (AccessTypeException "Value is not a string")

/-- The method `JsonValue::getNumber`. -/
def getNumber (self : JsonValue) : Except JsonError Int :=
  match checkForNull self with
  | Except.error e => Except.error e
  | Except.ok _ =>
    if self.type_f = JSON_NUMBER then Except.ok self.theInteger_f
    else Except.error (AccessTypeException "Value is not an integer")

/-- The method `JsonValue::getFloat`. -/
def getFloat (self : JsonValue) : Except JsonError Double :=
  match checkForNull self with
  | Except.error e => Except.error e
  | Except.ok _ =>
    if self.type_f = JSON_FLOAT then Except.ok self.theFloat_f
    else if self.type_f = JSON_NUMBER then Except.ok (Double.ofLong self.theInteger_f)
    else Except.error (AccessTypeException "Value is not a float")

/-- The method `JsonValue::getBool`. -/
def getBool (self : JsonValue) : Except JsonError Bool :=
  match checkForNull self with
  | Except.error e => Except.error e
  | Except.ok _ =>
    if self.type_f = JSON_BOOL then Except.ok self.theBool_f
    else Except.error (AccessTypeException "Value is not a bool")

/-! ## The printer -/

/-- The method `JsonValue::prettyPrint(output, indent)`: the string `output` after the call.
`printNameVals` and `printArray` are the two `for` loops, with the flag `first`. The `default`
case of the `switch` has no counterpart: `VAL_TYPE` has no eighth value. -/
def prettyPrint : JsonValue → List Nat → List Nat → List Nat
  | ⟨type_f, _, nameValsInOrder_f, theString_f, theBool_f, theInteger_f, theFloat_f,
      theArray_f⟩, output, indent =>
    let newIndent := indent ++ [32, 32, 32, 32]
    match type_f with
    | JSON_OBJECT =>
      printNameVals nameValsInOrder_f true (output ++ [123]) newIndent
        ++ ([10] ++ indent ++ [125])
    | JSON_ARRAY =>
      printArray theArray_f true (output ++ [91]) newIndent ++ ([10] ++ indent ++ [93])
    | JSON_STRING => output ++ ([34] ++ theString_f ++ [34])
    | JSON_NUMBER => output ++ to_string theInteger_f
    | JSON_FLOAT => output ++ formatDouble theFloat_f
    | JSON_BOOL => output ++ (if theBool_f then lit "true" else lit "false")
    | JSON_NULL => output ++ lit "null"
where
  /-- The loop over `nameValsInOrder_f`. -/
  printNameVals : List (List Nat × JsonValue) → Bool → List Nat → List Nat → List Nat
    | [], _, output, _ => output
    | (name, value) :: rest, first, output, newIndent =>
      let output1 := if first then output else output ++ [44]
      let output2 := output1 ++ ([10] ++ newIndent)
      let output3 := output2 ++ ([34] ++ name ++ [34, 32, 58, 32])
      printNameVals rest false (prettyPrint value output3 newIndent) newIndent
  /-- The loop over `theArray_f`. -/
  printArray : List JsonValue → Bool → List Nat → List Nat → List Nat
    | [], _, output, _ => output
    | value :: rest, first, output, newIndent =>
      let output1 := if first then output else output ++ [44]
      let output2 := output1 ++ ([10] ++ newIndent)
      printArray rest false (prettyPrint value output2 newIndent) newIndent

/-! ## Definitions used to state the properties -/

/-- The code unit written by a well-formed escape `\uXXXX` at index `i` of the text: a
backslash, the letter u and four hexadecimal digits; `none` when the text at `i` is not one. -/
def escapeValue (t : List Nat) (i : Nat) : Option Nat :=
  if byteAt t i = 92 ∧ byteAt t (i + 1) = 117 then
    match hexDigit (byteAt t (i + 2)), hexDigit (byteAt t (i + 3)),
      hexDigit (byteAt t (i + 4)), hexDigit (byteAt t (i + 5)) with
    | some a, some b, some c, some d => some (a * 4096 + b * 256 + c * 16 + d)
    | _, _, _, _ => none
  else none

/-- The nodes of a value tree: `IsNode w v` holds when `w` is `v` itself or a node of a value
held in the ordered sequence, in the lookup mapping or in the array of `v`. -/
inductive IsNode : JsonValue → JsonValue → Prop where
  | self (v : JsonValue) : IsNode v v
  | ordered {w v x : JsonValue} {k : List Nat} :
      (k, x) ∈ v.nameValsInOrder_f → IsNode w x → IsNode w v
  | mapped {w v x : JsonValue} {k : List Nat} :
      (k, x) ∈ v.nameValPairs_f → IsNode w x → IsNode w v
  | element {w v x : JsonValue} : x ∈ v.theArray_f → IsNode w x → IsNode w v

/-- The lookup mapping that results from assigning the entries of an ordered sequence, in
order, to the map `m`. -/
def assignAll (m l : List (List Nat × JsonValue)) : List (List Nat × JsonValue) :=
  l.foldl (fun acc e => mapAssign acc e.1 e.2) m

/-- The value of the last entry of an ordered sequence that has the key `k`. -/
def lastWithKey : List (List Nat × JsonValue) → List Nat → Option JsonValue
  | [], _ => none
  | (k1, v) :: rest, k =>
    match lastWithKey rest k with
    | some x => some x
    | none => if k = k1 then some v else none

/-- What parsing establishes at a node: the lookup mapping of an Object is the result of
assigning its ordered entries one after the other to an empty map, an Integer lies strictly
between `LONG_MIN` and `LONG_MAX`, a Float is finite and in canonical form. -/
def NodeOK (w : JsonValue) : Prop :=
  (w.type_f = JSON_OBJECT → w.nameValPairs_f = assignAll [] w.nameValsInOrder_f)
    ∧ (w.type_f = JSON_NUMBER → LONG_MIN < w.theInteger_f ∧ w.theInteger_f < LONG_MAX)
    ∧ (w.type_f = JSON_FLOAT → ∃ s m e, w.theFloat_f = Double.finite s m e ∧ canonical m e)

/-- Every node of the tree satisfies `NodeOK`. -/
def Good (v : JsonValue) : Prop := ∀ w, IsNode w v → NodeOK w

/-- The keys of a lookup mapping are in strictly increasing order, as in a `std::map`. -/
def KeysSorted (m : List (List Nat × JsonValue)) : Prop :=
  (m.map Prod.fst).Pairwise (fun a b => keyLess a b = true)

/-- The text of the entries of an Object as the printer lays them out, for the ordered
sequence `l`: before every entry but the first a comma, then a newline, the indent of the
entries, the key in double quotes, ` : ` and the value printed at that indent. -/
def objectEntriesText (newIndent : List Nat) : List (List Nat × JsonValue) → Bool → List Nat
  | [], _ => []
  | (name, value) :: rest, first =>
    (if first then [] else [44]) ++ ([10] ++ newIndent) ++ ([34] ++ name ++ [34, 32, 58, 32])
      ++ prettyPrint value [] newIndent ++ objectEntriesText newIndent rest false

/-- The text of the elements of an Array as the printer lays them out: before every element
but the first a comma, then a newline, the indent of the elements and the element printed at
that indent. -/
def arrayElementsText (newIndent : List Nat) : List JsonValue → Bool → List Nat
  | [], _ => []
  | value :: rest, first =>
    (if first then [] else [44]) ++ ([10] ++ newIndent) ++ prettyPrint value [] newIndent
      ++ arrayElementsText newIndent rest false

/-- The key/value pairs of the object text that starts at index `cur` (after the opening
brace), in document order, with the index after the closing brace: each pair is a key read by
`parseString`, a colon, and a value read by `parseValue` into a fresh `JsonValue`, followed
by a comma or by the closing brace. -/
inductive ObjectPairs (t : List Nat) : Nat → List (List Nat × JsonValue) → Nat → Prop where
  | close {cur p : Nat} : skipWhitespace t cur = Except.ok p → byteAt t p = 125 →
      ObjectPairs t cur [] (p + 1)
  | pair {cur p p1 p2 fuel p3 p4 next stop : Nat} {name : List Nat} {value : JsonValue}
      {rest : List (List Nat × JsonValue)} :
      skipWhitespace t cur = Except.ok p → parseString t p = Except.ok (name, p1) →
      skipWhitespace t p1 = Except.ok p2 → byteAt t p2 = 58 →
      parseValue fuel t JsonValue.fresh (p2 + 1) = (value, Except.ok p3) →
      skipWhitespace t p3 = Except.ok p4 →
      (byteAt t p4 = 44 ∧ next = p4 + 1 ∨ byteAt t p4 = 125 ∧ next = p4) →
      ObjectPairs t next rest stop → ObjectPairs t cur ((name, value) :: rest) stop

/-- What a value shows through its tag: the tag and the payload of the active variant, the
other members reset to those of a fresh value. For an Object that is the lookup mapping and
the ordered sequence (keys and the observed values), for an Array the sequence of observed
elements, for a String, Integer, Float or Boolean the scalar. -/
def observed : JsonValue → JsonValue
  | ⟨ty, m, l, s, b, n, f, a⟩ =>
    match ty with
    | JSON_OBJECT => { JsonValue.fresh with
        type_f := JSON_OBJECT, nameValPairs_f := pairs m, nameValsInOrder_f := pairs l }
    | JSON_ARRAY => { JsonValue.fresh with type_f := JSON_ARRAY, theArray_f := elems a }
    | JSON_STRING => { JsonValue.fresh with type_f := JSON_STRING, theString_f := s }
    | JSON_NUMBER => { JsonValue.fresh with type_f := JSON_NUMBER, theInteger_f := n }
    | JSON_FLOAT => { JsonValue.fresh with type_f := JSON_FLOAT, theFloat_f := f }
    | JSON_BOOL => { JsonValue.fresh with type_f := JSON_BOOL, theBool_f := b }
    | JSON_NULL => JsonValue.fresh
where
  /-- The entries of a mapping or ordered sequence with observed values. -/
  pairs : List (List Nat × JsonValue) → List (List Nat × JsonValue)
    | [] => []
    | (k, v) :: rest => (k, observed v) :: pairs rest
  /-- The elements of an array, observed. -/
  elems : List JsonValue → List JsonValue
    | [] => []
    | v :: rest => observed v :: elems rest

/-- Whether `p` holds at every node of the tree a printer walks: the value itself, the values
of its ordered sequence and the elements of its array, recursively. -/
def allNodes (p : JsonValue → Bool) : JsonValue → Bool
  | ⟨ty, m, l, s, b, n, f, a⟩ => p ⟨ty, m, l, s, b, n, f, a⟩ && pairs l && elems a
where
  /-- All values of an ordered sequence. -/
  pairs : List (List Nat × JsonValue) → Bool
    | [] => true
    | (_, v) :: rest => allNodes p v && pairs rest
  /-- All elements of an array. -/
  elems : List JsonValue → Bool
    | [] => true
    | v :: rest => allNodes p v && elems rest

/-- No byte of `s` is one of the bytes `bad`. -/
def bytesAvoid (bad : List Nat) (s : List Nat) : Bool := s.all (fun c => !bad.contains c)

/-- The keys of the ordered sequence of a node, and its payload when it is a String, avoid the
bytes `bad`. -/
def cleanNode (bad : List Nat) (w : JsonValue) : Bool :=
  (w.type_f != JSON_STRING || bytesAvoid bad w.theString_f)
    && w.nameValsInOrder_f.all (fun e => bytesAvoid bad e.1)

/-- The double `d` is read back by `strtod` from the text the printer writes for it (followed
by a comma): same value, all bytes consumed. -/
def floatReadsBack (d : Double) : Bool :=
  strtodAt (formatDouble d ++ [44]) == (d, (formatDouble d).length)

/-- The payload of a Float node is read back by `strtod` from its printed text. -/
def floatNode (w : JsonValue) : Bool := w.type_f != JSON_FLOAT || floatReadsBack w.theFloat_f


/-- What the read-back of a printed tree asks of the tree: the invariants parsing
establishes, no double quote, backslash or NUL in a key or a String payload, and every
Float payload read back by `strtod` from its printed text. -/
def Printable (v : JsonValue) : Prop :=
  Good v ∧ allNodes (cleanNode [34, 92, 0]) v = true ∧ allNodes floatNode v = true

/-- The value `v`, printed at any indent made of spaces, after any run of spaces and
followed by a comma or a newline, is read by `parseValue` into a fresh `JsonValue` that shows
the same content, and the cursor ends right after the printed text. -/
def ReadsBack (v : JsonValue) : Prop :=
  ∀ (f : Nat) (t : List Nat) (cur : Nat) (ws indent : List Nat) (c : Nat) (rest : List Nat),
    t.drop cur = ws ++ prettyPrint v [] indent ++ c :: rest → (∀ x ∈ ws, x = 32) →
    (c = 44 ∨ c = 10) → (∀ x ∈ indent, x = 32) → 2 * (t.length - cur) + 1 ≤ f →
    ∃ w, parseValue f t JsonValue.fresh cur
        = (w, Except.ok (cur + ws.length + (prettyPrint v [] indent).length))
      ∧ observed w = observed v

/-- The bytes a printed value can start with: an opening brace or bracket, a quote, a minus
sign, a digit, or the first letter of `true`, `false` or `null`. -/
def valueStart (b : Nat) : Prop :=
  b = 123 ∨ b = 91 ∨ b = 34 ∨ b = 45 ∨ (48 ≤ b ∧ b ≤ 57) ∨ b = 116 ∨ b = 102 ∨ b = 110

/-- White space and comments only: a run of white-space bytes and of comments, each comment
a `#`, then bytes other than the newline, then a newline. -/
inductive Blank : List Nat → Prop where
  | nil : Blank []
  | space {c : Nat} {rest : List Nat} : isspace c = true → Blank rest → Blank (c :: rest)
  | comment {body rest : List Nat} : (∀ x ∈ body, x ≠ 10) → Blank rest →
      Blank (35 :: (body ++ 10 :: rest))

/-- The elements of the array text that starts at index `cur` (after the opening bracket),
in document order, with the index after the closing bracket: white space and comments are
skipped; a closing bracket ends the array; a comma is passed over; at any other byte a value
is read by `parseValue` into a fresh `JsonValue` and is the next element. -/
inductive ArrayElements (t : List Nat) : Nat → List JsonValue → Nat → Prop where
  | close {cur p : Nat} : skipWhitespace t cur = Except.ok p → byteAt t p = 93 →
      ArrayElements t cur [] (p + 1)
  | comma {cur p stop : Nat} {rest : List JsonValue} :
      skipWhitespace t cur = Except.ok p → byteAt t p = 44 →
      ArrayElements t (p + 1) rest stop → ArrayElements t cur rest stop
  | element {cur p fuel p1 stop : Nat} {value : JsonValue} {rest : List JsonValue} :
      skipWhitespace t cur = Except.ok p → byteAt t p ≠ 0 → byteAt t p ≠ 93 →
      byteAt t p ≠ 44 → parseValue fuel t JsonValue.fresh p = (value, Except.ok p1) →
      ArrayElements t p1 rest stop → ArrayElements t cur (value :: rest) stop

/-- The byte a single-character escape stands for: the character after the backslash is one
of the double quote, the backslash, the slash and the letters b, f, n, r, t. -/
def escapeByte (e : Nat) : Option Nat :=
  if e = 34 then some 34 else if e = 92 then some 92 else if e = 47 then some 47
  else if e = 98 then some 8 else if e = 102 then some 12 else if e = 110 then some 10
  else if e = 114 then some 13 else if e = 116 then some 9 else none

/-- The string a body of plain bytes and single-character escapes stands for: a plain byte
(not a double quote, a backslash or NUL) stands for itself, a backslash and one of the eight
escape characters for one byte. Nothing for any other body. -/
def decodeEscapes : List Nat → Option (List Nat)
  | [] => some []
  | [c] => if c = 92 ∨ c = 34 ∨ c = 0 then none else some [c]
  | c :: e :: rest =>
    if c = 92 then
      match escapeByte e with
      | some b => (decodeEscapes rest).map (fun s => b :: s)
      | none => none
    else if c = 34 ∨ c = 0 then none
    else (decodeEscapes (e :: rest)).map (fun s => c :: s)

/-- The part of a string body between the indexes `p` and `q` is well formed and extends
the bytes `acc` read so far to `acc'`: it is made of plain bytes, single-character escapes
and `\u` escapes that `readUnicode` accepts. -/
inductive StringRun (t : List Nat) : Nat → List Nat → Nat → List Nat → Prop where
  | done {p : Nat} {acc : List Nat} : StringRun t p acc p acc
  | plain {p q : Nat} {acc acc' : List Nat} : byteAt t p ≠ 34 → byteAt t p ≠ 0 →
      byteAt t p ≠ 92 → StringRun t (p + 1) (acc ++ [byteAt t p]) q acc' →
      StringRun t p acc q acc'
  | escape {p q x : Nat} {acc acc' : List Nat} : byteAt t p = 92 →
      escapeByte (byteAt t (p + 1)) = some x → StringRun t (p + 2) (acc ++ [x]) q acc' →
      StringRun t p acc q acc'
  | unicode {p q u next : Nat} {acc acc' : List Nat} : byteAt t p = 92 →
      byteAt t (p + 1) = 117 → readUnicode t p = Except.ok (u, next) →
      StringRun t next (acc ++ encodeUtf8 u) q acc' → StringRun t p acc q acc'

/-! ## The depth of the recursion -/

mutual

/-- Ghost count for the recursion of `parseValue`: the greatest number of activations of
`parseValue` on the call stack at one time during the call `parseValue fuel t _ current0`,
that call counted. It follows the dispatch of `parseValue`; only the container branches call
on. -/
def depthValue : Nat → List Nat → Nat → Nat
  | 0, _, _ => 0
  | fuel + 1, t, current0 =>
    match skipWhitespace t current0 with
    | Except.error _ => 1
    | Except.ok current =>
      let c := byteAt t current
      if c = 0 then 1
      else if c = 34 then 1
      else if c = 123 then 1 + depthObjectLoop fuel t (current + 1)
      else if c = 91 then 1 + depthArrayLoop fuel t (current + 1)
      else 1
termination_by structural fuel => fuel

/-- Ghost count for the loop of `parseObject`: the greatest number of activations of
`parseValue` on the call stack below the loop, over its iterations. -/
def depthObjectLoop : Nat → List Nat → Nat → Nat
  | 0, _, _ => 0
  | fuel + 1, t, current0 =>
    match skipWhitespace t current0 with
    | Except.error _ => 0
    | Except.ok current =>
      if byteAt t current = 125 then 0
      else if byteAt t current = 0 then 0
      else
        match parseString t current with
        | Except.error _ => 0
        | Except.ok (_, current1) =>
          match skipWhitespace t current1 with
          | Except.error _ => 0
          | Except.ok current2 =>
            if byteAt t current2 ≠ 58 then 0
            else
              let d := depthValue fuel t (current2 + 1)
              match (parseValue fuel t JsonValue.fresh (current2 + 1)).2 with
              | Except.error _ => d
              | Except.ok current3 =>
                match skipWhitespace t current3 with
                | Except.error _ => d
                | Except.ok current4 =>
                  if byteAt t current4 = 44 then
                    max d (depthObjectLoop fuel t (current4 + 1))
                  else if byteAt t current4 = 125 then
                    max d (depthObjectLoop fuel t current4)
                  else d
termination_by structural fuel => fuel

/-- Ghost count for the loop of `parseArray`: the greatest number of activations of
`parseValue` on the call stack below the loop, over its iterations. -/
def depthArrayLoop : Nat → List Nat → Nat → Nat
  | 0, _, _ => 0
  | fuel + 1, t, current0 =>
    match skipWhitespace t current0 with
    | Except.error _ => 0
    | Except.ok current =>
      if byteAt t current = 0 then 0
      else if byteAt t current = 93 then 0
      else if byteAt t current = 44 then depthArrayLoop fuel t (current + 1)
      else
        let d := depthValue fuel t current
        match (parseValue fuel t JsonValue.fresh current).2 with
        | Except.error _ => d
        | Except.ok current1 => max d (depthArrayLoop fuel t current1)
termination_by structural fuel => fuel

end

/-- Ghost count for `parse`: the greatest number of activations of `parseValue` on the call
stack at one time during `parse` of the text. -/
def depthParse (jsonText : List Nat) : Nat :=
  match skipWhitespace jsonText 0 with
  | Except.error _ => 0
  | Except.ok current =>
    if byteAt jsonText current ≠ 123 then 0
    else depthObjectLoop (parseFuel jsonText) jsonText (current + 1)

/-- The bytes that can follow a value in a container: white space, the `#` of a comment, a
comma, a closing brace or a closing bracket. -/
def afterValue (c : Nat) : Prop := isspace c = true ∨ c = 35 ∨ c = 44 ∨ c = 125 ∨ c = 93

/-- The text `vt` spells the value `v`: wherever `vt` stands in a text, followed by a byte
that can follow a value, `parseValue` with the cursor at its first byte reads `v` into a fresh
`JsonValue` and leaves the cursor after `vt`. -/
def ReadsValue (vt : List Nat) (v : JsonValue) : Prop :=
  ∀ (f : Nat) (t : List Nat) (cur c : Nat) (rest : List Nat),
    t.drop cur = vt ++ c :: rest → afterValue c → 2 * (t.length - cur) + 1 ≤ f →
    parseValue f t JsonValue.fresh cur = (v, Except.ok (cur + vt.length))

/-- The text `kt` spells the key `name`: it starts with a double quote, and wherever it
stands in a text `parseString` with the cursor at its first byte reads `name` and leaves the
cursor after `kt`. -/
def ReadsString (kt name : List Nat) : Prop :=
  kt.head? = some 34
    ∧ ∀ (t : List Nat) (cur : Nat) (rest : List Nat),
      t.drop cur = kt ++ rest → parseString t cur = Except.ok (name, cur + kt.length)

/-- One member of an object text: the key and the value with the texts that spell them, and
the four gaps around them, before the key, before the colon, after the colon and after the
value. -/
structure Member where
  beforeKey : List Nat
  keyText : List Nat
  name : List Nat
  beforeColon : List Nat
  afterColon : List Nat
  valueText : List Nat
  value : JsonValue
  afterMember : List Nat

/-- The gaps of a member hold white space and comments only, and its texts spell its key
and its value. -/
def Member.ok (m : Member) : Prop :=
  Blank m.beforeKey ∧ ReadsString m.keyText m.name ∧ Blank m.beforeColon
    ∧ Blank m.afterColon ∧ ReadsValue m.valueText m.value ∧ Blank m.afterMember

/-- The text of a member. -/
def Member.text (m : Member) : List Nat :=
  m.beforeKey ++ m.keyText ++ m.beforeColon ++ [58] ++ m.afterColon ++ m.valueText
    ++ m.afterMember

/-- The text of the members of an object, with a comma between two members. -/
def membersText : List Member → List Nat
  | [] => []
  | [m] => m.text
  | m :: m1 :: rest => m.text ++ [44] ++ membersText (m1 :: rest)

/-- The text of an object: the opening brace, the members, a last gap and the closing
brace. -/
def objectText (ms : List Member) (last : List Nat) : List Nat :=
  [123] ++ membersText ms ++ last ++ [125]

/-- The entries of the members: the keys with the values, without the gaps. -/
def memberEntries (ms : List Member) : List (List Nat × JsonValue) :=
  ms.map (fun m => (m.name, m.value))

/-- The Object the members stand for: the entries in document order and the lookup mapping
they give. -/
def objectValue (ms : List Member) : JsonValue :=
  { JsonValue.fresh with
    type_f := JSON_OBJECT,
    nameValPairs_f := assignAll [] (memberEntries ms),
    nameValsInOrder_f := memberEntries ms }

/-- One element of an array text: the value with the text that spells it, the gap before it
and the gap after it. -/
structure Element where
  beforeValue : List Nat
  valueText : List Nat
  value : JsonValue
  afterElement : List Nat

/-- The gaps of an element hold white space and comments only, its text spells its value and
starts with a byte that is neither white space, `#`, a comma, the closing bracket nor NUL. -/
def Element.ok (e : Element) : Prop :=
  Blank e.beforeValue ∧ ReadsValue e.valueText e.value ∧ Blank e.afterElement
    ∧ ∃ x tail, e.valueText = x :: tail ∧ isspace x = false ∧ x ≠ 35 ∧ x ≠ 44 ∧ x ≠ 93 ∧ x ≠ 0

/-- The text of an element. -/
def Element.text (e : Element) : List Nat := e.beforeValue ++ e.valueText ++ e.afterElement

/-- The text of the elements of an array, with a comma between two elements. -/
def elementsText : List Element → List Nat
  | [] => []
  | [e] => e.text
  | e :: e1 :: rest => e.text ++ [44] ++ elementsText (e1 :: rest)

/-- The text of an array: the opening bracket, the elements, a last gap and the closing
bracket. -/
def arrayText (es : List Element) (last : List Nat) : List Nat :=
  [91] ++ elementsText es ++ last ++ [93]

/-- The Array the elements stand for. -/
def arrayValue (es : List Element) : JsonValue :=
  { JsonValue.fresh with type_f := JSON_ARRAY, theArray_f := es.map (fun e => e.value) }

/-! ## Theorems -/

/-! ### Escapes and their UTF-8 bytes -/

theorem hexDigit_lt {c d : Nat} (h : hexDigit c = some d) : d < 16 := by
  unfold hexDigit at h
  split_ifs at h <;> simp at h <;> omega

theorem escapeValue_head {t : List Nat} {i u : Nat} (h : escapeValue t i = some u) :
    byteAt t i = 92 ∧ byteAt t (i + 1) = 117 := by
  unfold escapeValue at h
  split_ifs at h with h0
  exact h0

theorem escapeValue_lt {t : List Nat} {i u : Nat} (h : escapeValue t i = some u) :
    u < 65536 := by
  unfold escapeValue at h
  split_ifs at h with h0
  split at h
  · rename_i a b c d ha hb hc hd
    have := hexDigit_lt ha
    have := hexDigit_lt hb
    have := hexDigit_lt hc
    have := hexDigit_lt hd
    simp only [Option.some.injEq] at h
    omega
  · simp at h

theorem getUtf16_of_escapeValue {t : List Nat} {i u : Nat} (h : escapeValue t i = some u) :
    getUtf16 t i = Except.ok (u, i + 6) := by
  unfold escapeValue at h
  split_ifs at h with h0
  obtain ⟨h1, h2⟩ := h0
  split at h
  · rename_i a b c d ha hb hc hd
    have := hexDigit_lt ha
    have := hexDigit_lt hb
    have := hexDigit_lt hc
    have := hexDigit_lt hd
    simp only [Option.some.injEq] at h
    simp [getUtf16, getUtf16Loop, h1, h2, ha, hb, hc, hd]
    omega
  · simp at h

theorem getUtf16_of_escapeValue_none {t : List Nat} {i : Nat} (h : escapeValue t i = none) :
    ∃ e, getUtf16 t i = Except.error e := by
  unfold escapeValue at h
  unfold getUtf16
  split_ifs at h with h0
  · obtain ⟨h1, h2⟩ := h0
    simp only [h1, h2, bne_self_eq_false, Bool.or_self, Bool.false_eq_true, ↓reduceIte]
    simp only [getUtf16Loop]
    cases ha : hexDigit (byteAt t (i + 2)) <;> simp only [ha] at h ⊢
    · exact ⟨_, rfl⟩
    cases hb : hexDigit (byteAt t (i + 2 + 1)) <;> simp only [hb] at h ⊢
    · exact ⟨_, rfl⟩
    cases hc : hexDigit (byteAt t (i + 2 + 1 + 1)) <;> simp only [hc] at h ⊢
    · exact ⟨_, rfl⟩
    cases hd : hexDigit (byteAt t (i + 2 + 1 + 1 + 1)) <;> simp only [hd] at h ⊢
    · exact ⟨_, rfl⟩
    · simp [show i + 3 = i + 2 + 1 from rfl, show i + 4 = i + 2 + 1 + 1 from rfl,
        show i + 5 = i + 2 + 1 + 1 + 1 from rfl, ha, hb, hc, hd] at h
  · simp only [not_and_or] at h0
    rcases h0 with h0 | h0
    · simp [h0]
    · by_cases h1 : byteAt t i = 92
      · simp [h0, h1]
      · simp [h1]

theorem readUnicode_unpaired {t : List Nat} {i u : Nat} (h : escapeValue t i = some u)
    (hnp : ∀ l, 0xD800 ≤ u → u ≤ 0xDBFF → escapeValue t (i + 6) = some l →
      ¬ (0xDC00 ≤ l ∧ l ≤ 0xDFFF)) :
    readUnicode t i = Except.ok (u, i + 6) := by
  unfold readUnicode
  rw [getUtf16_of_escapeValue h]
  by_cases hs : 0xD800 ≤ u ∧ u ≤ 0xDBFF
  · have hc : (decide (u ≥ 0xd800) && decide (u ≤ 0xdbff)) = true := by simp [hs.1, hs.2]
    simp only [hc, if_true]
    cases hl : escapeValue t (i + 6) with
    | none =>
      obtain ⟨e, he⟩ := getUtf16_of_escapeValue_none hl
      rw [he]
    | some l =>
      rw [getUtf16_of_escapeValue hl]
      have := hnp l hs.1 hs.2 hl
      have hc2 : (decide (l ≥ 0xdc00) && decide (l ≤ 0xdfff)) = false := by
        simp only [Bool.and_eq_false_imp, decide_eq_true_eq, decide_eq_false_iff_not]
        intro h1 h2
        exact this ⟨h1, h2⟩
      simp [hc2]
  · have hc : (decide (u ≥ 0xd800) && decide (u ≤ 0xdbff)) = false := by
      simp only [Bool.and_eq_false_imp, decide_eq_true_eq, decide_eq_false_iff_not]
      intro h1 h2
      exact hs ⟨h1, h2⟩
    simp [hc]

theorem readUnicode_paired {t : List Nat} {i h l : Nat} (hh : escapeValue t i = some h)
    (h1 : 0xD800 ≤ h) (h2 : h ≤ 0xDBFF) (hl : escapeValue t (i + 6) = some l)
    (l1 : 0xDC00 ≤ l) (l2 : l ≤ 0xDFFF) :
    readUnicode t i = Except.ok (((h - 0xD800) <<< 10) + (l - 0xDC00) + 0x10000, i + 12) := by
  unfold readUnicode
  rw [getUtf16_of_escapeValue hh]
  have hc : (decide (h ≥ 0xd800) && decide (h ≤ 0xdbff)) = true := by simp [h1, h2]
  have hc2 : (decide (l ≥ 0xdc00) && decide (l ≤ 0xdfff)) = true := by simp [l1, l2]
  simp only [hc, if_true]
  rw [getUtf16_of_escapeValue hl]
  simp only [hc2, if_true]
  have e : (h - 0xD800) <<< 10 = (h - 0xD800) * 1024 := by rw [Nat.shiftLeft_eq]
  have hb : ((h - 0xD800) * 1024) % 4294967296 = (h - 0xD800) * 1024 :=
    Nat.mod_eq_of_lt (by omega)
  have hb2 : ((h - 0xD800) * 1024 + (l - 0xDC00) + 0x10000) % 4294967296
      = (h - 0xD800) * 1024 + (l - 0xDC00) + 0x10000 := Nat.mod_eq_of_lt (by omega)
  rw [e, hb, hb2, Nat.add_assoc i 6 6]

theorem parseStringLoop_unicode {t : List Nat} {current unicode next : Nat} (buffer fuel : Nat)
    (theString : List Nat) (h0 : byteAt t current = 92) (h1 : byteAt t (current + 1) = 117)
    (hr : readUnicode t current = Except.ok (unicode, next)) :
    parseStringLoop t buffer (fuel + 1) current theString
      = parseStringLoop t buffer fuel next (theString ++ encodeUtf8 unicode) := by
  rw [parseStringLoop]
  simp [h0, h1, hr]

theorem and_shiftLeft_shiftRight (u m k : Nat) :
    (u &&& (m <<< k)) >>> k = (u >>> k) &&& m := by
  apply Nat.eq_of_testBit_eq
  intro j
  simp [Nat.testBit_shiftRight, Nat.testBit_and, Nat.testBit_shiftLeft]

theorem and_mask_of_lt (x n : Nat) (h : x < 2 ^ n) : x &&& (2 ^ n - 1) = x := by
  rw [Nat.and_pow_two_sub_one_eq_mod, Nat.mod_eq_of_lt h]

theorem encodeUtf8_three (u : Nat) (h1 : 0x800 ≤ u) (h2 : u ≤ 0xFFFF) :
    encodeUtf8 u = [0xE0 + (u >>> 12), 0x80 + ((u >>> 6) &&& 0x3F), 0x80 + (u &&& 0x3F)] := by
  have e1 : (u &&& 0xf000) >>> 12 = u >>> 12 := by
    rw [show (0xf000 : Nat) = 15 <<< 12 from rfl, and_shiftLeft_shiftRight]
    apply and_mask_of_lt _ 4
    rw [Nat.shiftRight_eq_div_pow]; omega
  have e2 : (u &&& 0xfc0) >>> 6 = (u >>> 6) &&& 0x3F := by
    rw [show (0xfc0 : Nat) = 0x3F <<< 6 from rfl, and_shiftLeft_shiftRight]
  have b1 : u >>> 12 < 16 := by rw [Nat.shiftRight_eq_div_pow]; omega
  have b2 : (u >>> 6) &&& 0x3F ≤ 0x3F := Nat.and_le_right
  have b3 : u &&& 0x3F ≤ 0x3F := Nat.and_le_right
  unfold encodeUtf8
  rw [if_neg (by omega), if_pos (by omega), e1, e2]
  simp only [toChar]
  congr 1
  · omega
  congr 1
  · omega
  congr 1
  omega

theorem encodeUtf8_four (cp : Nat) (h1 : 0x10000 ≤ cp) (h2 : cp < 0x200000) :
    encodeUtf8 cp = [0xF0 + (cp >>> 18), 0x80 + ((cp >>> 12) &&& 0x3F),
      0x80 + ((cp >>> 6) &&& 0x3F), 0x80 + (cp &&& 0x3F)] := by
  have e0 : (cp &&& 0x1c0000) >>> 18 = cp >>> 18 := by
    rw [show (0x1c0000 : Nat) = 7 <<< 18 from rfl, and_shiftLeft_shiftRight]
    apply and_mask_of_lt _ 3
    rw [Nat.shiftRight_eq_div_pow]; omega
  have e1 : (cp &&& 0x3f000) >>> 12 = (cp >>> 12) &&& 0x3F := by
    rw [show (0x3f000 : Nat) = 0x3F <<< 12 from rfl, and_shiftLeft_shiftRight]
  have e2 : (cp &&& 0xfc0) >>> 6 = (cp >>> 6) &&& 0x3F := by
    rw [show (0xfc0 : Nat) = 0x3F <<< 6 from rfl, and_shiftLeft_shiftRight]
  have b0 : cp >>> 18 < 8 := by rw [Nat.shiftRight_eq_div_pow]; omega
  have b1 : (cp >>> 12) &&& 0x3F ≤ 0x3F := Nat.and_le_right
  have b2 : (cp >>> 6) &&& 0x3F ≤ 0x3F := Nat.and_le_right
  have b3 : cp &&& 0x3F ≤ 0x3F := Nat.and_le_right
  unfold encodeUtf8
  rw [if_pos (by omega), e0, e1, e2]
  simp only [toChar]
  congr 1
  · omega
  congr 1
  · omega
  congr 1
  · omega
  congr 1
  omega

/-! ### The claims on accessors and escapes -/

/-- C4 (code defect): on a Null-tagged value the index operator for `int` with a negative
index throws the not-found exception with the text of the index, before `checkForNull` is
reached; the claim asks for the null-access exception, which the overload for `unsigned`
throws. -/
theorem C4_negative_index_on_null :
    operatorIndexInt JsonValue.fresh (-1) = Except.error (NotFoundException (lit "-1"))
      ∧ operatorIndexUnsigned JsonValue.fresh 0
        = Except.error (NullTypeException "Element is null") := by
  constructor <;> rfl

/-- C5 (code defect): the escape `\u0041` is decoded to the single byte 0x01, not 0x41: the
one-byte branch masks the code unit with 0x3f. -/
theorem C5_one_byte_escape_masked :
    parseString (lit "\"\\u0041\"") 0 = Except.ok ([0x01], 8) := by
  decide

/-- C6 (code defect): the escape `\u0416` is decoded to the bytes 0xC0 0x96, not 0xD0 0x96: the
two-byte branch masks the lead bits with 0x3c0. -/
theorem C6_two_byte_escape_masked :
    parseString (lit "\"\\u0416\"") 0 = Except.ok ([0xC0, 0x96], 8) := by
  decide

theorem parseString_at_quote {t : List Nat} {i : Nat} (h : byteAt t i = 34) :
    parseString t i = parseStringLoop t i (t.length + 1 - i) (i + 1) [] := by
  have hs : skipWhitespace t i = Except.ok i := by
    unfold skipWhitespace
    rw [skipWhitespaceLoop]
    have e : skipSpaces t (t.length - i) i = i := by
      cases hn : t.length - i with
      | zero => rfl
      | succ n => rw [skipSpaces]; simp [h, isspace]
    simp [e, h]
  unfold parseString
  rw [hs]
  simp [h]

theorem escapeValue_none_of_byte {t : List Nat} {i : Nat} (h : byteAt t i ≠ 92) :
    escapeValue t i = none := by
  unfold escapeValue
  rw [if_neg]
  intro hc
  exact h hc.1

/-- C7: an escape `\uXXXX` at the cursor whose code unit `u` lies in 0x800..0xFFFF and is not
a high surrogate paired with a following low surrogate makes one iteration of the loop of
`parseString` append exactly the three bytes `0xE0 + (u >> 12)`, `0x80 + ((u >> 6) & 0x3F)`,
`0x80 + (u & 0x3F)` and move the cursor past the six bytes of the escape; a string literal
made of that escape alone is decoded to those three bytes. -/
theorem C7_three_byte_escape (u : Nat) (hlo : 0x800 ≤ u) (hhi : u ≤ 0xFFFF) :
    (∀ (t : List Nat) (buffer fuel current : Nat) (theString : List Nat),
      escapeValue t current = some u →
      (∀ l, 0xD800 ≤ u → u ≤ 0xDBFF → escapeValue t (current + 6) = some l →
        ¬ (0xDC00 ≤ l ∧ l ≤ 0xDFFF)) →
      parseStringLoop t buffer (fuel + 1) current theString
        = parseStringLoop t buffer fuel (current + 6)
          (theString ++ [0xE0 + (u >>> 12), 0x80 + ((u >>> 6) &&& 0x3F), 0x80 + (u &&& 0x3F)]))
    ∧ (∀ a b c d : Nat, escapeValue [34, 92, 117, a, b, c, d, 34] 1 = some u →
      parseString [34, 92, 117, a, b, c, d, 34] 0
        = Except.ok ([0xE0 + (u >>> 12), 0x80 + ((u >>> 6) &&& 0x3F), 0x80 + (u &&& 0x3F)], 8)) := by
  have step : ∀ (t : List Nat) (buffer fuel current : Nat) (theString : List Nat),
      escapeValue t current = some u →
      (∀ l, 0xD800 ≤ u → u ≤ 0xDBFF → escapeValue t (current + 6) = some l →
        ¬ (0xDC00 ≤ l ∧ l ≤ 0xDFFF)) →
      parseStringLoop t buffer (fuel + 1) current theString
        = parseStringLoop t buffer fuel (current + 6)
          (theString ++ [0xE0 + (u >>> 12), 0x80 + ((u >>> 6) &&& 0x3F), 0x80 + (u &&& 0x3F)]) := by
    intro t buffer fuel current theString hesc hnp
    rw [parseStringLoop_unicode buffer fuel theString (escapeValue_head hesc).1
      (escapeValue_head hesc).2 (readUnicode_unpaired hesc hnp), encodeUtf8_three u hlo hhi]
  refine ⟨step, ?_⟩
  intro a b c d hesc
  rw [parseString_at_quote (by rfl)]
  have hn : escapeValue [34, 92, 117, a, b, c, d, 34] (1 + 6) = none :=
    escapeValue_none_of_byte (by simp [byteAt])
  have := step _ 0 8 1 [] hesc (by intro l _ _ h; rw [hn] at h; simp at h)
  show parseStringLoop [34, 92, 117, a, b, c, d, 34] 0 (8 + 1) 1 [] = _
  rw [this, parseStringLoop]
  simp [byteAt]

/-- C7, at the escape `\u20AC` (the euro sign): the string literal is decoded to E2 82 AC. -/
theorem C7_three_byte_escape_witness :
    parseString (lit "\"\\u20AC\"") 0 = Except.ok ([0xE2, 0x82, 0xAC], 8) :=
  (C7_three_byte_escape 0x20AC (by decide) (by decide)).2 50 48 65 67 (by decide)

/-- C8: a high surrogate `h` in 0xD800..0xDBFF written as `\uHHHH` at the cursor and directly
followed by `\uLLLL` with `l` in 0xDC00..0xDFFF makes one iteration of the loop of
`parseString` consume both escapes (twelve bytes) and append exactly the four bytes of the
standard UTF-8 encoding of the code point `((h - 0xD800) << 10) + (l - 0xDC00) + 0x10000`;
the literal `\uD83D\uDE00` is decoded to F0 9F 98 80. -/
theorem C8_surrogate_pair (t : List Nat) (buffer fuel current h l : Nat) (theString : List Nat)
    (hh : escapeValue t current = some h) (h1 : 0xD800 ≤ h) (h2 : h ≤ 0xDBFF)
    (hl : escapeValue t (current + 6) = some l) (l1 : 0xDC00 ≤ l) (l2 : l ≤ 0xDFFF) :
    parseStringLoop t buffer (fuel + 1) current theString
        = parseStringLoop t buffer fuel (current + 12)
          (theString ++
            [0xF0 + ((((h - 0xD800) <<< 10) + (l - 0xDC00) + 0x10000) >>> 18),
             0x80 + (((((h - 0xD800) <<< 10) + (l - 0xDC00) + 0x10000) >>> 12) &&& 0x3F),
             0x80 + (((((h - 0xD800) <<< 10) + (l - 0xDC00) + 0x10000) >>> 6) &&& 0x3F),
             0x80 + ((((h - 0xD800) <<< 10) + (l - 0xDC00) + 0x10000) &&& 0x3F)])
      ∧ parseString (lit "\"\\uD83D\\uDE00\"") 0 = Except.ok ([0xF0, 0x9F, 0x98, 0x80], 14) := by
  constructor
  · have e : (h - 0xD800) <<< 10 = (h - 0xD800) * 1024 := by rw [Nat.shiftLeft_eq]
    rw [parseStringLoop_unicode buffer fuel theString (escapeValue_head hh).1
      (escapeValue_head hh).2 (readUnicode_paired hh h1 h2 hl l1 l2),
      encodeUtf8_four _ (by omega) (by rw [e]; omega)]
  · decide

/-- C8, at the escapes `\uD83D\uDE00` in the literal that holds only them. -/
theorem C8_surrogate_pair_witness :
    parseStringLoop (lit "\"\\uD83D\\uDE00\"") 0 14 1 []
      = parseStringLoop (lit "\"\\uD83D\\uDE00\"") 0 13 13 [0xF0, 0x9F, 0x98, 0x80] :=
  (C8_surrogate_pair (lit "\"\\uD83D\\uDE00\"") 0 13 1 0xD83D 0xDE00 [] (by decide) (by decide)
    (by decide) (by decide) (by decide) (by decide)).1

/-- C9: a high surrogate `h` in 0xD800..0xDBFF written as `\uHHHH` at the cursor, when the
text after it does not begin with a well-formed escape of a low surrogate (another byte,
a malformed escape, or an escape outside 0xDC00..0xDFFF), makes one iteration of the loop of
`parseString` append the three-byte encoding of `h` itself and go on at the first byte after
the escape; `\uD800` is decoded to ED A0 80, and `\uD800\u0041` to ED A0 80 followed by what
`\u0041` alone is decoded to. -/
theorem C9_unpaired_high_surrogate (t : List Nat) (buffer fuel current h : Nat)
    (theString : List Nat)
    (hh : escapeValue t current = some h) (h1 : 0xD800 ≤ h) (h2 : h ≤ 0xDBFF)
    (hnl : ∀ l, escapeValue t (current + 6) = some l → ¬ (0xDC00 ≤ l ∧ l ≤ 0xDFFF)) :
    parseStringLoop t buffer (fuel + 1) current theString
        = parseStringLoop t buffer fuel (current + 6)
          (theString ++ [0xE0 + (h >>> 12), 0x80 + ((h >>> 6) &&& 0x3F), 0x80 + (h &&& 0x3F)])
      ∧ parseString (lit "\"\\uD800\"") 0 = Except.ok ([0xED, 0xA0, 0x80], 8)
      ∧ (∃ s, parseString (lit "\"\\u0041\"") 0 = Except.ok (s, 8)
          ∧ parseString (lit "\"\\uD800\\u0041\"") 0 = Except.ok ([0xED, 0xA0, 0x80] ++ s, 14)) := by
  refine ⟨?_, by decide, ⟨[1], by decide, by decide⟩⟩
  rw [parseStringLoop_unicode buffer fuel theString (escapeValue_head hh).1
    (escapeValue_head hh).2 (readUnicode_unpaired hh (fun l _ _ => hnl l)),
    encodeUtf8_three h (by omega) (by omega)]

/-- C9, at the escape `\uD800` followed by `\u0041`. -/
theorem C9_unpaired_high_surrogate_witness :
    parseStringLoop (lit "\"\\uD800\\u0041\"") 0 14 1 []
      = parseStringLoop (lit "\"\\uD800\\u0041\"") 0 13 7 [0xED, 0xA0, 0x80] :=
  (C9_unpaired_high_surrogate (lit "\"\\uD800\\u0041\"") 0 13 1 0xD800 [] (by decide) (by decide)
    (by decide) (by decide)).1

/-- C10: `parse` returns only when the byte `skipWhitespace` stops at from the start of the
text is an opening brace; whenever that byte is anything else (an opening bracket, a quote, a
digit, a letter, the terminator of an empty text) the parse exception for the top level is
thrown and the receiver is untouched. -/
theorem C10_top_level_brace (self : JsonValue) (t : List Nat) :
    ((parse self t).2 = Except.ok () →
        ∃ p, skipWhitespace t 0 = Except.ok p ∧ byteAt t p = 123)
      ∧ (∀ p, skipWhitespace t 0 = Except.ok p → byteAt t p ≠ 123 →
          parse self t = (self, Except.error
            (JsonParseException "Top level object does not start with curly brace" []))) := by
  constructor
  · intro h
    unfold parse at h
    cases hs : skipWhitespace t 0 with
    | error e => rw [hs] at h; simp at h
    | ok p =>
      refine ⟨p, rfl, ?_⟩
      by_contra hne
      rw [hs] at h
      simp [hne] at h
  · intro p hs hne
    unfold parse
    rw [hs]
    simp [hne]


/-- C10, at the text `[1]` (an array at the top level, rejected) and at the empty object
(accepted, the brace found at index 0). -/
theorem C10_top_level_brace_witness :
    (∃ p, skipWhitespace (lit "\x7b\x7d") 0 = Except.ok p ∧ byteAt (lit "\x7b\x7d") p = 123)
      ∧ parse JsonValue.fresh (lit "[1]") = (JsonValue.fresh, Except.error
          (JsonParseException "Top level object does not start with curly brace" [])) :=
  ⟨(C10_top_level_brace JsonValue.fresh (lit "\x7b\x7d")).1 (by decide),
   (C10_top_level_brace JsonValue.fresh (lit "[1]")).2 0 (by decide) (by decide)⟩

theorem good_iff (v : JsonValue) :
    Good v ↔ NodeOK v ∧ (∀ e ∈ v.nameValsInOrder_f, Good e.2)
      ∧ (∀ e ∈ v.nameValPairs_f, Good e.2) ∧ (∀ x ∈ v.theArray_f, Good x) := by
  constructor
  · intro h
    refine ⟨h v (IsNode.self v), ?_, ?_, ?_⟩
    · intro e he w hw
      exact h w (IsNode.ordered (k := e.1) (x := e.2) he hw)
    · intro e he w hw
      exact h w (IsNode.mapped (k := e.1) (x := e.2) he hw)
    · intro x hx w hw
      exact h w (IsNode.element hx hw)
  · rintro ⟨h0, h1, h2, h3⟩ w hw
    cases hw with
    | self => exact h0
    | ordered hm hn => exact h1 _ hm w hn
    | mapped hm hn => exact h2 _ hm w hn
    | element hm hn => exact h3 _ hm w hn

theorem mapAssign_mem {m : List (List Nat × JsonValue)} {k : List Nat} {v : JsonValue}
    {e : List Nat × JsonValue} (h : e ∈ mapAssign m k v) : e = (k, v) ∨ e ∈ m := by
  induction m with
  | nil => simp [mapAssign] at h; exact Or.inl h
  | cons hd tl ih =>
    obtain ⟨k1, v1⟩ := hd
    unfold mapAssign at h
    split_ifs at h with h1 h2
    · rcases List.mem_cons.1 h with h | h
      · exact Or.inl h
      · exact Or.inr (List.mem_cons_of_mem _ h)
    · rcases List.mem_cons.1 h with h | h
      · exact Or.inl h
      · exact Or.inr h
    · rcases List.mem_cons.1 h with h | h
      · exact Or.inr (h ▸ List.mem_cons_self _ _)
      · rcases ih h with h | h
        · exact Or.inl h
        · exact Or.inr (List.mem_cons_of_mem _ h)

theorem assignAll_append (m l : List (List Nat × JsonValue)) (e : List Nat × JsonValue) :
    assignAll m (l ++ [e]) = mapAssign (assignAll m l) e.1 e.2 := by
  simp [assignAll, List.foldl_append]

theorem good_fresh : Good JsonValue.fresh := by
  rw [good_iff]
  refine ⟨⟨fun h => ?_, fun h => ?_, fun h => ?_⟩, ?_, ?_, ?_⟩ <;>
    simp [JsonValue.fresh] at *

theorem saturate_range (neg : Bool) (mag : Nat) :
    LONG_MIN ≤ saturate neg mag ∧ saturate neg mag ≤ LONG_MAX := by
  unfold saturate
  split_ifs <;> simp only [LONG_MIN, LONG_MAX] at * <;> omega

theorem strtolRun_range {neg : Bool} {base : Nat} {s : List Nat} {r : Int × Nat}
    (h : strtolRun neg base s = some r) : LONG_MIN ≤ r.1 ∧ r.1 ≤ LONG_MAX := by
  unfold strtolRun at h
  split_ifs at h
  simp only [Option.some.injEq] at h
  rw [← h]
  exact saturate_range _ _

theorem strtolUnsigned_range {neg : Bool} {s : List Nat} {r : Int × Nat}
    (h : strtolUnsigned neg s = some r) : LONG_MIN ≤ r.1 ∧ r.1 ≤ LONG_MAX := by
  unfold strtolUnsigned at h
  split_ifs at h
  · cases hr : strtolRun neg 16 (s.drop 2) with
    | none => rw [hr] at h; simp at h
    | some r2 =>
      rw [hr] at h
      simp only [Option.map_some', Option.some.injEq] at h
      rw [← h]
      exact strtolRun_range (r := r2) hr
  · exact strtolRun_range h
  · exact strtolRun_range h

theorem strtol_range (t : List Nat) (c : Nat) :
    LONG_MIN ≤ (strtol t c).1 ∧ (strtol t c).1 ≤ LONG_MAX := by
  unfold strtol strtolAt
  simp only []
  split
  · rename_i r hr
    exact strtolUnsigned_range (r := r) hr
  · simp [LONG_MIN, LONG_MAX]

theorem bitLength_zero (fuel : Nat) : bitLength fuel 0 = 0 := by
  cases fuel <;> simp [bitLength]

theorem bitLength_spec : ∀ fuel n, n < fuel → 0 < n →
    0 < bitLength fuel n ∧ 2 ^ (bitLength fuel n - 1) ≤ n ∧ n < 2 ^ bitLength fuel n := by
  intro fuel
  induction fuel with
  | zero => intro n h; omega
  | succ fuel ih =>
    intro n hn hpos
    rw [bitLength, if_neg (by omega)]
    by_cases h2 : n / 2 = 0
    · rw [h2, bitLength_zero]
      have : n = 1 := by omega
      subst this
      simp
    · obtain ⟨hb, hlo, hhi⟩ := ih (n / 2) (by omega) (by omega)
      refine ⟨by omega, ?_, ?_⟩
      · rw [Nat.add_sub_cancel]
        have e : 2 ^ bitLength fuel (n / 2) = 2 ^ (bitLength fuel (n / 2) - 1) * 2 := by
          rw [← pow_succ]
          congr 1
          omega
        rw [e]
        omega
      · rw [pow_succ]
        omega

theorem roundDiv_near (a b : Nat) (hb : 0 < b) :
    2 * a ≤ (2 * roundDiv a b + 1) * b ∧ 2 * roundDiv a b * b ≤ 2 * a + b := by
  have hdm := Nat.div_add_mod a b
  have hlt := Nat.mod_lt a hb
  unfold roundDiv
  simp only []
  generalize a / b = q at *
  generalize a % b = r at *
  subst hdm
  split_ifs with c1 c2 c3
  · constructor <;> nlinarith
  · constructor <;> nlinarith
  · constructor <;> nlinarith
  · constructor <;> nlinarith

theorem roundDiv_eq {a b N : Nat} (hb : 0 < b) (h1 : 2 * a < (2 * N + 1) * b)
    (h2 : 2 * N * b < 2 * a + b) : roundDiv a b = N := by
  have hdm := Nat.div_add_mod a b
  have hlt := Nat.mod_lt a hb
  unfold roundDiv
  simp only []
  generalize a / b = q at *
  generalize a % b = r at *
  subst hdm
  have hq1 : q ≤ N := by
    by_contra hc
    have h3 : N + 1 ≤ q := by omega
    have := Nat.mul_le_mul_left b h3
    nlinarith
  have hq2 : N ≤ q + 1 := by
    by_contra hc
    have h3 : q + 2 ≤ N := by omega
    have := Nat.mul_le_mul_left b h3
    nlinarith
  rcases Nat.lt_or_ge q N with hN | hN
  · have hNe : N = q + 1 := by omega
    subst hNe
    have hr : b < 2 * r := by nlinarith
    rw [if_neg (by omega), if_pos hr]
  · have hNe : N = q := by omega
    subst hNe
    have hr : 2 * r < b := by nlinarith
    rw [if_pos hr]

theorem scaleBy_pos (num den : Nat) (k : Int) (hden : 0 < den) : 0 < (scaleBy num den k).2 := by
  unfold scaleBy
  split_ifs
  · exact Nat.mul_pos hden (Nat.pow_pos (by decide))
  · exact hden

theorem scaleBy_spec (num den : Nat) (k : Int) (hden : 0 < den) :
    ((scaleBy num den k).1 : ℚ) / ((scaleBy num den k).2 : ℚ)
      = (num : ℚ) / (den : ℚ) / (2 : ℚ) ^ k := by
  have hd : (den : ℚ) ≠ 0 := by exact_mod_cast (Nat.pos_iff_ne_zero.1 hden)
  unfold scaleBy
  split_ifs with hk
  · have e : (2 : ℚ) ^ k = (2 : ℚ) ^ k.toNat := by
      rw [← zpow_natCast, Int.toNat_of_nonneg hk]
    simp only [Nat.cast_mul, Nat.cast_pow, Nat.cast_ofNat]
    rw [e, div_div]
  · have e : (2 : ℚ) ^ k = ((2 : ℚ) ^ (-k).toNat)⁻¹ := by
      rw [← zpow_natCast, Int.toNat_of_nonneg (by omega), zpow_neg, inv_inv]
    simp only [Nat.cast_mul, Nat.cast_pow, Nat.cast_ofNat]
    rw [e]
    field_simp

theorem roundDiv_abs (a b : Nat) (hb : 0 < b) :
    |(a : ℚ) / (b : ℚ) - (roundDiv a b : ℚ)| ≤ 1 / 2 := by
  obtain ⟨h1, h2⟩ := roundDiv_near a b hb
  have hbq : (0 : ℚ) < b := by exact_mod_cast hb
  have h1q : (2 : ℚ) * a ≤ (2 * roundDiv a b + 1) * b := by exact_mod_cast h1
  have h2q : (2 : ℚ) * roundDiv a b * b ≤ 2 * a + b := by exact_mod_cast h2
  rw [abs_le]
  constructor
  · rw [le_sub_iff_add_le, le_div_iff₀ hbq]
    linarith
  · rw [sub_le_iff_le_add, div_le_iff₀ hbq]
    linarith

theorem roundDiv_of_abs {a b N : Nat} (hb : 0 < b)
    (h : |(a : ℚ) / (b : ℚ) - (N : ℚ)| < 1 / 2) : roundDiv a b = N := by
  have hbq : (0 : ℚ) < b := by exact_mod_cast hb
  rw [abs_lt] at h
  obtain ⟨h1, h2⟩ := h
  rw [lt_sub_iff_add_lt, lt_div_iff₀ hbq] at h1
  rw [sub_lt_iff_lt_add, div_lt_iff₀ hbq] at h2
  apply roundDiv_eq hb
  · have : (2 : ℚ) * a < (2 * N + 1) * b := by linarith
    exact_mod_cast this
  · have : (2 : ℚ) * N * b < 2 * a + b := by linarith
    exact_mod_cast this

/-- The binary exponent `toDouble` computes for a positive fraction is the integer part of
its binary logarithm. -/
theorem floorLog_spec (num den : Nat) (hn : 0 < num) (hd : 0 < den) (e0 : Int)
    (he0 : e0 = (bitLength (num + 1) num : Int) - (bitLength (den + 1) den : Int)) (fl : Int)
    (hfl : fl = if (scaleBy num den e0).2 ≤ (scaleBy num den e0).1 then e0 else e0 - 1) :
    (2 : ℚ) ^ fl ≤ (num : ℚ) / (den : ℚ) ∧ (num : ℚ) / (den : ℚ) < (2 : ℚ) ^ (fl + 1) := by
  obtain ⟨ha0, ha1, ha2⟩ := bitLength_spec (num + 1) num (by omega) hn
  obtain ⟨hb0, hb1, hb2⟩ := bitLength_spec (den + 1) den (by omega) hd
  generalize bitLength (num + 1) num = a at *
  generalize bitLength (den + 1) den = b at *
  have hnq : (0 : ℚ) < num := by exact_mod_cast hn
  have hdq : (0 : ℚ) < den := by exact_mod_cast hd
  have hA : (0 : ℚ) < (2 : ℚ) ^ a := by positivity
  have hB : (0 : ℚ) < (2 : ℚ) ^ b := by positivity
  have ea : (2 : ℚ) ^ a = 2 * (2 : ℚ) ^ (a - 1) := by
    rw [← pow_succ']
    congr 1
    omega
  have eb : (2 : ℚ) ^ b = 2 * (2 : ℚ) ^ (b - 1) := by
    rw [← pow_succ']
    congr 1
    omega
  have ha1q : (2 : ℚ) ^ (a - 1) ≤ num := by exact_mod_cast ha1
  have ha2q : (num : ℚ) < (2 : ℚ) ^ a := by exact_mod_cast ha2
  have hb1q : (2 : ℚ) ^ (b - 1) ≤ den := by exact_mod_cast hb1
  have hb2q : (den : ℚ) < (2 : ℚ) ^ b := by exact_mod_cast hb2
  have hP : (2 : ℚ) ^ e0 = (2 : ℚ) ^ a / (2 : ℚ) ^ b := by
    rw [he0, zpow_sub₀ (by norm_num), zpow_natCast, zpow_natCast]
  have hPpos : (0 : ℚ) < (2 : ℚ) ^ e0 := by positivity
  have hup : (num : ℚ) / den < 2 * (2 : ℚ) ^ e0 := by
    rw [hP, div_lt_iff₀ hdq]
    have : 2 * ((2 : ℚ) ^ a / (2 : ℚ) ^ b) * den = (2 : ℚ) ^ a * (2 * den) / (2 : ℚ) ^ b := by
      ring
    rw [this, lt_div_iff₀ hB]
    nlinarith
  have hlo : (2 : ℚ) ^ e0 / 2 < (num : ℚ) / den := by
    rw [hP, lt_div_iff₀ hdq]
    have : (2 : ℚ) ^ a / (2 : ℚ) ^ b / 2 * den = (2 : ℚ) ^ a * den / (2 * (2 : ℚ) ^ b) := by
      field_simp
      ring
    rw [this, div_lt_iff₀ (by positivity)]
    nlinarith
  have htest : (scaleBy num den e0).2 ≤ (scaleBy num den e0).1
      ↔ (2 : ℚ) ^ e0 ≤ (num : ℚ) / den := by
    have hs := scaleBy_spec num den e0 hd
    have hsp : (0 : ℚ) < ((scaleBy num den e0).2 : ℚ) := by
      exact_mod_cast scaleBy_pos num den e0 hd
    rw [← @Nat.cast_le ℚ, ← one_le_div hsp, hs, le_div_iff₀ hPpos, one_mul]
  by_cases hc : (scaleBy num den e0).2 ≤ (scaleBy num den e0).1
  · rw [if_pos hc] at hfl
    subst hfl
    refine ⟨htest.1 hc, ?_⟩
    rw [zpow_add_one₀ (by norm_num)]
    linarith
  · rw [if_neg hc] at hfl
    subst hfl
    have hlt : (num : ℚ) / den < (2 : ℚ) ^ e0 := by
      by_contra h
      exact hc (htest.2 (not_lt.1 h))
    rw [sub_add_cancel, zpow_sub_one₀ (by norm_num)]
    constructor
    · have : (2 : ℚ) ^ e0 * 2⁻¹ = (2 : ℚ) ^ e0 / 2 := by ring
      rw [this]
      exact le_of_lt hlo
    · exact hlt

/-- The double `toDouble` gives for a positive fraction, from the binary scale `K` the
fraction calls for and the integer `N` nearest to the scaled fraction. -/
theorem toDouble_eq (neg : Bool) (num den : Nat) (hn : 0 < num) (hd : 0 < den) (K : Int)
    (N : Nat)
    (hK : ∀ L : Int, (2 : ℚ) ^ L ≤ (num : ℚ) / den → (num : ℚ) / den < (2 : ℚ) ^ (L + 1) →
      max (L - 52) (-1074) = K)
    (hN : |(num : ℚ) / den / (2 : ℚ) ^ K - (N : ℚ)| < 1 / 2) :
    toDouble neg num den
      = if 971 < (if N = 2 ^ 53 then K + 1 else K) then Double.infinite neg
        else Double.finite neg (if N = 2 ^ 53 then 2 ^ 52 else N)
          (if N = 2 ^ 53 then K + 1 else K) := by
  unfold toDouble
  rw [if_neg (by omega)]
  simp only []
  obtain ⟨h1, h2⟩ := floorLog_spec num den hn hd _ rfl _ rfl
  have hk := hK _ h1 h2
  rw [hk]
  have hr : roundDiv (scaleBy num den K).1 (scaleBy num den K).2 = N := by
    apply roundDiv_of_abs (scaleBy_pos num den K hd)
    rw [scaleBy_spec num den K hd]
    exact hN
  rw [hr]

theorem zpow_two_lt {a b : Int} {y : ℚ} (h1 : (2 : ℚ) ^ a ≤ y) (h2 : y < (2 : ℚ) ^ b) :
    a < b :=
  (zpow_lt_zpow_iff_right₀ (by norm_num : (1 : ℚ) < 2)).1 (lt_of_le_of_lt h1 h2)

/-- The doubles that `toDouble` gives are in canonical form. -/
theorem toDouble_canonical (neg : Bool) (num den : Nat) :
    (∃ m e, toDouble neg num den = Double.finite neg m e ∧ canonical m e)
      ∨ toDouble neg num den = Double.infinite neg := by
  unfold toDouble
  by_cases h0 : num = 0 ∨ den = 0
  · rw [if_pos h0]
    exact Or.inl ⟨0, -1074, rfl, Or.inl ⟨by norm_num, rfl⟩⟩
  rw [if_neg h0]
  simp only []
  have hn : 0 < num := by omega
  have hd : 0 < den := by omega
  obtain ⟨h1, h2⟩ := floorLog_spec num den hn hd _ rfl _ rfl
  generalize (if (scaleBy num den ((bitLength (num + 1) num : Int) - (bitLength (den + 1) den : Int))).2
      ≤ (scaleBy num den ((bitLength (num + 1) num : Int) - (bitLength (den + 1) den : Int))).1
    then (bitLength (num + 1) num : Int) - (bitLength (den + 1) den : Int)
    else (bitLength (num + 1) num : Int) - (bitLength (den + 1) den : Int) - 1) = fl at h1 h2 ⊢
  generalize hk : max (fl - 52) (-1074) = k
  have hr := roundDiv_abs (scaleBy num den k).1 (scaleBy num den k).2 (scaleBy_pos num den k hd)
  rw [scaleBy_spec num den k hd] at hr
  generalize roundDiv (scaleBy num den k).1 (scaleBy num den k).2 = n at hr ⊢
  generalize (num : ℚ) / (den : ℚ) = y at h1 h2 hr
  have hu : (0 : ℚ) < (2 : ℚ) ^ k := by positivity
  rw [abs_le] at hr
  obtain ⟨hr1, hr2⟩ := hr
  have e52 : ((2 : ℚ) ^ (52 : ℕ)) = ((2 ^ 52 : ℕ) : ℚ) := by norm_num
  have e53 : ((2 : ℚ) ^ (53 : ℕ)) = ((2 ^ 53 : ℕ) : ℚ) := by norm_num
  by_cases hcase : -1074 ≤ fl - 52
  · have hkk : k = fl - 52 := by rw [← hk]; exact max_eq_left hcase
    have hlo : (2 : ℚ) ^ (52 : ℕ) ≤ y / (2 : ℚ) ^ k := by
      rw [le_div_iff₀ hu, ← zpow_natCast, ← zpow_add₀ (by norm_num)]
      have : ((52 : ℕ) : Int) + k = fl := by rw [hkk]; push_cast; ring
      rw [this]
      exact h1
    have hhi : y / (2 : ℚ) ^ k < (2 : ℚ) ^ (53 : ℕ) := by
      rw [div_lt_iff₀ hu, ← zpow_natCast, ← zpow_add₀ (by norm_num)]
      have : ((53 : ℕ) : Int) + k = fl + 1 := by rw [hkk]; push_cast; ring
      rw [this]
      exact h2
    have hn1 : 2 ^ 52 ≤ n := by
      have : ((2 ^ 52 : ℕ) : ℚ) - 1 < (n : ℚ) := by rw [← e52]; linarith
      have h3 : ((2 ^ 52 : ℕ) : ℚ) < (n : ℚ) + 1 := by linarith
      have h4 : (2 ^ 52 : ℕ) < n + 1 := by exact_mod_cast h3
      omega
    have hn2 : n ≤ 2 ^ 53 := by
      have h3 : (n : ℚ) < ((2 ^ 53 : ℕ) : ℚ) + 1 := by rw [← e53]; linarith
      have h4 : n < 2 ^ 53 + 1 := by exact_mod_cast h3
      omega
    by_cases hn53 : n = 2 ^ 53
    · simp only [hn53, if_true]
      by_cases hg : 971 < k + 1
      · rw [if_pos hg]; exact Or.inr rfl
      · rw [if_neg hg]
        exact Or.inl ⟨_, _, rfl, Or.inr ⟨le_refl _, by norm_num, by omega, by omega⟩⟩
    · simp only [hn53, if_false]
      by_cases hg : 971 < k
      · rw [if_pos hg]; exact Or.inr rfl
      · rw [if_neg hg]
        exact Or.inl ⟨_, _, rfl, Or.inr ⟨hn1, by omega, by omega, by omega⟩⟩
  · have hkk : k = -1074 := by rw [← hk]; exact max_eq_right (by omega)
    have hhi : y / (2 : ℚ) ^ k < (2 : ℚ) ^ (52 : ℕ) := by
      rw [div_lt_iff₀ hu, ← zpow_natCast, ← zpow_add₀ (by norm_num)]
      refine lt_of_lt_of_le h2 (zpow_le_zpow_right₀ (by norm_num) ?_)
      rw [hkk]
      push_cast
      omega
    have hn2 : n ≤ 2 ^ 52 := by
      have h3 : (n : ℚ) < ((2 ^ 52 : ℕ) : ℚ) + 1 := by rw [← e52]; linarith
      have h4 : n < 2 ^ 52 + 1 := by exact_mod_cast h3
      omega
    have hn53 : n ≠ 2 ^ 53 := by
      intro h
      rw [h] at hn2
      norm_num at hn2
    simp only [hn53, if_false]
    rw [if_neg (by omega)]
    refine Or.inl ⟨_, _, rfl, ?_⟩
    by_cases hlt : n < 2 ^ 52
    · exact Or.inl ⟨hlt, hkk⟩
    · exact Or.inr ⟨by omega, by omega, by omega, by omega⟩

theorem finite_or_infinite (c : Prop) [Decidable c] (neg : Bool) (m : Nat) (e : Int) :
    (∃ m1 e1, (if c then Double.infinite neg else Double.finite neg m e)
        = Double.finite neg m1 e1)
      ∨ (if c then Double.infinite neg else Double.finite neg m e) = Double.infinite neg := by
  split_ifs
  · exact Or.inr rfl
  · exact Or.inl ⟨_, _, rfl⟩

theorem toDouble_cases (neg : Bool) (num den : Nat) :
    (∃ m e, toDouble neg num den = Double.finite neg m e ∧ canonical m e)
      ∨ toDouble neg num den = Double.infinite neg :=
  toDouble_canonical neg num den

theorem scaledDouble_cases (neg : Bool) (mant base : Nat) (scale : Int) :
    (∃ m e, scaledDouble neg mant base scale = Double.finite neg m e ∧ canonical m e)
      ∨ scaledDouble neg mant base scale = Double.infinite neg := by
  unfold scaledDouble
  split_ifs <;> exact toDouble_cases _ _ _

theorem scanMantissa_cases {s : List Nat} {neg hex : Bool} {r : Double × Nat}
    (h : scanMantissa s neg hex = some r) :
    (∃ m e, r.1 = Double.finite neg m e ∧ canonical m e) ∨ r.1 = Double.infinite neg := by
  unfold scanMantissa at h
  simp only [] at h
  split_ifs at h
  all_goals
    simp only [Option.some.injEq] at h
    rw [← h]
    exact scaledDouble_cases _ _ _ _

theorem strtodUnsigned_cases {s : List Nat} {neg : Bool} {r : Double × Nat}
    (h : strtodUnsigned s neg = some r) :
    (∃ m e, r.1 = Double.finite neg m e ∧ canonical m e) ∨ r.1 = Double.infinite neg := by
  unfold strtodUnsigned at h
  simp only [] at h
  split at h
  · rename_i r1 hr
    simp only [Option.some.injEq] at h
    subst h
    split at hr
    · split_ifs at hr
      cases hm : scanMantissa _ neg true with
      | none => rw [hm] at hr; simp at hr
      | some r2 =>
        rw [hm] at hr
        simp only [Option.map_some', Option.some.injEq] at hr
        rw [← hr]
        exact scanMantissa_cases (r := r2) hm
    · simp at hr
  · exact scanMantissa_cases h

theorem strtodAt_cases (s : List Nat) :
    (∃ sg m e, (strtodAt s).1 = Double.finite sg m e ∧ canonical m e)
      ∨ ∃ sg, (strtodAt s).1 = Double.infinite sg := by
  unfold strtodAt
  simp only []
  split
  · rename_i r hr
    rcases strtodUnsigned_cases hr with ⟨m, e, h⟩ | h
    · exact Or.inl ⟨_, m, e, h⟩
    · exact Or.inr ⟨_, h⟩
  · exact Or.inl ⟨_, _, _, rfl, Or.inl ⟨by norm_num, rfl⟩⟩

theorem strtod_cases (t : List Nat) (c : Nat) :
    (∃ s m e, (strtod t c).1 = Double.finite s m e ∧ canonical m e)
      ∨ ∃ s, (strtod t c).1 = Double.infinite s :=
  strtodAt_cases _

theorem parseNumber_good {t : List Nat} {cur n : Nat} {v : JsonValue}
    (h : parseNumber t JsonValue.fresh cur = (v, Except.ok n)) : Good v := by
  unfold parseNumber at h
  simp only [] at h
  have hr := strtol_range t cur
  by_cases h1 : (strtol t cur).1 = LONG_MIN ∨ (strtol t cur).1 = LONG_MAX
  · rw [if_pos h1] at h
    simp at h
  rw [if_neg h1] at h
  by_cases h2 : (strtol t cur).2 = cur ∧ byteAt t cur ≠ 46
  · rw [if_pos h2] at h
    simp at h
  rw [if_neg h2] at h
  by_cases h3 : byteAt t (strtol t cur).2 = 69 ∨ byteAt t (strtol t cur).2 = 101
      ∨ byteAt t (strtol t cur).2 = 46
  · rw [if_pos h3] at h
    by_cases h4 : (strtod t cur).1 = HUGE_VAL ∨ (strtod t cur).1 = HUGE_VAL.negate
    · rw [if_pos h4] at h
      simp at h
    rw [if_neg h4] at h
    by_cases h5 : (strtod t cur).2 = cur
    · rw [if_pos h5] at h
      simp at h
    rw [if_neg h5] at h
    simp only [Prod.mk.injEq, Except.ok.injEq] at h
    obtain ⟨hv, -⟩ := h
    subst hv
    rw [good_iff]
    refine ⟨⟨fun h => by simp at h, fun h => by simp at h, fun _ => ?_⟩, ?_, ?_, ?_⟩
    · rcases strtod_cases t cur with ⟨s, m, e, hd⟩ | ⟨s, hd⟩
      · exact ⟨s, m, e, hd⟩
      · exfalso
        apply h4
        cases s
        · exact Or.inl hd
        · exact Or.inr hd
    all_goals simp [JsonValue.fresh]
  · rw [if_neg h3] at h
    simp only [Prod.mk.injEq, Except.ok.injEq] at h
    obtain ⟨hv, -⟩ := h
    subst hv
    rw [good_iff]
    refine ⟨⟨fun h => by simp at h, fun _ => ?_, fun h => by simp at h⟩, ?_, ?_, ?_⟩
    · simp only [not_or] at h1
      constructor
      · exact lt_of_le_of_ne hr.1 (Ne.symm h1.1)
      · exact lt_of_le_of_ne hr.2 h1.2
    all_goals simp [JsonValue.fresh]

theorem good_leaf {v : JsonValue} (h1 : v.nameValsInOrder_f = []) (h2 : v.nameValPairs_f = [])
    (h3 : v.theArray_f = []) (h4 : NodeOK v) : Good v := by
  rw [good_iff]
  refine ⟨h4, ?_, ?_, ?_⟩
  · rw [h1]; simp
  · rw [h2]; simp
  · rw [h3]; simp

theorem parse_good_aux (f : Nat) :
    (∀ t cur v n, parseValue f t JsonValue.fresh cur = (v, Except.ok n) → Good v)
    ∧ (∀ t self os cur v n, parseObjectLoop f t self os cur = (v, Except.ok n) →
        Good self → self.type_f = JSON_OBJECT → Good v ∧ v.type_f = JSON_OBJECT)
    ∧ (∀ t self os cur v n, parseArrayLoop f t self os cur = (v, Except.ok n) →
        Good self → self.type_f = JSON_ARRAY → Good v ∧ v.type_f = JSON_ARRAY) := by
  induction f with
  | zero =>
    refine ⟨?_, ?_, ?_⟩
    · intro t cur v n h
      simp [parseValue] at h
    · intro t self os cur v n h
      simp [parseObjectLoop] at h
    · intro t self os cur v n h
      simp [parseArrayLoop] at h
  | succ f ih =>
    obtain ⟨ihV, ihO, ihA⟩ := ih
    refine ⟨?_, ?_, ?_⟩
    · intro t cur v n h
      rw [parseValue] at h
      split at h
      · simp at h
      · rename_i current hs
        simp only [] at h
        split_ifs at h with c0 c1 c2 c3 c4 c5 c6
        · simp at h
        · split at h
          · simp at h
          · simp only [Prod.mk.injEq, Except.ok.injEq] at h
            obtain ⟨hv, -⟩ := h
            subst hv
            exact good_leaf rfl rfl rfl ⟨fun h => by simp at h, fun h => by simp at h,
              fun h => by simp at h⟩
        · refine (ihO _ _ _ _ _ _ h ?_ rfl).1
          exact good_leaf rfl rfl rfl ⟨fun _ => rfl, fun h => by simp at h,
              fun h => by simp at h⟩
        · refine (ihA _ _ _ _ _ _ h ?_ rfl).1
          exact good_leaf rfl rfl rfl ⟨fun h => by simp at h, fun h => by simp at h,
              fun h => by simp at h⟩
        · simp only [Prod.mk.injEq, Except.ok.injEq] at h
          obtain ⟨hv, -⟩ := h
          subst hv
          exact good_leaf rfl rfl rfl ⟨fun h => by simp at h, fun h => by simp at h,
              fun h => by simp at h⟩
        · simp only [Prod.mk.injEq, Except.ok.injEq] at h
          obtain ⟨hv, -⟩ := h
          subst hv
          exact good_leaf rfl rfl rfl ⟨fun h => by simp at h, fun h => by simp at h,
              fun h => by simp at h⟩
        · simp only [Prod.mk.injEq, Except.ok.injEq] at h
          obtain ⟨hv, -⟩ := h
          subst hv
          exact good_leaf rfl rfl rfl ⟨fun h => by simp [JsonValue.fresh] at h,
              fun h => by simp at h, fun h => by simp at h⟩
        · exact parseNumber_good h
    · intro t self os cur v n h hg hty
      rw [parseObjectLoop] at h
      split at h
      · simp at h
      · rename_i current hs
        split_ifs at h with c0 c1
        · simp only [Prod.mk.injEq, Except.ok.injEq] at h
          obtain ⟨hv, -⟩ := h
          subst hv
          exact ⟨hg, hty⟩
        · simp at h
        · simp only [] at h
          split at h
          · simp at h
          · rename_i nameString current1 hps
            split at h
            · simp at h
            · rename_i current2 hs2
              split_ifs at h with c2
              · simp at h
              · split at h
                · simp at h
                · rename_i value current3 hpv
                  have hgv : Good value := ihV _ _ _ _ hpv
                  have hg1 : Good { self with
                      nameValPairs_f := mapAssign self.nameValPairs_f nameString value,
                      nameValsInOrder_f := self.nameValsInOrder_f ++ [(nameString, value)] } := by
                    rw [good_iff] at hg ⊢
                    obtain ⟨g0, g1, g2, g3⟩ := hg
                    refine ⟨⟨fun _ => ?_, fun hc => ?_, fun hc => ?_⟩, ?_, ?_, g3⟩
                    · show mapAssign self.nameValPairs_f nameString value
                        = assignAll [] (self.nameValsInOrder_f ++ [(nameString, value)])
                      rw [assignAll_append, ← g0.1 hty]
                    · rw [hty] at hc; simp at hc
                    · rw [hty] at hc; simp at hc
                    · intro e he
                      rcases List.mem_append.1 he with he | he
                      · exact g1 e he
                      · simp only [List.mem_singleton] at he
                        rw [he]
                        exact hgv
                    · intro e he
                      rcases mapAssign_mem he with he | he
                      · rw [he]
                        exact hgv
                      · exact g2 e he
                  split at h
                  · simp at h
                  · rename_i current4 hs4
                    split_ifs at h with c3 c4
                    · exact ihO _ _ _ _ _ _ h hg1 hty
                    · exact ihO _ _ _ _ _ _ h hg1 hty
                    · simp at h
    · intro t self os cur v n h hg hty
      rw [parseArrayLoop] at h
      split at h
      · simp at h
      · rename_i current hs
        split_ifs at h with c0 c1 c2
        · simp at h
        · simp only [Prod.mk.injEq, Except.ok.injEq] at h
          obtain ⟨hv, -⟩ := h
          subst hv
          exact ⟨hg, hty⟩
        · exact ihA _ _ _ _ _ _ h hg hty
        · split at h
          · simp at h
          · rename_i newVal current1 hpv
            have hgv : Good newVal := ihV _ _ _ _ hpv
            refine ihA _ _ _ _ _ _ h ?_ hty
            rw [good_iff] at hg ⊢
            obtain ⟨g0, g1, g2, g3⟩ := hg
            refine ⟨⟨fun hc => ?_, fun hc => ?_, fun hc => ?_⟩, g1, g2, ?_⟩
            · rw [hty] at hc; simp at hc
            · rw [hty] at hc; simp at hc
            · rw [hty] at hc; simp at hc
            · intro x hx
              rcases List.mem_append.1 hx with hx | hx
              · exact g3 x hx
              · simp only [List.mem_singleton] at hx
                rw [hx]
                exact hgv

theorem parse_good {t : List Nat} {v : JsonValue}
    (h : parse JsonValue.fresh t = (v, Except.ok ())) : Good v ∧ v.type_f = JSON_OBJECT := by
  unfold parse at h
  split at h
  · simp at h
  · split_ifs at h with c0
    · simp at h
    · split at h
      · simp at h
      · rename_i self1 objectEnd hpo
        have hg := (parse_good_aux (parseFuel t)).2.1 _ _ _ _ _ _ hpo
          (good_leaf rfl rfl rfl ⟨fun _ => rfl, fun h => by simp at h, fun h => by simp at h⟩) rfl
        split at h
        · simp at h
        · split_ifs at h
          · simp at h
          · simp only [Prod.mk.injEq, and_true] at h
            rw [← h]
            exact hg

theorem mapFind_mapAssign (m : List (List Nat × JsonValue)) (k : List Nat) (v : JsonValue)
    (k1 : List Nat) :
    mapFind (mapAssign m k v) k1 = if k1 = k then some v else mapFind m k1 := by
  induction m with
  | nil => simp [mapAssign, mapFind]
  | cons hd tl ih =>
    obtain ⟨k2, v2⟩ := hd
    unfold mapAssign
    split_ifs with h1 h2 h3 h4 h5
    all_goals simp_all [mapFind]
    

theorem lastWithKey_append (l : List (List Nat × JsonValue)) (k : List Nat) (v : JsonValue)
    (k1 : List Nat) :
    lastWithKey (l ++ [(k, v)]) k1 = if k1 = k then some v else lastWithKey l k1 := by
  induction l with
  | nil => simp [lastWithKey]
  | cons hd tl ih =>
    obtain ⟨k2, v2⟩ := hd
    simp only [List.cons_append, lastWithKey, ih]
    split_ifs <;> simp_all

theorem mapFind_assignAll (l : List (List Nat × JsonValue)) (k : List Nat) :
    mapFind (assignAll [] l) k = lastWithKey l k := by
  induction l using List.reverseRecOn with
  | nil => simp [assignAll, mapFind, lastWithKey]
  | append_singleton l e ih =>
    obtain ⟨k1, v1⟩ := e
    rw [assignAll_append, mapFind_mapAssign, lastWithKey_append, ih]

theorem lastWithKey_isSome (l : List (List Nat × JsonValue)) (k : List Nat) :
    (lastWithKey l k).isSome ↔ ∃ e ∈ l, e.1 = k := by
  induction l with
  | nil => simp [lastWithKey]
  | cons hd tl ih =>
    obtain ⟨k1, v1⟩ := hd
    simp only [lastWithKey, List.mem_cons, exists_eq_or_imp]
    cases hl : lastWithKey tl k with
    | some x =>
      rw [hl] at ih
      simp only [Option.isSome_some, true_iff] at ih
      simp [ih]
    | none =>
      rw [hl] at ih
      simp only [Option.isSome_none, Bool.false_eq_true, false_iff] at ih
      simp only [ih, or_false]
      split_ifs with h
      · simp [h]
      · simp; exact fun h1 => h h1.symm

theorem mapAssign_length (m : List (List Nat × JsonValue)) (k : List Nat) (v : JsonValue) :
    (mapAssign m k v).length ≤ m.length + 1 := by
  induction m with
  | nil => simp [mapAssign]
  | cons hd tl ih =>
    obtain ⟨k2, v2⟩ := hd
    unfold mapAssign
    split_ifs <;> simp only [List.length_cons] <;> omega

theorem assignAll_length (l : List (List Nat × JsonValue)) :
    (assignAll [] l).length ≤ l.length := by
  induction l using List.reverseRecOn with
  | nil => simp [assignAll]
  | append_singleton l e ih =>
    rw [assignAll_append]
    have := mapAssign_length (assignAll [] l) e.1 e.2
    simp
    omega

theorem keyLess_irrefl (a : List Nat) : keyLess a a = false := by
  induction a with
  | nil => rfl
  | cons x xs ih => simp [keyLess, ih]

theorem keyLess_trans {a b c : List Nat} (h1 : keyLess a b = true) (h2 : keyLess b c = true) :
    keyLess a c = true := by
  induction a generalizing b c with
  | nil =>
    cases b with
    | nil => simp [keyLess] at h1
    | cons y ys =>
      cases c with
      | nil => simp [keyLess] at h2
      | cons z zs => simp [keyLess]
  | cons x xs ih =>
    cases b with
    | nil => simp [keyLess] at h1
    | cons y ys =>
      cases c with
      | nil => simp [keyLess] at h2
      | cons z zs =>
        simp only [keyLess, Bool.or_eq_true, decide_eq_true_eq, Bool.and_eq_true, beq_iff_eq]
          at h1 h2 ⊢
        rcases h1 with h1 | ⟨h1, h1'⟩
        · rcases h2 with h2 | ⟨h2, -⟩
          · exact Or.inl (by omega)
          · exact Or.inl (by omega)
        · rcases h2 with h2 | ⟨h2, h2'⟩
          · exact Or.inl (by omega)
          · exact Or.inr ⟨by omega, ih h1' h2'⟩

theorem keyLess_total {a b : List Nat} (h1 : keyLess a b = false) (h2 : a ≠ b) :
    keyLess b a = true := by
  induction a generalizing b with
  | nil =>
    cases b with
    | nil => exact absurd rfl h2
    | cons y ys => simp [keyLess] at h1
  | cons x xs ih =>
    cases b with
    | nil => simp [keyLess]
    | cons y ys =>
      simp only [keyLess, Bool.or_eq_false_iff, decide_eq_false_iff_not, Bool.and_eq_false_imp,
        beq_iff_eq] at h1
      simp only [keyLess, Bool.or_eq_true, decide_eq_true_eq, Bool.and_eq_true, beq_iff_eq]
      by_cases hxy : x = y
      · subst hxy
        refine Or.inr ⟨rfl, ih (h1.2 rfl) ?_⟩
        intro hc
        exact h2 (by rw [hc])
      · exact Or.inl (by omega)

theorem mapAssign_keys (m : List (List Nat × JsonValue)) (k : List Nat) (v : JsonValue) :
    ∀ x ∈ (mapAssign m k v).map Prod.fst, x = k ∨ x ∈ m.map Prod.fst := by
  intro x hx
  obtain ⟨e, he, rfl⟩ := List.mem_map.1 hx
  rcases mapAssign_mem he with h | h
  · exact Or.inl (by rw [h])
  · exact Or.inr (List.mem_map.2 ⟨e, h, rfl⟩)

theorem mapAssign_sorted {m : List (List Nat × JsonValue)} (k : List Nat) (v : JsonValue)
    (h : KeysSorted m) : KeysSorted (mapAssign m k v) := by
  induction m with
  | nil => simp [mapAssign, KeysSorted]
  | cons hd tl ih =>
    obtain ⟨k2, v2⟩ := hd
    unfold KeysSorted at h ih ⊢
    simp only [List.map_cons, List.pairwise_cons] at h
    unfold mapAssign
    split_ifs with h1 h2
    · subst h1
      simp only [List.map_cons, List.pairwise_cons]
      exact h
    · simp only [List.map_cons, List.pairwise_cons, List.mem_cons]
      refine ⟨?_, h⟩
      intro x hx
      rcases hx with hx | hx
      · rw [hx]; exact h2
      · exact keyLess_trans h2 (h.1 x hx)
    · simp only [List.map_cons, List.pairwise_cons]
      refine ⟨?_, ih h.2⟩
      intro x hx
      rcases mapAssign_keys tl k v x hx with hx | hx
      · rw [hx]
        exact keyLess_total (by simpa using h2) h1
      · exact h.1 x hx

theorem assignAll_sorted (l : List (List Nat × JsonValue)) : KeysSorted (assignAll [] l) := by
  induction l using List.reverseRecOn with
  | nil => simp [assignAll, KeysSorted]
  | append_singleton l e ih =>
    rw [assignAll_append]
    exact mapAssign_sorted _ _ ih

theorem keysSorted_nodup {m : List (List Nat × JsonValue)} (h : KeysSorted m) :
    (m.map Prod.fst).Nodup := by
  unfold KeysSorted at h
  refine List.Pairwise.imp ?_ h
  intro a b hab hc
  rw [hc, keyLess_irrefl] at hab
  simp at hab

/-- C2: in every Object node of a tree produced by `parse` (nodes reached through the ordered
sequence, the lookup mapping or an array), `has` answers true for a key exactly when some
ordered entry has that key, keyed lookup returns exactly the value of the last ordered
entry with that key, the keys of the mapping are pairwise distinct, and the ordered sequence
has at least as many entries as the mapping. -/
theorem C2_map_in_sync (t : List Nat) (v : JsonValue)
    (h : parse JsonValue.fresh t = (v, Except.ok ())) :
    ∀ w, IsNode w v → w.type_f = JSON_OBJECT →
      (∀ k, has w k = Except.ok true ↔ ∃ e ∈ w.nameValsInOrder_f, e.1 = k)
      ∧ (∀ k x, operatorIndexName w k = Except.ok x ↔ lastWithKey w.nameValsInOrder_f k = some x)
      ∧ (w.nameValPairs_f.map Prod.fst).Nodup
      ∧ w.nameValPairs_f.length ≤ w.nameValsInOrder_f.length := by
  intro w hw hty
  have hm : w.nameValPairs_f = assignAll [] w.nameValsInOrder_f :=
    ((parse_good h).1 w hw).1 hty
  have hn : checkForNull w = Except.ok () := by simp [checkForNull, hty]
  refine ⟨?_, ?_, ?_, ?_⟩
  · intro k
    rw [← lastWithKey_isSome, ← mapFind_assignAll, ← hm]
    simp [has, hn, hty]
  · intro k x
    rw [← mapFind_assignAll, ← hm]
    unfold operatorIndexName
    rw [hn]
    simp only [hty, ne_eq, not_true_eq_false, if_false]
    cases mapFind w.nameValPairs_f k <;> simp
  · rw [hm]
    exact keysSorted_nodup (assignAll_sorted _)
  · rw [hm]
    exact assignAll_length _

/-- C2, at the text with a duplicated key: `has` is true for the key, the keyed value is the
Integer 2, the ordered entries are the Integer 1 and then the Integer 2 under the same key,
and the mapping has one entry. -/
theorem C2_map_in_sync_witness :
    (parse JsonValue.fresh (lit "\x7b\"a\":1,\"a\":2\x7d")).2 = Except.ok ()
    ∧ has (parse JsonValue.fresh (lit "\x7b\"a\":1,\"a\":2\x7d")).1 (lit "a") = Except.ok true
    ∧ (operatorIndexName (parse JsonValue.fresh (lit "\x7b\"a\":1,\"a\":2\x7d")).1 (lit "a")).map
        (fun x => (x.type_f, x.theInteger_f)) = Except.ok (JSON_NUMBER, 2)
    ∧ (parse JsonValue.fresh (lit "\x7b\"a\":1,\"a\":2\x7d")).1.nameValsInOrder_f.map
        (fun e => (e.1, e.2.type_f, e.2.theInteger_f))
        = [(lit "a", JSON_NUMBER, 1), (lit "a", JSON_NUMBER, 2)]
    ∧ ((parse JsonValue.fresh (lit "\x7b\"a\":1,\"a\":2\x7d")).1.nameValPairs_f.map Prod.fst).Nodup
    ∧ (parse JsonValue.fresh (lit "\x7b\"a\":1,\"a\":2\x7d")).1.nameValPairs_f.length
        ≤ (parse JsonValue.fresh (lit "\x7b\"a\":1,\"a\":2\x7d")).1.nameValsInOrder_f.length :=
  have h2 : (parse JsonValue.fresh (lit "\x7b\"a\":1,\"a\":2\x7d")).2 = Except.ok () := by decide
  have h := C2_map_in_sync (lit "\x7b\"a\":1,\"a\":2\x7d")
    (parse JsonValue.fresh (lit "\x7b\"a\":1,\"a\":2\x7d")).1 (Prod.ext rfl h2)
    _ (IsNode.self _) (by decide)
  ⟨h2, by decide, by decide, by decide, h.2.2.1, h.2.2.2⟩

theorem prettyPrint_append_aux (v : JsonValue) (o i : List Nat) :
    ∀ out, prettyPrint v out i = out ++ prettyPrint v [] i := by
  refine prettyPrint.induct
    (fun l first _ ni => ∀ out, prettyPrint.printNameVals l first out ni
      = out ++ objectEntriesText ni l first)
    (fun v _ i => ∀ out, prettyPrint v out i = out ++ prettyPrint v [] i)
    (fun l first _ ni => ∀ out, prettyPrint.printArray l first out ni
      = out ++ arrayElementsText ni l first)
    ?_ ?_ ?_ ?_ ?_ ?_ ?_ ?_ ?_ ?_ ?_ v o i
  · intro m l s b n f a output indent newIndent ih out
    simp only [prettyPrint]
    rw [ih (out ++ [123]), ih ([] ++ [123])]
    simp
  · intro m l s b n f a output indent newIndent ih out
    simp only [prettyPrint]
    rw [ih (out ++ [91]), ih ([] ++ [91])]
    simp
  · intro m l s b n f a output indent out
    simp [prettyPrint]
  · intro m l s b n f a output indent out
    simp [prettyPrint]
  · intro m l s b n f a output indent out
    simp [prettyPrint]
  · intro m l s b n f a output indent out
    simp [prettyPrint]
  · intro m l s b n f a output indent out
    simp [prettyPrint]
  · intro first output ni out
    simp [prettyPrint.printNameVals, objectEntriesText]
  · intro name value rest first output ni output1 output2 output3 ih1 ih2 out
    simp only [prettyPrint.printNameVals, objectEntriesText]
    rw [ih2, ih1]
    cases first <;> simp
  · intro first output ni out
    simp [prettyPrint.printArray, arrayElementsText]
  · intro value rest first output ni output1 output2 ih1 ih2 out
    simp only [prettyPrint.printArray, arrayElementsText]
    rw [ih2, ih1]
    cases first <;> simp

theorem prettyPrint_append (v : JsonValue) (out i : List Nat) :
    prettyPrint v out i = out ++ prettyPrint v [] i :=
  prettyPrint_append_aux v out i out

theorem printNameVals_eq (l : List (List Nat × JsonValue)) (first : Bool) (out ni : List Nat) :
    prettyPrint.printNameVals l first out ni = out ++ objectEntriesText ni l first := by
  induction l generalizing first out with
  | nil => simp [prettyPrint.printNameVals, objectEntriesText]
  | cons e rest ih =>
    obtain ⟨name, value⟩ := e
    simp only [prettyPrint.printNameVals, objectEntriesText]
    rw [ih, prettyPrint_append]
    cases first <;> simp

theorem printArray_eq (l : List JsonValue) (first : Bool) (out ni : List Nat) :
    prettyPrint.printArray l first out ni = out ++ arrayElementsText ni l first := by
  induction l generalizing first out with
  | nil => simp [prettyPrint.printArray, arrayElementsText]
  | cons value rest ih =>
    simp only [prettyPrint.printArray, arrayElementsText]
    rw [ih, prettyPrint_append]
    cases first <;> simp

theorem prettyPrint_object {v : JsonValue} (h : v.type_f = JSON_OBJECT) (out i : List Nat) :
    prettyPrint v out i = out ++ [123]
      ++ objectEntriesText (i ++ [32, 32, 32, 32]) v.nameValsInOrder_f true ++ [10] ++ i ++ [125] := by
  obtain ⟨ty, m, l, s, b, n, f, a⟩ := v
  simp only at h
  subst h
  simp only [prettyPrint]
  rw [printNameVals_eq]
  simp

theorem prettyPrint_array {v : JsonValue} (h : v.type_f = JSON_ARRAY) (out i : List Nat) :
    prettyPrint v out i = out ++ [91]
      ++ arrayElementsText (i ++ [32, 32, 32, 32]) v.theArray_f true ++ [10] ++ i ++ [93] := by
  obtain ⟨ty, m, l, s, b, n, f, a⟩ := v
  simp only at h
  subst h
  simp only [prettyPrint]
  rw [printArray_eq]
  simp

theorem parseObjectLoop_pairs (f : Nat) :
    ∀ (t : List Nat) (self : JsonValue) (os cur : Nat) (v : JsonValue) (n : Nat),
      parseObjectLoop f t self os cur = (v, Except.ok n) →
      ∃ entries, ObjectPairs t cur entries n
        ∧ v = { self with nameValPairs_f := assignAll self.nameValPairs_f entries,
                          nameValsInOrder_f := self.nameValsInOrder_f ++ entries } := by
  induction f with
  | zero =>
    intro t self os cur v n h
    simp [parseObjectLoop] at h
  | succ f ih =>
    intro t self os cur v n h
    rw [parseObjectLoop] at h
    split at h
    · simp at h
    · rename_i current hs
      split_ifs at h with c0 c1
      · simp only [Prod.mk.injEq, Except.ok.injEq] at h
        obtain ⟨hv, hn⟩ := h
        subst hv hn
        exact ⟨[], ObjectPairs.close hs c0, by cases self; simp [assignAll]⟩
      · simp at h
      · simp only [] at h
        split at h
        · simp at h
        · rename_i nameString current1 hps
          split at h
          · simp at h
          · rename_i current2 hs2
            split_ifs at h with c2
            · simp at h
            · split at h
              · simp at h
              · rename_i value current3 hpv
                split at h
                · simp at h
                · rename_i current4 hs4
                  have c2' : byteAt t current2 = 58 := by
                    by_contra hc
                    exact c2 hc
                  split_ifs at h with c3 c4
                  · obtain ⟨entries, hp, hv⟩ := ih _ _ _ _ _ _ h
                    refine ⟨(nameString, value) :: entries,
                      ObjectPairs.pair hs hps hs2 c2' hpv hs4 (Or.inl ⟨c3, rfl⟩) hp, ?_⟩
                    rw [hv]
                    simp [assignAll]
                  · obtain ⟨entries, hp, hv⟩ := ih _ _ _ _ _ _ h
                    refine ⟨(nameString, value) :: entries,
                      ObjectPairs.pair hs hps hs2 c2' hpv hs4 (Or.inr ⟨c4, rfl⟩) hp, ?_⟩
                    rw [hv]
                    simp [assignAll]
                  · simp at h

theorem parseObjectLoop_type {f : Nat} {t : List Nat} {self : JsonValue} {os cur : Nat}
    {v : JsonValue} {n : Nat} (h : parseObjectLoop f t self os cur = (v, Except.ok n)) :
    v.type_f = self.type_f := by
  obtain ⟨entries, -, hv⟩ := parseObjectLoop_pairs f t self os cur v n h
  rw [hv]

/-- C3: when `parseObject` returns, the ordered sequence of the receiver has grown by exactly the
key/value pairs of the object text, one entry per pair in document order (duplicated keys
included); `prettyPrint` of the resulting Object writes the opening brace, one
`"key" : value` entry per element of the ordered sequence in that order, and the closing
brace; and replacing the lookup mapping by any other leaves the output unchanged. -/
theorem C3_print_follows_document_order (fuel : Nat) (t : List Nat) (self : JsonValue)
    (cur : Nat) (v : JsonValue) (n : Nat)
    (h : parseObject fuel t self cur = (v, Except.ok n)) :
    ∃ entries, ObjectPairs t cur entries n
      ∧ v.type_f = JSON_OBJECT
      ∧ v.nameValsInOrder_f = self.nameValsInOrder_f ++ entries
      ∧ (∀ out ind, prettyPrint v out ind = out ++ [123]
          ++ objectEntriesText (ind ++ [32, 32, 32, 32]) (self.nameValsInOrder_f ++ entries) true
          ++ [10] ++ ind ++ [125])
      ∧ (∀ m out ind, prettyPrint { v with nameValPairs_f := m } out ind
          = prettyPrint v out ind) := by
  unfold parseObject at h
  obtain ⟨entries, hp, hv⟩ := parseObjectLoop_pairs _ _ _ _ _ _ _ h
  have hty : v.type_f = JSON_OBJECT := by rw [hv]
  have hl : v.nameValsInOrder_f = self.nameValsInOrder_f ++ entries := by rw [hv]
  refine ⟨entries, hp, hty, hl, ?_, ?_⟩
  · intro out ind
    rw [prettyPrint_object hty, hl]
  · intro m out ind
    rw [prettyPrint_object hty, prettyPrint_object (by exact hty)]

/-- C3, at the text with a duplicated key: both entries are printed, the value 1 before the
value 2. -/
theorem C3_print_follows_document_order_witness :
    (∃ entries, ObjectPairs (lit "\x7b\"a\":1,\"a\":2\x7d") 1 entries 13
      ∧ (parseObject 28 (lit "\x7b\"a\":1,\"a\":2\x7d") JsonValue.fresh 1).1.nameValsInOrder_f
          = entries)
    ∧ prettyPrint (parse JsonValue.fresh (lit "\x7b\"a\":1,\"a\":2\x7d")).1 [] []
        = lit "\x7b\n    \"a\" : 1,\n    \"a\" : 2\n\x7d" := by
  have h2 : (parseObject 28 (lit "\x7b\"a\":1,\"a\":2\x7d") JsonValue.fresh 1).2
      = Except.ok 13 := by decide
  obtain ⟨entries, hp, -, hl, -, -⟩ := C3_print_follows_document_order 28
    (lit "\x7b\"a\":1,\"a\":2\x7d") JsonValue.fresh 1
    (parseObject 28 (lit "\x7b\"a\":1,\"a\":2\x7d") JsonValue.fresh 1).1 13 (Prod.ext rfl h2)
  exact ⟨⟨entries, hp, hl⟩, by decide⟩

/-- C1 (as stated, refuted): the text `{"a":"\u0000"}` is accepted, no key and no String
payload of its tree holds a double quote or a backslash, and the pretty-printed tree is not
accepted: the payload is the single byte NUL, which the printer writes between the quotes
and which ends the text for the second `parse`. -/
theorem C1_counterexample_nul_payload :
    (parse JsonValue.fresh (lit "\x7b\"a\":\"\\u0000\"\x7d")).2 = Except.ok ()
    ∧ allNodes (cleanNode [34, 92]) (parse JsonValue.fresh (lit "\x7b\"a\":\"\\u0000\"\x7d")).1
        = true
    ∧ prettyPrint (parse JsonValue.fresh (lit "\x7b\"a\":\"\\u0000\"\x7d")).1 [] []
        = lit "\x7b\n    \"a\" : \"" ++ [0] ++ lit "\"\n\x7d"
    ∧ (parse JsonValue.fresh
        (prettyPrint (parse JsonValue.fresh (lit "\x7b\"a\":\"\\u0000\"\x7d")).1 [] [])).2
        = Except.error (JsonParseException "Unexpected EOF during string read." [34]) := by
  decide!

theorem byteAt_of_drop {t : List Nat} {i c : Nat} {r : List Nat} (h : t.drop i = c :: r) :
    byteAt t i = c := by
  have h1 : (t.drop i).getD 0 0 = c := by rw [h]; rfl
  unfold byteAt
  rw [← h1]
  simp [List.getD_eq_getElem?_getD, List.getElem?_drop]

theorem drop_succ_of_drop {t : List Nat} {i c : Nat} {r : List Nat} (h : t.drop i = c :: r) :
    t.drop (i + 1) = r := by
  have : t.drop (i + 1) = (t.drop i).drop 1 := by rw [List.drop_drop, Nat.add_comm]
  rw [this, h]
  rfl

theorem drop_add_of_drop {t : List Nat} {i : Nat} {a r : List Nat} (h : t.drop i = a ++ r) :
    t.drop (i + a.length) = r := by
  have : t.drop (i + a.length) = (t.drop i).drop a.length := by
    rw [List.drop_drop, Nat.add_comm]
  rw [this, h, List.drop_left]

theorem length_of_drop {t : List Nat} {i : Nat} {a : List Nat} (h : t.drop i = a) :
    a.length = t.length - i := by
  rw [← h, List.length_drop]

theorem byteAt_of_drop_nil {t : List Nat} {i : Nat} (h : t.drop i = []) : byteAt t i = 0 := by
  unfold byteAt
  have : t.length ≤ i := List.drop_eq_nil_iff.1 h
  simp [List.getD_eq_getElem?_getD, List.getElem?_eq_none this]

theorem skipSpaces_run {t : List Nat} {c : Nat} {r : List Nat} (ws : List Nat) :
    ∀ fuel cur, t.drop cur = ws ++ c :: r → (∀ x ∈ ws, isspace x = true ∧ x ≠ 0) →
      (isspace c && c != 0) = false → ws.length ≤ fuel →
      skipSpaces t fuel cur = cur + ws.length := by
  induction ws with
  | nil =>
    intro fuel cur h _ hc _
    cases fuel with
    | zero => rfl
    | succ f =>
      rw [skipSpaces, byteAt_of_drop (by simpa using h), hc]
      simp
  | cons x xs ih =>
    intro fuel cur h hws hc hf
    cases fuel with
    | zero => simp at hf
    | succ f =>
      have hx := hws x (List.mem_cons_self _ _)
      rw [skipSpaces, byteAt_of_drop (by simpa using h)]
      simp only [hx.1, Bool.true_and, bne_iff_ne, ne_eq, hx.2, not_false_eq_true, if_true]
      rw [ih f (cur + 1) (drop_succ_of_drop (by simpa using h))
        (fun y hy => hws y (List.mem_cons_of_mem _ hy)) hc (by simpa using hf)]
      simp only [List.length_cons]
      omega

theorem skipWhitespace_run {t : List Nat} {cur c : Nat} {ws r : List Nat}
    (h : t.drop cur = ws ++ c :: r) (hws : ∀ x ∈ ws, isspace x = true ∧ x ≠ 0)
    (hc : isspace c = false) (h35 : c ≠ 35) :
    skipWhitespace t cur = Except.ok (cur + ws.length) := by
  unfold skipWhitespace
  rw [skipWhitespaceLoop]
  have hl := length_of_drop h
  simp only [List.length_append, List.length_cons] at hl
  rw [skipSpaces_run ws _ _ h hws (by simp [hc]) (by omega)]
  rw [byteAt_of_drop (drop_add_of_drop h)]
  simp [h35]

theorem skipWhitespace_stay {t : List Nat} {cur c : Nat} {r : List Nat}
    (h : t.drop cur = c :: r) (hc : isspace c = false) (h35 : c ≠ 35) :
    skipWhitespace t cur = Except.ok cur :=
  @skipWhitespace_run t cur c [] r h (by simp) hc h35

theorem parseStringLoop_plain {t : List Nat} {r : List Nat} (buffer : Nat) (s : List Nat) :
    ∀ fuel pos acc, t.drop pos = s ++ 34 :: r → bytesAvoid [34, 92, 0] s = true →
      s.length < fuel →
      parseStringLoop t buffer fuel pos acc = Except.ok (acc ++ s, pos + s.length + 1) := by
  induction s with
  | nil =>
    intro fuel pos acc h _ hf
    cases fuel with
    | zero => simp at hf
    | succ f =>
      rw [parseStringLoop, byteAt_of_drop (by simpa using h)]
      simp
  | cons x xs ih =>
    intro fuel pos acc h hcl hf
    cases fuel with
    | zero => simp at hf
    | succ f =>
      simp only [bytesAvoid, List.all_cons, Bool.and_eq_true] at hcl
      obtain ⟨hx, hxs⟩ := hcl
      have hx34 : x ≠ 34 := by intro hc; subst hc; simp at hx
      have hx92 : x ≠ 92 := by intro hc; subst hc; simp at hx
      have hx0 : x ≠ 0 := by intro hc; subst hc; simp at hx
      rw [parseStringLoop, byteAt_of_drop (by simpa using h)]
      simp only [beq_iff_eq, hx34, hx0, hx92, if_false]
      rw [ih f (pos + 1) (acc ++ [x]) (drop_succ_of_drop (by simpa using h)) hxs
        (by simpa using hf)]
      simp only [List.append_assoc, List.singleton_append, List.length_cons]
      congr 2
      omega

theorem parseString_plain {t : List Nat} {cur : Nat} {s r : List Nat}
    (h : t.drop cur = 34 :: (s ++ 34 :: r)) (hcl : bytesAvoid [34, 92, 0] s = true) :
    parseString t cur = Except.ok (s, cur + s.length + 2) := by
  rw [parseString_at_quote (byteAt_of_drop h)]
  have hl := length_of_drop h
  simp only [List.length_append, List.length_cons] at hl
  rw [parseStringLoop_plain cur s _ _ _ (drop_succ_of_drop h) hcl (by omega)]
  simp only [List.nil_append]
  congr 2
  omega

theorem decimalDigits_eq (n : Nat) : ∀ fuel, n < fuel → decimalDigits fuel n = natToDecimal n := by
  induction n using Nat.strong_induction_on with
  | _ n ih =>
    intro fuel hf
    cases fuel with
    | zero => omega
    | succ f =>
      unfold natToDecimal
      rw [decimalDigits, decimalDigits]
      by_cases h : n < 10
      · simp [h]
      · simp only [h, if_false]
        have hlt : n / 10 < n := Nat.div_lt_self (by omega) (by omega)
        rw [ih (n / 10) hlt f (by omega), ih (n / 10) hlt n hlt]

theorem natToDecimal_small {n : Nat} (h : n < 10) : natToDecimal n = [48 + n] := by
  unfold natToDecimal
  rw [decimalDigits]
  simp [h]

theorem natToDecimal_step {n : Nat} (h : 10 ≤ n) :
    natToDecimal n = natToDecimal (n / 10) ++ [48 + n % 10] := by
  have hlt : n / 10 < n := Nat.div_lt_self (by omega) (by omega)
  conv_lhs => unfold natToDecimal
  rw [decimalDigits, if_neg (by omega), decimalDigits_eq (n / 10) n hlt]

theorem isDigitOf_ten {c : Nat} (h1 : 48 ≤ c) (h2 : c ≤ 57) : isDigitOf 10 c = true := by
  unfold isDigitOf digitVal
  simp only [h1, h2, and_self, if_true]
  rw [if_pos (by omega)]
  rfl

theorem digitVal_ten {c : Nat} (h1 : 48 ≤ c) (h2 : c ≤ 57) : digitVal 10 c = some (c - 48) := by
  unfold digitVal
  simp only [h1, h2, and_self, if_true]
  rw [if_pos (by omega)]

theorem natToDecimal_digits (n : Nat) : ∀ c ∈ natToDecimal n, 48 ≤ c ∧ c ≤ 57 := by
  induction n using Nat.strong_induction_on with
  | _ n ih =>
    intro c hc
    by_cases h : n < 10
    · rw [natToDecimal_small h] at hc
      simp only [List.mem_singleton] at hc
      omega
    · rw [natToDecimal_step (by omega)] at hc
      rcases List.mem_append.1 hc with hc | hc
      · exact ih (n / 10) (Nat.div_lt_self (by omega) (by omega)) c hc
      · simp only [List.mem_singleton] at hc
        omega

theorem digitsValue_append (base : Nat) (l : List Nat) (c : Nat) :
    digitsValue base (l ++ [c]) = digitsValue base l * base + (digitVal base c).getD 0 := by
  simp [digitsValue, List.foldl_append]

theorem digitsValue_natToDecimal (n : Nat) : digitsValue 10 (natToDecimal n) = n := by
  induction n using Nat.strong_induction_on with
  | _ n ih =>
    by_cases h : n < 10
    · rw [natToDecimal_small h]
      simp only [digitsValue, List.foldl_cons, List.foldl_nil, Nat.zero_mul, Nat.zero_add]
      rw [digitVal_ten (by omega) (by omega)]
      simp
    · rw [natToDecimal_step (by omega), digitsValue_append,
        ih (n / 10) (Nat.div_lt_self (by omega) (by omega)),
        digitVal_ten (by omega) (by omega)]
      simp only [Option.getD_some]
      omega

theorem natToDecimal_head {n : Nat} (h : 0 < n) :
    ∃ c rest, natToDecimal n = c :: rest ∧ 49 ≤ c ∧ c ≤ 57 := by
  induction n using Nat.strong_induction_on with
  | _ n ih =>
    by_cases h10 : n < 10
    · exact ⟨48 + n, [], natToDecimal_small h10, by omega, by omega⟩
    · obtain ⟨c, rest, hc, h1, h2⟩ := ih (n / 10) (Nat.div_lt_self (by omega) (by omega))
        (Nat.div_pos (by omega) (by omega))
      refine ⟨c, rest ++ [48 + n % 10], ?_, h1, h2⟩
      rw [natToDecimal_step (by omega), hc]
      rfl

theorem takeWhile_run {p : Nat → Bool} {a : List Nat} {c : Nat} {r : List Nat}
    (ha : ∀ x ∈ a, p x = true) (hc : p c = false) : (a ++ c :: r).takeWhile p = a := by
  rw [List.takeWhile_append_of_pos ha, List.takeWhile_cons_of_neg (by simp [hc])]
  simp

theorem isDigitOf_stop {base c : Nat} (h : c = 44 ∨ c = 10) : isDigitOf base c = false := by
  rcases h with h | h <;> subst h <;> simp [isDigitOf, digitVal]

theorem isspace_of_ge {c : Nat} (h1 : 33 ≤ c) : isspace c = false := by
  unfold isspace
  simp only [Bool.or_eq_false_iff, beq_eq_false_iff_ne, ne_eq, Bool.and_eq_false_imp,
    decide_eq_true_eq, decide_eq_false_iff_not]
  omega

theorem strtolRun_digits {neg : Bool} {base : Nat} {d : Nat} {ds : List Nat} {c : Nat}
    {r : List Nat} (hall : ∀ x ∈ d :: ds, isDigitOf base x = true) (hc : c = 44 ∨ c = 10) :
    strtolRun neg base (d :: ds ++ c :: r)
      = some (saturate neg (digitsValue base (d :: ds)), (d :: ds).length) := by
  unfold strtolRun
  rw [takeWhile_run (a := d :: ds) hall (isDigitOf_stop hc)]
  simp

theorem hexPrefix_of_head {d : Nat} {s : List Nat} (h : d ≠ 48) : hexPrefix (d :: s) = false := by
  unfold hexPrefix
  split
  · rename_i x d1 rest heq
    simp only [List.cons.injEq] at heq
    exact absurd heq.1 h
  · rfl

theorem hexPrefix_of_second {d x : Nat} {s : List Nat} (h1 : x ≠ 120) (h2 : x ≠ 88) :
    hexPrefix (d :: x :: s) = false := by
  unfold hexPrefix
  split
  · rename_i x1 d1 rest heq
    simp only [List.cons.injEq] at heq
    obtain ⟨-, hx, -⟩ := heq
    subst hx
    simp [h1, h2]
  · rfl

/-- After white space is excluded and a sign is taken off, `strtolAt` is `strtolUnsigned`. -/
theorem strtolAt_unsigned {d : Nat} {s : List Nat} (hsp : isspace d = false) (h45 : d ≠ 45)
    (h43 : d ≠ 43) :
    strtolAt (d :: s) = match strtolUnsigned false (d :: s) with
      | some r => (r.1, r.2)
      | none => (0, 0) := by
  have e1 : (some d == some 45) = false := by simp [h45]
  have e2 : (some d == some 43) = false := by simp [h43]
  unfold strtolAt
  simp only [List.dropWhile_cons_of_neg (by simp [hsp] : ¬ isspace d = true), List.head?_cons,
    e1, e2, Bool.or_self, Bool.false_eq_true, if_false, Nat.sub_self, Nat.add_zero,
    Nat.zero_add]
  try rfl

theorem strtolAt_minus {s : List Nat} :
    strtolAt (45 :: s) = match strtolUnsigned true s with
      | some r => (r.1, 1 + r.2)
      | none => (0, 0) := by
  unfold strtolAt
  have hsp : ¬ isspace 45 = true := by decide
  simp only [List.dropWhile_cons_of_neg hsp, List.head?_cons, beq_self_eq_true, Bool.true_or,
    if_true, List.tail_cons, Nat.sub_self, Nat.zero_add]
  try rfl

theorem strtolAt_to_string {n : Int} {c : Nat} {r : List Nat} (h1 : LONG_MIN < n)
    (h2 : n < LONG_MAX) (hc : c = 44 ∨ c = 10) :
    strtolAt (to_string n ++ c :: r) = (n, (to_string n).length) := by
  have hc120 : c ≠ 120 := by rcases hc with h | h <;> omega
  have hc88 : c ≠ 88 := by rcases hc with h | h <;> omega
  unfold to_string
  by_cases hneg : n < 0
  · rw [if_pos hneg]
    obtain ⟨d, ds, hd, hd1, hd2⟩ := natToDecimal_head (n := n.natAbs) (by omega)
    have hdig := natToDecimal_digits n.natAbs
    have hval := digitsValue_natToDecimal n.natAbs
    rw [hd] at hdig hval ⊢
    have hall : ∀ x ∈ d :: ds, isDigitOf 10 x = true :=
      fun x hx => isDigitOf_ten (hdig x hx).1 (hdig x hx).2
    rw [List.cons_append, strtolAt_minus]
    unfold strtolUnsigned
    rw [List.cons_append, hexPrefix_of_head (by omega)]
    simp only [Bool.false_eq_true, if_false, List.head?_cons, Option.some.injEq, beq_iff_eq,
      show d ≠ 48 by omega]
    rw [← List.cons_append, strtolRun_digits hall hc, hval]
    simp only [saturate, LONG_MIN, LONG_MAX, if_true] at h1 h2 ⊢
    rw [if_neg (by omega)]
    simp only [List.length_cons, Prod.mk.injEq]
    constructor <;> omega
  · rw [if_neg hneg]
    by_cases h0 : n = 0
    · subst h0
      have : natToDecimal (0 : Int).natAbs = [48] := by decide
      rw [this]
      rw [List.singleton_append, strtolAt_unsigned (by decide) (by decide) (by decide)]
      unfold strtolUnsigned
      rw [hexPrefix_of_second hc120 hc88]
      simp only [Bool.false_eq_true, if_false, List.head?_cons, beq_self_eq_true, if_true]
      have hall : ∀ x ∈ [48], isDigitOf 8 x = true := by decide
      have := @strtolRun_digits false 8 48 [] c r hall hc
      simp only [List.nil_append, List.singleton_append] at this
      rw [this]
      decide
    · obtain ⟨d, ds, hd, hd1, hd2⟩ := natToDecimal_head (n := n.natAbs) (by omega)
      have hdig := natToDecimal_digits n.natAbs
      have hval := digitsValue_natToDecimal n.natAbs
      rw [hd] at hdig hval ⊢
      have hall : ∀ x ∈ d :: ds, isDigitOf 10 x = true :=
        fun x hx => isDigitOf_ten (hdig x hx).1 (hdig x hx).2
      rw [List.cons_append, strtolAt_unsigned (isspace_of_ge (by omega)) (by omega) (by omega)]
      unfold strtolUnsigned
      rw [hexPrefix_of_head (by omega)]
      simp only [Bool.false_eq_true, if_false, List.head?_cons, Option.some.injEq, beq_iff_eq,
        show d ≠ 48 by omega]
      rw [← List.cons_append, strtolRun_digits hall hc, hval]
      simp only [saturate, LONG_MIN, LONG_MAX, Bool.false_eq_true, if_false] at h1 h2 ⊢
      rw [if_neg (by omega)]
      simp only [List.length_cons, Prod.mk.injEq, and_true]
      omega

theorem natToDecimal_ne_nil (n : Nat) : natToDecimal n ≠ [] := by
  by_cases h : n < 10
  · rw [natToDecimal_small h]; simp
  · rw [natToDecimal_step (by omega)]; simp

theorem padDecimal_digits (w n : Nat) : ∀ c ∈ padDecimal w n, 48 ≤ c ∧ c ≤ 57 := by
  intro c hc
  unfold padDecimal at hc
  rcases List.mem_append.1 hc with hc | hc
  · rw [List.mem_replicate] at hc
    omega
  · exact natToDecimal_digits n c hc

theorem padDecimal_ne_nil (w n : Nat) : padDecimal w n ≠ [] := by
  unfold padDecimal
  intro h
  exact natToDecimal_ne_nil n (List.append_eq_nil.1 h).2

theorem digit_point_shape (sign ds e1 e2 : List Nat) (hne : ds ≠ [])
    (hdig : ∀ c ∈ ds, 48 ≤ c ∧ c ≤ 57) :
    ∃ dg tail, 48 ≤ dg ∧ dg ≤ 57
      ∧ sign ++ ds.take 1 ++ [46] ++ ds.drop 1 ++ [101] ++ e1 ++ e2
        = sign ++ dg :: 46 :: tail := by
  cases ds with
  | nil => exact absurd rfl hne
  | cons d rest =>
    have := hdig d (List.mem_cons_self _ _)
    exact ⟨d, rest ++ [101] ++ e1 ++ e2, this.1, this.2, by simp⟩

/-- The text of a finite double starts with an optional minus sign, one decimal digit and
the point. -/
theorem formatDouble_shape (s : Bool) (m : Nat) (e : Int) :
    ∃ dg tail, 48 ≤ dg ∧ dg ≤ 57
      ∧ formatDouble (Double.finite s m e) = (if s then [45] else []) ++ dg :: 46 :: tail := by
  unfold formatDouble
  simp only []
  by_cases hm : m = 0
  · rw [if_pos hm]
    exact ⟨48, List.replicate 16 48 ++ [101, 43, 48, 48], by omega, by omega, by simp⟩
  · rw [if_neg hm]
    exact digit_point_shape _ _ _ _ (padDecimal_ne_nil _ _) (padDecimal_digits _ _)

theorem takeWhile_append_stop {p : Nat → Bool} (a : List Nat) {c : Nat} (r : List Nat)
    (hc : p c = false) : (a ++ c :: r).takeWhile p = a.takeWhile p := by
  induction a with
  | nil => simp [List.takeWhile_cons_of_neg, hc]
  | cons x xs ih =>
    simp only [List.cons_append, List.takeWhile_cons, ih]

theorem numberByte_stop {c : Nat} (h : c = 44 ∨ c = 10) : numberByte c = false := by
  rcases h with h | h <;> subst h <;> decide

/-- What `strtod` reads at the head of a text that does not start with white space does not
depend on what follows the first comma or newline. -/
theorem strtodAt_local {d : Nat} {a : List Nat} {c : Nat} (r : List Nat)
    (hsp : isspace d = false) (hc : c = 44 ∨ c = 10) :
    strtodAt (d :: a ++ c :: r) = strtodAt (d :: a ++ [44]) := by
  have h1 : ∀ x : List Nat, (d :: x).dropWhile isspace = d :: x := fun x =>
    List.dropWhile_cons_of_neg (by simp [hsp])
  unfold strtodAt
  simp only [List.cons_append, h1]
  rw [← List.cons_append, ← List.cons_append, takeWhile_append_stop _ _ (numberByte_stop hc),
    takeWhile_append_stop _ _ (numberByte_stop (Or.inl rfl))]
  simp

theorem to_string_ne_nil (n : Int) : to_string n ≠ [] := by
  unfold to_string
  split_ifs
  · simp
  · exact natToDecimal_ne_nil _

theorem to_string_head (n : Int) :
    ∃ b tail, to_string n = b :: tail ∧ (b = 45 ∨ (48 ≤ b ∧ b ≤ 57)) := by
  unfold to_string
  split_ifs
  · exact ⟨45, _, rfl, Or.inl rfl⟩
  · cases h : natToDecimal n.natAbs with
    | nil => exact absurd h (natToDecimal_ne_nil _)
    | cons b tail =>
      have := natToDecimal_digits n.natAbs b (by rw [h]; exact List.mem_cons_self _ _)
      exact ⟨b, tail, rfl, Or.inr this⟩

theorem strtol_of_drop {t : List Nat} {cur : Nat} {s : List Nat} (h : t.drop cur = s) :
    strtol t cur = ((strtolAt s).1, cur + (strtolAt s).2) := by
  unfold strtol
  rw [h]

theorem strtod_of_drop {t : List Nat} {cur : Nat} {s : List Nat} (h : t.drop cur = s) :
    strtod t cur = ((strtodAt s).1, cur + (strtodAt s).2) := by
  unfold strtod
  rw [h]

theorem parseNumber_integer {t : List Nat} {cur : Nat} {n : Int} {c : Nat} {r : List Nat}
    (self : JsonValue) (h : t.drop cur = to_string n ++ c :: r) (h1 : LONG_MIN < n)
    (h2 : n < LONG_MAX) (hc : c = 44 ∨ c = 10) :
    parseNumber t self cur
      = ({ self with type_f := JSON_NUMBER, theInteger_f := n },
          Except.ok (cur + (to_string n).length)) := by
  have hs : strtol t cur = (n, cur + (to_string n).length) := by
    rw [strtol_of_drop h, strtolAt_to_string h1 h2 hc]
  have hlen : 0 < (to_string n).length := List.length_pos.2 (to_string_ne_nil n)
  have hb : byteAt t (cur + (to_string n).length) = c := byteAt_of_drop (drop_add_of_drop h)
  unfold parseNumber
  simp only [hs]
  rw [if_neg (by intro hc1; rcases hc1 with hc1 | hc1 <;> omega),
    if_neg (by intro hc1; omega), hb,
    if_neg (by intro hc1; rcases hc with hc | hc <;> omega)]

theorem strtolUnsigned_digit_point {neg : Bool} {dg : Nat} {tail : List Nat} (h1 : 48 ≤ dg)
    (h2 : dg ≤ 57) :
    ∃ v : Int, strtolUnsigned neg (dg :: 46 :: tail) = some (v, 1) ∧ -9 ≤ v ∧ v ≤ 9 := by
  have h46 : ∀ base, isDigitOf base 46 = false := by
    intro base
    simp [isDigitOf, digitVal]
  have run : ∀ base, isDigitOf base dg = true →
      strtolRun neg base (dg :: 46 :: tail) = some (saturate neg (digitsValue base [dg]), 1) := by
    intro base hb
    unfold strtolRun
    have : (dg :: 46 :: tail).takeWhile (isDigitOf base) = [dg] := by
      rw [List.takeWhile_cons_of_pos hb, List.takeWhile_cons_of_neg (by simp [h46])]
    rw [this]
    simp
  unfold strtolUnsigned
  rw [hexPrefix_of_second (by omega) (by omega)]
  simp only [Bool.false_eq_true, if_false, List.head?_cons]
  by_cases h0 : dg = 48
  · subst h0
    simp only [beq_self_eq_true, if_true]
    rw [run 8 (by decide)]
    refine ⟨_, rfl, ?_⟩
    cases neg <;> decide
  · have e : (some dg == some 48) = false := by simp [h0]
    simp only [e, Bool.false_eq_true, if_false]
    rw [run 10 (isDigitOf_ten h1 h2)]
    refine ⟨_, rfl, ?_⟩
    have hv : digitsValue 10 [dg] = dg - 48 := by
      simp [digitsValue, digitVal_ten h1 h2]
    rw [hv]
    unfold saturate
    simp only [LONG_MIN, LONG_MAX]
    cases neg
    · simp only [Bool.false_eq_true, if_false]
      rw [if_neg (by omega)]
      omega
    · simp only [if_true]
      rw [if_neg (by omega)]
      omega

/-- On the text of a finite double `strtol` reads the sign and the leading digit and stops
at the point. -/
theorem strtolAt_float_text (s : Bool) (m : Nat) (e : Int) (rest : List Nat) :
    ∃ (v : Int) (k : Nat), strtolAt (formatDouble (Double.finite s m e) ++ rest) = (v, k)
      ∧ -9 ≤ v ∧ v ≤ 9 ∧ 0 < k
      ∧ (formatDouble (Double.finite s m e) ++ rest).drop k
          = 46 :: ((formatDouble (Double.finite s m e) ++ rest).drop (k + 1)) := by
  obtain ⟨dg, tail, h1, h2, hf⟩ := formatDouble_shape s m e
  rw [hf]
  cases s with
  | false =>
    simp only [Bool.false_eq_true, if_false, List.nil_append, List.cons_append]
    obtain ⟨v, hv, hv1, hv2⟩ := @strtolUnsigned_digit_point false _ (tail ++ rest) h1 h2
    rw [strtolAt_unsigned (isspace_of_ge (by omega)) (by omega) (by omega), hv]
    exact ⟨v, 1, rfl, hv1, hv2, by omega, rfl⟩
  | true =>
    simp only [if_true, List.cons_append, List.nil_append]
    obtain ⟨v, hv, hv1, hv2⟩ := @strtolUnsigned_digit_point true _ (tail ++ rest) h1 h2
    rw [strtolAt_minus, hv]
    exact ⟨v, 2, rfl, hv1, hv2, by omega, rfl⟩

theorem drop_drop_of_drop {t : List Nat} {cur : Nat} {s : List Nat} (h : t.drop cur = s)
    (k : Nat) : t.drop (cur + k) = s.drop k := by
  rw [← h, List.drop_drop, Nat.add_comm]

theorem strtodAt_readsBack {d : Double} {s : Bool} {m : Nat} {e : Int} {c : Nat}
    (r : List Nat) (hd : d = Double.finite s m e) (hrb : floatReadsBack d = true)
    (hc : c = 44 ∨ c = 10) :
    strtodAt (formatDouble d ++ c :: r) = (d, (formatDouble d).length) := by
  unfold floatReadsBack at hrb
  have hrb' : strtodAt (formatDouble d ++ [44]) = (d, (formatDouble d).length) := by
    simpa using hrb
  rw [← hrb']
  obtain ⟨dg, tail, h1, h2, hf⟩ := formatDouble_shape s m e
  rw [hd, hf]
  cases s with
  | false =>
    simp only [Bool.false_eq_true, if_false, List.nil_append]
    exact strtodAt_local r (isspace_of_ge (by omega)) hc
  | true =>
    simp only [if_true, List.singleton_append]
    exact strtodAt_local r (by decide) hc

theorem parseNumber_float {t : List Nat} {cur : Nat} {d : Double} {s : Bool} {m : Nat}
    {e : Int} {c : Nat} {r : List Nat} (self : JsonValue)
    (h : t.drop cur = formatDouble d ++ c :: r) (hd : d = Double.finite s m e)
    (hrb : floatReadsBack d = true) (hc : c = 44 ∨ c = 10) :
    ∃ v : Int, parseNumber t self cur
      = ({ self with type_f := JSON_FLOAT, theInteger_f := v, theFloat_f := d },
          Except.ok (cur + (formatDouble d).length)) := by
  obtain ⟨v, k, hv, hv1, hv2, hk, hdrop⟩ := strtolAt_float_text s m e (c :: r)
  rw [← hd] at hv hdrop
  have hs : strtol t cur = (v, cur + k) := by rw [strtol_of_drop h, hv]
  have hb : byteAt t (cur + k) = 46 := byteAt_of_drop ((drop_drop_of_drop h k).trans hdrop)
  have hsd : strtod t cur = (d, cur + (formatDouble d).length) := by
    rw [strtod_of_drop h, strtodAt_readsBack r hd hrb hc]
  have hlen : 0 < (formatDouble d).length := by
    obtain ⟨dg, tail, -, -, hf⟩ := formatDouble_shape s m e
    rw [hd, hf]
    cases s <;> simp
  refine ⟨v, ?_⟩
  unfold parseNumber
  simp only [hs, hsd]
  rw [if_neg (by simp only [LONG_MIN, LONG_MAX]; omega), if_neg (by omega), hb,
    if_pos (Or.inr (Or.inr rfl)), if_neg (by rw [hd]; simp [HUGE_VAL, Double.negate]),
    if_neg (by omega)]

theorem startsWith_of_head {t : List Nat} {cur b : Nat} {tail : List Nat} {x : Nat}
    {xs : List Nat} (h : t.drop cur = b :: tail) (hb : b ≠ x) :
    startsWith t cur (x :: xs) = false := by
  unfold startsWith
  rw [h]
  simp [hb]

theorem startsWith_of_drop {t : List Nat} {cur : Nat} {s rest : List Nat}
    (h : t.drop cur = s ++ rest) : startsWith t cur s = true := by
  unfold startsWith
  rw [h]
  simp

theorem lit_true : lit "true" = [116, 114, 117, 101] := by decide

theorem lit_false : lit "false" = [102, 97, 108, 115, 101] := by decide

theorem lit_null : lit "null" = [110, 117, 108, 108] := by decide

theorem parseValue_number {f : Nat} {t : List Nat} {cur0 cur b : Nat} {tail : List Nat}
    (self : JsonValue) (hs : skipWhitespace t cur0 = Except.ok cur) (h : t.drop cur = b :: tail)
    (hb : b = 45 ∨ (48 ≤ b ∧ b ≤ 57)) :
    parseValue (f + 1) t self cur0 = parseNumber t self cur := by
  rw [parseValue, hs]
  have e1 : startsWith t cur (lit "true") = false := by
    rw [lit_true]; exact startsWith_of_head h (by omega)
  have e2 : startsWith t cur (lit "false") = false := by
    rw [lit_false]; exact startsWith_of_head h (by omega)
  have e3 : startsWith t cur (lit "null") = false := by
    rw [lit_null]; exact startsWith_of_head h (by omega)
  have n0 : b ≠ 0 := by omega
  have n1 : b ≠ 34 := by omega
  have n2 : b ≠ 123 := by omega
  have n3 : b ≠ 91 := by omega
  simp [byteAt_of_drop h, e1, e2, e3, n0, n1, n2, n3]

theorem parseValue_string {f : Nat} {t : List Nat} {cur0 cur : Nat} {s r : List Nat}
    (self : JsonValue) (hs : skipWhitespace t cur0 = Except.ok cur)
    (h : t.drop cur = 34 :: (s ++ 34 :: r)) (hcl : bytesAvoid [34, 92, 0] s = true) :
    parseValue (f + 1) t self cur0
      = ({ self with type_f := JSON_STRING, theString_f := s },
          Except.ok (cur + s.length + 2)) := by
  rw [parseValue, hs]
  simp [byteAt_of_drop h, parseString_plain h hcl]

theorem parseValue_true {f : Nat} {t : List Nat} {cur0 cur : Nat} {r : List Nat}
    (self : JsonValue) (hs : skipWhitespace t cur0 = Except.ok cur)
    (h : t.drop cur = lit "true" ++ r) :
    parseValue (f + 1) t self cur0
      = ({ self with type_f := JSON_BOOL, theBool_f := true }, Except.ok (cur + 4)) := by
  rw [parseValue, hs]
  have hb : byteAt t cur = 116 := byteAt_of_drop (r := lit "rue" ++ r) (by rw [h]; rfl)
  simp [hb, startsWith_of_drop h]

theorem parseValue_false {f : Nat} {t : List Nat} {cur0 cur : Nat} {r : List Nat}
    (self : JsonValue) (hs : skipWhitespace t cur0 = Except.ok cur)
    (h : t.drop cur = lit "false" ++ r) :
    parseValue (f + 1) t self cur0
      = ({ self with type_f := JSON_BOOL, theBool_f := false }, Except.ok (cur + 5)) := by
  rw [parseValue, hs]
  have h' : t.drop cur = 102 :: (lit "alse" ++ r) := by rw [h]; rfl
  have hb : byteAt t cur = 102 := byteAt_of_drop h'
  have e1 : startsWith t cur (lit "true") = false := by
    rw [lit_true]; exact startsWith_of_head h' (by omega)
  simp [hb, e1, startsWith_of_drop h]

theorem parseValue_null {f : Nat} {t : List Nat} {cur0 cur : Nat} {r : List Nat}
    (self : JsonValue) (hs : skipWhitespace t cur0 = Except.ok cur)
    (h : t.drop cur = lit "null" ++ r) :
    parseValue (f + 1) t self cur0
      = ({ self with type_f := JSON_NULL }, Except.ok (cur + 4)) := by
  rw [parseValue, hs]
  have h' : t.drop cur = 110 :: (lit "ull" ++ r) := by rw [h]; rfl
  have hb : byteAt t cur = 110 := byteAt_of_drop h'
  have e1 : startsWith t cur (lit "true") = false := by
    rw [lit_true]; exact startsWith_of_head h' (by omega)
  have e2 : startsWith t cur (lit "false") = false := by
    rw [lit_false]; exact startsWith_of_head h' (by omega)
  simp [hb, e1, e2, startsWith_of_drop h]

theorem JsonValue.induction {P : JsonValue → Prop}
    (h : ∀ v : JsonValue, (∀ e ∈ v.nameValsInOrder_f, P e.2) → (∀ x ∈ v.theArray_f, P x) → P v) :
    ∀ v, P v := by
  intro v
  refine @JsonValue.rec P
    (fun l => ∀ e ∈ l, P e.2) (fun a => ∀ x ∈ a, P x)
    (fun e => P e.2) ?_ ?_ ?_ ?_ ?_ ?_ v
  · intro ty m l s b n f a _ hl ha
    exact h _ hl ha
  · intro e he
    simp at he
  · intro hd tl h1 h2 e he
    rcases List.mem_cons.1 he with he | he
    · rw [he]; exact h1
    · exact h2 e he
  · intro x hx
    simp at hx
  · intro hd tl h1 h2 x hx
    rcases List.mem_cons.1 hx with hx | hx
    · rw [hx]; exact h1
    · exact h2 x hx
  · intro k x hx
    exact hx

theorem allNodes_pairs_iff (p : JsonValue → Bool) (l : List (List Nat × JsonValue)) :
    allNodes.pairs p l = true ↔ ∀ e ∈ l, allNodes p e.2 = true := by
  induction l with
  | nil => simp [allNodes.pairs]
  | cons hd tl ih =>
    obtain ⟨k, v⟩ := hd
    simp [allNodes.pairs, ih]

theorem allNodes_elems_iff (p : JsonValue → Bool) (l : List JsonValue) :
    allNodes.elems p l = true ↔ ∀ x ∈ l, allNodes p x = true := by
  induction l with
  | nil => simp [allNodes.elems]
  | cons hd tl ih => simp [allNodes.elems, ih]

theorem allNodes_iff (p : JsonValue → Bool) (v : JsonValue) :
    allNodes p v = true ↔ p v = true ∧ (∀ e ∈ v.nameValsInOrder_f, allNodes p e.2 = true)
      ∧ (∀ x ∈ v.theArray_f, allNodes p x = true) := by
  obtain ⟨ty, m, l, s, b, n, f, a⟩ := v
  simp only [allNodes, Bool.and_eq_true, allNodes_pairs_iff, allNodes_elems_iff, and_assoc]

theorem printable_iff (v : JsonValue) (h : Printable v) :
    (∀ e ∈ v.nameValsInOrder_f, Printable e.2) ∧ (∀ x ∈ v.theArray_f, Printable x) := by
  obtain ⟨hg, hc, hf⟩ := h
  rw [good_iff] at hg
  rw [allNodes_iff] at hc hf
  exact ⟨fun e he => ⟨hg.2.1 e he, hc.2.1 e he, hf.2.1 e he⟩,
    fun x hx => ⟨hg.2.2.2 x hx, hc.2.2 x hx, hf.2.2 x hx⟩⟩

theorem observed_pairs_append (l : List (List Nat × JsonValue)) (k : List Nat) (x : JsonValue) :
    observed.pairs (l ++ [(k, x)]) = observed.pairs l ++ [(k, observed x)] := by
  induction l with
  | nil => simp [observed.pairs]
  | cons hd tl ih =>
    obtain ⟨k1, v1⟩ := hd
    simp [observed.pairs, ih]

theorem observed_pairs_mapAssign (m : List (List Nat × JsonValue)) (k : List Nat)
    (x : JsonValue) :
    observed.pairs (mapAssign m k x) = mapAssign (observed.pairs m) k (observed x) := by
  induction m with
  | nil => simp [observed.pairs, mapAssign]
  | cons hd tl ih =>
    obtain ⟨k1, v1⟩ := hd
    simp only [mapAssign, observed.pairs]
    split_ifs <;> simp [observed.pairs, ih]

theorem observed_pairs_assignAll (m l : List (List Nat × JsonValue)) :
    observed.pairs (assignAll m l)
      = assignAll (observed.pairs m) (observed.pairs l) := by
  induction l using List.reverseRecOn with
  | nil => simp [assignAll, observed.pairs]
  | append_singleton l e ih =>
    obtain ⟨k, x⟩ := e
    rw [assignAll_append, observed_pairs_mapAssign, ih, observed_pairs_append, assignAll_append]

theorem observed_elems_append (l : List JsonValue) (x : JsonValue) :
    observed.elems (l ++ [x]) = observed.elems l ++ [observed x] := by
  induction l with
  | nil => simp [observed.elems]
  | cons hd tl ih => simp [observed.elems, ih]

theorem valueStart_facts {b : Nat} (h : valueStart b) :
    isspace b = false ∧ b ≠ 35 ∧ b ≠ 0 ∧ b ≠ 93 ∧ b ≠ 44 ∧ b ≠ 125 := by
  unfold valueStart at h
  refine ⟨?_, ?_, ?_, ?_, ?_, ?_⟩
  · exact isspace_of_ge (by omega)
  all_goals omega

theorem prettyPrint_head {v : JsonValue} (h : Good v) (indent : List Nat) :
    ∃ b tail, prettyPrint v [] indent = b :: tail ∧ valueStart b := by
  have hn := h v (IsNode.self v)
  obtain ⟨ty, m, l, s, bo, n, f, a⟩ := v
  cases ty
  · exact ⟨123, _, by rw [prettyPrint_object rfl]; rfl, Or.inl rfl⟩
  · exact ⟨91, _, by rw [prettyPrint_array rfl]; rfl, Or.inr (Or.inl rfl)⟩
  · exact ⟨34, s ++ [34], by simp [prettyPrint], Or.inr (Or.inr (Or.inl rfl))⟩
  · obtain ⟨b, tail, hb, hb2⟩ := to_string_head n
    refine ⟨b, tail, by simp [prettyPrint, hb], ?_⟩
    unfold valueStart
    omega
  · cases bo
    · exact ⟨102, [97, 108, 115, 101], by simp [prettyPrint, lit_false],
        by unfold valueStart; omega⟩
    · exact ⟨116, [114, 117, 101], by simp [prettyPrint, lit_true], by unfold valueStart; omega⟩
  · exact ⟨110, [117, 108, 108], by simp [prettyPrint, lit_null], by unfold valueStart; omega⟩
  · obtain ⟨sg, mt, e, hd, -⟩ := hn.2.2 rfl
    simp only at hd
    obtain ⟨dg, tail, h1, h2, hf⟩ := formatDouble_shape sg mt e
    cases sg
    · refine ⟨dg, 46 :: tail, by simp [prettyPrint, hd, hf], ?_⟩
      unfold valueStart
      omega
    · refine ⟨45, dg :: 46 :: tail, by simp [prettyPrint, hd, hf], ?_⟩
      unfold valueStart
      omega

theorem spaces_isspace {ws : List Nat} (h : ∀ x ∈ ws, x = 32) :
    ∀ x ∈ ws, isspace x = true ∧ x ≠ 0 := by
  intro x hx
  rw [h x hx]
  decide

theorem newline_spaces_isspace {ws : List Nat} (h : ∀ x ∈ ws, x = 32) :
    ∀ x ∈ 10 :: ws, isspace x = true ∧ x ≠ 0 := by
  intro x hx
  rcases List.mem_cons.1 hx with hx | hx
  · rw [hx]; decide
  · rw [h x hx]; decide

theorem indent_step {indent : List Nat} (h : ∀ x ∈ indent, x = 32) :
    ∀ x ∈ indent ++ [32, 32, 32, 32], x = 32 := by
  intro x hx
  rcases List.mem_append.1 hx with hx | hx
  · exact h x hx
  · simp at hx; exact hx

/-- The read-back of a node that is neither an Object nor an Array. -/
theorem readsBack_scalar {v : JsonValue} (hp : Printable v) (h1 : v.type_f ≠ JSON_OBJECT)
    (h2 : v.type_f ≠ JSON_ARRAY) : ReadsBack v := by
  intro f t cur ws indent c rest ht hws hc hind hf
  obtain ⟨hg, hcl, hfl⟩ := hp
  have hn := hg v (IsNode.self v)
  rw [allNodes_iff] at hcl hfl
  obtain ⟨b, tail, hb, hvs⟩ := prettyPrint_head hg indent
  obtain ⟨hsp, h35, -, -, -, -⟩ := valueStart_facts hvs
  cases f with
  | zero => omega
  | succ f =>
    have hs : skipWhitespace t cur = Except.ok (cur + ws.length) := by
      refine skipWhitespace_run (c := b) (r := tail ++ c :: rest) ?_ (spaces_isspace hws) hsp h35
      rw [ht, hb]
      simp
    have ht2 : t.drop (cur + ws.length) = prettyPrint v [] indent ++ c :: rest := by
      rw [List.append_assoc] at ht
      exact drop_add_of_drop ht
    obtain ⟨ty, m, l, s, bo, n, fl, a⟩ := v
    cases ty
    · exact absurd rfl h1
    · exact absurd rfl h2
    · have hpp : prettyPrint ⟨JSON_STRING, m, l, s, bo, n, fl, a⟩ [] indent
          = 34 :: (s ++ [34]) := by simp [prettyPrint]
      have hs3 : bytesAvoid [34, 92, 0] s = true := by
        have := hcl.1
        simp only [cleanNode, Bool.and_eq_true, Bool.or_eq_true] at this
        rcases this.1 with h | h
        · simp at h
        · exact h
      rw [hpp] at ht2 ⊢
      rw [parseValue_string _ hs (r := c :: rest) (by rw [ht2]; simp) hs3]
      have e : cur + ws.length + s.length + 2 = cur + ws.length + (34 :: (s ++ [34])).length := by
        simp only [List.length_cons, List.length_append, List.length_nil]
        omega
      rw [e]
      exact ⟨_, rfl, by simp [observed, JsonValue.fresh]⟩
    · have hpp : prettyPrint ⟨JSON_NUMBER, m, l, s, bo, n, fl, a⟩ [] indent = to_string n := by
        simp [prettyPrint]
      rw [hpp] at ht2 hb ⊢
      have hr := hn.2.1 rfl
      simp only at hr
      have hb' : b = 45 ∨ (48 ≤ b ∧ b ≤ 57) := by
        obtain ⟨b1, tail1, e1, e2⟩ := to_string_head n
        rw [e1] at hb
        simp only [List.cons.injEq] at hb
        rw [← hb.1]
        exact e2
      rw [@parseValue_number _ _ _ _ b (tail ++ c :: rest) _ hs (by rw [ht2, hb]; simp) hb',
        parseNumber_integer _ ht2 hr.1 hr.2 hc]
      exact ⟨_, by rw [Nat.add_assoc], by simp [observed, JsonValue.fresh]⟩
    · cases bo
      · have hpp : prettyPrint ⟨JSON_BOOL, m, l, s, false, n, fl, a⟩ [] indent = lit "false" := by
          simp [prettyPrint]
        rw [hpp] at ht2 ⊢
        rw [parseValue_false _ hs ht2]
        exact ⟨_, by rw [Nat.add_assoc]; rfl, by simp [observed, JsonValue.fresh]⟩
      · have hpp : prettyPrint ⟨JSON_BOOL, m, l, s, true, n, fl, a⟩ [] indent = lit "true" := by
          simp [prettyPrint]
        rw [hpp] at ht2 ⊢
        rw [parseValue_true _ hs ht2]
        exact ⟨_, by rw [Nat.add_assoc]; rfl, by simp [observed, JsonValue.fresh]⟩
    · have hpp : prettyPrint ⟨JSON_NULL, m, l, s, bo, n, fl, a⟩ [] indent = lit "null" := by
        simp [prettyPrint]
      rw [hpp] at ht2 ⊢
      rw [parseValue_null _ hs ht2]
      exact ⟨_, by rw [Nat.add_assoc]; rfl, by simp [observed, JsonValue.fresh]⟩
    · have hpp : prettyPrint ⟨JSON_FLOAT, m, l, s, bo, n, fl, a⟩ [] indent = formatDouble fl := by
        simp [prettyPrint]
      rw [hpp] at ht2 hb ⊢
      obtain ⟨sg, mt, e, hd, -⟩ := hn.2.2 rfl
      simp only at hd
      have hrb : floatReadsBack fl = true := by
        have := hfl.1
        simpa [floatNode] using this
      have hb' : b = 45 ∨ (48 ≤ b ∧ b ≤ 57) := by
        obtain ⟨dg, tail1, e1, e2, e3⟩ := formatDouble_shape sg mt e
        rw [hd, e3] at hb
        cases sg
        · simp only [Bool.false_eq_true, if_false, List.nil_append, List.cons.injEq] at hb
          omega
        · simp only [if_true, List.singleton_append, List.cons.injEq] at hb
          omega
      obtain ⟨iv, hiv⟩ := parseNumber_float JsonValue.fresh ht2 hd hrb hc
      rw [@parseValue_number _ _ _ _ b (tail ++ c :: rest) _ hs (by rw [ht2, hb]; simp) hb',
        hiv]
      exact ⟨_, by rw [Nat.add_assoc], by simp [observed, JsonValue.fresh]⟩

theorem parseArrayLoop_close {t : List Nat} {cur : Nat} {ws rest : List Nat} (f : Nat)
    (self : JsonValue) (os : Nat) (h : t.drop cur = ws ++ 93 :: rest)
    (hws : ∀ x ∈ ws, isspace x = true ∧ x ≠ 0) :
    parseArrayLoop (f + 1) t self os cur = (self, Except.ok (cur + ws.length + 1)) := by
  rw [parseArrayLoop, skipWhitespace_run h hws (by decide) (by decide)]
  simp [byteAt_of_drop (drop_add_of_drop h)]

theorem parseArrayLoop_comma {t : List Nat} {cur : Nat} {rest : List Nat} (f : Nat)
    (self : JsonValue) (os : Nat) (h : t.drop cur = 44 :: rest) :
    parseArrayLoop (f + 1) t self os cur = parseArrayLoop f t self os (cur + 1) := by
  rw [parseArrayLoop, skipWhitespace_stay h (by decide) (by decide)]
  simp [byteAt_of_drop h]

theorem parseObjectLoop_close {t : List Nat} {cur : Nat} {ws rest : List Nat} (f : Nat)
    (self : JsonValue) (os : Nat) (h : t.drop cur = ws ++ 125 :: rest)
    (hws : ∀ x ∈ ws, isspace x = true ∧ x ≠ 0) :
    parseObjectLoop (f + 1) t self os cur = (self, Except.ok (cur + ws.length + 1)) := by
  rw [parseObjectLoop, skipWhitespace_run h hws (by decide) (by decide)]
  simp [byteAt_of_drop (drop_add_of_drop h)]

theorem arrayElementsText_false (ni : List Nat) (x : JsonValue) (l : List JsonValue) :
    arrayElementsText ni (x :: l) false = 44 :: arrayElementsText ni (x :: l) true := by
  simp [arrayElementsText]

theorem objectEntriesText_false (ni : List Nat) (e : List Nat × JsonValue)
    (l : List (List Nat × JsonValue)) :
    objectEntriesText ni (e :: l) false = 44 :: objectEntriesText ni (e :: l) true := by
  obtain ⟨k, v⟩ := e
  simp [objectEntriesText]

theorem arrayElementsText_cons (ni : List Nat) (v : JsonValue) (l : List JsonValue) :
    arrayElementsText ni (v :: l) true
      = (10 :: ni) ++ (prettyPrint v [] ni ++ arrayElementsText ni l false) := by
  simp [arrayElementsText]

theorem arrayLoop_readsBack (indent : List Nat) (hind : ∀ x ∈ indent, x = 32)
    (l : List JsonValue) :
    (∀ x ∈ l, Printable x) → (∀ x ∈ l, ReadsBack x) →
    ∀ (f : Nat) (t : List Nat) (cur : Nat) (self : JsonValue) (os : Nat) (rest : List Nat),
      t.drop cur = arrayElementsText (indent ++ [32, 32, 32, 32]) l true
        ++ 10 :: (indent ++ 93 :: rest) →
      2 * (t.length - cur) + 2 ≤ f →
      ∃ ws, parseArrayLoop f t self os cur
          = ({ self with theArray_f := self.theArray_f ++ ws },
              Except.ok (cur + (arrayElementsText (indent ++ [32, 32, 32, 32]) l true).length
                + indent.length + 2))
        ∧ observed.elems ws = observed.elems l := by
  induction l with
  | nil =>
    intro _ _ f t cur self os rest ht hf
    cases f with
    | zero => omega
    | succ f =>
      simp only [arrayElementsText, List.nil_append] at ht ⊢
      rw [@parseArrayLoop_close _ _ (10 :: indent) _ f self os (by simpa using ht)
        (newline_spaces_isspace hind)]
      refine ⟨[], ?_, rfl⟩
      simp only [List.append_nil, List.length_cons, List.length_nil]
      rw [show cur + (indent.length + 1) + 1 = cur + 0 + indent.length + 2 by omega]
      cases self
      rfl
  | cons v l ih =>
    intro hp hrb f t cur self os rest ht hf
    have hpv := hp v (List.mem_cons_self _ _)
    have hrv := hrb v (List.mem_cons_self _ _)
    have ih' := ih (fun x hx => hp x (List.mem_cons_of_mem _ hx))
      (fun x hx => hrb x (List.mem_cons_of_mem _ hx))
    have hni := indent_step hind
    generalize hnidef : indent ++ [32, 32, 32, 32] = ni at *
    obtain ⟨b, tail, hb, hvs⟩ := prettyPrint_head hpv.1 ni
    obtain ⟨hsp, h35, h0, h93, h44, -⟩ := valueStart_facts hvs
    have hlen := length_of_drop ht
    rw [arrayElementsText_cons, List.append_assoc] at ht
    rw [arrayElementsText_cons] at hlen ⊢
    have hplen : (prettyPrint v [] ni).length = tail.length + 1 := by rw [hb]; rfl
    cases f with
    | zero => omega
    | succ f =>
      have hs : skipWhitespace t cur = Except.ok (cur + (10 :: ni).length) := by
        refine skipWhitespace_run (c := b)
          (r := tail ++ arrayElementsText ni l false ++ 10 :: (indent ++ 93 :: rest)) ?_
          (newline_spaces_isspace hni) hsp h35
        rw [ht, hb]
        simp
      have ht2 := drop_add_of_drop ht
      have hbyte : byteAt t (cur + (10 :: ni).length) = b := by
        rw [hb] at ht2
        exact byteAt_of_drop ht2
      rw [parseArrayLoop, hs]
      simp only [hbyte, h0, h93, h44, if_false]
      obtain ⟨c, rest1, hc, htail⟩ : ∃ c rest1, (c = 44 ∨ c = 10)
          ∧ arrayElementsText ni l false ++ 10 :: (indent ++ 93 :: rest) = c :: rest1 := by
        cases l with
        | nil => exact ⟨10, indent ++ 93 :: rest, Or.inr rfl, by simp [arrayElementsText]⟩
        | cons x l1 =>
          exact ⟨44, arrayElementsText ni (x :: l1) true ++ 10 :: (indent ++ 93 :: rest),
            Or.inl rfl, by rw [arrayElementsText_false]; rfl⟩
      rw [List.append_assoc] at ht2
      obtain ⟨w, hw, hobs⟩ := hrv f t (cur + (10 :: ni).length) [] ni c rest1
        (by rw [ht2, htail]; simp) (by simp) hc hni (by omega)
      rw [hw]
      simp only [List.length_nil, Nat.add_zero]
      have ht3 := drop_add_of_drop ht2
      simp only [List.length_cons, List.length_append] at hlen ht3 ⊢
      cases l with
      | nil =>
        obtain ⟨ws, hws, hwo⟩ := ih' f t _
          { self with theArray_f := self.theArray_f ++ [w] } os rest
          (by simpa [arrayElementsText] using ht3) (by omega)
        rw [hws]
        refine ⟨w :: ws, ?_, by simp [observed.elems, hobs, hwo]⟩
        simp only [arrayElementsText, List.length_nil, List.append_assoc, List.singleton_append,
          Prod.mk.injEq, Except.ok.injEq, true_and]
        omega
      | cons x l1 =>
        rw [arrayElementsText_false] at ht3 hlen ⊢
        simp only [List.cons_append, List.length_cons] at ht3 hlen ⊢
        cases f with
        | zero => omega
        | succ f =>
          rw [parseArrayLoop_comma f _ os ht3]
          obtain ⟨ws, hws, hwo⟩ := ih' f t _
            { self with theArray_f := self.theArray_f ++ [w] } os rest
            (drop_succ_of_drop ht3) (by omega)
          rw [hws]
          refine ⟨w :: ws, ?_, by simp [observed.elems, hobs, hwo]⟩
          simp only [List.append_assoc, List.singleton_append,
            Prod.mk.injEq, Except.ok.injEq, true_and]
          omega

theorem objectEntriesText_cons (ni k : List Nat) (v : JsonValue)
    (l : List (List Nat × JsonValue)) :
    objectEntriesText ni ((k, v) :: l) true
      = (10 :: ni) ++ (34 :: (k ++ 34 :: ([32, 58] ++ ([32] ++ prettyPrint v [] ni
          ++ objectEntriesText ni l false)))) := by
  simp [objectEntriesText]

theorem objectLoop_readsBack (indent : List Nat) (hind : ∀ x ∈ indent, x = 32)
    (l : List (List Nat × JsonValue)) :
    (∀ e ∈ l, Printable e.2) → (∀ e ∈ l, ReadsBack e.2) →
    (∀ e ∈ l, bytesAvoid [34, 92, 0] e.1 = true) →
    ∀ (f : Nat) (t : List Nat) (cur : Nat) (self : JsonValue) (os : Nat) (rest : List Nat),
      t.drop cur = objectEntriesText (indent ++ [32, 32, 32, 32]) l true
        ++ 10 :: (indent ++ 125 :: rest) →
      2 * (t.length - cur) + 2 ≤ f →
      ∃ ws, parseObjectLoop f t self os cur
          = ({ self with
                nameValPairs_f := assignAll self.nameValPairs_f ws,
                nameValsInOrder_f := self.nameValsInOrder_f ++ ws },
              Except.ok (cur + (objectEntriesText (indent ++ [32, 32, 32, 32]) l true).length
                + indent.length + 2))
        ∧ observed.pairs ws = observed.pairs l := by
  induction l with
  | nil =>
    intro _ _ _ f t cur self os rest ht hf
    cases f with
    | zero => omega
    | succ f =>
      simp only [objectEntriesText, List.nil_append] at ht ⊢
      rw [@parseObjectLoop_close _ _ (10 :: indent) _ f self os (by simpa using ht)
        (newline_spaces_isspace hind)]
      refine ⟨[], ?_, rfl⟩
      simp only [List.append_nil, List.length_cons, List.length_nil, assignAll, List.foldl_nil]
      rw [show cur + (indent.length + 1) + 1 = cur + 0 + indent.length + 2 by omega]
      cases self
      rfl
  | cons e l ih =>
    obtain ⟨k, v⟩ := e
    intro hp hrb hkeys f t cur self os rest ht hf
    have hpv : Printable v := hp (k, v) (List.mem_cons_self _ _)
    have hrv : ReadsBack v := hrb (k, v) (List.mem_cons_self _ _)
    have hk : bytesAvoid [34, 92, 0] k = true := hkeys (k, v) (List.mem_cons_self _ _)
    have ih' := ih (fun x hx => hp x (List.mem_cons_of_mem _ hx))
      (fun x hx => hrb x (List.mem_cons_of_mem _ hx))
      (fun x hx => hkeys x (List.mem_cons_of_mem _ hx))
    have hni := indent_step hind
    generalize hnidef : indent ++ [32, 32, 32, 32] = ni at *
    have hlen := length_of_drop ht
    rw [objectEntriesText_cons, List.append_assoc] at ht
    rw [objectEntriesText_cons] at hlen ⊢
    cases f with
    | zero => omega
    | succ f =>
      have hs : skipWhitespace t cur = Except.ok (cur + (10 :: ni).length) :=
        skipWhitespace_run ht (newline_spaces_isspace hni) (by decide) (by decide)
      have ht2 := drop_add_of_drop ht
      have hbyte : byteAt t (cur + (10 :: ni).length) = 34 := byteAt_of_drop ht2
      rw [parseObjectLoop, hs]
      simp only [hbyte, if_false, show (34 : Nat) ≠ 125 by decide, show (34 : Nat) ≠ 0 by decide,
        show ¬ (34 : Nat) = 125 by decide, show ¬ (34 : Nat) = 0 by decide]
      simp only [List.cons_append, List.append_assoc, List.nil_append] at ht2
      rw [parseString_plain ht2 hk]
      simp only []
      have ht3 : t.drop (cur + (10 :: ni).length + k.length + 2)
          = 32 :: 58 :: 32 :: (prettyPrint v [] ni
              ++ (objectEntriesText ni l false ++ 10 :: (indent ++ 125 :: rest))) := by
        have h1 := drop_succ_of_drop ht2
        have h2 := drop_succ_of_drop (drop_add_of_drop h1)
        rw [← h2]
        congr 1
        omega
      have hs2 : skipWhitespace t (cur + (10 :: ni).length + k.length + 2)
          = Except.ok (cur + (10 :: ni).length + k.length + 2 + 1) :=
        @skipWhitespace_run _ _ _ [32] _ ht3 (by decide) (by decide) (by decide)
      have ht4 := drop_succ_of_drop ht3
      rw [hs2]
      simp only [byteAt_of_drop ht4, ne_eq, not_true_eq_false, if_false]
      have ht5 := drop_succ_of_drop ht4
      obtain ⟨c, rest1, hc, htail⟩ : ∃ c rest1, (c = 44 ∨ c = 10)
          ∧ objectEntriesText ni l false ++ 10 :: (indent ++ 125 :: rest) = c :: rest1 := by
        cases l with
        | nil => exact ⟨10, indent ++ 125 :: rest, Or.inr rfl, by simp [objectEntriesText]⟩
        | cons x l1 =>
          exact ⟨44, objectEntriesText ni (x :: l1) true ++ 10 :: (indent ++ 125 :: rest),
            Or.inl rfl, by rw [objectEntriesText_false]; rfl⟩
      simp only [List.length_cons, List.length_append, List.length_nil] at hlen
      obtain ⟨w, hw, hobs⟩ := hrv f t _ [32] ni c rest1
        (by rw [ht5, htail]; simp) (by simp) hc hni (by
          simp only [List.length_cons]
          omega)
      rw [hw]
      simp only []
      have ht6 : t.drop (cur + (10 :: ni).length + k.length + 2 + 1 + 1 + [32].length
          + (prettyPrint v [] ni).length)
          = objectEntriesText ni l false ++ 10 :: (indent ++ 125 :: rest) := by
        have h1 := drop_succ_of_drop ht5
        have h2 := drop_add_of_drop h1
        rw [← h2]
        congr 1
      simp only [List.length_cons, List.length_append, List.length_nil] at ht6 hlen ⊢
      cases l with
      | nil =>
        simp only [objectEntriesText, List.nil_append] at ht6
        rw [@skipWhitespace_run _ _ _ (10 :: indent) _ ht6 (newline_spaces_isspace hind)
          (by decide) (by decide)]
        have ht7 := drop_add_of_drop (a := 10 :: indent) ht6
        simp only [byteAt_of_drop ht7, show ¬ (125 : Nat) = 44 by decide, if_false, if_true]
        cases f with
        | zero => omega
        | succ f =>
          rw [@parseObjectLoop_close _ _ [] _ f _ _ ht7 (by simp)]
          refine ⟨[(k, w)], ?_, by simp [observed.pairs, hobs]⟩
          simp only [objectEntriesText, List.length_nil, List.length_cons, assignAll,
            List.foldl_cons, List.foldl_nil, Prod.mk.injEq, Except.ok.injEq, true_and]
          omega
      | cons x l1 =>
        rw [objectEntriesText_false] at ht6 hlen ⊢
        simp only [List.cons_append, List.length_cons] at ht6 hlen ⊢
        rw [skipWhitespace_stay ht6 (by decide) (by decide)]
        simp only [byteAt_of_drop ht6, if_true]
        obtain ⟨ws, hws, hwo⟩ := ih' f t _
          { self with
            nameValPairs_f := mapAssign self.nameValPairs_f k w,
            nameValsInOrder_f := self.nameValsInOrder_f ++ [(k, w)] }
          (cur + (ni.length + 1)) rest
          (drop_succ_of_drop ht6) (by omega)
        rw [hws]
        refine ⟨(k, w) :: ws, ?_, by simp [observed.pairs, hobs, hwo]⟩
        simp only [List.append_assoc, List.singleton_append, assignAll, List.foldl_cons,
          Prod.mk.injEq, Except.ok.injEq, true_and]
        omega

theorem observed_object {v w : JsonValue} (hv : v.type_f = JSON_OBJECT)
    (hw : w.type_f = JSON_OBJECT)
    (hm : observed.pairs w.nameValPairs_f = observed.pairs v.nameValPairs_f)
    (hl : observed.pairs w.nameValsInOrder_f = observed.pairs v.nameValsInOrder_f) :
    observed w = observed v := by
  obtain ⟨ty, m, l, s, b, n, f, a⟩ := v
  obtain ⟨ty1, m1, l1, s1, b1, n1, f1, a1⟩ := w
  simp only at hv hw hm hl
  subst hv hw
  simp only [observed, hm, hl]

theorem observed_array {v w : JsonValue} (hv : v.type_f = JSON_ARRAY)
    (hw : w.type_f = JSON_ARRAY)
    (ha : observed.elems w.theArray_f = observed.elems v.theArray_f) :
    observed w = observed v := by
  obtain ⟨ty, m, l, s, b, n, f, a⟩ := v
  obtain ⟨ty1, m1, l1, s1, b1, n1, f1, a1⟩ := w
  simp only at hv hw ha
  subst hv hw
  simp only [observed, ha]

theorem readsBack_object {v : JsonValue} (hp : Printable v) (hty : v.type_f = JSON_OBJECT)
    (ih : ∀ e ∈ v.nameValsInOrder_f, ReadsBack e.2) : ReadsBack v := by
  intro f t cur ws indent c rest ht hws hc hind hf
  have hpl := (printable_iff v hp).1
  obtain ⟨hg, hcl, hfl⟩ := hp
  have hn := hg v (IsNode.self v)
  rw [allNodes_iff] at hcl
  have hkeys : ∀ e ∈ v.nameValsInOrder_f, bytesAvoid [34, 92, 0] e.1 = true := by
    have h1 := hcl.1
    unfold cleanNode at h1
    simp only [Bool.and_eq_true, List.all_eq_true] at h1
    exact h1.2
  rw [prettyPrint_object hty] at ht ⊢
  simp only [List.nil_append, List.append_assoc, List.singleton_append, List.cons_append] at ht
  have hlen := length_of_drop ht
  cases f with
  | zero => omega
  | succ f =>
    have hs : skipWhitespace t cur = Except.ok (cur + ws.length) :=
      skipWhitespace_run ht (spaces_isspace hws) (by decide) (by decide)
    have ht2 := drop_add_of_drop ht
    rw [parseValue, hs]
    simp only [byteAt_of_drop ht2, show ¬ (123 : Nat) = 0 by decide,
      show ¬ (123 : Nat) = 34 by decide, if_false, if_true]
    simp only [List.length_cons, List.length_append, List.length_nil] at hlen
    obtain ⟨es, hes, hobs⟩ := objectLoop_readsBack indent hind v.nameValsInOrder_f hpl ih hkeys
      f t (cur + ws.length + 1) { JsonValue.fresh with type_f := JSON_OBJECT }
      (cur + ws.length + 1) (c :: rest) (drop_succ_of_drop ht2) (by omega)
    rw [hes]
    refine ⟨_, Prod.ext rfl ?_, ?_⟩
    · simp only [Except.ok.injEq, List.length_cons, List.length_append,
        List.length_nil, List.nil_append]
      omega
    · refine observed_object hty rfl ?_ ?_
      · simp only [JsonValue.fresh]
        rw [hn.1 hty, observed_pairs_assignAll, observed_pairs_assignAll, hobs]
      · simpa [JsonValue.fresh] using hobs

theorem readsBack_array {v : JsonValue} (hp : Printable v) (hty : v.type_f = JSON_ARRAY)
    (ih : ∀ x ∈ v.theArray_f, ReadsBack x) : ReadsBack v := by
  intro f t cur ws indent c rest ht hws hc hind hf
  have hpl := (printable_iff v hp).2
  rw [prettyPrint_array hty] at ht ⊢
  simp only [List.nil_append, List.append_assoc, List.singleton_append, List.cons_append] at ht
  have hlen := length_of_drop ht
  cases f with
  | zero => omega
  | succ f =>
    have hs : skipWhitespace t cur = Except.ok (cur + ws.length) :=
      skipWhitespace_run ht (spaces_isspace hws) (by decide) (by decide)
    have ht2 := drop_add_of_drop ht
    rw [parseValue, hs]
    simp only [byteAt_of_drop ht2, show ¬ (91 : Nat) = 0 by decide,
      show ¬ (91 : Nat) = 34 by decide, show ¬ (91 : Nat) = 123 by decide, if_false, if_true]
    simp only [List.length_cons, List.length_append, List.length_nil] at hlen
    obtain ⟨es, hes, hobs⟩ := arrayLoop_readsBack indent hind v.theArray_f hpl ih
      f t (cur + ws.length + 1) { JsonValue.fresh with type_f := JSON_ARRAY }
      (cur + ws.length + 1) (c :: rest) (drop_succ_of_drop ht2) (by omega)
    rw [hes]
    refine ⟨_, Prod.ext rfl ?_, ?_⟩
    · simp only [Except.ok.injEq, List.length_cons, List.length_append,
        List.length_nil, List.nil_append]
      omega
    · refine observed_array hty rfl ?_
      simpa [JsonValue.fresh] using hobs

/-- Every printable tree is read back from its printed text. -/
theorem printable_readsBack : ∀ v : JsonValue, Printable v → ReadsBack v := by
  refine JsonValue.induction ?_
  intro v ihl iha hp
  have hpi := printable_iff v hp
  by_cases h1 : v.type_f = JSON_OBJECT
  · exact readsBack_object hp h1 (fun e he => ihl e he (hpi.1 e he))
  · by_cases h2 : v.type_f = JSON_ARRAY
    · exact readsBack_array hp h2 (fun x hx => iha x hx (hpi.2 x hx))
    · exact readsBack_scalar hp h1 h2

theorem skipWhitespace_end {t : List Nat} {n : Nat} (h : t.drop n = []) :
    skipWhitespace t n = Except.ok n := by
  have hl : t.length - n = 0 := by
    have := length_of_drop h
    simpa using this.symm
  unfold skipWhitespace
  rw [skipWhitespaceLoop, hl]
  simp [skipSpaces, byteAt_of_drop_nil h]

theorem parse_eq_of_ok {self : JsonValue} {t : List Nat}
    (h : (parse self t).2 = Except.ok ()) : parse self t = ((parse self t).1, Except.ok ()) :=
  Prod.ext rfl h

theorem zpow_two_add (c : Nat) (e : Int) :
    (2 : ℚ) ^ ((c : Int) + e) = (2 : ℚ) ^ c * (2 : ℚ) ^ e := by
  rw [zpow_add₀ (by norm_num), zpow_natCast]

/-- A positive fraction that differs from the canonical double `m * 2^e` by at most the
`2 * 10^16`-th part of it is rounded to that double. -/
theorem toDouble_near (neg : Bool) (num den m : Nat) (e : Int) (hn : 0 < num) (hd : 0 < den)
    (hc : canonical m e) (hm : 0 < m)
    (h : |(num : ℚ) / den - (m : ℚ) * (2 : ℚ) ^ e| * (2 * 10 ^ 16)
      ≤ (m : ℚ) * (2 : ℚ) ^ e) :
    toDouble neg num den = Double.finite neg m e := by
  have hu : (0 : ℚ) < (2 : ℚ) ^ e := by positivity
  have hm53 : m < 2 ^ 53 := by
    rcases hc with ⟨h1, -⟩ | ⟨-, h1, -⟩
    · exact lt_trans h1 (by norm_num)
    · exact h1
  have he1 : -1074 ≤ e := by rcases hc with ⟨-, h1⟩ | ⟨-, -, h1, -⟩ <;> omega
  have he2 : e ≤ 971 := by rcases hc with ⟨-, h1⟩ | ⟨-, -, -, h1⟩ <;> omega
  have hmq1 : (1 : ℚ) ≤ (m : ℚ) := by exact_mod_cast hm
  have hmq2 : (m : ℚ) ≤ 2 ^ 53 - 1 := by
    have : m + 1 ≤ 2 ^ 53 := hm53
    have h2 : ((m + 1 : ℕ) : ℚ) ≤ ((2 ^ 53 : ℕ) : ℚ) := by exact_mod_cast this
    push_cast at h2
    linarith
  generalize hy : (num : ℚ) / (den : ℚ) = y at h
  generalize hug : (2 : ℚ) ^ e = u at h hu
  have hX1 : (m : ℚ) * u ≤ (2 ^ 53 - 1) * u := mul_le_mul_of_nonneg_right hmq2 (le_of_lt hu)
  have hX0 : u ≤ (m : ℚ) * u := by nlinarith
  have habs := abs_le.1 (le_of_mul_le_mul_right (a := 2 * 10 ^ 16) (b := |y - (m : ℚ) * u|)
    (c := (m : ℚ) * u / (2 * 10 ^ 16)) (by
      rw [div_mul_cancel₀ _ (by norm_num : (2 * 10 ^ 16 : ℚ) ≠ 0)]
      exact h) (by norm_num))
  obtain ⟨hd1, hd2⟩ := habs
  have hdiv : (m : ℚ) * u / (2 * 10 ^ 16) ≤ (2 ^ 53 - 1) * u / (2 * 10 ^ 16) :=
    div_le_div_of_nonneg_right hX1 (by norm_num)
  have hb1 : (2 ^ 53 - 1) * u / (2 * 10 ^ 16) < u / 2 := by
    rw [div_lt_div_iff₀ (by norm_num) (by norm_num)]
    nlinarith
  -- the quotient by a power of two, as a distance
  have hquot : ∀ (k : ℚ) (N : ℚ), 0 < k → |y - N * k| < k / 2 → |y / k - N| < 1 / 2 := by
    intro k N hk hlt
    have : y / k - N = (y - N * k) / k := by
      field_simp
      ring
    rw [this, abs_div, abs_of_pos hk, div_lt_iff₀ hk]
    linarith
  have e52 : ((2 : ℚ) ^ (52 : ℕ)) = 4503599627370496 := by norm_num
  have e53 : ((2 : ℚ) ^ (53 : ℕ)) = 9007199254740992 := by norm_num
  have p52 : (2 : ℚ) ^ ((52 : ℕ) + e : Int) = 4503599627370496 * u := by
    rw [zpow_two_add, hug, e52]
  have p53 : (2 : ℚ) ^ ((53 : ℕ) + e : Int) = 9007199254740992 * u := by
    rw [zpow_two_add, hug, e53]
  have p51 : (2 : ℚ) ^ ((51 : ℕ) + e : Int) = 2251799813685248 * u := by
    rw [zpow_two_add, hug]
    norm_num
  by_cases hbig : y < 4503599627370496 * u
  · -- below the least normal significand at this exponent
    by_cases hsub : m < 2 ^ 52
    · -- zero or subnormal
      have he : e = -1074 := by
        rcases hc with ⟨-, h1⟩ | ⟨h1, -⟩
        · exact h1
        · omega
      have hres := toDouble_eq neg num den hn hd (-1074) m (by
          intro L h1 h2
          rw [hy] at h1
          have hlt := zpow_two_lt h1 (by rw [p52]; exact hbig)
          rw [he] at hlt
          push_cast at hlt
          exact max_eq_right (by omega)) (by
          rw [hy, ← he, hug]
          exact hquot u m hu (by rw [abs_lt]; constructor <;> linarith))
      rw [hres]
      have hne : m ≠ 2 ^ 53 := by omega
      simp only [hne, if_false]
      rw [if_neg (by omega), he]
    · -- the significand is `2^52` and the fraction lies just below the double
      have hm52 : m = 2 ^ 52 := by
        by_contra hne
        have h1 : 2 ^ 52 + 1 ≤ m := by omega
        have h2 : ((2 ^ 52 + 1 : ℕ) : ℚ) ≤ (m : ℚ) := by exact_mod_cast h1
        push_cast at h2
        have h3 : (4503599627370496 + 1) * u ≤ (m : ℚ) * u :=
          mul_le_mul_of_nonneg_right (by linarith) (le_of_lt hu)
        linarith
      have hmq : (m : ℚ) = 4503599627370496 := by rw [hm52]; norm_num
      rw [hmq] at hd1 hd2 h
      by_cases he : e = -1074
      · have hres := toDouble_eq neg num den hn hd (-1074) m (by
            intro L h1 h2
            rw [hy] at h1
            have hlt := zpow_two_lt h1 (by rw [p52]; exact hbig)
            rw [he] at hlt
            push_cast at hlt
            exact max_eq_right (by omega)) (by
            rw [hy, ← he, hug, hmq]
            exact hquot u _ hu (by rw [abs_lt]; constructor <;> linarith))
        rw [hres]
        have hne : m ≠ 2 ^ 53 := by omega
        simp only [hne, if_false]
        rw [if_neg (by omega), he]
      · have hu2 : (2 : ℚ) ^ (e - 1) = u / 2 := by
          rw [zpow_sub_one₀ (by norm_num), hug]
          ring
        have hres := toDouble_eq neg num den hn hd (e - 1) (2 ^ 53) (by
            intro L h1 h2
            rw [hy] at h1 h2
            have hlt := zpow_two_lt h1 (by rw [p52]; exact hbig)
            have hgt := zpow_two_lt (by rw [p51]; linarith) h2
            push_cast at hlt hgt
            rw [show L = 51 + e by omega]
            exact (max_eq_left (by omega)).trans (by ring)) (by
            rw [hy, hu2]
            have := hquot (u / 2) ((2 ^ 53 : ℕ) : ℚ) (by positivity) (by
              rw [abs_lt]
              push_cast
              constructor <;> linarith)
            exact this)
        rw [hres]
        simp only [if_true]
        rw [if_neg (by omega), hm52]
        congr 1
        ring
  · -- at or above the least normal significand
    have hy1 : 4503599627370496 * u ≤ y := not_lt.1 hbig
    have hm52 : 2 ^ 52 ≤ m := by
      by_contra hlt
      have h1 : m + 1 ≤ 2 ^ 52 := by omega
      have h2 : ((m + 1 : ℕ) : ℚ) ≤ ((2 ^ 52 : ℕ) : ℚ) := by exact_mod_cast h1
      push_cast at h2
      have h3 : (m : ℚ) * u ≤ (4503599627370496 - 1) * u :=
        mul_le_mul_of_nonneg_right (by linarith) (le_of_lt hu)
      linarith
    have hres := toDouble_eq neg num den hn hd e m (by
        intro L h1 h2
        rw [hy] at h1 h2
        have hlt := zpow_two_lt h1 (by rw [p53]; linarith :
          y < (2 : ℚ) ^ ((53 : ℕ) + e : Int))
        have hgt := zpow_two_lt (by rw [p52]; exact hy1) h2
        push_cast at hlt hgt
        rw [show L = 52 + e by omega]
        exact (max_eq_left (by omega)).trans (by ring)) (by
        rw [hy, hug]
        exact hquot u m hu (by rw [abs_lt]; constructor <;> linarith))
    rw [hres]
    have hne : m ≠ 2 ^ 53 := by omega
    simp only [hne, if_false]
    rw [if_neg (by omega)]

theorem takeWhile_all {p : Nat → Bool} {a : List Nat} (ha : ∀ x ∈ a, p x = true) :
    a.takeWhile p = a :=
  List.takeWhile_eq_self_iff.2 ha

theorem scanExponent_signed (eneg : Bool) (expds : List Nat)
    (hexp : ∀ x ∈ expds, 48 ≤ x ∧ x ≤ 57) (hne : expds ≠ []) :
    scanExponent (101 :: (if eneg then 45 else 43) :: expds) 101 69
      = some ((if eneg then -(digitsValue 10 expds : Int) else (digitsValue 10 expds : Int)),
          2 + expds.length) := by
  have hall : ∀ x ∈ expds, isDigitOf 10 x = true := fun x hx =>
    isDigitOf_ten (hexp x hx).1 (hexp x hx).2
  have hemp : expds.isEmpty = false := by
    cases expds with
    | nil => exact absurd rfl hne
    | cons a l => rfl
  unfold scanExponent
  cases eneg with
  | true =>
    simp only [beq_self_eq_true, Bool.true_or, if_true, List.head?_cons, List.tail_cons,
      takeWhile_all hall, hemp, Bool.false_eq_true, if_false]
  | false =>
    simp only [beq_self_eq_true, Bool.true_or, if_true, List.head?_cons, List.tail_cons,
      takeWhile_all hall, hemp, Bool.false_eq_true, if_false, Bool.or_true]
    have e : (some 43 == some 45) = false := by decide
    simp only [e, Bool.false_eq_true, if_false]

theorem scanMantissa_scientific (neg : Bool) (d1 : Nat) (rest expTail : List Nat) (v : Int)
    (k : Nat) (hd1 : 48 ≤ d1 ∧ d1 ≤ 57) (hrest : ∀ x ∈ rest, 48 ≤ x ∧ x ≤ 57)
    (hex : scanExponent (101 :: expTail) 101 69 = some (v, k)) :
    scanMantissa (d1 :: 46 :: (rest ++ 101 :: expTail)) neg false
      = some (scaledDouble neg (digitsValue 10 (d1 :: rest)) 10 (v - (rest.length : Int)),
          2 + rest.length + k) := by
  have hd : isDigitOf 10 d1 = true := isDigitOf_ten hd1.1 hd1.2
  have h46 : isDigitOf 10 46 = false := by decide
  have h101 : isDigitOf 10 101 = false := by decide
  have hall : ∀ x ∈ rest, isDigitOf 10 x = true := fun x hx =>
    isDigitOf_ten (hrest x hx).1 (hrest x hx).2
  have hip : (d1 :: 46 :: (rest ++ 101 :: expTail)).takeWhile (isDigitOf 10) = [d1] := by
    simp [List.takeWhile_cons, hd, h46]
  have hfp : (rest ++ 101 :: expTail).takeWhile (isDigitOf 10) = rest :=
    takeWhile_run hall h101
  have hdrop : (d1 :: 46 :: (rest ++ 101 :: expTail)).drop (1 + 1 + rest.length)
      = 101 :: expTail := by
    rw [show 1 + 1 + rest.length = rest.length + 1 + 1 by omega, List.drop_succ_cons,
      List.drop_succ_cons, List.drop_left']
    rfl
  unfold scanMantissa
  simp only [Bool.false_eq_true, if_false, hip, List.length_cons, List.length_nil, Nat.zero_add,
    List.drop_succ_cons, List.drop_zero, List.head?_cons, beq_self_eq_true, if_true,
    List.tail_cons, hfp, List.isEmpty_cons, Bool.false_and, hdrop, hex, List.singleton_append]

theorem strtodUnsigned_of_point (d1 : Nat) (X : List Nat) (neg : Bool) :
    strtodUnsigned (d1 :: 46 :: X) neg = scanMantissa (d1 :: 46 :: X) neg false := by
  unfold strtodUnsigned
  split
  · rename_i x r hr
    simp only [List.cons.injEq] at hr
    obtain ⟨-, hx, -⟩ := hr
    subst hx
    simp
  · simp

theorem numberByte_digit {c : Nat} (h : 48 ≤ c ∧ c ≤ 57) : numberByte c = true := by
  have key : ∀ x : Nat, x ≤ 57 → 48 ≤ x → numberByte x = true := by decide
  exact key c h.2 h.1

/-- What `strtod` reads from a text in scientific notation followed by a comma: an optional
minus sign, one digit, the point, digits, `e`, a sign and exponent digits. -/
theorem strtodAt_scientific (s eneg : Bool) (d1 : Nat) (rest expds : List Nat)
    (hd1 : 48 ≤ d1 ∧ d1 ≤ 57) (hrest : ∀ x ∈ rest, 48 ≤ x ∧ x ≤ 57)
    (hexp : ∀ x ∈ expds, 48 ≤ x ∧ x ≤ 57) (hne : expds ≠ []) :
    strtodAt ((if s then [45] else []) ++ d1 :: 46 :: (rest ++ 101 ::
        (if eneg then 45 else 43) :: expds) ++ [44])
      = (scaledDouble s (digitsValue 10 (d1 :: rest)) 10
          ((if eneg then -(digitsValue 10 expds : Int) else (digitsValue 10 expds : Int))
            - (rest.length : Int)),
        ((if s then [45] else []) ++ d1 :: 46 :: (rest ++ 101 ::
          (if eneg then 45 else 43) :: expds)).length) := by
  have hsp : isspace d1 = false := isspace_of_ge (by omega)
  have hU : ∀ x ∈ d1 :: 46 :: (rest ++ 101 :: (if eneg then 45 else 43) :: expds),
      numberByte x = true := by
    intro x hx
    simp only [List.mem_cons, List.mem_append] at hx
    rcases hx with hx | hx | hx | hx | hx | hx
    · rw [hx]; exact numberByte_digit hd1
    · rw [hx]; decide
    · exact numberByte_digit (hrest x hx)
    · rw [hx]; decide
    · rw [hx]; cases eneg <;> decide
    · exact numberByte_digit (hexp x hx)
  have h44 : numberByte 44 = false := by decide
  have hsm := scanMantissa_scientific s d1 rest ((if eneg then 45 else 43) :: expds) _ _ hd1
    hrest (scanExponent_signed eneg expds hexp hne)
  generalize hUdef : d1 :: 46 :: (rest ++ 101 :: (if eneg then 45 else 43) :: expds) = U
    at hU hsm ⊢
  have hUun : strtodUnsigned U s = scanMantissa U s false := by
    rw [← hUdef]; exact strtodUnsigned_of_point _ _ _
  have hlen : U.length = 2 + rest.length + (2 + expds.length) := by
    rw [← hUdef]
    simp only [List.length_cons, List.length_append]
    omega
  cases s with
  | true =>
    have htok : (45 :: (U ++ [44])).takeWhile numberByte = 45 :: U := by
      rw [← List.cons_append, takeWhile_run (a := 45 :: U) (fun x hx => by
        rcases List.mem_cons.1 hx with hx | hx
        · rw [hx]; decide
        · exact hU x hx) h44]
    unfold strtodAt
    simp only [if_true, List.singleton_append, List.cons_append,
      List.dropWhile_cons_of_neg (by decide : ¬ isspace 45 = true), htok, List.head?_cons,
      beq_self_eq_true, Bool.true_or, List.tail_cons, hUun, hsm, Nat.sub_self,
      List.length_cons, hlen, List.nil_append]
    congr 1
    omega
  | false =>
    have htok : (U ++ [44]).takeWhile numberByte = U := takeWhile_run hU h44
    have hhead : U.head? = some d1 := by rw [← hUdef]; rfl
    have hdw : (U ++ [44]).dropWhile isspace = U ++ [44] := by
      rw [← hUdef]
      exact List.dropWhile_cons_of_neg (by simp [hsp])
    have e1 : (some d1 == some 45) = false := by
      simp only [beq_eq_false_iff_ne, ne_eq, Option.some.injEq]; omega
    have e2 : (some d1 == some 43) = false := by
      simp only [beq_eq_false_iff_ne, ne_eq, Option.some.injEq]; omega
    unfold strtodAt
    simp only [Bool.false_eq_true, if_false, List.nil_append, hdw, htok, hhead, e1, e2,
      Bool.or_self, hUun, hsm, Nat.sub_self, hlen]
    congr 1
    omega

theorem natToDecimal_length (n : Nat) (hn : 0 < n) :
    0 < (natToDecimal n).length ∧ 10 ^ ((natToDecimal n).length - 1) ≤ n
      ∧ n < 10 ^ (natToDecimal n).length := by
  induction n using Nat.strong_induction_on with
  | _ n ih =>
    by_cases h : n < 10
    · rw [natToDecimal_small h]
      simp only [List.length_singleton, Nat.sub_self, pow_zero, pow_one]
      omega
    · obtain ⟨h0, h1, h2⟩ := ih (n / 10) (Nat.div_lt_self (by omega) (by omega)) (by omega)
      rw [natToDecimal_step (by omega)]
      simp only [List.length_append, List.length_singleton, Nat.add_sub_cancel]
      refine ⟨by omega, ?_, ?_⟩
      · have e : 10 ^ (natToDecimal (n / 10)).length
            = 10 ^ ((natToDecimal (n / 10)).length - 1) * 10 := by
          rw [← pow_succ]
          congr 1
          omega
        rw [e]
        omega
      · rw [pow_succ]
        omega

theorem leastScale_spec (num den : Nat) : ∀ fuel j, (∀ i, i < j → ¬ den ≤ num * 10 ^ i) →
    den ≤ num * 10 ^ (j + fuel) →
    den ≤ num * 10 ^ leastScale fuel num den j
      ∧ (∀ i, i < leastScale fuel num den j → ¬ den ≤ num * 10 ^ i) := by
  intro fuel
  induction fuel with
  | zero =>
    intro j h1 h2
    exact ⟨h2, h1⟩
  | succ fuel ih =>
    intro j h1 h2
    rw [leastScale]
    by_cases hc : den ≤ num * 10 ^ j
    · rw [if_pos hc]
      exact ⟨hc, h1⟩
    · rw [if_neg hc]
      apply ih (j + 1)
      · intro i hi
        rcases Nat.lt_succ_iff_lt_or_eq.1 hi with hi | hi
        · exact h1 i hi
        · rw [hi]; exact hc
      · rw [show j + 1 + fuel = j + (fuel + 1) by omega]
        exact h2

/-- The decimal exponent of a positive fraction that is not below `10^-400`. -/
theorem decimalExponent_spec (num den : Nat) (hn : 0 < num) (hd : 0 < den)
    (hlow : den ≤ num * 10 ^ 400) :
    (10 : ℚ) ^ decimalExponent num den ≤ (num : ℚ) / den
      ∧ (num : ℚ) / den < (10 : ℚ) ^ (decimalExponent num den + 1) := by
  have hnq : (0 : ℚ) < num := by exact_mod_cast hn
  have hdq : (0 : ℚ) < den := by exact_mod_cast hd
  unfold decimalExponent
  by_cases hc : den ≤ num
  · rw [if_pos hc]
    have hq : 0 < num / den := Nat.div_pos hc hd
    obtain ⟨h0, h1, h2⟩ := natToDecimal_length (num / den) hq
    unfold decimalExponentNat
    generalize (natToDecimal (num / den)).length = len at h0 h1 h2
    have hdm := Nat.div_add_mod num den
    have hlt := Nat.mod_lt num hd
    generalize num / den = q at *
    generalize num % den = r at *
    have h1q : ((10 : ℚ) ^ (len - 1)) ≤ (q : ℚ) := by exact_mod_cast h1
    have h2q : (q : ℚ) + 1 ≤ (10 : ℚ) ^ len := by
      have : q + 1 ≤ 10 ^ len := h2
      exact_mod_cast this
    have hnum : (num : ℚ) = den * q + r := by
      rw [← hdm]; push_cast; ring
    have hrq : (r : ℚ) < den := by exact_mod_cast hlt
    have hr0 : (0 : ℚ) ≤ r := by positivity
    clear hlow
    constructor
    · rw [zpow_natCast, le_div_iff₀ hdq]
      have := mul_le_mul_of_nonneg_right h1q (le_of_lt hdq)
      linarith
    · have e : ((len - 1 : ℕ) : Int) + 1 = (len : ℕ) := by omega
      rw [e, zpow_natCast, div_lt_iff₀ hdq]
      have := mul_le_mul_of_nonneg_right h2q (le_of_lt hdq)
      linarith
  · rw [if_neg hc]
    obtain ⟨h1, h2⟩ := leastScale_spec num den 400 0 (fun i hi => by omega)
      (by rw [Nat.zero_add]; exact hlow)
    clear hlow
    generalize leastScale 400 num den 0 = j at h1 h2
    have hj : 0 < j := by
      by_contra h0
      have : j = 0 := by omega
      subst this
      simp at h1
      exact hc h1
    have h3 := h2 (j - 1) (by omega)
    have h1q : (den : ℚ) ≤ num * (10 : ℚ) ^ j := by exact_mod_cast h1
    have h3q : (num : ℚ) * (10 : ℚ) ^ (j - 1) < den := by
      have : num * 10 ^ (j - 1) < den := by omega
      exact_mod_cast this
    have hp : (0 : ℚ) < (10 : ℚ) ^ j := by positivity
    have hp1 : (0 : ℚ) < (10 : ℚ) ^ (j - 1) := by positivity
    constructor
    · rw [zpow_neg, zpow_natCast, le_div_iff₀ hdq, inv_mul_le_iff₀ hp]
      linarith
    · have e : -(j : Int) + 1 = -((j - 1 : ℕ) : Int) := by omega
      rw [e, zpow_neg, zpow_natCast, div_lt_iff₀ hdq, lt_inv_mul_iff₀ hp1]
      linarith

theorem scaledDigits_abs (num den : Nat) (x : Int) (hd : 0 < den) :
    |(num : ℚ) / den / (10 : ℚ) ^ x - (scaledDigits num den x : ℚ)| ≤ 1 / 2 := by
  have hdq : (den : ℚ) ≠ 0 := by exact_mod_cast (Nat.pos_iff_ne_zero.1 hd)
  unfold scaledDigits
  split_ifs with hx
  · have h := roundDiv_abs num (den * 10 ^ x.toNat)
      (Nat.mul_pos hd (Nat.pow_pos (by decide)))
    have e : (10 : ℚ) ^ x = (10 : ℚ) ^ x.toNat := by
      rw [← zpow_natCast, Int.toNat_of_nonneg hx]
    rw [e, div_div]
    push_cast at h
    exact h
  · have h := roundDiv_abs (num * 10 ^ (-x).toNat) den hd
    have e : (10 : ℚ) ^ x = ((10 : ℚ) ^ (-x).toNat)⁻¹ := by
      rw [← zpow_natCast, Int.toNat_of_nonneg (by omega), zpow_neg, inv_inv]
    rw [e]
    push_cast at h
    have e2 : (num : ℚ) / den / ((10 : ℚ) ^ (-x).toNat)⁻¹
        = (num : ℚ) * (10 : ℚ) ^ (-x).toNat / den := by
      field_simp
    rw [e2]
    exact h

theorem scaledDouble_near (neg : Bool) (d m : Nat) (scale e : Int) (hd : 0 < d)
    (hc : canonical m e) (hm : 0 < m)
    (h : |(d : ℚ) * (10 : ℚ) ^ scale - (m : ℚ) * (2 : ℚ) ^ e| * (2 * 10 ^ 16)
      ≤ (m : ℚ) * (2 : ℚ) ^ e) :
    scaledDouble neg d 10 scale = Double.finite neg m e := by
  unfold scaledDouble
  split_ifs with hs
  · apply toDouble_near neg _ 1 m e (Nat.mul_pos hd (Nat.pow_pos (by decide))) (by decide) hc hm
    have e1 : (10 : ℚ) ^ scale = (10 : ℚ) ^ scale.toNat := by
      rw [← zpow_natCast, Int.toNat_of_nonneg hs]
    rw [e1] at h
    push_cast
    rw [div_one]
    exact h
  · apply toDouble_near neg d _ m e hd (Nat.pow_pos (by decide)) hc hm
    have e1 : (10 : ℚ) ^ scale = ((10 : ℚ) ^ (-scale).toNat)⁻¹ := by
      rw [← zpow_natCast, Int.toNat_of_nonneg (by omega), zpow_neg, inv_inv]
    rw [e1] at h
    push_cast
    rw [div_eq_mul_inv]
    exact h

theorem two_pow_le_ten_pow : 2 ^ 1074 ≤ 10 ^ 400 := by
  calc 2 ^ 1074 ≤ 2 ^ 1080 := Nat.pow_le_pow_right (by decide) (by decide)
    _ = (2 ^ 27) ^ 40 := by rw [← pow_mul]
    _ ≤ (10 ^ 10) ^ 40 := Nat.pow_le_pow_left (by decide) 40
    _ = 10 ^ 400 := by rw [← pow_mul]

/-- The fraction `formatDouble` takes the digits of: it is the value of the double, positive
and not below `10^-400`. -/
theorem scaleBy_value (m : Nat) (e : Int) (hm : 0 < m) (he : -1074 ≤ e) :
    0 < (scaleBy m 1 (-e)).1 ∧ 0 < (scaleBy m 1 (-e)).2
      ∧ (scaleBy m 1 (-e)).2 ≤ (scaleBy m 1 (-e)).1 * 10 ^ 400
      ∧ ((scaleBy m 1 (-e)).1 : ℚ) / ((scaleBy m 1 (-e)).2 : ℚ) = (m : ℚ) * (2 : ℚ) ^ e := by
  have hspec := scaleBy_spec m 1 (-e) (by decide)
  have hpos := scaleBy_pos m 1 (-e) (by decide)
  refine ⟨?_, hpos, ?_, ?_⟩
  · unfold scaleBy
    split_ifs
    · exact hm
    · exact Nat.mul_pos hm (Nat.pow_pos (by decide))
  · unfold scaleBy
    split_ifs with hk
    · simp only [Nat.one_mul]
      have h1 : (-e).toNat ≤ 1074 := by omega
      calc 2 ^ (-e).toNat ≤ 2 ^ 1074 := Nat.pow_le_pow_right (by decide) h1
        _ ≤ 10 ^ 400 := two_pow_le_ten_pow
        _ ≤ m * 10 ^ 400 := Nat.le_mul_of_pos_left _ hm
    · exact Nat.mul_pos (Nat.mul_pos hm (Nat.pow_pos (by decide))) (Nat.pow_pos (by decide))
  · rw [hspec, zpow_neg]
    simp

/-- The seventeen digits and the decimal exponent that `formatDouble` writes for a positive
double: the number they write differs from the double by at most its `2 * 10^16`-th part. -/
theorem formatDigits_spec (m : Nat) (e : Int) (hm : 0 < m) (he : -1074 ≤ e) (num den : Nat)
    (hnum : num = (scaleBy m 1 (-e)).1) (hden : den = (scaleBy m 1 (-e)).2) (x0 : Int)
    (hx0 : x0 = decimalExponent num den) (d0 : Nat)
    (hd0 : d0 = scaledDigits num den (x0 - 16)) :
    10 ^ 16 ≤ (if d0 = 10 ^ 17 then 10 ^ 16 else d0)
      ∧ (if d0 = 10 ^ 17 then 10 ^ 16 else d0) < 10 ^ 17
      ∧ |(((if d0 = 10 ^ 17 then 10 ^ 16 else d0 : ℕ) : ℚ))
            * (10 : ℚ) ^ ((if d0 = 10 ^ 17 then x0 + 1 else x0) - 16)
          - (m : ℚ) * (2 : ℚ) ^ e| * (2 * 10 ^ 16) ≤ (m : ℚ) * (2 : ℚ) ^ e := by
  obtain ⟨hn, hd, hlow, hval⟩ := scaleBy_value m e hm he
  rw [← hnum] at hn hlow hval
  rw [← hden] at hd hlow hval
  obtain ⟨hX1, hX2⟩ := decimalExponent_spec num den hn hd hlow
  have hr := scaledDigits_abs num den (x0 - 16) hd
  rw [← hx0] at hX1 hX2
  rw [← hd0, hval] at hr
  rw [hval] at hX1 hX2
  clear hlow hval hnum hden hd0 hx0
  generalize (m : ℚ) * (2 : ℚ) ^ e = X at hX1 hX2 hr ⊢
  have hP : (0 : ℚ) < (10 : ℚ) ^ (x0 - 16) := by positivity
  have e16 : (10 : ℚ) ^ x0 = 10 ^ 16 * (10 : ℚ) ^ (x0 - 16) := by
    rw [show x0 = ((16 : ℕ) : Int) + (x0 - 16) by push_cast; ring, zpow_add₀ (by norm_num),
      zpow_natCast]
    congr 2
    push_cast
    ring
  have e17 : (10 : ℚ) ^ (x0 + 1) = 10 ^ 17 * (10 : ℚ) ^ (x0 - 16) := by
    rw [show x0 + 1 = ((17 : ℕ) : Int) + (x0 - 16) by push_cast; ring, zpow_add₀ (by norm_num),
      zpow_natCast]
  have e15 : (10 : ℚ) ^ (x0 + 1 - 16) = 10 * (10 : ℚ) ^ (x0 - 16) := by
    rw [show x0 + 1 - 16 = ((1 : ℕ) : Int) + (x0 - 16) by push_cast; ring,
      zpow_add₀ (by norm_num), zpow_natCast, pow_one]
  rw [e16] at hX1
  rw [e17] at hX2
  generalize hPdef : (10 : ℚ) ^ (x0 - 16) = P at *
  rw [abs_le] at hr
  obtain ⟨hr1, hr2⟩ := hr
  have hq1 : (10 : ℚ) ^ 16 ≤ X / P := by rw [le_div_iff₀ hP]; exact hX1
  have hq2 : X / P < (10 : ℚ) ^ 17 := by rw [div_lt_iff₀ hP]; exact hX2
  have hd1 : 10 ^ 16 ≤ d0 := by
    have h3 : ((10 ^ 16 : ℕ) : ℚ) < (d0 : ℚ) + 1 := by push_cast; linarith
    have h4 : 10 ^ 16 < d0 + 1 := by exact_mod_cast h3
    omega
  have hd2 : d0 ≤ 10 ^ 17 := by
    have h3 : (d0 : ℚ) < ((10 ^ 17 : ℕ) : ℚ) + 1 := by push_cast; linarith
    have h4 : d0 < 10 ^ 17 + 1 := by exact_mod_cast h3
    omega
  have hXP : X = X / P * P := by field_simp
  have hbound : |(d0 : ℚ) * P - X| * (2 * 10 ^ 16) ≤ X := by
    have h5 : |(d0 : ℚ) * P - X| ≤ P / 2 := by
      rw [abs_le]
      constructor
      · nlinarith
      · nlinarith
    nlinarith [abs_nonneg ((d0 : ℚ) * P - X)]
  by_cases h17 : d0 = 10 ^ 17
  · simp only [h17, if_true]
    refine ⟨le_refl _, by norm_num, ?_⟩
    rw [e15]
    rw [h17] at hbound
    have : ((10 ^ 16 : ℕ) : ℚ) * (10 * P) = ((10 ^ 17 : ℕ) : ℚ) * P := by
      push_cast
      ring
    rw [this]
    exact hbound
  · simp only [h17, if_false]
    rw [hPdef]
    exact ⟨hd1, by omega, hbound⟩

theorem digitsValue_zeros (j : Nat) (l : List Nat) :
    digitsValue 10 (List.replicate j 48 ++ l) = digitsValue 10 l := by
  induction j with
  | zero => rfl
  | succ j ih =>
    rw [List.replicate_succ, List.cons_append]
    unfold digitsValue at ih ⊢
    rw [List.foldl_cons]
    have : (0 * 10 + (digitVal 10 48).getD 0) = 0 := by decide
    rw [this]
    exact ih

theorem digitsValue_padDecimal (w n : Nat) : digitsValue 10 (padDecimal w n) = n := by
  unfold padDecimal
  rw [digitsValue_zeros, digitsValue_natToDecimal]

theorem natToDecimal_seventeen {d : Nat} (h1 : 10 ^ 16 ≤ d) (h2 : d < 10 ^ 17) :
    (natToDecimal d).length = 17 := by
  obtain ⟨h0, hlo, hhi⟩ := natToDecimal_length d (lt_of_lt_of_le (by norm_num) h1)
  generalize (natToDecimal d).length = len at h0 hlo hhi
  have ha : len - 1 < 17 :=
    (Nat.pow_lt_pow_iff_right (by decide : 1 < 10)).1 (lt_of_le_of_lt hlo h2)
  have hb : 16 < len :=
    (Nat.pow_lt_pow_iff_right (by decide : 1 < 10)).1 (lt_of_le_of_lt h1 hhi)
  omega

/-- Every canonical double is read back by `strtod` from the text `formatDouble` writes for
it: seventeen significant digits determine a binary64 value. -/
theorem floatReadsBack_canonical (s : Bool) (m : Nat) (e : Int) (hc : canonical m e) :
    floatReadsBack (Double.finite s m e) = true := by
  have he1 : -1074 ≤ e := by rcases hc with ⟨-, h1⟩ | ⟨-, -, h1, -⟩ <;> omega
  by_cases hm0 : m = 0
  · have he : e = -1074 := by
      rcases hc with ⟨-, h1⟩ | ⟨h1, -⟩
      · exact h1
      · rw [hm0] at h1; norm_num at h1
    subst hm0 he
    cases s <;> decide!
  have hm : 0 < m := Nat.pos_of_ne_zero hm0
  obtain ⟨hd1, hd2, hnear⟩ := formatDigits_spec m e hm he1 _ _ rfl rfl _ rfl _ rfl
  have hfd : formatDouble (Double.finite s m e)
      = (if s then [45] else [])
        ++ (padDecimal 17 (if scaledDigits (scaleBy m 1 (-e)).1 (scaleBy m 1 (-e)).2
              (decimalExponent (scaleBy m 1 (-e)).1 (scaleBy m 1 (-e)).2 - 16) = 10 ^ 17
            then 10 ^ 16
            else scaledDigits (scaleBy m 1 (-e)).1 (scaleBy m 1 (-e)).2
              (decimalExponent (scaleBy m 1 (-e)).1 (scaleBy m 1 (-e)).2 - 16))).take 1
        ++ [46]
        ++ (padDecimal 17 (if scaledDigits (scaleBy m 1 (-e)).1 (scaleBy m 1 (-e)).2
              (decimalExponent (scaleBy m 1 (-e)).1 (scaleBy m 1 (-e)).2 - 16) = 10 ^ 17
            then 10 ^ 16
            else scaledDigits (scaleBy m 1 (-e)).1 (scaleBy m 1 (-e)).2
              (decimalExponent (scaleBy m 1 (-e)).1 (scaleBy m 1 (-e)).2 - 16))).drop 1
        ++ [101]
        ++ (if (if scaledDigits (scaleBy m 1 (-e)).1 (scaleBy m 1 (-e)).2
              (decimalExponent (scaleBy m 1 (-e)).1 (scaleBy m 1 (-e)).2 - 16) = 10 ^ 17
            then decimalExponent (scaleBy m 1 (-e)).1 (scaleBy m 1 (-e)).2 + 1
            else decimalExponent (scaleBy m 1 (-e)).1 (scaleBy m 1 (-e)).2) < 0
          then [45] else [43])
        ++ padDecimal 2 (if scaledDigits (scaleBy m 1 (-e)).1 (scaleBy m 1 (-e)).2
              (decimalExponent (scaleBy m 1 (-e)).1 (scaleBy m 1 (-e)).2 - 16) = 10 ^ 17
            then decimalExponent (scaleBy m 1 (-e)).1 (scaleBy m 1 (-e)).2 + 1
            else decimalExponent (scaleBy m 1 (-e)).1 (scaleBy m 1 (-e)).2).natAbs := by
    unfold formatDouble
    simp only []
    rw [if_neg hm0]
  generalize (if scaledDigits (scaleBy m 1 (-e)).1 (scaleBy m 1 (-e)).2
      (decimalExponent (scaleBy m 1 (-e)).1 (scaleBy m 1 (-e)).2 - 16) = 10 ^ 17
    then 10 ^ 16
    else scaledDigits (scaleBy m 1 (-e)).1 (scaleBy m 1 (-e)).2
      (decimalExponent (scaleBy m 1 (-e)).1 (scaleBy m 1 (-e)).2 - 16)) = d
    at hd1 hd2 hnear hfd
  generalize (if scaledDigits (scaleBy m 1 (-e)).1 (scaleBy m 1 (-e)).2
      (decimalExponent (scaleBy m 1 (-e)).1 (scaleBy m 1 (-e)).2 - 16) = 10 ^ 17
    then decimalExponent (scaleBy m 1 (-e)).1 (scaleBy m 1 (-e)).2 + 1
    else decimalExponent (scaleBy m 1 (-e)).1 (scaleBy m 1 (-e)).2) = x at hnear hfd
  have hlen := natToDecimal_seventeen hd1 hd2
  have hpad : padDecimal 17 d = natToDecimal d := by
    unfold padDecimal
    rw [hlen]
    rfl
  have hval := digitsValue_natToDecimal d
  have hdig := natToDecimal_digits d
  rw [hpad] at hfd
  cases hds : natToDecimal d with
  | nil => rw [hds] at hlen; simp at hlen
  | cons d1 rest =>
    rw [hds] at hfd hlen hval hdig
    have hrl : rest.length = 16 := by simpa using hlen
    have hfd2 : formatDouble (Double.finite s m e)
        = (if s then [45] else []) ++ d1 :: 46 :: (rest ++ 101 ::
            (if decide (x < 0) then 45 else 43) :: padDecimal 2 x.natAbs) := by
      rw [hfd]
      by_cases hx : x < 0 <;> simp [hx]
    have hsc := strtodAt_scientific s (decide (x < 0)) d1 rest (padDecimal 2 x.natAbs)
      (hdig d1 (List.mem_cons_self _ _)) (fun y hy => hdig y (List.mem_cons_of_mem _ hy))
      (padDecimal_digits 2 x.natAbs) (padDecimal_ne_nil 2 x.natAbs)
    rw [← hfd2, hval, digitsValue_padDecimal, hrl] at hsc
    have hx : (if decide (x < 0) = true then -((x.natAbs : ℕ) : Int) else ((x.natAbs : ℕ) : Int))
        = x := by
      by_cases hneg : x < 0
      · simp only [hneg, decide_True, if_true]; omega
      · simp only [hneg, decide_False, Bool.false_eq_true, if_false]; omega
    rw [hx] at hsc
    have hsd : scaledDouble s d 10 (x - ((16 : ℕ) : Int)) = Double.finite s m e :=
      scaledDouble_near s d m (x - ((16 : ℕ) : Int)) e (lt_of_lt_of_le (by norm_num) hd1) hc hm
        (by push_cast; exact hnear)
    rw [hsd] at hsc
    unfold floatReadsBack
    rw [hsc]
    exact beq_self_eq_true _

/-- The Float payloads of a tree that parsing can give are read back by `strtod` from their
printed texts. -/
theorem good_floatNode : ∀ v : JsonValue, Good v → allNodes floatNode v = true := by
  refine JsonValue.induction ?_
  intro v ihl iha hg
  rw [good_iff] at hg
  rw [allNodes_iff]
  refine ⟨?_, fun e he => ihl e he (hg.2.1 e he), fun x hx => iha x hx (hg.2.2.2 x hx)⟩
  unfold floatNode
  by_cases hty : v.type_f = JSON_FLOAT
  · obtain ⟨sg, m, e, hd, hcan⟩ := hg.1.2.2 hty
    rw [hd, floatReadsBack_canonical sg m e hcan]
    simp
  · simp [hty]

/-- Claim C1, amended. For every text `t` accepted by `parse` (on a fresh value) with tree `v`:
when no key and no String payload of `v` holds a double quote, a backslash or a NUL byte, the
text `prettyPrint` writes for `v` with an empty starting indent is accepted by `parse` and the
tree it gives shows the same content as `v`: the same variant at every node, the same ordered
(key, value) sequence and the same lookup mapping in every Object, the same element sequence in
every Array and the same scalar payloads. A Float payload is among them: at every Float node
of `v` the seventeen significant digits that are printed for the double are read back by
`strtod` as that double. -/
theorem C1_print_then_parse_round_trip (t : List Nat) (v : JsonValue)
    (h : parse JsonValue.fresh t = (v, Except.ok ()))
    (hclean : allNodes (cleanNode [34, 92, 0]) v = true) :
    (∃ w, parse JsonValue.fresh (prettyPrint v [] []) = (w, Except.ok ())
        ∧ observed w = observed v)
      ∧ allNodes floatNode v = true := by
  obtain ⟨hg, hty⟩ := parse_good h
  refine ⟨?_, good_floatNode v hg⟩
  have hp : Printable v := ⟨hg, hclean, good_floatNode v hg⟩
  have hpl := (printable_iff v hp).1
  have hn := hg v (IsNode.self v)
  have hkeys : ∀ e ∈ v.nameValsInOrder_f, bytesAvoid [34, 92, 0] e.1 = true := by
    have h1 := ((allNodes_iff _ v).1 hclean).1
    unfold cleanNode at h1
    simp only [Bool.and_eq_true, List.all_eq_true] at h1
    exact h1.2
  have htext : prettyPrint v [] [] = 123 :: (objectEntriesText ([] ++ [32, 32, 32, 32])
      v.nameValsInOrder_f true ++ 10 :: ([] ++ 125 :: [])) := by
    rw [prettyPrint_object hty]
    simp
  generalize prettyPrint v [] [] = text at htext
  have ht0 : text.drop 0 = 123 :: (objectEntriesText ([] ++ [32, 32, 32, 32])
      v.nameValsInOrder_f true ++ 10 :: ([] ++ 125 :: [])) := by
    rw [List.drop_zero, htext]
  have hlen := length_of_drop ht0
  simp only [List.length_cons, List.length_append, List.length_nil] at hlen
  obtain ⟨es, hes, hobs⟩ := objectLoop_readsBack [] (by simp) v.nameValsInOrder_f hpl
    (fun e he => printable_readsBack e.2 (hpl e he)) hkeys
    (parseFuel text) text (0 + 1) { JsonValue.fresh with type_f := JSON_OBJECT } (0 + 1) []
    (drop_succ_of_drop ht0) (by unfold parseFuel; omega)
  have hend : text.drop (0 + 1 + (objectEntriesText ([] ++ [32, 32, 32, 32])
      v.nameValsInOrder_f true).length + ([] : List Nat).length + 2) = [] := by
    apply List.drop_eq_nil_iff.2
    simp only [List.length_nil]
    omega
  unfold parse
  rw [skipWhitespace_stay ht0 (by decide) (by decide)]
  simp only [byteAt_of_drop ht0, ne_eq, not_true_eq_false, if_false]
  unfold parseObject
  rw [hes]
  simp only []
  rw [skipWhitespace_end hend]
  simp only [byteAt_of_drop_nil hend, ne_eq, not_true_eq_false, if_false]
  refine ⟨_, rfl, ?_⟩
  refine observed_object hty rfl ?_ ?_
  · simp only [JsonValue.fresh]
    rw [hn.1 hty, observed_pairs_assignAll, observed_pairs_assignAll, hobs]
  · simpa [JsonValue.fresh] using hobs

/-- The amended claim C1 at the text `{"a":[1,-2.5,"x y",true,null],"b":{"c":1e3},"a":-7}`:
the text is accepted, its tree meets the proviso, and the printed tree is read back with the
same content. -/
theorem C1_print_then_parse_round_trip_witness :
    (parse JsonValue.fresh
        (lit "\x7b\"a\":[1,-2.5,\"x y\",true,null],\"b\":\x7b\"c\":1e3\x7d,\"a\":-7\x7d")).2
      = Except.ok ()
    ∧ allNodes (cleanNode [34, 92, 0]) (parse JsonValue.fresh
        (lit "\x7b\"a\":[1,-2.5,\"x y\",true,null],\"b\":\x7b\"c\":1e3\x7d,\"a\":-7\x7d")).1
      = true
    ∧ (∃ w, parse JsonValue.fresh (prettyPrint (parse JsonValue.fresh
        (lit "\x7b\"a\":[1,-2.5,\"x y\",true,null],\"b\":\x7b\"c\":1e3\x7d,\"a\":-7\x7d")).1
          [] []) = (w, Except.ok ())
      ∧ observed w = observed (parse JsonValue.fresh
        (lit "\x7b\"a\":[1,-2.5,\"x y\",true,null],\"b\":\x7b\"c\":1e3\x7d,\"a\":-7\x7d")).1)
    ∧ allNodes floatNode (parse JsonValue.fresh
        (lit "\x7b\"a\":[1,-2.5,\"x y\",true,null],\"b\":\x7b\"c\":1e3\x7d,\"a\":-7\x7d")).1
      = true :=
  ⟨by decide!, by decide!,
    C1_print_then_parse_round_trip
      (lit "\x7b\"a\":[1,-2.5,\"x y\",true,null],\"b\":\x7b\"c\":1e3\x7d,\"a\":-7\x7d")
      (parse JsonValue.fresh
        (lit "\x7b\"a\":[1,-2.5,\"x y\",true,null],\"b\":\x7b\"c\":1e3\x7d,\"a\":-7\x7d")).1
      (parse_eq_of_ok (by decide!)) (by decide!)⟩

theorem pair_eq_of_snd {α β : Type} {p : α × β} {b : β} (h : p.2 = b) : p = (p.1, b) :=
  Prod.ext rfl h

/-- The dispatch of `parseValue` to the number branch: the byte at the cursor is none of the
terminator, the double quote, the opening brace, the opening bracket and the letters `t`, `f`
and `n`. -/
theorem parseValue_default {f : Nat} {t : List Nat} {cur0 cur b : Nat} {tail : List Nat}
    (self : JsonValue) (hs : skipWhitespace t cur0 = Except.ok cur) (h : t.drop cur = b :: tail)
    (n0 : b ≠ 0) (n1 : b ≠ 34) (n2 : b ≠ 123) (n3 : b ≠ 91) (n4 : b ≠ 116) (n5 : b ≠ 102)
    (n6 : b ≠ 110) :
    parseValue (f + 1) t self cur0 = parseNumber t self cur := by
  rw [parseValue, hs]
  have e1 : startsWith t cur (lit "true") = false := by
    rw [lit_true]; exact startsWith_of_head h n4
  have e2 : startsWith t cur (lit "false") = false := by
    rw [lit_false]; exact startsWith_of_head h n5
  have e3 : startsWith t cur (lit "null") = false := by
    rw [lit_null]; exact startsWith_of_head h n6
  simp [byteAt_of_drop h, n0, n1, n2, n3, e1, e2, e3]

/-- C13: when the number branch of `parseValue` returns, the value is Float-tagged exactly
when the byte at the end of the integer scan (`endPtr` of `strtol`) is `.`, `e` or `E`;
otherwise it is Integer-tagged, its payload is the integer `strtol` read and the cursor is at
the end of the integer scan; a Float-tagged result holds the double `strtod` read from the
start of the token, the cursor is at the end of that scan, and `getNumber` on it raises the
access-type error. -/
theorem C13_float_iff_byte_after_integer_scan (t : List Nat) (self v : JsonValue)
    (cur next : Nat) (h : parseNumber t self cur = (v, Except.ok next)) :
    (v.type_f = JSON_FLOAT ↔
        (byteAt t (strtol t cur).2 = 46 ∨ byteAt t (strtol t cur).2 = 101
          ∨ byteAt t (strtol t cur).2 = 69))
      ∧ (v.type_f ≠ JSON_FLOAT →
          v.type_f = JSON_NUMBER ∧ v.theInteger_f = (strtol t cur).1 ∧ next = (strtol t cur).2)
      ∧ (v.type_f = JSON_FLOAT →
          v.theFloat_f = (strtod t cur).1 ∧ next = (strtod t cur).2
            ∧ getNumber v = Except.error (AccessTypeException "Value is not an integer")) := by
  unfold parseNumber at h
  simp only [] at h
  by_cases c1 : (strtol t cur).1 = LONG_MIN ∨ (strtol t cur).1 = LONG_MAX
  · rw [if_pos c1] at h
    simp at h
  · rw [if_neg c1] at h
    by_cases c2 : (strtol t cur).2 = cur ∧ byteAt t cur ≠ 46
    · rw [if_pos c2] at h
      simp at h
    · rw [if_neg c2] at h
      by_cases c3 : byteAt t (strtol t cur).2 = 69 ∨ byteAt t (strtol t cur).2 = 101
          ∨ byteAt t (strtol t cur).2 = 46
      · rw [if_pos c3] at h
        by_cases c4 : (strtod t cur).1 = HUGE_VAL ∨ (strtod t cur).1 = HUGE_VAL.negate
        · rw [if_pos c4] at h
          simp at h
        · rw [if_neg c4] at h
          by_cases c5 : (strtod t cur).2 = cur
          · rw [if_pos c5] at h
            simp at h
          · rw [if_neg c5] at h
            simp only [Prod.mk.injEq, Except.ok.injEq] at h
            obtain ⟨hv, hn⟩ := h
            subst hv
            refine ⟨⟨fun _ => ?_, fun _ => rfl⟩, fun hne => absurd rfl hne,
              fun _ => ⟨rfl, hn.symm, rfl⟩⟩
            rcases c3 with c | c | c
            · exact Or.inr (Or.inr c)
            · exact Or.inr (Or.inl c)
            · exact Or.inl c
      · rw [if_neg c3] at h
        simp only [Prod.mk.injEq, Except.ok.injEq] at h
        obtain ⟨hv, hn⟩ := h
        subst hv
        refine ⟨⟨fun hf => ?_, fun hb => ?_⟩, fun _ => ⟨rfl, rfl, hn.symm⟩, fun hf => ?_⟩
        · simp at hf
        · exfalso
          apply c3
          rcases hb with c | c | c
          · exact Or.inr (Or.inr c)
          · exact Or.inr (Or.inl c)
          · exact Or.inl c
        · simp at hf

/-- C13 at the tokens of the claim: `1` gives Integer 1, `1.5` and `1e3` give Float-tagged
values, and the Float-tagged value read from `1.5` rejects `getNumber`. -/
theorem C13_float_iff_byte_after_integer_scan_witness :
    parseValue 1 (lit "1") JsonValue.fresh 0
        = ({ JsonValue.fresh with type_f := JSON_NUMBER, theInteger_f := 1 }, Except.ok 1)
      ∧ (parseValue 1 (lit "1.5") JsonValue.fresh 0).1.type_f = JSON_FLOAT
      ∧ (parseValue 1 (lit "1e3") JsonValue.fresh 0).1.type_f = JSON_FLOAT
      ∧ (parseNumber (lit "1.5") JsonValue.fresh 0).2 = Except.ok 3
      ∧ byteAt (lit "1.5") (strtol (lit "1.5") 0).2 = 46
      ∧ getNumber (parseNumber (lit "1.5") JsonValue.fresh 0).1
          = Except.error (AccessTypeException "Value is not an integer") :=
  ⟨by rfl, by decide!, by decide!, by decide!, by decide!,
    ((C13_float_iff_byte_after_integer_scan (lit "1.5") JsonValue.fresh
      (parseNumber (lit "1.5") JsonValue.fresh 0).1 0 3
      (pair_eq_of_snd (by decide!))).2.2
        (by decide!)).2.2⟩

/-- C14: a number token at which the integer scan of `strtol` gives `LONG_MIN` or `LONG_MAX`
makes `parseValue` raise the parse error "Integer out of range", whatever byte stands at the
end of the scan: the test comes before the test for `.`, `e` and `E`. The token starts, after
the white space `parseValue` skips, with a sign or a decimal digit. -/
theorem C14_saturated_integer_rejected (f : Nat) (t : List Nat) (self : JsonValue)
    (cur0 cur b : Nat) (tail : List Nat)
    (hs : skipWhitespace t cur0 = Except.ok cur) (h : t.drop cur = b :: tail)
    (hb : b = 45 ∨ b = 43 ∨ (48 ≤ b ∧ b ≤ 57))
    (hsat : (strtol t cur).1 = LONG_MIN ∨ (strtol t cur).1 = LONG_MAX) :
    (parseValue (f + 1) t self cur0).2
      = Except.error (JsonParseException "Integer out of range" (cstr t cur)) := by
  rw [parseValue_default self hs h (by omega) (by omega) (by omega) (by omega) (by omega)
    (by omega) (by omega)]
  unfold parseNumber
  simp only []
  rw [if_pos hsat]

/-- C14 at a literal of twenty 9s followed by `.5`: the integer scan saturates to `LONG_MAX`
and the token is rejected although it is the text of a float; the literals of twenty 9s and
of `LONG_MAX` itself are rejected as well, and the literal of `LONG_MAX - 1` is accepted. -/
theorem C14_saturated_integer_rejected_witness :
    (strtol (lit "99999999999999999999.5") 0).1 = LONG_MAX
      ∧ (parseValue 1 (lit "99999999999999999999.5") JsonValue.fresh 0).2
          = Except.error (JsonParseException "Integer out of range"
              (lit "99999999999999999999.5"))
      ∧ (parseValue 1 (lit "99999999999999999999") JsonValue.fresh 0).2
          = Except.error (JsonParseException "Integer out of range"
              (lit "99999999999999999999"))
      ∧ (parseValue 1 (lit "9223372036854775807") JsonValue.fresh 0).2
          = Except.error (JsonParseException "Integer out of range"
              (lit "9223372036854775807"))
      ∧ (parseValue 1 (lit "9223372036854775806") JsonValue.fresh 0).2 = Except.ok 19 :=
  ⟨by decide!,
    C14_saturated_integer_rejected 0 (lit "99999999999999999999.5") JsonValue.fresh 0 0 57
      (lit "9999999999999999999.5") (by decide!) (by decide!) (by decide) (by decide!),
    by decide!, by decide!, by decide!⟩

theorem checkForNull_ok {v : JsonValue} (h : v.type_f ≠ JSON_NULL) :
    checkForNull v = Except.ok () := by
  unfold checkForNull
  rw [if_neg h]

theorem cstr_of_no_nul {s : List Nat} (h : ∀ x ∈ s, x ≠ 0) : cstr s 0 = s := by
  unfold cstr
  rw [List.drop_zero, List.takeWhile_eq_self_iff]
  intro x hx
  simpa using h x hx

/-- C17: on a value that is not Null-tagged each typed accessor returns the payload of its own
variant and raises the access-type error on every other variant: `getString` on String,
`getNumber` on Integer, `getBool` on Boolean, `getMap` on Object, `getArray` and `length` on
Array (`length` gives the number of elements), and `getFloat` on Float and, with the integer
converted to `double`, on Integer. -/
theorem C17_typed_accessors (v : JsonValue) (h : v.type_f ≠ JSON_NULL) :
    (getString v = if v.type_f = JSON_STRING then Except.ok v.theString_f
        else Except.error (AccessTypeException "Value is not a string"))
      ∧ (getNumber v = if v.type_f = JSON_NUMBER then Except.ok v.theInteger_f
        else Except.error (AccessTypeException "Value is not an integer"))
      ∧ (getBool v = if v.type_f = JSON_BOOL then Except.ok v.theBool_f
        else Except.error (AccessTypeException "Value is not a bool"))
      ∧ (getMap v = if v.type_f = JSON_OBJECT then Except.ok v.nameValPairs_f
        else Except.error (AccessTypeException "Can't get object map for non-object"))
      ∧ (getArray v = if v.type_f = JSON_ARRAY then Except.ok v.theArray_f
        else Except.error (AccessTypeException "Can't get array for non-array"))
      ∧ (length v = if v.type_f = JSON_ARRAY then Except.ok v.theArray_f.length
        else Except.error (AccessTypeException "Can't get length of non-array"))
      ∧ (getFloat v = if v.type_f = JSON_FLOAT then Except.ok v.theFloat_f
        else if v.type_f = JSON_NUMBER then Except.ok (Double.ofLong v.theInteger_f)
        else Except.error (AccessTypeException "Value is not a float")) := by
  simp only [getString, getNumber, getBool, getMap, getArray, length, getFloat,
    checkForNull_ok h, and_self]

/-- C17 at the values of the text `{"f":1.5,"o":{},"n":7}`: `getNumber` on the Float-tagged
value and `length` on the Object-tagged value raise the access-type error, `getFloat` on the
Integer-tagged value gives the double 7. -/
theorem C17_typed_accessors_witness :
    (operatorIndexName (parse JsonValue.fresh (lit "\x7b\"f\":1.5,\"o\":\x7b\x7d,\"n\":7\x7d")).1
        (lit "f")).bind getNumber
        = Except.error (AccessTypeException "Value is not an integer")
      ∧ (operatorIndexName (parse JsonValue.fresh (lit "\x7b\"f\":1.5,\"o\":\x7b\x7d,\"n\":7\x7d")).1
        (lit "o")).bind length
        = Except.error (AccessTypeException "Can't get length of non-array")
      ∧ (operatorIndexName (parse JsonValue.fresh (lit "\x7b\"f\":1.5,\"o\":\x7b\x7d,\"n\":7\x7d")).1
        (lit "n")).bind getFloat
        = Except.ok (Double.finite false 7881299347898368 (-50))
      ∧ getNumber { JsonValue.fresh with type_f := JSON_FLOAT }
        = Except.error (AccessTypeException "Value is not an integer") :=
  ⟨by decide!, by decide!, by decide!,
    (C17_typed_accessors { JsonValue.fresh with type_f := JSON_FLOAT } (by decide)).2.1⟩

/-- C18, counterexample: on the Object-tagged value of the text `{"k":1}` the lookup of the
absent name `a`, NUL, `b` raises the not-found error carrying `a`, not the name: the exception
is built from `name.c_str()`. -/
theorem C18_counterexample_nul_in_name :
    (parse JsonValue.fresh (lit "\x7b\"k\":1\x7d")).1.type_f = JSON_OBJECT
      ∧ operatorIndexName (parse JsonValue.fresh (lit "\x7b\"k\":1\x7d")).1 [97, 0, 98]
          = Except.error (NotFoundException [97])
      ∧ operatorIndexName (parse JsonValue.fresh (lit "\x7b\"k\":1\x7d")).1 [97, 0, 98]
          ≠ Except.error (NotFoundException [97, 0, 98]) :=
  ⟨by decide!, by rfl, fun h =>
    absurd (Except.error.inj ((show operatorIndexName
      (parse JsonValue.fresh (lit "\x7b\"k\":1\x7d")).1 [97, 0, 98]
        = Except.error (NotFoundException [97]) by rfl).symm.trans h)) (by decide)⟩

/-- C18, amended: on an Object-tagged value keyed lookup returns the value the lookup mapping
holds for the name when the name is present, and raises the not-found error carrying the name
up to its first NUL byte (the whole name when it holds no NUL) when it is absent; on a value
that is neither Null-tagged nor Object-tagged keyed lookup and `has` raise the access-type
error; and on every value `has` gives true exactly when keyed lookup succeeds. -/
theorem C18_keyed_lookup (v : JsonValue) (name : List Nat) :
    (v.type_f = JSON_OBJECT →
        (∀ x, mapFind v.nameValPairs_f name = some x →
          operatorIndexName v name = Except.ok x ∧ has v name = Except.ok true)
        ∧ (mapFind v.nameValPairs_f name = none →
          operatorIndexName v name = Except.error (NotFoundException (cstr name 0))
            ∧ has v name = Except.ok false)
        ∧ ((∀ c ∈ name, c ≠ 0) → cstr name 0 = name))
      ∧ (v.type_f ≠ JSON_NULL → v.type_f ≠ JSON_OBJECT →
          operatorIndexName v name
              = Except.error (AccessTypeException "Can't index non-object with string")
            ∧ has v name
              = Except.error (AccessTypeException "Can't index non-object with string"))
      ∧ (has v name = Except.ok true ↔ ∃ x, operatorIndexName v name = Except.ok x) := by
  refine ⟨fun hty => ⟨fun x hx => ?_, fun hx => ?_, cstr_of_no_nul⟩, fun h0 h1 => ?_, ?_⟩
  · have h0 : v.type_f ≠ JSON_NULL := by rw [hty]; decide
    simp [operatorIndexName, has, checkForNull_ok h0, hty, hx]
  · have h0 : v.type_f ≠ JSON_NULL := by rw [hty]; decide
    simp [operatorIndexName, has, checkForNull_ok h0, hty, hx]
  · simp [operatorIndexName, has, checkForNull_ok h0, h1]
  · by_cases h0 : v.type_f = JSON_NULL
    · simp [operatorIndexName, has, checkForNull, h0]
    · by_cases h1 : v.type_f = JSON_OBJECT
      · cases hx : mapFind v.nameValPairs_f name <;>
          simp [operatorIndexName, has, checkForNull_ok h0, h1, hx]
      · simp [operatorIndexName, has, checkForNull_ok h0, h1]

/-- C18, amended, at the Object-tagged value of the text `{"k":1}`: the lookup of `k` gives
the Integer 1 and `has` gives true; the lookup of the absent name `zz` raises the not-found
error carrying `zz` and `has` gives false. -/
theorem C18_keyed_lookup_witness :
    (operatorIndexName (parse JsonValue.fresh (lit "\x7b\"k\":1\x7d")).1 (lit "k")).map
        (fun x => (x.type_f, x.theInteger_f)) = Except.ok (JSON_NUMBER, 1)
      ∧ has (parse JsonValue.fresh (lit "\x7b\"k\":1\x7d")).1 (lit "k") = Except.ok true
      ∧ operatorIndexName (parse JsonValue.fresh (lit "\x7b\"k\":1\x7d")).1 (lit "zz")
          = Except.error (NotFoundException (lit "zz"))
      ∧ (operatorIndexName (parse JsonValue.fresh (lit "\x7b\"k\":1\x7d")).1 (lit "zz")
          = Except.error (NotFoundException (cstr (lit "zz") 0))
        ∧ has (parse JsonValue.fresh (lit "\x7b\"k\":1\x7d")).1 (lit "zz") = Except.ok false) :=
  ⟨by decide!, by decide!, by rfl,
    ((C18_keyed_lookup (parse JsonValue.fresh (lit "\x7b\"k\":1\x7d")).1 (lit "zz")).1
      (by decide!)).2.1 (by rfl)⟩

/-- C19: on an Array-tagged value with `n` elements the index operator for `int` returns the
element at position `i`, counted from 0 in document order, when `0 ≤ i < n`, and raises the
not-found error carrying the decimal text of `i` when `i < 0` or `n ≤ i`; the overload for
`unsigned` does the same for its index. -/
theorem C19_indexed_lookup (v : JsonValue) (i : Int) (h : v.type_f = JSON_ARRAY) :
    (0 ≤ i → i < v.theArray_f.length →
        ∃ x, v.theArray_f.get? i.toNat = some x ∧ operatorIndexInt v i = Except.ok x
          ∧ operatorIndexUnsigned v i.toNat = Except.ok x)
      ∧ (i < 0 ∨ (v.theArray_f.length : Int) ≤ i →
          operatorIndexInt v i = Except.error (NotFoundException (to_string i)))
      ∧ (∀ k : Nat, v.theArray_f.length ≤ k →
          operatorIndexUnsigned v k = Except.error (NotFoundException (to_string k))) := by
  have h0 : v.type_f ≠ JSON_NULL := by rw [h]; decide
  refine ⟨fun h1 h2 => ?_, fun h1 => ?_, fun k hk => ?_⟩
  · have hlt : i.toNat < v.theArray_f.length := by omega
    refine ⟨v.theArray_f.get ⟨i.toNat, hlt⟩, List.get?_eq_get hlt, ?_, ?_⟩
    · unfold operatorIndexInt
      rw [if_neg (by omega)]
      unfold operatorIndexUnsigned
      simp [checkForNull_ok h0, h, hlt, List.get?_eq_get hlt]
    · unfold operatorIndexUnsigned
      simp [checkForNull_ok h0, h, hlt, List.get?_eq_get hlt]
  · unfold operatorIndexInt
    by_cases hn : i < 0
    · rw [if_pos hn]
    · rw [if_neg hn]
      have hge : v.theArray_f.length ≤ i.toNat := by omega
      have hi : ((i.toNat : Nat) : Int) = i := Int.toNat_of_nonneg (by omega)
      unfold operatorIndexUnsigned
      simp [checkForNull_ok h0, h, hge, hi]
  · unfold operatorIndexUnsigned
    simp [checkForNull_ok h0, h, hk]

/-- C19 at the Array-tagged value of the text `[10,20,30]`: index 1 gives the Integer 20,
index 3 raises the not-found error carrying `3`, index -1 the one carrying `-1`. -/
theorem C19_indexed_lookup_witness :
    (operatorIndexInt (parseValue 9 (lit "[10,20,30]") JsonValue.fresh 0).1 1).map
        (fun x => (x.type_f, x.theInteger_f)) = Except.ok (JSON_NUMBER, 20)
      ∧ operatorIndexInt (parseValue 9 (lit "[10,20,30]") JsonValue.fresh 0).1 3
          = Except.error (NotFoundException (lit "3"))
      ∧ operatorIndexInt (parseValue 9 (lit "[10,20,30]") JsonValue.fresh 0).1 (-1)
          = Except.error (NotFoundException (lit "-1"))
      ∧ operatorIndexInt (parseValue 9 (lit "[10,20,30]") JsonValue.fresh 0).1 (-1)
          = Except.error (NotFoundException (to_string (-1))) :=
  ⟨by decide!, by rfl, by rfl,
    (C19_indexed_lookup (parseValue 9 (lit "[10,20,30]") JsonValue.fresh 0).1 (-1)
      (by decide!)).2.1 (Or.inl (by decide))⟩

theorem takeWhile_digits {p : Nat → Bool} {a rest : List Nat} (ha : ∀ x ∈ a, p x = true)
    (hstop : ∀ c, rest.head? = some c → p c = false) : (a ++ rest).takeWhile p = a := by
  cases rest with
  | nil =>
    rw [List.append_nil, List.takeWhile_eq_self_iff]
    exact ha
  | cons c r => exact takeWhile_run ha (hstop c rfl)

theorem byteAt_of_head {t : List Nat} {i : Nat} {rest : List Nat} (h : t.drop i = rest)
    {P : Nat → Prop} (h0 : P 0) (hstop : ∀ c, rest.head? = some c → P c) : P (byteAt t i) := by
  cases rest with
  | nil => rw [byteAt_of_drop_nil h]; exact h0
  | cons c r => rw [byteAt_of_drop h]; exact hstop c rfl

theorem strtolAt_hex {x : Nat} {ds rest : List Nat} (hx : x = 120 ∨ x = 88) (hne : ds ≠ [])
    (hds : ∀ d ∈ ds, isDigitOf 16 d = true)
    (hstop : ∀ c, rest.head? = some c → isDigitOf 16 c = false)
    (hval : (digitsValue 16 ds : Int) < LONG_MAX) :
    strtolAt (48 :: x :: (ds ++ rest)) = ((digitsValue 16 ds : Int), 2 + ds.length) := by
  rw [strtolAt_unsigned (by decide) (by decide) (by decide)]
  have hp : hexPrefix (48 :: x :: (ds ++ rest)) = true := by
    cases ds with
    | nil => exact absurd rfl hne
    | cons d ds1 =>
      have hd := hds d (List.mem_cons_self _ _)
      rcases hx with hx | hx <;> subst hx <;> simp [hexPrefix, hd]
  have htw := takeWhile_digits hds hstop
  have hemp : ds.isEmpty = false := by
    cases ds with
    | nil => exact absurd rfl hne
    | cons d ds1 => rfl
  have hsat : saturate false (digitsValue 16 ds) = (digitsValue 16 ds : Int) := by
    unfold saturate
    simp only [Bool.false_eq_true, if_false]
    rw [if_neg (by omega)]
  unfold strtolUnsigned
  rw [if_pos hp]
  unfold strtolRun
  simp only [List.drop_succ_cons, List.drop_zero, htw, hemp, Bool.false_eq_true, if_false,
    Option.map_some', hsat]

/-- C12: a number token made of `0x` or `0X` and a non-empty run of hexadecimal digits, with
a value below `LONG_MAX` and followed by a byte that is neither a hexadecimal digit nor a
point (or by the end of the text), is read by `parseValue` as an Integer-tagged value whose
payload is the value of the digits in base 16; the cursor ends just after the last digit. -/
theorem C12_hex_integer (f : Nat) (t : List Nat) (self : JsonValue) (cur0 cur x : Nat)
    (ds rest : List Nat) (hs : skipWhitespace t cur0 = Except.ok cur)
    (h : t.drop cur = 48 :: x :: (ds ++ rest)) (hx : x = 120 ∨ x = 88) (hne : ds ≠ [])
    (hds : ∀ d ∈ ds, isDigitOf 16 d = true)
    (hstop : ∀ c, rest.head? = some c → isDigitOf 16 c = false ∧ c ≠ 46)
    (hval : (digitsValue 16 ds : Int) < LONG_MAX) :
    parseValue (f + 1) t self cur0
      = ({ self with type_f := JSON_NUMBER, theInteger_f := (digitsValue 16 ds : Int) },
          Except.ok (cur + 2 + ds.length)) := by
  rw [parseValue_default self hs h (by decide) (by decide) (by decide) (by decide) (by decide)
    (by decide) (by decide)]
  have hst : strtol t cur = ((digitsValue 16 ds : Int), cur + (2 + ds.length)) := by
    rw [strtol_of_drop h, strtolAt_hex hx hne hds (fun c hc => (hstop c hc).1) hval]
  have hdrop : t.drop (cur + (2 + ds.length)) = rest := by
    have h1 := drop_succ_of_drop (drop_succ_of_drop h)
    have h2 := drop_add_of_drop h1
    rw [← h2]
    congr 1
    omega
  have hbyte : ¬ (byteAt t (cur + (2 + ds.length)) = 69 ∨ byteAt t (cur + (2 + ds.length)) = 101
      ∨ byteAt t (cur + (2 + ds.length)) = 46) := by
    refine byteAt_of_head hdrop (P := fun b => ¬ (b = 69 ∨ b = 101 ∨ b = 46)) (by decide) ?_
    intro c hc
    obtain ⟨h1, h2⟩ := hstop c hc
    rintro (e | e | e)
    · subst e; simp [isDigitOf, digitVal] at h1
    · subst e; simp [isDigitOf, digitVal] at h1
    · exact h2 e
  unfold parseNumber
  simp only [hst]
  have hmin : ¬ ((digitsValue 16 ds : Int) = LONG_MIN ∨ (digitsValue 16 ds : Int) = LONG_MAX) := by
    unfold LONG_MIN
    omega
  rw [if_neg hmin, if_neg (by omega), if_neg hbyte]
  rw [Nat.add_assoc]

/-- C12 at the token `0x1A` followed by a comma: the value is the Integer 26 and the cursor is
at the comma; the token alone and the token `0X1a` give 26 as well. -/
theorem C12_hex_integer_witness :
    parseValue 1 (lit "0x1A,") JsonValue.fresh 0
        = ({ JsonValue.fresh with type_f := JSON_NUMBER, theInteger_f := 26 }, Except.ok 4)
      ∧ parseValue 1 (lit "0x1A") JsonValue.fresh 0
        = ({ JsonValue.fresh with type_f := JSON_NUMBER, theInteger_f := 26 }, Except.ok 4)
      ∧ parseValue 1 (lit "0X1a") JsonValue.fresh 0
        = ({ JsonValue.fresh with type_f := JSON_NUMBER, theInteger_f := 26 }, Except.ok 4) :=
  ⟨C12_hex_integer 0 (lit "0x1A,") JsonValue.fresh 0 0 120 [49, 65] [44] (by decide!) (by decide!)
      (by decide) (by decide) (by decide) (by decide) (by decide),
    by rfl, by rfl⟩

theorem byteAt_drop (t : List Nat) (cur p : Nat) : byteAt (t.drop cur) p = byteAt t (cur + p) := by
  unfold byteAt
  simp [List.getD_eq_getElem?_getD, List.getElem?_drop]

theorem byteAt_eq_zero {t : List Nat} {i : Nat} (h : t.length ≤ i) : byteAt t i = 0 :=
  byteAt_of_drop_nil (List.drop_eq_nil_iff.2 h)

theorem skipSpaces_ge (t : List Nat) : ∀ fuel p, p ≤ skipSpaces t fuel p := by
  intro fuel
  induction fuel with
  | zero => intro p; simp [skipSpaces]
  | succ f ih =>
    intro p
    rw [skipSpaces]
    split_ifs
    · exact Nat.le_trans (Nat.le_succ p) (ih (p + 1))
    · exact Nat.le_refl p

theorem skipComment_gt {t : List Nat} : ∀ fuel p q, skipComment t fuel p = some q →
    byteAt t p ≠ 10 → p < q := by
  intro fuel
  induction fuel with
  | zero => intro p q h; simp [skipComment] at h
  | succ f ih =>
    intro p q h hb
    rw [skipComment] at h
    split_ifs at h with c1 c2
    · by_cases hn : byteAt t (p + 1) = 10
      · cases f with
        | zero => simp [skipComment] at h
        | succ f1 =>
          rw [skipComment] at h
          split_ifs at h with d1 d2
          · simp [hn] at d2
          · simp only [Option.some.injEq] at h
            omega
      · have := ih (p + 1) q h hn
        omega
    · simp [hb] at c2

/-- The comment loop over a body without newline stops at the newline. -/
theorem skipComment_run {t : List Nat} {rest : List Nat} (body : List Nat) :
    ∀ fuel pos, t.drop pos = body ++ 10 :: rest → (∀ x ∈ body, x ≠ 10) → body.length < fuel →
      skipComment t fuel pos = some (pos + body.length) := by
  induction body with
  | nil =>
    intro fuel pos h _ hf
    cases fuel with
    | zero => omega
    | succ f =>
      have hl := length_of_drop h
      simp only [List.nil_append, List.length_cons] at hl
      rw [skipComment, if_neg (by omega)]
      simp [byteAt_of_drop h]
  | cons b body ih =>
    intro fuel pos h hb hf
    cases fuel with
    | zero => omega
    | succ f =>
      have hl := length_of_drop h
      simp only [List.cons_append, List.length_cons] at hl
      have hb0 : b ≠ 10 := hb b (List.mem_cons_self _ _)
      rw [skipComment, if_neg (by omega)]
      simp only [byteAt_of_drop h, bne_iff_ne, ne_eq, hb0, not_false_eq_true, if_true]
      rw [ih f (pos + 1) (drop_succ_of_drop h) (fun x hx => hb x (List.mem_cons_of_mem _ hx))
        (by simp only [List.length_cons] at hf; omega)]
      simp only [List.length_cons]
      congr 1
      omega

/-- With enough fuel the outer loop of `skipWhitespace` does not depend on the fuel. -/
theorem skipWhitespaceLoop_fuel (t : List Nat) : ∀ f f2 p, t.length - p + 1 ≤ f →
    t.length - p + 1 ≤ f2 → skipWhitespaceLoop t f p = skipWhitespaceLoop t f2 p := by
  intro f
  induction f with
  | zero => intro f2 p h; omega
  | succ f ih =>
    intro f2 p h1 h2
    cases f2 with
    | zero => omega
    | succ f2 =>
      rw [skipWhitespaceLoop, skipWhitespaceLoop]
      by_cases hb : byteAt t (skipSpaces t (t.length - p) p) = 35
      · have hge := skipSpaces_ge t (t.length - p) p
        have hlt : skipSpaces t (t.length - p) p < t.length := by
          by_contra hcon
          rw [byteAt_eq_zero (by omega)] at hb
          omega
        simp only [hb, beq_self_eq_true, if_true]
        cases hc : skipComment t (t.length + 2 - skipSpaces t (t.length - p) p)
            (skipSpaces t (t.length - p) p) with
        | none => rfl
        | some q =>
          have hq := skipComment_gt _ _ _ hc (by rw [hb]; decide)
          exact ih f2 q (by omega) (by omega)
      · simp [hb]

theorem skipWhitespace_of_loop {t : List Nat} {f p : Nat} (h : t.length - p + 1 ≤ f) :
    skipWhitespaceLoop t f p = skipWhitespace t p :=
  skipWhitespaceLoop_fuel t f _ p h (Nat.le_refl _)

/-- One white-space byte at the cursor: `skipWhitespace` goes on from the next byte. -/
theorem skipWhitespace_space {t : List Nat} {cur c : Nat} {rest : List Nat}
    (h : t.drop cur = c :: rest) (hc : isspace c = true) :
    skipWhitespace t cur = skipWhitespace t (cur + 1) := by
  have hl := length_of_drop h
  simp only [List.length_cons] at hl
  have hc0 : c ≠ 0 := by rintro rfl; simp [isspace] at hc
  rw [← skipWhitespace_of_loop (f := t.length - cur + 1) (p := cur + 1) (by omega)]
  unfold skipWhitespace
  rw [skipWhitespaceLoop, skipWhitespaceLoop]
  have e : skipSpaces t (t.length - cur) cur = skipSpaces t (t.length - (cur + 1)) (cur + 1) := by
    rw [show t.length - cur = (t.length - (cur + 1)) + 1 by omega, skipSpaces]
    simp [byteAt_of_drop h, hc, hc0]
  rw [e]

/-- A comment at the cursor: `skipWhitespace` goes on from the newline that ends it. -/
theorem skipWhitespace_comment {t : List Nat} {cur : Nat} {body rest : List Nat}
    (h : t.drop cur = 35 :: (body ++ 10 :: rest)) (hb : ∀ x ∈ body, x ≠ 10) :
    skipWhitespace t cur = skipWhitespace t (cur + body.length + 2) := by
  have hl := length_of_drop h
  simp only [List.length_cons, List.length_append] at hl
  have h10 : t.drop (cur + body.length + 1) = 10 :: rest := by
    have := drop_add_of_drop (drop_succ_of_drop h)
    rw [← this]
    congr 1
    omega
  rw [show cur + body.length + 2 = cur + body.length + 1 + 1 by omega,
    ← skipWhitespace_space h10 (by decide),
    ← skipWhitespace_of_loop (f := t.length - cur) (p := cur + body.length + 1) (by omega)]
  unfold skipWhitespace
  rw [skipWhitespaceLoop]
  have e : skipSpaces t (t.length - cur) cur = cur := by
    rw [show t.length - cur = (t.length - (cur + 1)) + 1 by omega, skipSpaces]
    simp [byteAt_of_drop h, isspace]
  have hcm : skipComment t (t.length + 2 - cur) cur = some (cur + (35 :: body).length) :=
    skipComment_run (35 :: body) _ cur (by simpa using h)
      (by
        intro x hx
        rcases List.mem_cons.1 hx with hx | hx
        · rw [hx]; decide
        · exact hb x hx)
      (by simp only [List.length_cons]; omega)
  simp only [e, byteAt_of_drop h, beq_self_eq_true, if_true, hcm, List.length_cons]
  rw [Nat.add_assoc]

/-- White space and comments at the cursor are skipped. -/
theorem skipWhitespace_blank {t : List Nat} {blank : List Nat} (hb : Blank blank) :
    ∀ (cur : Nat) (tail : List Nat), t.drop cur = blank ++ tail →
      skipWhitespace t cur = skipWhitespace t (cur + blank.length) := by
  induction hb with
  | nil => intro cur tail _; rfl
  | space hc _ ih =>
    intro cur tail h
    rw [skipWhitespace_space h hc, ih (cur + 1) tail (drop_succ_of_drop h)]
    simp only [List.length_cons]
    congr 1
    omega
  | @comment body rest hbody _ ih =>
    intro cur tail h
    have h0 : t.drop cur = 35 :: (body ++ 10 :: (rest ++ tail)) := by simpa using h
    have h2 : t.drop (cur + body.length + 2) = rest ++ tail := by
      have h1 := drop_add_of_drop (drop_succ_of_drop h0)
      have := drop_succ_of_drop h1
      rw [← this]
      congr 1
      omega
    rw [skipWhitespace_comment h0 hbody, ih _ tail h2]
    simp only [List.length_cons, List.length_append]
    congr 1
    omega

theorem skipSpaces_shift (t : List Nat) (cur : Nat) : ∀ fuel p,
    skipSpaces t fuel (cur + p) = cur + skipSpaces (t.drop cur) fuel p := by
  intro fuel
  induction fuel with
  | zero => intro p; simp [skipSpaces]
  | succ f ih =>
    intro p
    rw [skipSpaces, skipSpaces, byteAt_drop]
    split_ifs
    · rw [← ih (p + 1), Nat.add_assoc]
    · rfl

theorem skipComment_shift (t : List Nat) (cur : Nat) (hcur : cur ≤ t.length) : ∀ fuel p,
    skipComment t fuel (cur + p) = (skipComment (t.drop cur) fuel p).map (fun q => cur + q) := by
  intro fuel
  induction fuel with
  | zero => intro p; simp [skipComment]
  | succ f ih =>
    intro p
    rw [skipComment, skipComment, byteAt_drop, List.length_drop]
    by_cases c1 : t.length < cur + p
    · rw [if_pos c1, if_pos (show t.length - cur < p by omega)]
      rfl
    · rw [if_neg c1, if_neg (show ¬ t.length - cur < p by omega)]
      by_cases c2 : (byteAt t (cur + p) != 10) = true
      · rw [if_pos c2, if_pos c2, ← ih (p + 1), Nat.add_assoc]
      · rw [if_neg c2, if_neg c2]
        rfl

theorem skipWhitespaceLoop_shift (t : List Nat) (cur : Nat) (hcur : cur ≤ t.length) :
    ∀ fuel p, skipWhitespaceLoop t fuel (cur + p)
      = (skipWhitespaceLoop (t.drop cur) fuel p).map (fun q => cur + q) := by
  intro fuel
  induction fuel with
  | zero => intro p; simp [skipWhitespaceLoop, Except.map]
  | succ f ih =>
    intro p
    rw [skipWhitespaceLoop, skipWhitespaceLoop, List.length_drop]
    have e1 : skipSpaces t (t.length - (cur + p)) (cur + p)
        = cur + skipSpaces (t.drop cur) (t.length - cur - p) p := by
      rw [skipSpaces_shift, Nat.sub_add_eq]
    simp only [e1, byteAt_drop]
    generalize skipSpaces (t.drop cur) (t.length - cur - p) p = n
    by_cases hb : byteAt t (cur + n) = 35
    · simp only [hb, beq_self_eq_true, if_true]
      rw [skipComment_shift t cur hcur,
        show t.length + 2 - (cur + n) = t.length - cur + 2 - n by omega]
      cases skipComment (t.drop cur) (t.length - cur + 2 - n) n with
      | none => simp [Except.map]
      | some q => simp only [Option.map_some']; exact ih q
    · simp [hb, Except.map]

/-- The result of `skipWhitespace` depends on the text from the cursor on only: it is the
result on that text, counted from the cursor. -/
theorem skipWhitespace_shift (t : List Nat) (cur : Nat) (hcur : cur ≤ t.length) :
    skipWhitespace t cur = (skipWhitespace (t.drop cur) 0).map (fun q => cur + q) := by
  unfold skipWhitespace
  rw [List.length_drop, Nat.sub_zero]
  exact skipWhitespaceLoop_shift t cur hcur _ 0

/-- C11, counterexample: the text `{}`, NUL, `x` is accepted although the bytes after the
closing brace, a NUL and an `x`, are neither white space nor part of a comment: the scan of the
trailing text ends at the first NUL byte. -/
theorem C11_counterexample_text_after_nul :
    parseObject (parseFuel [123, 125, 0, 120]) [123, 125, 0, 120] JsonValue.fresh 1
        = ({ JsonValue.fresh with type_f := JSON_OBJECT }, Except.ok 2)
      ∧ List.drop 2 [123, 125, 0, 120] = [0, 120]
      ∧ isspace 0 = false ∧ isspace 120 = false
      ∧ parse JsonValue.fresh [123, 125, 0, 120]
        = ({ JsonValue.fresh with type_f := JSON_OBJECT }, Except.ok ()) :=
  ⟨by rfl, by rfl, by decide, by decide, by rfl⟩

/-- C11, amended: when the top-level object of a text parses and the text after its closing
brace is a run of white space and comments (each closed by a newline) followed by `tail`:
`parse` succeeds when `tail` is empty or starts with a NUL byte, and raises the parse error
"Unexpected text after end of top level object" when `tail` starts with a byte that is
neither NUL, nor white space, nor `#`. -/
theorem C11_text_after_top_level_object (t : List Nat) (self self1 : JsonValue)
    (cur objectEnd : Nat) (blank tail : List Nat)
    (hs : skipWhitespace t 0 = Except.ok cur) (hb : byteAt t cur = 123)
    (hobj : parseObject (parseFuel t) t self (cur + 1) = (self1, Except.ok objectEnd))
    (ht : t.drop objectEnd = blank ++ tail) (hblank : Blank blank) :
    ((tail = [] ∨ tail.head? = some 0) → parse self t = (self1, Except.ok ()))
      ∧ (∀ c, tail.head? = some c → c ≠ 0 → isspace c = false → c ≠ 35 →
          parse self t = (self1, Except.error
            (JsonParseException "Unexpected text after end of top level object"
              (cstr t objectEnd)))) := by
  have hsk := skipWhitespace_blank hblank objectEnd tail ht
  have htail := drop_add_of_drop ht
  have hparse : ∀ b : Nat, skipWhitespace t (objectEnd + blank.length)
        = Except.ok (objectEnd + blank.length) →
      byteAt t (objectEnd + blank.length) = b →
      parse self t = if b ≠ 0 then (self1, Except.error
            (JsonParseException "Unexpected text after end of top level object"
              (cstr t objectEnd))) else (self1, Except.ok ()) := by
    intro b h1 h2
    unfold parse
    rw [hs]
    simp only [hb, ne_eq, not_true_eq_false, if_false, hobj, hsk, h1, h2]
  constructor
  · intro h
    cases tail with
    | nil =>
      rw [hparse 0 (skipWhitespace_end htail) (byteAt_of_drop_nil htail)]
      simp
    | cons c r =>
      have hc : c = 0 := by simpa using h
      subst hc
      rw [hparse 0 (skipWhitespace_stay htail (by decide) (by decide)) (byteAt_of_drop htail)]
      simp
  · intro c hc h0 hsp h35
    cases tail with
    | nil => simp at hc
    | cons c1 r =>
      simp only [List.head?_cons, Option.some.injEq] at hc
      subst hc
      rw [hparse c1 (skipWhitespace_stay htail hsp h35) (byteAt_of_drop htail)]
      simp [h0]

/-- C11, amended, at the text `{"a":1}`, space, `# end`, newline, `x`: the object ends at
index 7, a space and a comment follow, and the `x` after them makes `parse` raise the error;
without the `x` the text is accepted. -/
theorem C11_text_after_top_level_object_witness :
    (parse JsonValue.fresh (lit "\x7b\"a\":1\x7d # end\nx")).2
        = Except.error (JsonParseException "Unexpected text after end of top level object"
            (lit " # end\nx"))
      ∧ (parse JsonValue.fresh (lit "\x7b\"a\":1\x7d # end\n")).2 = Except.ok ()
      ∧ parse JsonValue.fresh (lit "\x7b\"a\":1\x7d # end\nx")
        = ((parseObject (parseFuel (lit "\x7b\"a\":1\x7d # end\nx"))
              (lit "\x7b\"a\":1\x7d # end\nx") JsonValue.fresh 1).1,
            Except.error (JsonParseException "Unexpected text after end of top level object"
              (cstr (lit "\x7b\"a\":1\x7d # end\nx") 7))) :=
  ⟨by decide!, by decide!,
    (C11_text_after_top_level_object (lit "\x7b\"a\":1\x7d # end\nx") JsonValue.fresh
      (parseObject (parseFuel (lit "\x7b\"a\":1\x7d # end\nx"))
        (lit "\x7b\"a\":1\x7d # end\nx") JsonValue.fresh 1).1 0 7
      (lit " # end\n") (lit "x") (by decide!) (by decide!) (pair_eq_of_snd (by decide!))
      (by decide)
      (Blank.space (by decide) (@Blank.comment (lit " end") [] (by decide) Blank.nil))).2
      120 (by decide) (by decide) (by decide) (by decide)⟩

/-- A result of the parser with some fuel is its result with one more unit of fuel. -/
theorem parse_fuel_succ (f : Nat) :
    (∀ t self cur v n, parseValue f t self cur = (v, Except.ok n) →
        parseValue (f + 1) t self cur = (v, Except.ok n))
      ∧ (∀ t self os cur v n, parseObjectLoop f t self os cur = (v, Except.ok n) →
        parseObjectLoop (f + 1) t self os cur = (v, Except.ok n))
      ∧ (∀ t self os cur v n, parseArrayLoop f t self os cur = (v, Except.ok n) →
        parseArrayLoop (f + 1) t self os cur = (v, Except.ok n)) := by
  induction f with
  | zero =>
    refine ⟨?_, ?_, ?_⟩
    · intro t self cur v n h; simp [parseValue] at h
    · intro t self os cur v n h; simp [parseObjectLoop] at h
    · intro t self os cur v n h; simp [parseArrayLoop] at h
  | succ f ih =>
    obtain ⟨ihv, iho, iha⟩ := ih
    refine ⟨?_, ?_, ?_⟩
    · intro t self cur v n h
      rw [parseValue] at h
      rw [parseValue]
      cases hs : skipWhitespace t cur with
      | error e => simp [hs] at h
      | ok p =>
        simp only [hs] at h ⊢
        by_cases c0 : byteAt t p = 0
        · rw [if_pos c0] at h ⊢; exact h
        · rw [if_neg c0] at h ⊢
          by_cases c1 : byteAt t p = 34
          · rw [if_pos c1] at h ⊢; exact h
          · rw [if_neg c1] at h ⊢
            by_cases c2 : byteAt t p = 123
            · rw [if_pos c2] at h ⊢; exact iho _ _ _ _ _ _ h
            · rw [if_neg c2] at h ⊢
              by_cases c3 : byteAt t p = 91
              · rw [if_pos c3] at h ⊢; exact iha _ _ _ _ _ _ h
              · rw [if_neg c3] at h ⊢; exact h
    · intro t self os cur v n h
      rw [parseObjectLoop] at h
      rw [parseObjectLoop]
      cases hs : skipWhitespace t cur with
      | error e => simp [hs] at h
      | ok p =>
        simp only [hs] at h ⊢
        by_cases c0 : byteAt t p = 125
        · rw [if_pos c0] at h ⊢; exact h
        · rw [if_neg c0] at h ⊢
          by_cases c1 : byteAt t p = 0
          · rw [if_pos c1] at h ⊢; exact h
          · rw [if_neg c1] at h ⊢
            cases hps : parseString t p with
            | error e => simp [hps] at h
            | ok r =>
              obtain ⟨name, p1⟩ := r
              simp only [hps] at h ⊢
              cases hs2 : skipWhitespace t p1 with
              | error e => simp [hs2] at h
              | ok p2 =>
                simp only [hs2] at h ⊢
                by_cases c2 : byteAt t p2 ≠ 58
                · rw [if_pos c2] at h; simp at h
                · rw [if_neg c2] at h ⊢
                  cases hpv : parseValue f t JsonValue.fresh (p2 + 1) with
                  | mk value res =>
                    cases res with
                    | error e => simp [hpv] at h
                    | ok p3 =>
                      rw [ihv _ _ _ _ _ hpv]
                      simp only [hpv] at h ⊢
                      cases hs4 : skipWhitespace t p3 with
                      | error e => simp [hs4] at h
                      | ok p4 =>
                        simp only [hs4] at h ⊢
                        by_cases c3 : byteAt t p4 = 44
                        · rw [if_pos c3] at h ⊢; exact iho _ _ _ _ _ _ h
                        · rw [if_neg c3] at h ⊢
                          by_cases c4 : byteAt t p4 = 125
                          · rw [if_pos c4] at h ⊢; exact iho _ _ _ _ _ _ h
                          · rw [if_neg c4] at h; simp at h
    · intro t self os cur v n h
      rw [parseArrayLoop] at h
      rw [parseArrayLoop]
      cases hs : skipWhitespace t cur with
      | error e => simp [hs] at h
      | ok p =>
        simp only [hs] at h ⊢
        by_cases c0 : byteAt t p = 0
        · rw [if_pos c0] at h ⊢; exact h
        · rw [if_neg c0] at h ⊢
          by_cases c1 : byteAt t p = 93
          · rw [if_pos c1] at h ⊢; exact h
          · rw [if_neg c1] at h ⊢
            by_cases c2 : byteAt t p = 44
            · rw [if_pos c2] at h ⊢; exact iha _ _ _ _ _ _ h
            · rw [if_neg c2] at h ⊢
              cases hpv : parseValue f t JsonValue.fresh p with
              | mk value res =>
                cases res with
                | error e => simp [hpv] at h
                | ok p3 =>
                  rw [ihv _ _ _ _ _ hpv]
                  simp only [hpv] at h ⊢
                  exact iha _ _ _ _ _ _ h

theorem parseValue_fuel_le {f g : Nat} (hfg : f ≤ g) {t : List Nat} {self : JsonValue}
    {cur : Nat} {v : JsonValue} {n : Nat} (h : parseValue f t self cur = (v, Except.ok n)) :
    parseValue g t self cur = (v, Except.ok n) := by
  induction hfg with
  | refl => exact h
  | step _ ih => exact (parse_fuel_succ _).1 _ _ _ _ _ ih

theorem parseArrayLoop_elements (f : Nat) :
    ∀ (t : List Nat) (self : JsonValue) (os cur : Nat) (v : JsonValue) (n : Nat),
      parseArrayLoop f t self os cur = (v, Except.ok n) →
      ∃ es, ArrayElements t cur es n
        ∧ v = { self with theArray_f := self.theArray_f ++ es } := by
  induction f with
  | zero =>
    intro t self os cur v n h
    simp [parseArrayLoop] at h
  | succ f ih =>
    intro t self os cur v n h
    rw [parseArrayLoop] at h
    cases hs : skipWhitespace t cur with
    | error e => simp [hs] at h
    | ok p =>
      simp only [hs] at h
      by_cases c0 : byteAt t p = 0
      · rw [if_pos c0] at h; simp at h
      · rw [if_neg c0] at h
        by_cases c1 : byteAt t p = 93
        · rw [if_pos c1] at h
          simp only [Prod.mk.injEq, Except.ok.injEq] at h
          obtain ⟨hv, hn⟩ := h
          subst hv hn
          exact ⟨[], ArrayElements.close hs c1, by cases self; simp⟩
        · rw [if_neg c1] at h
          by_cases c2 : byteAt t p = 44
          · rw [if_pos c2] at h
            obtain ⟨es, hes, hv⟩ := ih _ _ _ _ _ _ h
            exact ⟨es, ArrayElements.comma hs c2 hes, hv⟩
          · rw [if_neg c2] at h
            cases hpv : parseValue f t JsonValue.fresh p with
            | mk value res =>
              cases res with
              | error e => simp [hpv] at h
              | ok p1 =>
                simp only [hpv] at h
                obtain ⟨es, hes, hv⟩ := ih _ _ _ _ _ _ h
                refine ⟨value :: es, ArrayElements.element hs c0 c1 c2 hpv hes, ?_⟩
                rw [hv]
                simp

theorem arrayElements_parse {t : List Nat} {cur : Nat} {es : List JsonValue} {n : Nat}
    (h : ArrayElements t cur es n) :
    ∀ (self : JsonValue) (os : Nat), ∃ F, ∀ f, F ≤ f →
      parseArrayLoop f t self os cur
        = ({ self with theArray_f := self.theArray_f ++ es }, Except.ok n) := by
  induction h with
  | @close cur p hs hb =>
    intro self os
    refine ⟨1, fun f hf => ?_⟩
    cases f with
    | zero => omega
    | succ f =>
      rw [parseArrayLoop, hs]
      simp only [hb, show ¬ (93 : Nat) = 0 by decide, if_false, if_true]
      cases self
      simp
  | @comma cur p stop rest hs hb _ ih =>
    intro self os
    obtain ⟨F, hF⟩ := ih self os
    refine ⟨F + 1, fun f hf => ?_⟩
    cases f with
    | zero => omega
    | succ f =>
      rw [parseArrayLoop, hs]
      simp only [hb, show ¬ (44 : Nat) = 0 by decide, show ¬ (44 : Nat) = 93 by decide,
        if_false, if_true]
      exact hF f (by omega)
  | @element cur p fuel p1 stop value rest hs h0 h93 h44 hpv _ ih =>
    intro self os
    obtain ⟨F, hF⟩ := ih { self with theArray_f := self.theArray_f ++ [value] } os
    refine ⟨max fuel F + 1, fun f hf => ?_⟩
    cases f with
    | zero => omega
    | succ f =>
      rw [parseArrayLoop, hs]
      simp only [h0, h93, h44, if_false]
      rw [parseValue_fuel_le (by omega) hpv]
      simp only []
      rw [hF f (by omega)]
      simp

/-- C16: the Array `parseArray` gives is the receiver's array followed by the elements of the
array text in document order, where commas only separate: if `parseArray` returns, the
elements it appended are those of the text after the opening bracket (`ArrayElements`), and
the array text with the elements `es` is read, with enough fuel, into the receiver's array
followed by `es`; a comma at the cursor does not change the elements. -/
theorem C16_array_is_element_sequence (t : List Nat) (self : JsonValue) (cur : Nat) :
    (∀ fuel v n, parseArray fuel t self cur = (v, Except.ok n) →
        ∃ es, ArrayElements t cur es n
          ∧ v = { self with type_f := JSON_ARRAY, theArray_f := self.theArray_f ++ es })
      ∧ (∀ es n, ArrayElements t cur es n → ∃ F, ∀ fuel, F ≤ fuel →
          parseArray fuel t self cur
            = ({ self with type_f := JSON_ARRAY, theArray_f := self.theArray_f ++ es },
                Except.ok n))
      ∧ (∀ es n, skipWhitespace t cur = Except.ok cur → byteAt t cur = 44 →
          (ArrayElements t cur es n ↔ ArrayElements t (cur + 1) es n)) := by
  refine ⟨fun fuel v n h => ?_, fun es n h => ?_, fun es n hs hb => ⟨fun h => ?_, fun h => ?_⟩⟩
  · unfold parseArray at h
    exact parseArrayLoop_elements _ _ _ _ _ _ _ h
  · obtain ⟨F, hF⟩ := arrayElements_parse h { self with type_f := JSON_ARRAY } cur
    exact ⟨F, fun fuel hf => by unfold parseArray; exact hF fuel hf⟩
  · cases h with
    | close hs1 hb1 =>
      rw [hs] at hs1
      simp only [Except.ok.injEq] at hs1
      subst hs1
      omega
    | comma hs1 hb1 hrest =>
      rw [hs] at hs1
      simp only [Except.ok.injEq] at hs1
      subst hs1
      exact hrest
    | element hs1 h0 h93 h44 _ _ =>
      rw [hs] at hs1
      simp only [Except.ok.injEq] at hs1
      subst hs1
      exact absurd hb h44
  · exact ArrayElements.comma hs hb h

/-- C16 at the text `[1,,2,]`: it is read without error into the array of the two elements
Integer 1 and Integer 2, as is the text `[1 2]` without a comma. -/
theorem C16_array_is_element_sequence_witness :
    (parseArray 9 (lit "[1,,2,]") JsonValue.fresh 1).2 = Except.ok 7
      ∧ (parseArray 9 (lit "[1,,2,]") JsonValue.fresh 1).1.theArray_f.map
          (fun x => (x.type_f, x.theInteger_f)) = [(JSON_NUMBER, 1), (JSON_NUMBER, 2)]
      ∧ (parseArray 9 (lit "[1 2]") JsonValue.fresh 1).1.theArray_f.map
          (fun x => (x.type_f, x.theInteger_f)) = [(JSON_NUMBER, 1), (JSON_NUMBER, 2)]
      ∧ ∃ es, ArrayElements (lit "[1,,2,]") 1 es 7
          ∧ (parseArray 9 (lit "[1,,2,]") JsonValue.fresh 1).1
            = { JsonValue.fresh with
                type_f := JSON_ARRAY, theArray_f := JsonValue.fresh.theArray_f ++ es } :=
  ⟨by decide!, by decide!, by decide!,
    (C16_array_is_element_sequence (lit "[1,,2,]") JsonValue.fresh 1).1 9
      (parseArray 9 (lit "[1,,2,]") JsonValue.fresh 1).1 7 (pair_eq_of_snd (by decide!))⟩

theorem strtolAt_nondigit {b : Nat} {s : List Nat} (hsp : isspace b = false) (h45 : b ≠ 45)
    (h43 : b ≠ 43) (hd : isDigitOf 10 b = false) : strtolAt (b :: s) = (0, 0) := by
  have h48 : b ≠ 48 := by
    rintro rfl
    simp [isDigitOf, digitVal] at hd
  rw [strtolAt_unsigned hsp h45 h43]
  unfold strtolUnsigned
  rw [hexPrefix_of_head h48]
  have e : (List.head? (b :: s) == some 48) = false := by simp [h48]
  simp only [Bool.false_eq_true, if_false, e]
  unfold strtolRun
  rw [List.takeWhile_cons_of_neg (by simp [hd])]
  simp

/-- C28: with the cursor, after white space, at the bytes `true`, `false` or `null` followed
by any text `r`, `parseValue` gives Boolean true and the cursor 4 bytes on, Boolean false and
the cursor 5 bytes on, or Null and the cursor 4 bytes on; at `True` it goes to the number
branch and raises the error of an integer without digits. -/
theorem C28_literals (f : Nat) (t : List Nat) (self : JsonValue) (cur0 cur : Nat)
    (r : List Nat) (hs : skipWhitespace t cur0 = Except.ok cur) :
    (t.drop cur = lit "true" ++ r → parseValue (f + 1) t self cur0
        = ({ self with type_f := JSON_BOOL, theBool_f := true }, Except.ok (cur + 4)))
      ∧ (t.drop cur = lit "false" ++ r → parseValue (f + 1) t self cur0
        = ({ self with type_f := JSON_BOOL, theBool_f := false }, Except.ok (cur + 5)))
      ∧ (t.drop cur = lit "null" ++ r → parseValue (f + 1) t self cur0
        = ({ self with type_f := JSON_NULL }, Except.ok (cur + 4)))
      ∧ (t.drop cur = lit "True" ++ r → parseValue (f + 1) t self cur0
        = ({ self with type_f := JSON_NUMBER, theInteger_f := 0 },
            Except.error (JsonParseException "Unexpected character in integer value"
              (cstr t cur)))) := by
  refine ⟨parseValue_true self hs, parseValue_false self hs, parseValue_null self hs, ?_⟩
  intro h
  have h' : t.drop cur = 84 :: (lit "rue" ++ r) := by rw [h]; rfl
  rw [parseValue_default self hs h' (by decide) (by decide) (by decide) (by decide) (by decide)
    (by decide) (by decide)]
  have hst : strtol t cur = (0, cur + 0) := by
    rw [strtol_of_drop h', strtolAt_nondigit (by decide) (by decide) (by decide) (by decide)]
  unfold parseNumber
  simp only [hst, Nat.add_zero, byteAt_of_drop h']
  rw [if_neg (by decide), if_pos (by decide)]

/-- C28 at the texts `trueish` and `True`: the first gives Boolean true with the cursor at
index 4, before `ish`; the second is not read as a literal. -/
theorem C28_literals_witness :
    parseValue 1 (lit "trueish") JsonValue.fresh 0
        = ({ JsonValue.fresh with type_f := JSON_BOOL, theBool_f := true }, Except.ok 4)
      ∧ (parseValue 1 (lit "True") JsonValue.fresh 0).2
        = Except.error (JsonParseException "Unexpected character in integer value"
            (lit "True")) :=
  ⟨(C28_literals 0 (lit "trueish") JsonValue.fresh 0 0 (lit "ish") (by decide!)).1 (by decide),
    by decide!⟩

/-- C26 (code defect): `parse` of the text `{"b":2}` into the value that holds the tree of
`{"a":1}` leaves a value with the two entries `a` and `b`, in the ordered sequence and in the
lookup mapping, where `parse` into a fresh value gives the entry `b` alone: `parse` never
empties the containers of the receiver. -/
theorem C26_earlier_entries_survive :
    (parse JsonValue.fresh (lit "\x7b\"a\":1\x7d")).2 = Except.ok ()
      ∧ (parse (parse JsonValue.fresh (lit "\x7b\"a\":1\x7d")).1 (lit "\x7b\"b\":2\x7d")).2
        = Except.ok ()
      ∧ (parse (parse JsonValue.fresh (lit "\x7b\"a\":1\x7d")).1
          (lit "\x7b\"b\":2\x7d")).1.nameValsInOrder_f.map
            (fun e => (e.1, e.2.type_f, e.2.theInteger_f))
        = [(lit "a", JSON_NUMBER, 1), (lit "b", JSON_NUMBER, 2)]
      ∧ (parse (parse JsonValue.fresh (lit "\x7b\"a\":1\x7d")).1
          (lit "\x7b\"b\":2\x7d")).1.nameValPairs_f.map
            (fun e => (e.1, e.2.type_f, e.2.theInteger_f))
        = [(lit "a", JSON_NUMBER, 1), (lit "b", JSON_NUMBER, 2)]
      ∧ (parse JsonValue.fresh (lit "\x7b\"b\":2\x7d")).1.nameValsInOrder_f.map
            (fun e => (e.1, e.2.type_f, e.2.theInteger_f))
        = [(lit "b", JSON_NUMBER, 2)]
      ∧ (parse JsonValue.fresh (lit "\x7b\"b\":2\x7d")).1.nameValPairs_f.map
            (fun e => (e.1, e.2.type_f, e.2.theInteger_f))
        = [(lit "b", JSON_NUMBER, 2)] := by
  decide!

theorem byteAt_ne_of_all {l : List Nat} {c : Nat} (h : ∀ x ∈ l, x ≠ c) (hc : c ≠ 0) :
    ∀ j, byteAt l j ≠ c := by
  induction l with
  | nil => intro j; simpa [byteAt] using hc.symm
  | cons x l ih =>
    intro j
    cases j with
    | zero => simpa [byteAt] using h x (List.mem_cons_self _ _)
    | succ j =>
      have := ih (fun y hy => h y (List.mem_cons_of_mem _ hy)) j
      simpa [byteAt] using this

/-- The comment loop on a text without a newline from the cursor on leaves the text. -/
theorem skipComment_unclosed {t : List Nat} : ∀ fuel pos,
    (∀ i, pos ≤ i → byteAt t i ≠ 10) → skipComment t fuel pos = none := by
  intro fuel
  induction fuel with
  | zero => intro pos _; rfl
  | succ f ih =>
    intro pos h
    rw [skipComment]
    split_ifs with c1 c2
    · rfl
    · exact ih (pos + 1) (fun i hi => h i (by omega))
    · simp [h pos (Nat.le_refl _)] at c2

/-- A `#` at the cursor with no newline after it: `skipWhitespace` reads on beyond the
terminator. -/
theorem skipWhitespace_unclosed {t : List Nat} {cur : Nat} {body : List Nat}
    (h : t.drop cur = 35 :: body) (hb : ∀ x ∈ body, x ≠ 10) :
    skipWhitespace t cur = Except.error outOfBounds := by
  have hl := length_of_drop h
  simp only [List.length_cons] at hl
  have hno : ∀ i, cur ≤ i → byteAt t i ≠ 10 := by
    intro i hi
    rw [show i = cur + (i - cur) by omega, ← byteAt_drop, h]
    refine byteAt_ne_of_all ?_ (by decide) _
    intro x hx
    rcases List.mem_cons.1 hx with hx | hx
    · rw [hx]; decide
    · exact hb x hx
  unfold skipWhitespace
  rw [skipWhitespaceLoop]
  have e : skipSpaces t (t.length - cur) cur = cur := by
    rw [show t.length - cur = (t.length - (cur + 1)) + 1 by omega, skipSpaces]
    simp [byteAt_of_drop h, isspace]
  simp only [e, byteAt_of_drop h, beq_self_eq_true, if_true, skipComment_unclosed _ _ hno]

/-- C30 (code defect): on the text `{} # end`, which has no newline after the `#`,
`skipWhitespace` called after the closing brace does not return a cursor: the comment loop
`while (*ptr != 10) ptr++` passes the terminator and reads the byte after it, and so does
`parse` on that text. With a newline at the end of the text the cursor returned is the index
of the terminator. -/
theorem C30_unclosed_comment_leaves_the_text :
    skipWhitespace (lit "\x7b\x7d # end") 2 = Except.error outOfBounds
      ∧ (parse JsonValue.fresh (lit "\x7b\x7d # end")).2 = Except.error outOfBounds
      ∧ skipComment (lit "\x7b\x7d # end") 9 3 = none
      ∧ skipWhitespace (lit "\x7b\x7d # end\n") 2 = Except.ok 9
      ∧ (lit "\x7b\x7d # end\n").length = 9 :=
  ⟨by decide!, by decide!, by decide!, by decide!, by decide⟩

/-- At a byte that is neither white space nor `#`, `skipWhitespace` stays. -/
theorem skipWhitespace_of_byte {t : List Nat} {p : Nat} (hsp : isspace (byteAt t p) = false)
    (h35 : byteAt t p ≠ 35) : skipWhitespace t p = Except.ok p := by
  unfold skipWhitespace
  rw [skipWhitespaceLoop]
  have e : skipSpaces t (t.length - p) p = p := by
    cases t.length - p with
    | zero => rfl
    | succ n => rw [skipSpaces]; simp [hsp]
  simp [e, h35]

/-- C27: in the loop of `parseObject`, with `p` the cursor after white space: at the end of
the input the loop raises "Unexpected end of file while reading object"; after a key, a byte
other than `:` raises "Missing : between name and value while reading object"; after a
key/value pair, a byte that is neither `,` nor the closing brace (the end of the input
included) raises "Unexpected character after parsing name/value while reading", the pair
being stored already; a comma followed by the closing brace ends the object with the same
receiver as the closing brace alone. -/
theorem C27_object_errors (f : Nat) (t : List Nat) (self : JsonValue) (os cur p : Nat)
    (hs : skipWhitespace t cur = Except.ok p) :
    (byteAt t p = 0 → parseObjectLoop (f + 1) t self os cur
        = (self, Except.error (JsonParseException
            "Unexpected end of file while reading object" (cstr t os))))
      ∧ (∀ name p1 p2, byteAt t p ≠ 125 → byteAt t p ≠ 0 →
          parseString t p = Except.ok (name, p1) → skipWhitespace t p1 = Except.ok p2 →
          (byteAt t p2 ≠ 58 → parseObjectLoop (f + 1) t self os cur
            = (self, Except.error (JsonParseException
                "Missing : between name and value while reading object" (cstr t p))))
          ∧ (∀ value p3 p4, byteAt t p2 = 58 →
              parseValue f t JsonValue.fresh (p2 + 1) = (value, Except.ok p3) →
              skipWhitespace t p3 = Except.ok p4 →
              (byteAt t p4 ≠ 44 → byteAt t p4 ≠ 125 → parseObjectLoop (f + 1) t self os cur
                = ({ self with
                      nameValPairs_f := mapAssign self.nameValPairs_f name value,
                      nameValsInOrder_f := self.nameValsInOrder_f ++ [(name, value)] },
                    Except.error (JsonParseException
                      "Unexpected character after parsing name/value while reading"
                      (cstr t p))))
              ∧ (byteAt t p4 = 125 → 1 ≤ f → parseObjectLoop (f + 1) t self os cur
                = ({ self with
                      nameValPairs_f := mapAssign self.nameValPairs_f name value,
                      nameValsInOrder_f := self.nameValsInOrder_f ++ [(name, value)] },
                    Except.ok (p4 + 1)))
              ∧ (∀ p5, byteAt t p4 = 44 → skipWhitespace t (p4 + 1) = Except.ok p5 →
                  byteAt t p5 = 125 → 1 ≤ f → parseObjectLoop (f + 1) t self os cur
                = ({ self with
                      nameValPairs_f := mapAssign self.nameValPairs_f name value,
                      nameValsInOrder_f := self.nameValsInOrder_f ++ [(name, value)] },
                    Except.ok (p5 + 1))))) := by
  refine ⟨fun h0 => ?_, fun name p1 p2 h125 h0 hps hs2 => ⟨fun h58 => ?_,
    fun value p3 p4 h58 hpv hs4 => ⟨fun h44 h125b => ?_, fun h125b hf => ?_,
      fun p5 h44 hs5 h125c hf => ?_⟩⟩⟩
  · rw [parseObjectLoop, hs]
    simp [h0]
  · rw [parseObjectLoop, hs]
    simp [h125, h0, hps, hs2, h58]
  · rw [parseObjectLoop, hs]
    simp [h125, h0, hps, hs2, h58, hpv, hs4, h44, h125b]
  · rw [parseObjectLoop, hs]
    simp only [h125, h0, hps, hs2, h58, hpv, hs4, h125b, if_false, ne_eq, not_true_eq_false,
      show ¬ (125 : Nat) = 44 by decide, if_true]
    cases f with
    | zero => omega
    | succ f =>
      rw [parseObjectLoop, skipWhitespace_of_byte (by rw [h125b]; decide)
        (by rw [h125b]; decide)]
      simp [h125b]
  · rw [parseObjectLoop, hs]
    simp only [h125, h0, hps, hs2, h58, hpv, hs4, h44, if_false, ne_eq, not_true_eq_false,
      if_true]
    cases f with
    | zero => omega
    | succ f =>
      rw [parseObjectLoop, hs5]
      simp [h125c]

/-- C27 at the texts of the claim: `{"a":1,}` gives the tree of `{"a":1}`; `{"a" 1}`,
`{"a":1 "b":2}` and `{"a":1,` raise the three errors; the last one is the error the theorem
gives for the end of the input where a key is expected. -/
theorem C27_object_errors_witness :
    (parse JsonValue.fresh (lit "\x7b\"a\":1,\x7d")).2 = Except.ok ()
      ∧ (parse JsonValue.fresh (lit "\x7b\"a\":1,\x7d")).1
        = (parse JsonValue.fresh (lit "\x7b\"a\":1\x7d")).1
      ∧ (parse JsonValue.fresh (lit "\x7b\"a\" 1\x7d")).2
        = Except.error (JsonParseException
            "Missing : between name and value while reading object" (lit "\"a\" 1\x7d"))
      ∧ (parse JsonValue.fresh (lit "\x7b\"a\":1 \"b\":2\x7d")).2
        = Except.error (JsonParseException
            "Unexpected character after parsing name/value while reading"
            (lit "\"a\":1 \"b\":2\x7d"))
      ∧ parseObjectLoop (0 + 1) (lit "\x7b\"a\":1,") JsonValue.fresh 1 7
        = (JsonValue.fresh, Except.error (JsonParseException
            "Unexpected end of file while reading object" (cstr (lit "\x7b\"a\":1,") 1))) :=
  ⟨by decide!, by rfl, by decide!, by decide!,
    (C27_object_errors 0 (lit "\x7b\"a\":1,") JsonValue.fresh 1 7 7 (by decide!)).1
      (by decide)⟩

theorem strtolRun_pos {neg : Bool} {base : Nat} {s : List Nat} {r : Int × Nat}
    (h : strtolRun neg base s = some r) : 0 < r.2 := by
  unfold strtolRun at h
  split_ifs at h with c
  simp only [Option.some.injEq] at h
  rw [← h]
  simp only
  cases hw : s.takeWhile (isDigitOf base) with
  | nil => rw [hw] at c; simp at c
  | cons x xs => simp

theorem strtolUnsigned_pos {neg : Bool} {s : List Nat} {r : Int × Nat}
    (h : strtolUnsigned neg s = some r) : 0 < r.2 := by
  unfold strtolUnsigned at h
  split_ifs at h
  · cases hr : strtolRun neg 16 (s.drop 2) with
    | none => rw [hr] at h; simp at h
    | some r2 =>
      rw [hr] at h
      simp only [Option.map_some', Option.some.injEq] at h
      rw [← h]
      simp
  · exact strtolRun_pos h
  · exact strtolRun_pos h

/-- When `strtol` converts nothing (`endPtr` is the start) the value is 0. -/
theorem strtolAt_zero {s : List Nat} (h : (strtolAt s).2 = 0) : (strtolAt s).1 = 0 := by
  unfold strtolAt at h ⊢
  simp only [] at h ⊢
  split at h
  · rename_i r hr
    have := strtolUnsigned_pos hr
    simp only at h
    omega
  · rfl

theorem scanMantissa_point_digit {d : Nat} (tk : List Nat) (neg : Bool) (h1 : 48 ≤ d)
    (h2 : d ≤ 57) : ∃ r, scanMantissa (46 :: d :: tk) neg false = some r ∧ 2 ≤ r.2 := by
  have hd : isDigitOf 10 d = true := isDigitOf_ten h1 h2
  have h46 : isDigitOf 10 46 = false := by decide
  unfold scanMantissa
  simp only [Bool.false_eq_true, if_false, List.takeWhile_cons, h46, List.length_nil,
    List.drop_zero, List.head?_cons, beq_self_eq_true, if_true, List.tail_cons, hd,
    List.isEmpty_cons, Bool.and_false, List.isEmpty_nil, List.length_cons, Nat.zero_add]
  exact ⟨_, rfl, by simp only; omega⟩

theorem strtodAt_point_digit {d : Nat} (rest : List Nat) (h1 : 48 ≤ d) (h2 : d ≤ 57) :
    2 ≤ (strtodAt (46 :: d :: rest)).2 := by
  have hd : isDigitOf 16 d = true := by
    unfold isDigitOf digitVal
    simp only [show 48 ≤ d ∧ d ≤ 57 from ⟨h1, h2⟩, and_self, if_true]
    rw [if_pos (by omega)]
    rfl
  have hnb : numberByte d = true := by simp [numberByte, hd]
  obtain ⟨r, hr, hr2⟩ := scanMantissa_point_digit (rest.takeWhile numberByte) false h1 h2
  unfold strtodAt
  have hsp : ¬ isspace 46 = true := by decide
  have hn46 : numberByte 46 = true := by decide
  simp only [List.dropWhile_cons_of_neg hsp, List.takeWhile_cons, hn46, hnb, if_true,
    List.head?_cons, show (some 46 == some 45) = false by decide,
    show (some 46 == some 43) = false by decide, Bool.or_false, Bool.false_eq_true, if_false]
  unfold strtodUnsigned
  simp only [hr]
  omega

theorem strtodAt_lone_point {tail : List Nat}
    (h : ∀ d rest, tail = d :: rest → ¬ (48 ≤ d ∧ d ≤ 57)) :
    strtodAt (46 :: tail) = (Double.finite false 0 (-1074), 0) := by
  have hfp : (tail.takeWhile numberByte).takeWhile (isDigitOf 10) = [] := by
    cases tail with
    | nil => rfl
    | cons d rest =>
      have hd : isDigitOf 10 d = false := by
        have := h d rest rfl
        unfold isDigitOf digitVal
        simp only []
        by_cases c1 : 48 ≤ d ∧ d ≤ 57
        · exact absurd c1 this
        · rw [if_neg c1]
          by_cases c2 : 97 ≤ d ∧ d ≤ 122
          · rw [if_pos c2]
            simp only []
            rw [if_neg (by omega)]
            rfl
          · rw [if_neg c2]
            by_cases c3 : 65 ≤ d ∧ d ≤ 90
            · rw [if_pos c3]
              simp only []
              rw [if_neg (by omega)]
              rfl
            · rw [if_neg c3]
              rfl
      rw [List.takeWhile_cons]
      split_ifs
      · rw [List.takeWhile_cons_of_neg (by simp [hd])]
      · rfl
  have h46 : isDigitOf 10 46 = false := by decide
  have hsp : ¬ isspace 46 = true := by decide
  have hn46 : numberByte 46 = true := by decide
  have hsm : scanMantissa (46 :: tail.takeWhile numberByte) false false = none := by
    unfold scanMantissa
    simp only [Bool.false_eq_true, if_false, List.takeWhile_cons, h46, List.length_nil,
      List.drop_zero, List.head?_cons, beq_self_eq_true, if_true, List.tail_cons, hfp,
      List.isEmpty_nil, Bool.and_self]
  unfold strtodAt
  simp only [List.dropWhile_cons_of_neg hsp, List.takeWhile_cons, hn46, if_true,
    List.head?_cons, show (some 46 == some 45) = false by decide,
    show (some 46 == some 43) = false by decide, Bool.or_false, Bool.false_eq_true, if_false]
  unfold strtodUnsigned
  simp only [hsm]

/-- C29, counterexample: at the token `.1e999`, a point followed by a decimal digit on which
the integer scan consumes no byte, `parseValue` raises "Float out of range": `strtod` gives
`HUGE_VAL`. -/
theorem C29_counterexample_point_digit_overflow :
    (strtol (lit ".1e999") 0).2 = 0
      ∧ (strtod (lit ".1e999") 0).1 = HUGE_VAL
      ∧ (parseValue 1 (lit ".1e999") JsonValue.fresh 0).2
        = Except.error (JsonParseException "Float out of range" (lit ".1e999")) := by
  decide!

/-- C29, amended: in the number branch of `parseValue`, on a token on which the integer scan
of `strtol` consumes no byte: when the first byte is not a point the error "Unexpected
character in integer value" is raised; when it is a point followed by a decimal digit,
`strtod` consumes at least these two bytes and the value is Float-tagged with the double
`strtod` read, unless that double is `HUGE_VAL` (or its negative), in which case "Float out of
range" is raised; when it is a point not followed by a decimal digit, "Unexpected character in
float value" is raised. -/
theorem C29_number_without_integer_digits (f : Nat) (t : List Nat) (self : JsonValue)
    (cur0 cur b : Nat) (tail : List Nat) (hs : skipWhitespace t cur0 = Except.ok cur)
    (h : t.drop cur = b :: tail) (n0 : b ≠ 0) (n1 : b ≠ 34) (n2 : b ≠ 123) (n3 : b ≠ 91)
    (n4 : b ≠ 116) (n5 : b ≠ 102) (n6 : b ≠ 110) (hscan : (strtol t cur).2 = cur) :
    (b ≠ 46 → parseValue (f + 1) t self cur0
        = ({ self with type_f := JSON_NUMBER, theInteger_f := 0 },
            Except.error (JsonParseException "Unexpected character in integer value"
              (cstr t cur))))
      ∧ (b = 46 → ∀ d rest, tail = d :: rest → 48 ≤ d → d ≤ 57 →
          cur + 2 ≤ (strtod t cur).2
          ∧ (¬ ((strtod t cur).1 = HUGE_VAL ∨ (strtod t cur).1 = HUGE_VAL.negate) →
              parseValue (f + 1) t self cur0
                = ({ self with
                      type_f := JSON_FLOAT, theInteger_f := 0, theFloat_f := (strtod t cur).1 },
                    Except.ok (strtod t cur).2))
          ∧ ((strtod t cur).1 = HUGE_VAL ∨ (strtod t cur).1 = HUGE_VAL.negate →
              parseValue (f + 1) t self cur0
                = ({ self with
                      type_f := JSON_FLOAT, theInteger_f := 0, theFloat_f := (strtod t cur).1 },
                    Except.error (JsonParseException "Float out of range" (cstr t cur)))))
      ∧ (b = 46 → (∀ d rest, tail = d :: rest → ¬ (48 ≤ d ∧ d ≤ 57)) →
          parseValue (f + 1) t self cur0
            = ({ self with
                  type_f := JSON_FLOAT, theInteger_f := 0,
                  theFloat_f := Double.finite false 0 (-1074) },
                Except.error (JsonParseException "Unexpected character in float value"
                  (cstr t cur)))) := by
  have hval : (strtol t cur).1 = 0 := by
    unfold strtol at hscan ⊢
    simp only at hscan ⊢
    exact strtolAt_zero (by omega)
  have hpn : parseValue (f + 1) t self cur0 = parseNumber t self cur :=
    parseValue_default self hs h n0 n1 n2 n3 n4 n5 n6
  have hmin : ¬ ((0 : Int) = LONG_MIN ∨ (0 : Int) = LONG_MAX) := by decide
  refine ⟨fun hb => ?_, fun hb d rest htail h1 h2 => ?_, fun hb hno => ?_⟩
  · rw [hpn]
    unfold parseNumber
    simp only [hval, hscan, byteAt_of_drop h]
    rw [if_neg hmin, if_pos ⟨trivial, hb⟩]
  · subst hb
    subst htail
    have h2' : cur + 2 ≤ (strtod t cur).2 := by
      rw [strtod_of_drop h]
      have := strtodAt_point_digit rest h1 h2
      simp only
      omega
    refine ⟨h2', fun hnot => ?_, fun hhuge => ?_⟩
    · rw [hpn]
      unfold parseNumber
      simp only [hval, hscan, byteAt_of_drop h]
      rw [if_neg hmin, if_neg (by simp), if_pos (by simp), if_neg hnot, if_neg (by omega)]
    · rw [hpn]
      unfold parseNumber
      simp only [hval, hscan, byteAt_of_drop h]
      rw [if_neg hmin, if_neg (by simp), if_pos (by simp), if_pos hhuge]
  · subst hb
    have hsd : strtod t cur = (Double.finite false 0 (-1074), cur + 0) := by
      rw [strtod_of_drop h, strtodAt_lone_point hno]
    rw [hpn]
    unfold parseNumber
    simp only [hval, hscan, byteAt_of_drop h, hsd, Nat.add_zero]
    rw [if_neg hmin, if_neg (by simp), if_pos (by simp), if_neg (by decide), if_pos trivial]

/-- C29, amended, at the tokens of the claim: `.5` gives the Float one half with the cursor
after the digit, `-.5` and `+.5` raise the integer error, a lone `.` raises the float error. -/
theorem C29_number_without_integer_digits_witness :
    parseValue 1 (lit ".5") JsonValue.fresh 0
        = ({ JsonValue.fresh with
              type_f := JSON_FLOAT, theInteger_f := 0,
              theFloat_f := Double.finite false 4503599627370496 (-53) }, Except.ok 2)
      ∧ (parseValue 1 (lit "-.5") JsonValue.fresh 0).2
        = Except.error (JsonParseException "Unexpected character in integer value" (lit "-.5"))
      ∧ (parseValue 1 (lit "+.5") JsonValue.fresh 0).2
        = Except.error (JsonParseException "Unexpected character in integer value" (lit "+.5"))
      ∧ (parseValue 1 (lit ".") JsonValue.fresh 0).2
        = Except.error (JsonParseException "Unexpected character in float value" (lit "."))
      ∧ parseValue (0 + 1) (lit "-.5") JsonValue.fresh 0
        = ({ JsonValue.fresh with type_f := JSON_NUMBER, theInteger_f := 0 },
            Except.error (JsonParseException "Unexpected character in integer value"
              (cstr (lit "-.5") 0))) :=
  ⟨by rfl, by decide!, by decide!, by decide!,
    (C29_number_without_integer_digits 0 (lit "-.5") JsonValue.fresh 0 0 45 (lit ".5")
      (by decide!) (by decide) (by decide) (by decide) (by decide) (by decide) (by decide)
      (by decide) (by decide) (by decide!)).1 (by decide)⟩

theorem intercalate_cons_cons (sep x y : List Nat) (l : List (List Nat)) :
    List.intercalate sep (x :: y :: l) = x ++ sep ++ List.intercalate sep (y :: l) := by
  simp [List.intercalate, List.intersperse]

theorem objectEntriesText_intercalate (ni : List Nat) (l : List (List Nat × JsonValue)) :
    objectEntriesText ni l true
      = List.intercalate [44] (l.map (fun e =>
          [10] ++ ni ++ [34] ++ e.1 ++ [34, 32, 58, 32] ++ prettyPrint e.2 [] ni)) := by
  induction l with
  | nil => simp [objectEntriesText, List.intercalate]
  | cons e l ih =>
    obtain ⟨k, v⟩ := e
    cases l with
    | nil => simp [objectEntriesText, List.intercalate]
    | cons e2 l2 =>
      rw [objectEntriesText_cons, objectEntriesText_false, ih]
      simp only [List.map_cons]
      rw [intercalate_cons_cons]
      simp

theorem arrayElementsText_intercalate (ni : List Nat) (l : List JsonValue) :
    arrayElementsText ni l true
      = List.intercalate [44] (l.map (fun x => [10] ++ ni ++ prettyPrint x [] ni)) := by
  induction l with
  | nil => simp [arrayElementsText, List.intercalate]
  | cons e l ih =>
    cases l with
    | nil => simp [arrayElementsText, List.intercalate]
    | cons e2 l2 =>
      rw [arrayElementsText_cons, arrayElementsText_false, ih]
      simp only [List.map_cons]
      rw [intercalate_cons_cons]
      simp

/-- C23: for an Object and an indent `s`, `prettyPrint` appends the opening brace, the
entries of the ordered sequence in order with a comma between them, each entry a newline, `s`
and four spaces, the key in double quotes, ` : ` and the value printed at the indent `s` and
four spaces, then a newline, `s` and the closing brace; for an Array the same with brackets and
without keys. An Object without entries prints as the brace, a newline, `s` and the closing
brace. -/
theorem C23_container_layout (v : JsonValue) (out s : List Nat) :
    (v.type_f = JSON_OBJECT → prettyPrint v out s
        = out ++ [123]
          ++ List.intercalate [44] (v.nameValsInOrder_f.map (fun e =>
              [10] ++ (s ++ [32, 32, 32, 32]) ++ [34] ++ e.1 ++ [34, 32, 58, 32]
                ++ prettyPrint e.2 [] (s ++ [32, 32, 32, 32])))
          ++ [10] ++ s ++ [125])
      ∧ (v.type_f = JSON_ARRAY → prettyPrint v out s
        = out ++ [91]
          ++ List.intercalate [44] (v.theArray_f.map (fun x =>
              [10] ++ (s ++ [32, 32, 32, 32]) ++ prettyPrint x [] (s ++ [32, 32, 32, 32])))
          ++ [10] ++ s ++ [93])
      ∧ (v.type_f = JSON_OBJECT → v.nameValsInOrder_f = [] →
          prettyPrint v out s = out ++ [123, 10] ++ s ++ [125]) := by
  refine ⟨fun h => ?_, fun h => ?_, fun h hl => ?_⟩
  · rw [prettyPrint_object h, objectEntriesText_intercalate]
  · rw [prettyPrint_array h, arrayElementsText_intercalate]
  · rw [prettyPrint_object h, hl]
    simp [objectEntriesText]

/-- C23 at the trees of `{"a":1}` and of `{"a":{"b":[7]}}`: the first prints as the brace, a
newline, four spaces and `"a" : 1`, a newline and the closing brace; in the second the key at
depth 2 is indented by 8 spaces and the element at depth 3 by 12. -/
theorem C23_container_layout_witness :
    prettyPrint (parse JsonValue.fresh (lit "\x7b\"a\":1\x7d")).1 [] []
        = lit "\x7b\n    \"a\" : 1\n\x7d"
      ∧ prettyPrint (parse JsonValue.fresh (lit "\x7b\"a\":\x7b\"b\":[7]\x7d\x7d")).1 [] []
        = lit ("\x7b\n    \"a\" : \x7b\n        \"b\" : [\n            7\n        ]\n    \x7d\n"
            ++ "\x7d")
      ∧ prettyPrint (parse JsonValue.fresh (lit "\x7b\x7d")).1 (lit "x") (lit "  ")
        = lit "x" ++ [123, 10] ++ lit "  " ++ [125] :=
  ⟨by decide!, by decide!,
    (C23_container_layout (parse JsonValue.fresh (lit "\x7b\x7d")).1 (lit "x") (lit "  ")).2.2
      (by decide!) (by rfl)⟩

/-- C24: for a scalar node `prettyPrint` appends: for an Integer the text `std::to_string`
gives, which is a minus sign for a negative number and the decimal digits of the magnitude,
without a leading zero; for a Boolean `true` or `false`; for Null `null`; for a String the
payload unchanged between two double quotes; for a Float the text of `%.16e`. The function is
total: every variant gives a text. -/
theorem C24_scalar_text (v : JsonValue) (out s : List Nat) :
    (v.type_f = JSON_NUMBER → prettyPrint v out s = out ++ to_string v.theInteger_f)
      ∧ (v.type_f = JSON_BOOL → prettyPrint v out s
          = out ++ (if v.theBool_f then lit "true" else lit "false"))
      ∧ (v.type_f = JSON_NULL → prettyPrint v out s = out ++ lit "null")
      ∧ (v.type_f = JSON_STRING → prettyPrint v out s = out ++ [34] ++ v.theString_f ++ [34])
      ∧ (v.type_f = JSON_FLOAT → prettyPrint v out s = out ++ formatDouble v.theFloat_f)
      ∧ (∀ n : Int,
          to_string n = (if n < 0 then [45] else []) ++ natToDecimal n.natAbs
            ∧ (∀ c ∈ natToDecimal n.natAbs, 48 ≤ c ∧ c ≤ 57)
            ∧ digitsValue 10 (natToDecimal n.natAbs) = n.natAbs
            ∧ (n ≠ 0 → (natToDecimal n.natAbs).head? ≠ some 48)
            ∧ (n = 0 → to_string n = [48])) := by
  obtain ⟨ty, m, l, str, b, n, fl, a⟩ := v
  refine ⟨fun h => ?_, fun h => ?_, fun h => ?_, fun h => ?_, fun h => ?_, fun k => ?_⟩
  · simp only at h; subst h; simp [prettyPrint]
  · simp only at h; subst h; simp [prettyPrint]
  · simp only at h; subst h; simp [prettyPrint]
  · simp only at h; subst h; simp [prettyPrint]
  · simp only at h; subst h; simp [prettyPrint]
  · refine ⟨?_, natToDecimal_digits _, digitsValue_natToDecimal _, fun hk => ?_, fun hk => ?_⟩
    · unfold to_string
      split_ifs <;> simp
    · obtain ⟨c, rest, hc, h1, h2⟩ := natToDecimal_head (n := k.natAbs) (by omega)
      rw [hc]
      simp only [List.head?_cons, ne_eq, Option.some.injEq]
      omega
    · subst hk
      rfl

/-- C24 at the values of the text `{"h":0x1A,"n":-7,"s":"a#b","t":true,"z":null}`: the
Integer read from `0x1A` prints as `26`, the Integer -7 as `-7`, the String between quotes
with its bytes unchanged. -/
theorem C24_scalar_text_witness :
    prettyPrint (parse JsonValue.fresh
        (lit "\x7b\"h\":0x1A,\"n\":-7,\"s\":\"a#b\",\"t\":true,\"z\":null\x7d")).1 [] []
      = lit ("\x7b\n    \"h\" : 26,\n    \"n\" : -7,\n    \"s\" : \"a#b\",\n    \"t\" : true,\n"
          ++ "    \"z\" : null\n\x7d")
      ∧ prettyPrint { JsonValue.fresh with type_f := JSON_NUMBER, theInteger_f := -7 } [] []
        = to_string (-7)
      ∧ to_string (-7) = lit "-7" :=
  ⟨by decide!,
    (C24_scalar_text { JsonValue.fresh with type_f := JSON_NUMBER, theInteger_f := -7 } [] []).1
      rfl,
    by decide⟩

theorem byteAt_lt_of_ne_zero {t : List Nat} {i : Nat} (h : byteAt t i ≠ 0) : i < t.length := by
  by_contra hc
  exact h (byteAt_eq_zero (by omega))

theorem hexDigit_ne_zero {b d : Nat} (h : hexDigit b = some d) : b ≠ 0 := by
  rintro rfl
  simp [hexDigit] at h

theorem escapeByte_ne_zero {e x : Nat} (h : escapeByte e = some x) : e ≠ 0 := by
  rintro rfl
  simp [escapeByte] at h

theorem parseStringLoop_plain_step {t : List Nat} {p : Nat} (buffer fuel : Nat)
    (acc : List Nat) (h34 : byteAt t p ≠ 34) (h0 : byteAt t p ≠ 0) (h92 : byteAt t p ≠ 92) :
    parseStringLoop t buffer (fuel + 1) p acc
      = parseStringLoop t buffer fuel (p + 1) (acc ++ [byteAt t p]) := by
  rw [parseStringLoop]
  simp [h34, h0, h92]

theorem parseStringLoop_escape_step {t : List Nat} {p x : Nat} (buffer fuel : Nat)
    (acc : List Nat) (h92 : byteAt t p = 92) (he : escapeByte (byteAt t (p + 1)) = some x) :
    parseStringLoop t buffer (fuel + 1) p acc
      = parseStringLoop t buffer fuel (p + 2) (acc ++ [x]) := by
  rw [parseStringLoop]
  generalize hb : byteAt t (p + 1) = e at he
  unfold escapeByte at he
  split_ifs at he with c1 c2 c3 c4 c5 c6 c7 c8 <;>
    simp only [Option.some.injEq] at he <;> subst he <;>
    simp [h92, hb, *]

theorem escapeValue_bound {t : List Nat} {i u : Nat} (h : escapeValue t i = some u) :
    i + 6 ≤ t.length := by
  unfold escapeValue at h
  split_ifs at h with h0
  split at h
  · rename_i a b c d ha hb hc hd
    have := byteAt_lt_of_ne_zero (hexDigit_ne_zero hd)
    omega
  · simp at h

theorem getUtf16_ok {t : List Nat} {i u n : Nat} (h : getUtf16 t i = Except.ok (u, n)) :
    escapeValue t i = some u ∧ n = i + 6 ∧ i + 6 ≤ t.length := by
  cases he : escapeValue t i with
  | none =>
    obtain ⟨e, hg⟩ := getUtf16_of_escapeValue_none he
    rw [hg] at h
    simp at h
  | some u1 =>
    have hg := getUtf16_of_escapeValue he
    rw [hg] at h
    simp only [Except.ok.injEq, Prod.mk.injEq] at h
    exact ⟨by rw [h.1], h.2.symm, escapeValue_bound he⟩

theorem getUtf16_error {t : List Nat} {i : Nat} {e : JsonError}
    (h : getUtf16 t i = Except.error e) : ∃ msg, e = JsonParseException msg [] := by
  unfold getUtf16 at h
  split_ifs at h
  · simp only [Except.error.injEq] at h
    exact ⟨_, h.symm⟩
  · simp only [getUtf16Loop] at h
    repeat' split at h
    all_goals first
      | (simp only [Except.error.injEq] at h; exact ⟨_, h.symm⟩)
      | simp at h

/-- An escape `\u` without four hexadecimal digits after it makes `getUtf16` raise its
second error. -/
theorem getUtf16_too_short {t : List Nat} {i : Nat} (h92 : byteAt t i = 92)
    (h117 : byteAt t (i + 1) = 117) (h : escapeValue t i = none) :
    getUtf16 t i
      = Except.error (JsonParseException "\\u not followed by four hex digits" []) := by
  cases hg : getUtf16 t i with
  | ok r =>
    obtain ⟨u, n⟩ := r
    rw [(getUtf16_ok hg).1] at h
    simp at h
  | error e =>
    unfold getUtf16 at hg
    rw [if_neg (by simp [h92, h117])] at hg
    simp only [getUtf16Loop] at hg
    repeat' split at hg
    all_goals first
      | (simp only [Except.error.injEq] at hg; rw [← hg])
      | simp at hg

theorem readUnicode_ok {t : List Nat} {i u n : Nat} (h : readUnicode t i = Except.ok (u, n)) :
    i + 6 ≤ n ∧ n ≤ t.length := by
  unfold readUnicode at h
  cases hg : getUtf16 t i with
  | error e => simp [hg] at h
  | ok r =>
    obtain ⟨u1, c1⟩ := r
    obtain ⟨-, hc1, hl1⟩ := getUtf16_ok hg
    simp only [hg] at h
    split_ifs at h
    · cases hg2 : getUtf16 t c1 with
      | error e =>
        simp only [hg2, Except.ok.injEq, Prod.mk.injEq] at h
        omega
      | ok r2 =>
        obtain ⟨u2, c2⟩ := r2
        obtain ⟨-, hc2, hl2⟩ := getUtf16_ok hg2
        simp only [hg2] at h
        split_ifs at h <;> simp only [Except.ok.injEq, Prod.mk.injEq] at h <;> omega
    · simp only [Except.ok.injEq, Prod.mk.injEq] at h
      omega

theorem readUnicode_error {t : List Nat} {i : Nat} {e : JsonError}
    (h : readUnicode t i = Except.error e) : ∃ msg, e = JsonParseException msg [] := by
  unfold readUnicode at h
  cases hg : getUtf16 t i with
  | error e1 =>
    simp only [hg, Except.error.injEq] at h
    rw [← h]
    exact getUtf16_error hg
  | ok r =>
    obtain ⟨u1, c1⟩ := r
    simp only [hg] at h
    split_ifs at h
    cases hg2 : getUtf16 t c1 with
    | error e => simp [hg2] at h
    | ok r2 =>
      obtain ⟨u2, c2⟩ := r2
      simp only [hg2] at h
      split_ifs at h

/-- The loop of `parseString` reads a well-formed part of a body in at most one iteration
per byte. -/
theorem stringRun_loop {t : List Nat} {p q : Nat} {acc acc' : List Nat}
    (h : StringRun t p acc q acc') (buffer : Nat) :
    ∃ k, p + k ≤ q ∧ ∀ fuel, parseStringLoop t buffer (fuel + k) p acc
      = parseStringLoop t buffer fuel q acc' := by
  induction h with
  | done => exact ⟨0, Nat.le_refl _, fun _ => rfl⟩
  | plain h34 h0 h92 _ ih =>
    obtain ⟨k, hk, hf⟩ := ih
    refine ⟨k + 1, by omega, fun fuel => ?_⟩
    rw [← Nat.add_assoc, parseStringLoop_plain_step buffer _ _ h34 h0 h92, hf]
  | escape h92 he _ ih =>
    obtain ⟨k, hk, hf⟩ := ih
    refine ⟨k + 1, by omega, fun fuel => ?_⟩
    rw [← Nat.add_assoc, parseStringLoop_escape_step buffer _ _ h92 he, hf]
  | unicode h92 h117 hr _ ih =>
    obtain ⟨k, hk, hf⟩ := ih
    have hn := (readUnicode_ok hr).1
    refine ⟨k + 1, by omega, fun fuel => ?_⟩
    rw [← Nat.add_assoc, parseStringLoop_unicode buffer _ _ h92 h117 hr, hf]

/-- A well-formed part of a body that starts inside the text ends inside the text. -/
theorem stringRun_le {t : List Nat} {p q : Nat} {acc acc' : List Nat}
    (h : StringRun t p acc q acc') (hp : p ≤ t.length) : q ≤ t.length := by
  induction h with
  | done => exact hp
  | plain h34 h0 h92 _ ih => exact ih (byteAt_lt_of_ne_zero h0)
  | escape h92 he _ ih =>
    have := byteAt_lt_of_ne_zero (escapeByte_ne_zero he)
    exact ih (by omega)
  | unicode h92 h117 hr _ ih => exact ih (readUnicode_ok hr).2

/-- A body of plain bytes and single-character escapes at the cursor is a well-formed part
of a body. -/
theorem stringRun_of_decode {t : List Nat} (n : Nat) :
    ∀ (b s tail : List Nat) (p : Nat) (acc : List Nat), b.length ≤ n →
      t.drop p = b ++ tail → decodeEscapes b = some s →
      StringRun t p acc (p + b.length) (acc ++ s) := by
  induction n using Nat.strong_induction_on with
  | _ n ih =>
    intro b s tail p acc hn ht hd
    match b, hd with
    | [], hd =>
      simp only [decodeEscapes, Option.some.injEq] at hd
      subst hd
      simpa using StringRun.done
    | [c], hd =>
      simp only [decodeEscapes] at hd
      split_ifs at hd with hc
      simp only [Option.some.injEq] at hd
      subst hd
      have hb : byteAt t p = c := byteAt_of_drop (by simpa using ht)
      refine StringRun.plain (by rw [hb]; omega) (by rw [hb]; omega) (by rw [hb]; omega) ?_
      rw [hb]
      exact StringRun.done
    | c :: e :: rest, hd =>
      have hb : byteAt t p = c := byteAt_of_drop (by simpa using ht)
      have ht1 : t.drop (p + 1) = e :: (rest ++ tail) := drop_succ_of_drop (by simpa using ht)
      have hb1 : byteAt t (p + 1) = e := byteAt_of_drop ht1
      have ht2 : t.drop (p + 2) = rest ++ tail := drop_succ_of_drop ht1
      simp only [decodeEscapes] at hd
      simp only [List.length_cons] at hn ⊢
      by_cases hc : c = 92
      · rw [if_pos hc] at hd
        cases hx : escapeByte e with
        | none => simp [hx] at hd
        | some x =>
          simp only [hx] at hd
          cases hr : decodeEscapes rest with
          | none => simp [hr] at hd
          | some s1 =>
            simp only [hr, Option.map_some', Option.some.injEq] at hd
            subst hd
            have := ih (n - 2) (by omega) rest s1 tail (p + 2) (acc ++ [x]) (by omega) ht2 hr
            refine StringRun.escape (by rw [hb, hc]) (by rw [hb1]; exact hx) ?_
            rw [show p + (rest.length + 1 + 1) = p + 2 + rest.length by omega,
              show acc ++ x :: s1 = acc ++ [x] ++ s1 by simp]
            exact this
      · rw [if_neg hc] at hd
        split_ifs at hd with hc2
        cases hr : decodeEscapes (e :: rest) with
        | none => simp [hr] at hd
        | some s1 =>
          simp only [hr, Option.map_some', Option.some.injEq] at hd
          subst hd
          have := ih (n - 1) (by omega) (e :: rest) s1 tail (p + 1) (acc ++ [c])
            (by simp only [List.length_cons]; omega) (by simpa using ht1) hr
          refine StringRun.plain (by rw [hb]; omega) (by rw [hb]; omega) (by rw [hb]; exact hc) ?_
          rw [hb, show p + (rest.length + 1 + 1) = p + 1 + (e :: rest).length by
              simp only [List.length_cons]; omega,
            show acc ++ c :: s1 = acc ++ [c] ++ s1 by simp]
          exact this

/-- A body without double quote, backslash and NUL stands for itself. -/
theorem decodeEscapes_plain : ∀ b : List Nat, bytesAvoid [34, 92, 0] b = true →
    decodeEscapes b = some b
  | [], _ => rfl
  | [c], h => by
    have hc : c ≠ 34 ∧ c ≠ 92 ∧ c ≠ 0 := by simpa [bytesAvoid] using h
    simp only [decodeEscapes]
    rw [if_neg (by omega)]
  | c :: e :: rest, h => by
    have hc : (c ≠ 34 ∧ c ≠ 92 ∧ c ≠ 0) ∧ bytesAvoid [34, 92, 0] (e :: rest) = true := by
      simpa [bytesAvoid, and_assoc] using h
    simp only [decodeEscapes]
    rw [if_neg hc.1.2.1, if_neg (by omega), decodeEscapes_plain (e :: rest) hc.2]
    rfl

/-- After the opening quote and a well-formed part of the body, `parseString` is at an
iteration of its loop. -/
theorem parseString_run {t : List Nat} {buffer cur q : Nat} {acc : List Nat}
    (hs : skipWhitespace t buffer = Except.ok cur) (hq : byteAt t cur = 34)
    (hr : StringRun t (cur + 1) [] q acc) :
    ∃ f, parseString t buffer = parseStringLoop t buffer (f + 1) q acc := by
  have hlt : cur < t.length := byteAt_lt_of_ne_zero (by rw [hq]; decide)
  have hle := stringRun_le hr (by omega)
  obtain ⟨k, hk, hf⟩ := stringRun_loop hr buffer
  refine ⟨t.length - cur - k, ?_⟩
  unfold parseString
  rw [hs]
  simp only [hq, bne_self_eq_false, Bool.false_eq_true, if_false]
  rw [← hf, show t.length - cur - k + 1 + k = t.length + 1 - cur by omega]

/-- With enough fuel the loop of `parseString` ends with a string, the cursor after a double
quote, or with a parse error. -/
theorem parseStringLoop_outcome {t : List Nat} (buffer : Nat) : ∀ fuel cur acc,
    cur ≤ t.length → t.length + 1 - cur ≤ fuel →
    (∃ s next, parseStringLoop t buffer fuel cur acc = Except.ok (s, next)
        ∧ cur < next ∧ byteAt t (next - 1) = 34)
      ∨ (∃ msg obj, parseStringLoop t buffer fuel cur acc
        = Except.error (JsonParseException msg obj)) := by
  intro fuel
  induction fuel with
  | zero => intro cur acc h1 h2; omega
  | succ f ih =>
    intro cur acc h1 h2
    have hstep : ∀ nxt acc2, cur < nxt → nxt ≤ t.length →
        (∃ s next, parseStringLoop t buffer f nxt acc2 = Except.ok (s, next)
            ∧ cur < next ∧ byteAt t (next - 1) = 34)
          ∨ (∃ msg obj, parseStringLoop t buffer f nxt acc2
            = Except.error (JsonParseException msg obj)) := by
      intro nxt acc2 hn1 hn2
      rcases ih nxt acc2 hn2 (by omega) with ⟨s, next, h, hlt, hb⟩ | h
      · exact Or.inl ⟨s, next, h, by omega, hb⟩
      · exact Or.inr h
    by_cases c34 : byteAt t cur = 34
    · left
      refine ⟨acc, cur + 1, ?_, by omega, by simpa using c34⟩
      rw [parseStringLoop]
      simp [c34]
    by_cases c0 : byteAt t cur = 0
    · right
      refine ⟨"Unexpected EOF during string read.", cstr t buffer, ?_⟩
      rw [parseStringLoop]
      simp [c0]
    have hlt : cur < t.length := byteAt_lt_of_ne_zero c0
    by_cases c92 : byteAt t cur = 92
    · by_cases e0 : byteAt t (cur + 1) = 0
      · right
        refine ⟨"Unexpected EOF during string escape read.", cstr t buffer, ?_⟩
        rw [parseStringLoop]
        simp [c92, e0]
      have hlt1 : cur + 1 < t.length := byteAt_lt_of_ne_zero e0
      cases hx : escapeByte (byteAt t (cur + 1)) with
      | some x =>
        rw [parseStringLoop_escape_step buffer f acc c92 hx]
        exact hstep _ _ (by omega) (by omega)
      | none =>
        by_cases e117 : byteAt t (cur + 1) = 117
        · cases hr : readUnicode t cur with
          | error e =>
            right
            obtain ⟨msg, hmsg⟩ := readUnicode_error hr
            refine ⟨msg, [], ?_⟩
            rw [parseStringLoop]
            simp [c92, e117, hr, hmsg]
          | ok r =>
            obtain ⟨u, next⟩ := r
            rw [parseStringLoop_unicode buffer f acc c92 e117 hr]
            have := readUnicode_ok hr
            exact hstep _ _ (by omega) this.2
        · right
          refine ⟨"Unsupported escape character", cstr t buffer, ?_⟩
          rw [parseStringLoop]
          unfold escapeByte at hx
          split_ifs at hx with d1 d2 d3 d4 d5 d6 d7 d8
          simp [c92, e0, d1, d2, d3, d4, d5, d6, d7, d8, e117]
    · rw [parseStringLoop_plain_step buffer f acc c34 c0 c92]
      exact hstep _ _ (by omega) (by omega)

/-- The result of `parseString` is a string, with the cursor after a double quote that comes
after the first byte that is not skipped, or a parse error. -/
theorem parseString_outcome {t : List Nat} {buffer cur : Nat}
    (hs : skipWhitespace t buffer = Except.ok cur) :
    (∃ s next, parseString t buffer = Except.ok (s, next)
        ∧ cur + 1 < next ∧ byteAt t cur = 34 ∧ byteAt t (next - 1) = 34)
      ∨ (∃ msg obj, parseString t buffer = Except.error (JsonParseException msg obj)) := by
  unfold parseString
  rw [hs]
  by_cases hq : byteAt t cur = 34
  · simp only [hq, bne_self_eq_false, Bool.false_eq_true, if_false]
    have hlt : cur < t.length := byteAt_lt_of_ne_zero (by rw [hq]; decide)
    rcases parseStringLoop_outcome (t := t) buffer (t.length + 1 - cur) (cur + 1) [] (by omega)
      (by omega) with ⟨s, next, h, hn, hb⟩ | h
    · exact Or.inl ⟨s, next, h, hn, trivial, hb⟩
    · exact Or.inr h
  · right
    exact ⟨"No opening quote when reading string", cstr t buffer, by simp [hq]⟩

/-- The string literal whose body is a well-formed run up to the closing quote. -/
theorem parseString_of_run {t : List Nat} {buffer cur q : Nat} {acc : List Nat}
    (hs : skipWhitespace t buffer = Except.ok cur) (hq : byteAt t cur = 34)
    (hr : StringRun t (cur + 1) [] q acc) (hc : byteAt t q = 34) :
    parseString t buffer = Except.ok (acc, q + 1) := by
  obtain ⟨f, hf⟩ := parseString_run hs hq hr
  rw [hf, parseStringLoop]
  simp [hc]

/-- C21: a string literal at the cursor (after white space) whose body holds no backslash, no
double quote and no NUL is read by `parseString` as the body, byte for byte, with the cursor
just past the closing quote; a body of plain bytes and single-character escapes is read as
the string it stands for; in the loop a backslash followed by one of the eight escape
characters appends one byte and moves the cursor by two: the double quote gives 0x22, the
backslash 0x5C, the slash 0x2F, b 0x08, f 0x0C, n 0x0A, r 0x0D and t 0x09. -/
theorem C21_string_body (t : List Nat) (buffer cur : Nat) (body r : List Nat)
    (hs : skipWhitespace t buffer = Except.ok cur)
    (h : t.drop cur = 34 :: (body ++ 34 :: r)) :
    (bytesAvoid [34, 92, 0] body = true →
        parseString t buffer = Except.ok (body, cur + body.length + 2))
      ∧ (∀ s, decodeEscapes body = some s →
        parseString t buffer = Except.ok (s, cur + body.length + 2))
      ∧ (∀ fuel p acc x, byteAt t p = 92 → escapeByte (byteAt t (p + 1)) = some x →
          parseStringLoop t buffer (fuel + 1) p acc
            = parseStringLoop t buffer fuel (p + 2) (acc ++ [x]))
      ∧ (escapeByte 34 = some 0x22 ∧ escapeByte 92 = some 0x5C ∧ escapeByte 47 = some 0x2F
          ∧ escapeByte 98 = some 0x08 ∧ escapeByte 102 = some 0x0C ∧ escapeByte 110 = some 0x0A
          ∧ escapeByte 114 = some 0x0D ∧ escapeByte 116 = some 0x09) := by
  have hmain : ∀ s, decodeEscapes body = some s →
      parseString t buffer = Except.ok (s, cur + body.length + 2) := by
    intro s hd
    have hrun := stringRun_of_decode (t := t) body.length body s (34 :: r) (cur + 1) []
      (Nat.le_refl _) (drop_succ_of_drop h) hd
    have hq : byteAt t (cur + 1 + body.length) = 34 :=
      byteAt_of_drop (drop_add_of_drop (drop_succ_of_drop h))
    rw [parseString_of_run hs (byteAt_of_drop h) (by simpa using hrun) hq]
    simp only [Except.ok.injEq, Prod.mk.injEq, true_and]
    omega
  refine ⟨fun hb => hmain body (decodeEscapes_plain body hb), hmain,
    fun fuel p acc x h92 hx => parseStringLoop_escape_step buffer fuel acc h92 hx, ?_⟩
  decide

/-- C21 at two literals: the body with a control byte, a `#` and the byte 200 is returned
byte for byte; the body `a\n\t\/\\\"b` gives `a`, newline, tab, slash, backslash, double
quote, `b`. -/
theorem C21_string_body_witness :
    parseString [32, 34, 1, 35, 200, 34, 44] 0 = Except.ok ([1, 35, 200], 6)
      ∧ parseString (lit "\"a\\n\\t\\/\\\\\\\"b\"") 0
        = Except.ok ([97, 10, 9, 47, 92, 34, 98], 14) :=
  ⟨(C21_string_body [32, 34, 1, 35, 200, 34, 44] 0 1 [1, 35, 200] [44] (by decide!)
      (by decide)).1 (by decide),
    by decide!⟩

/-- C22: with `cur` the first byte `parseString` does not skip: when that byte is not a
double quote the error "No opening quote when reading string" is raised; after the opening
quote and a well-formed part of the body, the end of the input raises "Unexpected EOF during
string read.", a backslash before the end of the input "Unexpected EOF during string escape
read.", a backslash before a byte other than the eight escape characters and u "Unsupported
escape character", and `\u` before fewer than four hexadecimal digits the error of
`getUtf16`; and whatever the text, `parseString` gives either a string, with the cursor after
a closing double quote, or a parse error. -/
theorem C22_string_errors (t : List Nat) (buffer cur : Nat)
    (hs : skipWhitespace t buffer = Except.ok cur) :
    (byteAt t cur ≠ 34 → parseString t buffer = Except.error
        (JsonParseException "No opening quote when reading string" (cstr t buffer)))
      ∧ (∀ q acc, byteAt t cur = 34 → StringRun t (cur + 1) [] q acc →
          (byteAt t q = 0 → parseString t buffer = Except.error
            (JsonParseException "Unexpected EOF during string read." (cstr t buffer)))
          ∧ (byteAt t q = 92 → byteAt t (q + 1) = 0 → parseString t buffer = Except.error
            (JsonParseException "Unexpected EOF during string escape read." (cstr t buffer)))
          ∧ (byteAt t q = 92 → byteAt t (q + 1) ≠ 0 → escapeByte (byteAt t (q + 1)) = none →
              byteAt t (q + 1) ≠ 117 → parseString t buffer = Except.error
            (JsonParseException "Unsupported escape character" (cstr t buffer)))
          ∧ (byteAt t q = 92 → byteAt t (q + 1) = 117 → escapeValue t q = none →
              parseString t buffer = Except.error
            (JsonParseException "\\u not followed by four hex digits" [])))
      ∧ ((∃ s next, parseString t buffer = Except.ok (s, next)
            ∧ cur + 1 < next ∧ byteAt t cur = 34 ∧ byteAt t (next - 1) = 34)
          ∨ (∃ msg obj, parseString t buffer = Except.error (JsonParseException msg obj))) := by
  refine ⟨fun hq => ?_, fun q acc hq hr => ?_, parseString_outcome hs⟩
  · unfold parseString
    rw [hs]
    simp [hq]
  · obtain ⟨f, hf⟩ := parseString_run hs hq hr
    rw [hf, parseStringLoop]
    refine ⟨fun h0 => ?_, fun h92 e0 => ?_, fun h92 e0 hx e117 => ?_, fun h92 e117 hv => ?_⟩
    · simp [h0]
    · simp [h92, e0]
    · unfold escapeByte at hx
      split_ifs at hx with d1 d2 d3 d4 d5 d6 d7 d8
      simp [h92, e0, d1, d2, d3, d4, d5, d6, d7, d8, e117]
    · have hru : readUnicode t q
          = Except.error (JsonParseException "\\u not followed by four hex digits" []) := by
        unfold readUnicode
        rw [getUtf16_too_short h92 e117 hv]
      simp [h92, e117, hru]

/-- C22 at the literals `"ab`, `"ab\`, `"ab\x"`, `"ab\u12"` and at the text `  x`: the five
errors; the third one is the theorem at the well-formed part `ab` of the body. -/
theorem C22_string_errors_witness :
    parseString (lit "\"ab") 0 = Except.error
        (JsonParseException "Unexpected EOF during string read." (lit "\"ab"))
      ∧ parseString (lit "\"ab\\") 0 = Except.error
        (JsonParseException "Unexpected EOF during string escape read." (lit "\"ab\\"))
      ∧ parseString (lit "\"ab\\u12\"") 0 = Except.error
        (JsonParseException "\\u not followed by four hex digits" [])
      ∧ parseString (lit "  x") 0 = Except.error
        (JsonParseException "No opening quote when reading string" (lit "  x"))
      ∧ parseString (lit "\"ab\\x\"") 0 = Except.error
        (JsonParseException "Unsupported escape character" (cstr (lit "\"ab\\x\"") 0)) :=
  ⟨by decide!, by decide!, by decide!, by decide!,
    ((C22_string_errors (lit "\"ab\\x\"") 0 0 (by decide!)).2.1 3 [97, 98] (by decide)
      (StringRun.plain (by decide) (by decide) (by decide)
        (StringRun.plain (by decide) (by decide) (by decide) StringRun.done))).2.2.1
      (by decide) (by decide) (by decide) (by decide)⟩

theorem drop_eq_byteAt_cons {t : List Nat} {p : Nat} (h : p < t.length) :
    t.drop p = byteAt t p :: t.drop (p + 1) := by
  rw [List.drop_eq_getElem_cons h]
  congr 1
  unfold byteAt
  simp [List.getD_eq_getElem?_getD, List.getElem?_eq_getElem h]

theorem isspace_iff (c : Nat) :
    isspace c = true ↔ c = 32 ∨ c = 9 ∨ c = 10 ∨ c = 11 ∨ c = 12 ∨ c = 13 := by
  unfold isspace
  simp only [Bool.or_eq_true, beq_iff_eq, Bool.and_eq_true, decide_eq_true_eq]
  omega

/-- The bytes the inner loop of `skipWhitespace` passes are white space. -/
theorem skipSpaces_split (t : List Nat) : ∀ fuel p, ∃ ws,
    (∀ x ∈ ws, isspace x = true) ∧ t.drop p = ws ++ t.drop (skipSpaces t fuel p)
      ∧ skipSpaces t fuel p = p + ws.length := by
  intro fuel
  induction fuel with
  | zero => intro p; exact ⟨[], by simp, by simp [skipSpaces], by simp [skipSpaces]⟩
  | succ f ih =>
    intro p
    rw [skipSpaces]
    by_cases hc : (isspace (byteAt t p) && byteAt t p != 0) = true
    · rw [if_pos hc]
      simp only [Bool.and_eq_true, bne_iff_ne, ne_eq] at hc
      obtain ⟨ws, h1, h2, h3⟩ := ih (p + 1)
      refine ⟨byteAt t p :: ws, ?_, ?_, ?_⟩
      · intro x hx
        rcases List.mem_cons.1 hx with hx | hx
        · rw [hx]; exact hc.1
        · exact h1 x hx
      · rw [drop_eq_byteAt_cons (byteAt_lt_of_ne_zero hc.2), h2]
        rfl
      · rw [h3]
        simp only [List.length_cons]
        omega
    · rw [if_neg hc]
      exact ⟨[], by simp, by simp, by simp⟩

/-- With the fuel `skipWhitespace` gives it, the inner loop stops at a byte that is not
white space. -/
theorem skipSpaces_stop (t : List Nat) : ∀ fuel p, t.length - p ≤ fuel →
    isspace (byteAt t (skipSpaces t fuel p)) = false := by
  intro fuel
  induction fuel with
  | zero =>
    intro p h
    rw [skipSpaces, byteAt_eq_zero (by omega)]
    rfl
  | succ f ih =>
    intro p h
    rw [skipSpaces]
    by_cases hc : (isspace (byteAt t p) && byteAt t p != 0) = true
    · rw [if_pos hc]
      exact ih (p + 1) (by omega)
    · rw [if_neg hc]
      by_cases h0 : byteAt t p = 0
      · rw [h0]; rfl
      · simpa [h0] using hc

/-- The bytes the comment loop passes hold no newline, and it stops at a newline. -/
theorem skipComment_split (t : List Nat) : ∀ fuel p q, skipComment t fuel p = some q →
    ∃ body, (∀ x ∈ body, x ≠ 10) ∧ t.drop p = body ++ 10 :: t.drop (q + 1)
      ∧ q = p + body.length := by
  intro fuel
  induction fuel with
  | zero => intro p q h; simp [skipComment] at h
  | succ f ih =>
    intro p q h
    rw [skipComment] at h
    by_cases c1 : t.length < p
    · rw [if_pos c1] at h; simp at h
    · rw [if_neg c1] at h
      by_cases c2 : byteAt t p = 10
      · simp only [c2, bne_self_eq_false, Bool.false_eq_true, if_false,
          Option.some.injEq] at h
        subst h
        have hlt : p < t.length := byteAt_lt_of_ne_zero (by rw [c2]; decide)
        exact ⟨[], by simp, by rw [drop_eq_byteAt_cons hlt, c2]; rfl, by simp⟩
      · rw [if_pos (by simpa using c2)] at h
        have hlt : p < t.length := by
          cases f with
          | zero => simp [skipComment] at h
          | succ f1 =>
            rw [skipComment] at h
            by_cases c3 : t.length < p + 1
            · rw [if_pos c3] at h; simp at h
            · omega
        obtain ⟨body, h1, h2, h3⟩ := ih (p + 1) q h
        refine ⟨byteAt t p :: body, ?_, ?_, ?_⟩
        · intro x hx
          rcases List.mem_cons.1 hx with hx | hx
          · rw [hx]; exact c2
          · exact h1 x hx
        · rw [drop_eq_byteAt_cons hlt, h2]
          rfl
        · rw [h3]
          simp only [List.length_cons]
          omega

theorem blank_of_spaces {ws b : List Nat} (h : ∀ x ∈ ws, isspace x = true) (hb : Blank b) :
    Blank (ws ++ b) := by
  induction ws with
  | nil => exact hb
  | cons x ws ih =>
    exact Blank.space (h x (List.mem_cons_self _ _))
      (ih (fun y hy => h y (List.mem_cons_of_mem _ hy)))

/-- What `skipWhitespace` passes is white space and comments, and it stops at a byte that is
neither white space nor `#`. -/
theorem skipWhitespaceLoop_split (t : List Nat) : ∀ fuel p q,
    skipWhitespaceLoop t fuel p = Except.ok q →
    ∃ blank, Blank blank ∧ t.drop p = blank ++ t.drop q ∧ q = p + blank.length
      ∧ isspace (byteAt t q) = false ∧ byteAt t q ≠ 35 := by
  intro fuel
  induction fuel with
  | zero => intro p q h; simp [skipWhitespaceLoop] at h
  | succ f ih =>
    intro p q h
    rw [skipWhitespaceLoop] at h
    obtain ⟨ws, hw1, hw2, hw3⟩ := skipSpaces_split t (t.length - p) p
    have hstop := skipSpaces_stop t (t.length - p) p (Nat.le_refl _)
    generalize skipSpaces t (t.length - p) p = p1 at h hw2 hw3 hstop
    by_cases c35 : byteAt t p1 = 35
    · simp only [c35, beq_self_eq_true, if_true] at h
      cases hc : skipComment t (t.length + 2 - p1) p1 with
      | none => simp [hc] at h
      | some p2 =>
        simp only [hc] at h
        obtain ⟨body0, hb1, hb2, hb3⟩ := skipComment_split t _ p1 p2 hc
        obtain ⟨blank2, hk1, hk2, hk3, hk4, hk5⟩ := ih p2 q h
        have hlt2 : p2 < t.length := by
          have := length_of_drop hb2
          simp only [List.length_append, List.length_cons] at this
          omega
        have h10 : byteAt t p2 = 10 := by
          have : t.drop (p1 + body0.length) = 10 :: t.drop (p2 + 1) := drop_add_of_drop hb2
          rw [hb3]
          exact byteAt_of_drop this
        cases body0 with
        | nil =>
          simp only [List.length_nil, Nat.add_zero] at hb3
          rw [hb3, c35] at h10
          omega
        | cons b0 body =>
          have hb0 : b0 = 35 := by
            have := byteAt_of_drop (show t.drop p1 = b0 :: (body ++ 10 :: t.drop (p2 + 1)) from hb2)
            rw [← this, c35]
          subst hb0
          cases blank2 with
          | nil =>
            simp only [List.length_nil, Nat.add_zero] at hk3
            rw [hk3, h10] at hk4
            simp [isspace] at hk4
          | cons x rest =>
            have hd2 := drop_eq_byteAt_cons hlt2
            rw [hk2, h10] at hd2
            simp only [List.cons_append, List.cons.injEq] at hd2
            obtain ⟨hx, hrest⟩ := hd2
            subst hx
            have hbrest : Blank rest := by
              cases hk1 with
              | space _ hr => exact hr
            refine ⟨ws ++ 35 :: (body ++ 10 :: rest),
              blank_of_spaces hw1 (Blank.comment (fun y hy => hb1 y (List.mem_cons_of_mem _ hy))
                hbrest), ?_, ?_, hk4, hk5⟩
            · rw [hw2, hb2, ← hrest]
              simp
            · simp only [List.length_cons, List.length_append] at hk3 hb3 ⊢
              omega
    · have hne : (byteAt t p1 == 35) = false := by simpa using c35
      simp only [hne, Bool.false_eq_true, if_false, Except.ok.injEq] at h
      subst h
      exact ⟨ws, blank_of_spaces hw1 Blank.nil |> (by simpa using ·), hw2, hw3, hstop, c35⟩

/-- C25, counterexample: the vertical tab 0x0B and the form feed 0x0C do not stop the scan:
on the bytes 0x0B, 0x0C, `x` the cursor `skipWhitespace` returns is at the `x`, and the text
`{`, 0x0B, 0x0C, `}` is accepted. -/
theorem C25_counterexample_vertical_tab :
    skipWhitespace [11, 12, 120] 0 = Except.ok 2
      ∧ (parse JsonValue.fresh [123, 11, 12, 125]).2 = Except.ok () := by
  decide!

/-- C25, amended: the bytes `skipWhitespace` passes are white space of the C locale (space,
tab, newline, vertical tab, form feed, carriage return) and comments from `#` to a newline,
and the byte it stops at is neither white space nor `#`; conversely, after white space and
comments it stops at the first byte that is neither. -/
theorem C25_skipped_bytes (t : List Nat) (cur : Nat) :
    (∀ p, skipWhitespace t cur = Except.ok p →
        ∃ blank, Blank blank ∧ t.drop cur = blank ++ t.drop p ∧ p = cur + blank.length
          ∧ isspace (byteAt t p) = false ∧ byteAt t p ≠ 35)
      ∧ (∀ blank tail, t.drop cur = blank ++ tail → Blank blank →
          (∀ c, tail.head? = some c → isspace c = false ∧ c ≠ 35) →
          skipWhitespace t cur = Except.ok (cur + blank.length))
      ∧ (∀ c, isspace c = true ↔ c = 32 ∨ c = 9 ∨ c = 10 ∨ c = 11 ∨ c = 12 ∨ c = 13) := by
  refine ⟨fun p h => skipWhitespaceLoop_split t _ cur p h, fun blank tail ht hb hstop => ?_,
    isspace_iff⟩
  rw [skipWhitespace_blank hb cur tail ht]
  have htail := drop_add_of_drop ht
  cases tail with
  | nil => exact skipWhitespace_end htail
  | cons c r => exact skipWhitespace_stay htail (hstop c rfl).1 (hstop c rfl).2

/-- C25, amended, at the text of a tab, a form feed, a comment `# c`, a newline, a space
and `x`: the cursor returned is at the `x`. -/
theorem C25_skipped_bytes_witness :
    skipWhitespace ([9, 12] ++ lit "# c\n x") 0 = Except.ok 7
      ∧ skipWhitespace ([9, 12] ++ lit "# c\n x") 0
        = Except.ok (0 + ([9, 12] ++ lit "# c\n ").length) :=
  ⟨by decide!,
    (C25_skipped_bytes ([9, 12] ++ lit "# c\n x") 0).2.1 ([9, 12] ++ lit "# c\n ") (lit "x")
      (by decide)
      (Blank.space (by decide) (Blank.space (by decide)
        (@Blank.comment (lit " c") (lit " ") (by decide) (Blank.space (by decide) Blank.nil))))
      (by decide)⟩

theorem strtolAt_octal {ds rest : List Nat} (hds : ∀ d ∈ ds, isDigitOf 8 d = true)
    (hstop : ∀ c, rest.head? = some c → isDigitOf 8 c = false ∧ c ≠ 120 ∧ c ≠ 88)
    (hval : (digitsValue 8 (48 :: ds) : Int) < LONG_MAX) :
    strtolAt (48 :: (ds ++ rest)) = ((digitsValue 8 (48 :: ds) : Int), 1 + ds.length) := by
  rw [strtolAt_unsigned (by decide) (by decide) (by decide)]
  have hp : hexPrefix (48 :: (ds ++ rest)) = false := by
    cases ds with
    | nil =>
      cases rest with
      | nil => rfl
      | cons c r =>
        have := hstop c rfl
        exact hexPrefix_of_second this.2.1 this.2.2
    | cons d ds1 =>
      have hd := hds d (List.mem_cons_self _ _)
      refine hexPrefix_of_second ?_ ?_ <;>
        · rintro rfl
          simp [isDigitOf, digitVal] at hd
  have hall : ∀ x ∈ 48 :: ds, isDigitOf 8 x = true := by
    intro x hx
    rcases List.mem_cons.1 hx with hx | hx
    · rw [hx]; decide
    · exact hds x hx
  have htw : (48 :: (ds ++ rest)).takeWhile (isDigitOf 8) = 48 :: ds := by
    rw [← List.cons_append]
    exact takeWhile_digits hall (fun c hc => (hstop c hc).1)
  have hsat : saturate false (digitsValue 8 (48 :: ds)) = (digitsValue 8 (48 :: ds) : Int) := by
    unfold saturate
    simp only [Bool.false_eq_true, if_false]
    rw [if_neg (by omega)]
  unfold strtolUnsigned
  rw [hp]
  simp only [Bool.false_eq_true, if_false, List.head?_cons, beq_self_eq_true, if_true]
  unfold strtolRun
  simp only [htw, List.isEmpty_cons, Bool.false_eq_true, if_false, hsat, List.length_cons]
  rw [Nat.add_comm]

/-- C32: a number token made of `0` and a run of octal digits, with a value below `LONG_MAX`
and followed by a byte that is not an octal digit and none of `x`, `X`, `.`, `e`, `E` (or by
the end of the text), is read by `parseValue` as the Integer the digits write in base 8, with
the cursor after the last octal digit; the digits 8 and 9 are such bytes, so the scan stops
before them. -/
theorem C32_octal_integer (f : Nat) (t : List Nat) (self : JsonValue) (cur0 cur : Nat)
    (ds rest : List Nat) (hs : skipWhitespace t cur0 = Except.ok cur)
    (h : t.drop cur = 48 :: (ds ++ rest)) (hds : ∀ d ∈ ds, 48 ≤ d ∧ d ≤ 55)
    (hstop : ∀ c, rest.head? = some c →
      ¬ (48 ≤ c ∧ c ≤ 55) ∧ c ≠ 120 ∧ c ≠ 88 ∧ c ≠ 46 ∧ c ≠ 101 ∧ c ≠ 69)
    (hval : (digitsValue 8 (48 :: ds) : Int) < LONG_MAX) :
    parseValue (f + 1) t self cur0
        = ({ self with type_f := JSON_NUMBER, theInteger_f := (digitsValue 8 (48 :: ds) : Int) },
            Except.ok (cur + 1 + ds.length))
      ∧ digitsValue 8 (48 :: ds) = digitsValue 8 ds := by
  have hoct : ∀ c, isDigitOf 8 c = true ↔ 48 ≤ c ∧ c ≤ 55 := by
    intro c
    unfold isDigitOf digitVal
    simp only []
    by_cases c1 : 48 ≤ c ∧ c ≤ 57
    · rw [if_pos c1]
      simp only []
      by_cases c2 : c - 48 < 8
      · rw [if_pos c2]; simp; omega
      · rw [if_neg c2]; simp; omega
    · rw [if_neg c1]
      by_cases c2 : 97 ≤ c ∧ c ≤ 122
      · rw [if_pos c2]
        simp only []
        rw [if_neg (by omega)]
        simp; omega
      · rw [if_neg c2]
        by_cases c3 : 65 ≤ c ∧ c ≤ 90
        · rw [if_pos c3]
          simp only []
          rw [if_neg (by omega)]
          simp; omega
        · rw [if_neg c3]
          simp; omega
  have hds8 : ∀ d ∈ ds, isDigitOf 8 d = true := fun d hd => (hoct d).2 (hds d hd)
  have hstop8 : ∀ c, rest.head? = some c → isDigitOf 8 c = false ∧ c ≠ 120 ∧ c ≠ 88 := by
    intro c hc
    obtain ⟨h1, h2, h3, -⟩ := hstop c hc
    refine ⟨?_, h2, h3⟩
    cases hb : isDigitOf 8 c with
    | false => rfl
    | true => exact absurd ((hoct c).1 hb) h1
  refine ⟨?_, ?_⟩
  · rw [parseValue_default self hs h (by decide) (by decide) (by decide) (by decide) (by decide)
      (by decide) (by decide)]
    have hst : strtol t cur = ((digitsValue 8 (48 :: ds) : Int), cur + (1 + ds.length)) := by
      rw [strtol_of_drop h, strtolAt_octal hds8 hstop8 hval]
    have hdrop : t.drop (cur + (1 + ds.length)) = rest := by
      have h2 := drop_add_of_drop (drop_succ_of_drop h)
      rw [← h2]
      congr 1
      omega
    have hbyte : ¬ (byteAt t (cur + (1 + ds.length)) = 69
        ∨ byteAt t (cur + (1 + ds.length)) = 101
        ∨ byteAt t (cur + (1 + ds.length)) = 46) := by
      refine byteAt_of_head hdrop (P := fun b => ¬ (b = 69 ∨ b = 101 ∨ b = 46)) (by decide) ?_
      intro c hc
      obtain ⟨-, -, -, h4, h5, h6⟩ := hstop c hc
      rintro (e | e | e)
      · exact h6 e
      · exact h5 e
      · exact h4 e
    unfold parseNumber
    simp only [hst]
    have hmin : ¬ ((digitsValue 8 (48 :: ds) : Int) = LONG_MIN
        ∨ (digitsValue 8 (48 :: ds) : Int) = LONG_MAX) := by
      unfold LONG_MIN
      omega
    rw [if_neg hmin, if_neg (by omega), if_neg hbyte]
    rw [Nat.add_assoc]
  · simp [digitsValue, digitVal]

/-- C32 at the tokens of the claim: in the text `{"a":010,"b":017}` the values are the
Integers 8 and 15; the token `09` gives the Integer 0 with the cursor at index 1, on the 9. -/
theorem C32_octal_integer_witness :
    (parse JsonValue.fresh (lit "\x7b\"a\":010,\"b\":017\x7d")).2 = Except.ok ()
      ∧ (parse JsonValue.fresh (lit "\x7b\"a\":010,\"b\":017\x7d")).1.nameValsInOrder_f.map
          (fun e => (e.1, e.2.type_f, e.2.theInteger_f))
        = [(lit "a", JSON_NUMBER, 8), (lit "b", JSON_NUMBER, 15)]
      ∧ parseValue 1 (lit "010,") JsonValue.fresh 0
        = ({ JsonValue.fresh with type_f := JSON_NUMBER, theInteger_f := 8 }, Except.ok 3)
      ∧ parseValue 1 (lit "09") JsonValue.fresh 0
        = ({ JsonValue.fresh with type_f := JSON_NUMBER, theInteger_f := 0 }, Except.ok 1)
      ∧ parseValue (0 + 1) (lit "09") JsonValue.fresh 0
        = ({ JsonValue.fresh with
              type_f := JSON_NUMBER, theInteger_f := (digitsValue 8 (48 :: []) : Int) },
            Except.ok (0 + 1 + ([] : List Nat).length)) :=
  ⟨by decide!, by decide!, by rfl, by rfl,
    (C32_octal_integer 0 (lit "09") JsonValue.fresh 0 0 [] [57] (by decide!) (by decide)
      (by decide) (by decide) (by decide)).1⟩

theorem skipWhitespace_ge {t : List Nat} {cur p : Nat} (h : skipWhitespace t cur = Except.ok p) :
    cur ≤ p := by
  obtain ⟨blank, -, -, hp, -, -⟩ := skipWhitespaceLoop_split t _ cur p h
  omega

/-- The cursor `parseString` returns is at least two bytes after the one it was given. -/
theorem parseString_progress {t : List Nat} {buffer next : Nat} {s : List Nat}
    (h : parseString t buffer = Except.ok (s, next)) : buffer + 1 < next := by
  cases hs : skipWhitespace t buffer with
  | error e =>
    unfold parseString at h
    rw [hs] at h
    simp at h
  | ok cur =>
    have hge := skipWhitespace_ge hs
    rcases parseString_outcome hs with ⟨s1, n1, h1, hlt, -, -⟩ | ⟨msg, obj, h1⟩
    · rw [h1] at h
      simp only [Except.ok.injEq, Prod.mk.injEq] at h
      omega
    · rw [h1] at h
      simp at h

/-- The number branch of `parseValue` consumes at least one byte when it returns. -/
theorem parseNumber_progress {t : List Nat} {self v : JsonValue} {cur next : Nat}
    (h : parseNumber t self cur = (v, Except.ok next)) : cur < next := by
  unfold parseNumber at h
  simp only [] at h
  have hl : cur ≤ (strtol t cur).2 := by unfold strtol; simp
  have hd : cur ≤ (strtod t cur).2 := by unfold strtod; simp
  by_cases c1 : (strtol t cur).1 = LONG_MIN ∨ (strtol t cur).1 = LONG_MAX
  · rw [if_pos c1] at h; simp at h
  rw [if_neg c1] at h
  by_cases c2 : (strtol t cur).2 = cur ∧ byteAt t cur ≠ 46
  · rw [if_pos c2] at h; simp at h
  rw [if_neg c2] at h
  by_cases c3 : byteAt t (strtol t cur).2 = 69 ∨ byteAt t (strtol t cur).2 = 101
      ∨ byteAt t (strtol t cur).2 = 46
  · rw [if_pos c3] at h
    by_cases c4 : (strtod t cur).1 = HUGE_VAL ∨ (strtod t cur).1 = HUGE_VAL.negate
    · rw [if_pos c4] at h; simp at h
    rw [if_neg c4] at h
    by_cases c5 : (strtod t cur).2 = cur
    · rw [if_pos c5] at h; simp at h
    rw [if_neg c5] at h
    simp only [Prod.mk.injEq, Except.ok.injEq] at h
    omega
  · rw [if_neg c3] at h
    simp only [Prod.mk.injEq, Except.ok.injEq] at h
    have hne : (strtol t cur).2 ≠ cur := by
      intro he
      apply c3
      rw [he]
      by_cases h46 : byteAt t cur = 46
      · exact Or.inr (Or.inr h46)
      · exact absurd ⟨he, h46⟩ c2
    omega

/-- The error of the number branch is a parse error. -/
theorem parseNumber_error {t : List Nat} {self v : JsonValue} {cur : Nat} {e : JsonError}
    (h : parseNumber t self cur = (v, Except.error e)) :
    ∃ msg obj, e = JsonParseException msg obj := by
  unfold parseNumber at h
  simp only [] at h
  split_ifs at h <;> simp only [Prod.mk.injEq, Except.error.injEq] at h <;>
    first
    | exact ⟨_, _, h.2.symm⟩
    | exact absurd h.2 (by simp)

/-- Every call of the parser that returns has moved the cursor forward. -/
theorem parse_progress (f : Nat) :
    (∀ t self cur v n, parseValue f t self cur = (v, Except.ok n) → cur < n)
      ∧ (∀ t self os cur v n, parseObjectLoop f t self os cur = (v, Except.ok n) → cur < n)
      ∧ (∀ t self os cur v n, parseArrayLoop f t self os cur = (v, Except.ok n) → cur < n) := by
  induction f with
  | zero =>
    refine ⟨?_, ?_, ?_⟩
    · intro t self cur v n h; simp [parseValue] at h
    · intro t self os cur v n h; simp [parseObjectLoop] at h
    · intro t self os cur v n h; simp [parseArrayLoop] at h
  | succ f ih =>
    obtain ⟨ihv, iho, iha⟩ := ih
    refine ⟨?_, ?_, ?_⟩
    · intro t self cur v n h
      rw [parseValue] at h
      cases hs : skipWhitespace t cur with
      | error e => simp [hs] at h
      | ok p =>
        have hge := skipWhitespace_ge hs
        simp only [hs] at h
        by_cases c0 : byteAt t p = 0
        · rw [if_pos c0] at h; simp at h
        rw [if_neg c0] at h
        by_cases c1 : byteAt t p = 34
        · rw [if_pos c1] at h
          cases hps : parseString t p with
          | error e => simp [hps] at h
          | ok r =>
            obtain ⟨s, nx⟩ := r
            have := parseString_progress hps
            simp only [hps, Prod.mk.injEq, Except.ok.injEq] at h
            omega
        rw [if_neg c1] at h
        by_cases c2 : byteAt t p = 123
        · rw [if_pos c2] at h
          have := iho _ _ _ _ _ _ h
          omega
        rw [if_neg c2] at h
        by_cases c3 : byteAt t p = 91
        · rw [if_pos c3] at h
          have := iha _ _ _ _ _ _ h
          omega
        rw [if_neg c3] at h
        split_ifs at h
        · simp only [Prod.mk.injEq, Except.ok.injEq] at h; omega
        · simp only [Prod.mk.injEq, Except.ok.injEq] at h; omega
        · simp only [Prod.mk.injEq, Except.ok.injEq] at h; omega
        · have := parseNumber_progress h
          omega
    · intro t self os cur v n h
      rw [parseObjectLoop] at h
      cases hs : skipWhitespace t cur with
      | error e => simp [hs] at h
      | ok p =>
        have hge := skipWhitespace_ge hs
        simp only [hs] at h
        by_cases c0 : byteAt t p = 125
        · rw [if_pos c0] at h
          simp only [Prod.mk.injEq, Except.ok.injEq] at h
          omega
        rw [if_neg c0] at h
        by_cases c1 : byteAt t p = 0
        · rw [if_pos c1] at h; simp at h
        rw [if_neg c1] at h
        cases hps : parseString t p with
        | error e => simp [hps] at h
        | ok r =>
          obtain ⟨name, p1⟩ := r
          have hp1 := parseString_progress hps
          simp only [hps] at h
          cases hs2 : skipWhitespace t p1 with
          | error e => simp [hs2] at h
          | ok p2 =>
            have hge2 := skipWhitespace_ge hs2
            simp only [hs2] at h
            by_cases c2 : byteAt t p2 ≠ 58
            · rw [if_pos c2] at h; simp at h
            rw [if_neg c2] at h
            cases hpv : parseValue f t JsonValue.fresh (p2 + 1) with
            | mk value res =>
              cases res with
              | error e => simp [hpv] at h
              | ok p3 =>
                have hp3 := ihv _ _ _ _ _ hpv
                simp only [hpv] at h
                cases hs4 : skipWhitespace t p3 with
                | error e => simp [hs4] at h
                | ok p4 =>
                  have hge4 := skipWhitespace_ge hs4
                  simp only [hs4] at h
                  by_cases c3 : byteAt t p4 = 44
                  · rw [if_pos c3] at h
                    have := iho _ _ _ _ _ _ h
                    omega
                  rw [if_neg c3] at h
                  by_cases c4 : byteAt t p4 = 125
                  · rw [if_pos c4] at h
                    have := iho _ _ _ _ _ _ h
                    omega
                  · rw [if_neg c4] at h; simp at h
    · intro t self os cur v n h
      rw [parseArrayLoop] at h
      cases hs : skipWhitespace t cur with
      | error e => simp [hs] at h
      | ok p =>
        have hge := skipWhitespace_ge hs
        simp only [hs] at h
        by_cases c0 : byteAt t p = 0
        · rw [if_pos c0] at h; simp at h
        rw [if_neg c0] at h
        by_cases c1 : byteAt t p = 93
        · rw [if_pos c1] at h
          simp only [Prod.mk.injEq, Except.ok.injEq] at h
          omega
        rw [if_neg c1] at h
        by_cases c2 : byteAt t p = 44
        · rw [if_pos c2] at h
          have := iha _ _ _ _ _ _ h
          omega
        rw [if_neg c2] at h
        cases hpv : parseValue f t JsonValue.fresh p with
        | mk value res =>
          cases res with
          | error e => simp [hpv] at h
          | ok p3 =>
            have hp3 := ihv _ _ _ _ _ hpv
            simp only [hpv] at h
            have := iha _ _ _ _ _ _ h
            omega

/-- With a newline somewhere at or after the cursor the comment loop finds one. -/
theorem skipComment_closed {t : List Nat} : ∀ fuel p j, p ≤ j → byteAt t j = 10 →
    j - p < fuel → ∃ q, skipComment t fuel p = some q := by
  intro fuel
  induction fuel with
  | zero => intro p j _ _ h; omega
  | succ f ih =>
    intro p j hpj hj hf
    have hjl : j < t.length := byteAt_lt_of_ne_zero (by rw [hj]; decide)
    rw [skipComment, if_neg (by omega)]
    by_cases c : byteAt t p = 10
    · exact ⟨p, by simp [c]⟩
    · have hne : p ≠ j := by rintro rfl; exact c hj
      rw [if_pos (by simpa using c)]
      exact ih (p + 1) j (by omega) hj (by omega)

/-- The outer loop of `skipWhitespace`, with the fuel `skipWhitespace` gives it, returns a
cursor or leaves the text in a comment without newline. -/
theorem skipWhitespaceLoop_outcome (t : List Nat) : ∀ f p, t.length - p + 1 ≤ f →
    (∃ q, skipWhitespaceLoop t f p = Except.ok q)
      ∨ (skipWhitespaceLoop t f p = Except.error outOfBounds
        ∧ ∃ i, byteAt t i = 35 ∧ ∀ j, i < j → byteAt t j ≠ 10) := by
  intro f
  induction f with
  | zero => intro p h; omega
  | succ f ih =>
    intro p h
    rw [skipWhitespaceLoop]
    have hge := skipSpaces_ge t (t.length - p) p
    generalize skipSpaces t (t.length - p) p = p1 at hge
    by_cases hb : byteAt t p1 = 35
    · have hlt : p1 < t.length := byteAt_lt_of_ne_zero (by rw [hb]; decide)
      simp only [hb, beq_self_eq_true, if_true]
      cases hc : skipComment t (t.length + 2 - p1) p1 with
      | none =>
        right
        refine ⟨rfl, p1, hb, fun j hj hj10 => ?_⟩
        have hjl : j < t.length := byteAt_lt_of_ne_zero (by rw [hj10]; decide)
        obtain ⟨q, hq⟩ := skipComment_closed (t.length + 2 - p1) p1 j (by omega) hj10 (by omega)
        rw [hq] at hc
        simp at hc
      | some q =>
        have hq := skipComment_gt _ _ _ hc (by rw [hb]; decide)
        exact ih q (by omega)
    · left
      exact ⟨p1, by simp [hb]⟩

/-- The only error of `skipWhitespace` is the read beyond the terminator, in a comment that
no newline closes. -/
theorem skipWhitespace_error {t : List Nat} {p : Nat} {e : JsonError}
    (h : skipWhitespace t p = Except.error e) :
    e = outOfBounds ∧ ∃ i, byteAt t i = 35 ∧ ∀ j, i < j → byteAt t j ≠ 10 := by
  rcases skipWhitespaceLoop_outcome t (t.length - p + 1) p (Nat.le_refl _) with ⟨q, hq⟩ | ⟨h1, h2⟩
  · unfold skipWhitespace at h
    rw [hq] at h
    simp at h
  · unfold skipWhitespace at h
    rw [h1] at h
    simp only [Except.error.injEq] at h
    exact ⟨h.symm, h2⟩

/-- The error of `parseString` is a parse error or the error of `skipWhitespace`. -/
theorem parseString_error {t : List Nat} {E : JsonError → Prop}
    (hE : ∀ msg obj, E (JsonParseException msg obj))
    (hsk : ∀ p e, skipWhitespace t p = Except.error e → E e) {b : Nat} {e : JsonError}
    (h : parseString t b = Except.error e) : E e := by
  cases hs : skipWhitespace t b with
  | error e1 =>
    unfold parseString at h
    rw [hs] at h
    simp only [Except.error.injEq] at h
    rw [← h]
    exact hsk b e1 hs
  | ok cur =>
    rcases parseString_outcome hs with ⟨s1, n1, h1, -⟩ | ⟨msg, obj, h1⟩
    · rw [h1] at h
      simp at h
    · rw [h1] at h
      simp only [Except.error.injEq] at h
      rw [← h]
      exact hE msg obj

/-- With two units of fuel for every byte from the cursor on the parser does not run out of
fuel: it returns, or raises a parse error or the error of `skipWhitespace`. -/
theorem parse_outcome_aux (t : List Nat) (E : JsonError → Prop)
    (hE : ∀ msg obj, E (JsonParseException msg obj))
    (hsk : ∀ p e, skipWhitespace t p = Except.error e → E e) (f : Nat) :
    (∀ self cur, 2 * (t.length - cur) + 1 ≤ f →
        (∃ n, (parseValue f t self cur).2 = Except.ok n)
          ∨ ∃ e, (parseValue f t self cur).2 = Except.error e ∧ E e)
      ∧ (∀ self os cur, 2 * (t.length - cur) + 2 ≤ f →
        (∃ n, (parseObjectLoop f t self os cur).2 = Except.ok n)
          ∨ ∃ e, (parseObjectLoop f t self os cur).2 = Except.error e ∧ E e)
      ∧ (∀ self os cur, 2 * (t.length - cur) + 2 ≤ f →
        (∃ n, (parseArrayLoop f t self os cur).2 = Except.ok n)
          ∨ ∃ e, (parseArrayLoop f t self os cur).2 = Except.error e ∧ E e) := by
  induction f with
  | zero =>
    refine ⟨?_, ?_, ?_⟩
    · intro self cur h; omega
    · intro self os cur h; omega
    · intro self os cur h; omega
  | succ f ih =>
    obtain ⟨ihv, iho, iha⟩ := ih
    refine ⟨?_, ?_, ?_⟩
    · intro self cur hf
      rw [parseValue]
      cases hs : skipWhitespace t cur with
      | error e => exact Or.inr ⟨e, rfl, hsk cur e hs⟩
      | ok p =>
        have hge := skipWhitespace_ge hs
        simp only []
        by_cases c0 : byteAt t p = 0
        · rw [if_pos c0]; exact Or.inr ⟨_, rfl, hE _ _⟩
        have hlt : p < t.length := byteAt_lt_of_ne_zero c0
        rw [if_neg c0]
        by_cases c1 : byteAt t p = 34
        · rw [if_pos c1]
          cases hps : parseString t p with
          | error e => exact Or.inr ⟨e, rfl, parseString_error hE hsk hps⟩
          | ok r => exact Or.inl ⟨r.2, rfl⟩
        rw [if_neg c1]
        by_cases c2 : byteAt t p = 123
        · rw [if_pos c2]; exact iho _ _ _ (by omega)
        rw [if_neg c2]
        by_cases c3 : byteAt t p = 91
        · rw [if_pos c3]; exact iha _ _ _ (by omega)
        rw [if_neg c3]
        split_ifs
        · exact Or.inl ⟨_, rfl⟩
        · exact Or.inl ⟨_, rfl⟩
        · exact Or.inl ⟨_, rfl⟩
        · cases hpn : parseNumber t self p with
          | mk v res =>
            cases res with
            | ok n => exact Or.inl ⟨n, rfl⟩
            | error e =>
              obtain ⟨msg, obj, he⟩ := parseNumber_error hpn
              exact Or.inr ⟨e, rfl, he ▸ hE msg obj⟩
    · intro self os cur hf
      rw [parseObjectLoop]
      cases hs : skipWhitespace t cur with
      | error e => exact Or.inr ⟨e, rfl, hsk cur e hs⟩
      | ok p =>
        have hge := skipWhitespace_ge hs
        simp only []
        by_cases c0 : byteAt t p = 125
        · rw [if_pos c0]; exact Or.inl ⟨_, rfl⟩
        rw [if_neg c0]
        by_cases c1 : byteAt t p = 0
        · rw [if_pos c1]; exact Or.inr ⟨_, rfl, hE _ _⟩
        have hlt : p < t.length := byteAt_lt_of_ne_zero c1
        rw [if_neg c1]
        cases hps : parseString t p with
        | error e => exact Or.inr ⟨e, rfl, parseString_error hE hsk hps⟩
        | ok r =>
          obtain ⟨name, p1⟩ := r
          have hp1 := parseString_progress hps
          simp only []
          cases hs2 : skipWhitespace t p1 with
          | error e => exact Or.inr ⟨e, rfl, hsk p1 e hs2⟩
          | ok p2 =>
            have hge2 := skipWhitespace_ge hs2
            simp only []
            by_cases c2 : byteAt t p2 ≠ 58
            · rw [if_pos c2]; exact Or.inr ⟨_, rfl, hE _ _⟩
            rw [if_neg c2]
            rcases ihv JsonValue.fresh (p2 + 1) (by omega) with ⟨n, hn⟩ | ⟨e, he, hEe⟩
            · cases hpv : parseValue f t JsonValue.fresh (p2 + 1) with
              | mk value res =>
                rw [hpv] at hn
                simp only at hn
                subst hn
                have hp3 := (parse_progress f).1 _ _ _ _ _ hpv
                simp only []
                cases hs4 : skipWhitespace t n with
                | error e => exact Or.inr ⟨e, rfl, hsk n e hs4⟩
                | ok p4 =>
                  have hge4 := skipWhitespace_ge hs4
                  simp only []
                  by_cases c3 : byteAt t p4 = 44
                  · rw [if_pos c3]; exact iho _ _ _ (by omega)
                  rw [if_neg c3]
                  by_cases c4 : byteAt t p4 = 125
                  · rw [if_pos c4]; exact iho _ _ _ (by omega)
                  · rw [if_neg c4]; exact Or.inr ⟨_, rfl, hE _ _⟩
            · cases hpv : parseValue f t JsonValue.fresh (p2 + 1) with
              | mk value res =>
                rw [hpv] at he
                simp only at he
                subst he
                exact Or.inr ⟨e, rfl, hEe⟩
    · intro self os cur hf
      rw [parseArrayLoop]
      cases hs : skipWhitespace t cur with
      | error e => exact Or.inr ⟨e, rfl, hsk cur e hs⟩
      | ok p =>
        have hge := skipWhitespace_ge hs
        simp only []
        by_cases c0 : byteAt t p = 0
        · rw [if_pos c0]; exact Or.inr ⟨_, rfl, hE _ _⟩
        have hlt : p < t.length := byteAt_lt_of_ne_zero c0
        rw [if_neg c0]
        by_cases c1 : byteAt t p = 93
        · rw [if_pos c1]; exact Or.inl ⟨_, rfl⟩
        rw [if_neg c1]
        by_cases c2 : byteAt t p = 44
        · rw [if_pos c2]; exact iha _ _ _ (by omega)
        rw [if_neg c2]
        rcases ihv JsonValue.fresh p (by omega) with ⟨n, hn⟩ | ⟨e, he, hEe⟩
        · cases hpv : parseValue f t JsonValue.fresh p with
          | mk value res =>
            rw [hpv] at hn
            simp only at hn
            subst hn
            have hp3 := (parse_progress f).1 _ _ _ _ _ hpv
            simp only []
            exact iha _ _ _ (by omega)
        · cases hpv : parseValue f t JsonValue.fresh p with
          | mk value res =>
            rw [hpv] at he
            simp only at he
            subst he
            exact Or.inr ⟨e, rfl, hEe⟩

/-- The ghost counts are bounded by the bytes left from the cursor on: a loop entered at
`cur` nests at most `t.length - cur` activations of `parseValue`, and a call of `parseValue`
at `cur` at most that many or one. -/
theorem depth_bound (f : Nat) :
    (∀ t cur, depthValue f t cur ≤ 1 ∨ depthValue f t cur ≤ t.length - cur)
      ∧ (∀ t cur, depthObjectLoop f t cur ≤ t.length - cur)
      ∧ (∀ t cur, depthArrayLoop f t cur ≤ t.length - cur) := by
  induction f with
  | zero =>
    refine ⟨?_, ?_, ?_⟩
    · intro t cur; left; simp [depthValue]
    · intro t cur; simp [depthObjectLoop]
    · intro t cur; simp [depthArrayLoop]
  | succ f ih =>
    obtain ⟨ihv, iho, iha⟩ := ih
    refine ⟨?_, ?_, ?_⟩
    · intro t cur
      rw [depthValue]
      cases hs : skipWhitespace t cur with
      | error e => exact Or.inl (Nat.le_refl _)
      | ok p =>
        have hge := skipWhitespace_ge hs
        simp only []
        by_cases c0 : byteAt t p = 0
        · rw [if_pos c0]; exact Or.inl (Nat.le_refl _)
        have hlt : p < t.length := byteAt_lt_of_ne_zero c0
        rw [if_neg c0]
        by_cases c1 : byteAt t p = 34
        · rw [if_pos c1]; exact Or.inl (Nat.le_refl _)
        rw [if_neg c1]
        by_cases c2 : byteAt t p = 123
        · rw [if_pos c2]
          have := iho t (p + 1)
          right
          omega
        rw [if_neg c2]
        by_cases c3 : byteAt t p = 91
        · rw [if_pos c3]
          have := iha t (p + 1)
          right
          omega
        · rw [if_neg c3]; exact Or.inl (Nat.le_refl _)
    · intro t cur
      rw [depthObjectLoop]
      cases hs : skipWhitespace t cur with
      | error e => exact Nat.zero_le _
      | ok p =>
        have hge := skipWhitespace_ge hs
        simp only []
        by_cases c0 : byteAt t p = 125
        · rw [if_pos c0]; exact Nat.zero_le _
        rw [if_neg c0]
        by_cases c1 : byteAt t p = 0
        · rw [if_pos c1]; exact Nat.zero_le _
        rw [if_neg c1]
        cases hps : parseString t p with
        | error e => exact Nat.zero_le _
        | ok r =>
          obtain ⟨name, p1⟩ := r
          have hp1 := parseString_progress hps
          simp only []
          cases hs2 : skipWhitespace t p1 with
          | error e => exact Nat.zero_le _
          | ok p2 =>
            have hge2 := skipWhitespace_ge hs2
            simp only []
            by_cases c2 : byteAt t p2 ≠ 58
            · rw [if_pos c2]; exact Nat.zero_le _
            rw [if_neg c2]
            have hlt2 : p2 < t.length :=
              byteAt_lt_of_ne_zero (by rw [not_not.1 c2]; decide)
            have hd : depthValue f t (p2 + 1) ≤ t.length - cur := by
              rcases ihv t (p2 + 1) with h | h <;> omega
            cases hpv : (parseValue f t JsonValue.fresh (p2 + 1)).2 with
            | error e => exact hd
            | ok p3 =>
              have hp3 := (parse_progress f).1 _ _ _ _ _ (pair_eq_of_snd hpv)
              simp only []
              cases hs4 : skipWhitespace t p3 with
              | error e => exact hd
              | ok p4 =>
                have hge4 := skipWhitespace_ge hs4
                simp only []
                by_cases c3 : byteAt t p4 = 44
                · rw [if_pos c3]
                  have := iho t (p4 + 1)
                  exact Nat.max_le.2 ⟨hd, by omega⟩
                rw [if_neg c3]
                by_cases c4 : byteAt t p4 = 125
                · rw [if_pos c4]
                  have := iho t p4
                  exact Nat.max_le.2 ⟨hd, by omega⟩
                · rw [if_neg c4]; exact hd
    · intro t cur
      rw [depthArrayLoop]
      cases hs : skipWhitespace t cur with
      | error e => exact Nat.zero_le _
      | ok p =>
        have hge := skipWhitespace_ge hs
        simp only []
        by_cases c0 : byteAt t p = 0
        · rw [if_pos c0]; exact Nat.zero_le _
        have hlt : p < t.length := byteAt_lt_of_ne_zero c0
        rw [if_neg c0]
        by_cases c1 : byteAt t p = 93
        · rw [if_pos c1]; exact Nat.zero_le _
        rw [if_neg c1]
        by_cases c2 : byteAt t p = 44
        · rw [if_pos c2]
          have := iha t (p + 1)
          omega
        rw [if_neg c2]
        have hd : depthValue f t p ≤ t.length - cur := by
          rcases ihv t p with h | h <;> omega
        cases hpv : (parseValue f t JsonValue.fresh p).2 with
        | error e => exact hd
        | ok p3 =>
          have hp3 := (parse_progress f).1 _ _ _ _ _ (pair_eq_of_snd hpv)
          have := iha t p3
          exact Nat.max_le.2 ⟨hd, by omega⟩

/-- During `parse` fewer activations of `parseValue` are nested than the text has bytes. -/
theorem depthParse_lt (t : List Nat) : depthParse t ≤ t.length - 1 := by
  unfold depthParse
  cases hs : skipWhitespace t 0 with
  | error e => exact Nat.zero_le _
  | ok p =>
    simp only []
    by_cases c : byteAt t p ≠ 123
    · rw [if_pos c]; exact Nat.zero_le _
    · rw [if_neg c]
      have hlt : p < t.length := byteAt_lt_of_ne_zero (by rw [not_not.1 c]; decide)
      have := (depth_bound (parseFuel t)).2.1 t (p + 1)
      omega

/-- The outcomes of the recursion, with two units of fuel for every byte from the cursor on:
a cursor, a parse error, or the read beyond the terminator in a comment that no newline
closes. -/
theorem parse_outcome_fuel (t : List Nat) (f : Nat) :
    (∀ self cur, 2 * (t.length - cur) + 1 ≤ f →
        (∃ n, (parseValue f t self cur).2 = Except.ok n)
          ∨ ∃ e, (parseValue f t self cur).2 = Except.error e
            ∧ ((∃ msg obj, e = JsonParseException msg obj)
              ∨ (e = outOfBounds ∧ ∃ i, byteAt t i = 35 ∧ ∀ j, i < j → byteAt t j ≠ 10)))
      ∧ (∀ self os cur, 2 * (t.length - cur) + 2 ≤ f →
        (∃ n, (parseObjectLoop f t self os cur).2 = Except.ok n)
          ∨ ∃ e, (parseObjectLoop f t self os cur).2 = Except.error e
            ∧ ((∃ msg obj, e = JsonParseException msg obj)
              ∨ (e = outOfBounds ∧ ∃ i, byteAt t i = 35 ∧ ∀ j, i < j → byteAt t j ≠ 10)))
      ∧ (∀ self os cur, 2 * (t.length - cur) + 2 ≤ f →
        (∃ n, (parseArrayLoop f t self os cur).2 = Except.ok n)
          ∨ ∃ e, (parseArrayLoop f t self os cur).2 = Except.error e
            ∧ ((∃ msg obj, e = JsonParseException msg obj)
              ∨ (e = outOfBounds ∧ ∃ i, byteAt t i = 35 ∧ ∀ j, i < j → byteAt t j ≠ 10))) :=
  parse_outcome_aux t
    (fun e => (∃ msg obj, e = JsonParseException msg obj)
      ∨ (e = outOfBounds ∧ ∃ i, byteAt t i = 35 ∧ ∀ j, i < j → byteAt t j ≠ 10))
    (fun msg obj => Or.inl ⟨msg, obj, rfl⟩)
    (fun _ _ h => Or.inr (skipWhitespace_error h)) f

/-- The outcomes of `parse`: it returns, or raises a parse error, or reads beyond the
terminator in a comment that no newline closes. -/
theorem parse_outcome (self : JsonValue) (t : List Nat) :
    (parse self t).2 = Except.ok ()
      ∨ (∃ msg obj, (parse self t).2 = Except.error (JsonParseException msg obj))
      ∨ ((parse self t).2 = Except.error outOfBounds
        ∧ ∃ i, byteAt t i = 35 ∧ ∀ j, i < j → byteAt t j ≠ 10) := by
  unfold parse
  cases hs : skipWhitespace t 0 with
  | error e =>
    obtain ⟨he, hc⟩ := skipWhitespace_error hs
    subst he
    exact Or.inr (Or.inr ⟨rfl, hc⟩)
  | ok p =>
    simp only []
    by_cases c : byteAt t p ≠ 123
    · rw [if_pos c]; exact Or.inr (Or.inl ⟨_, _, rfl⟩)
    rw [if_neg c]
    unfold parseObject
    rcases (parse_outcome_fuel t (parseFuel t)).2.1 { self with type_f := JSON_OBJECT } (p + 1)
      (p + 1) (by unfold parseFuel; omega) with ⟨n, hn⟩ | ⟨e, he, hE⟩
    · rw [pair_eq_of_snd hn]
      simp only []
      cases hs2 : skipWhitespace t n with
      | error e =>
        obtain ⟨he, hc⟩ := skipWhitespace_error hs2
        subst he
        exact Or.inr (Or.inr ⟨rfl, hc⟩)
      | ok p2 =>
        simp only []
        by_cases c2 : byteAt t p2 ≠ 0
        · rw [if_pos c2]; exact Or.inr (Or.inl ⟨_, _, rfl⟩)
        · rw [if_neg c2]; exact Or.inl rfl
    · rw [pair_eq_of_snd he]
      simp only []
      rcases hE with ⟨msg, obj, h⟩ | ⟨h, hc⟩
      · subst h; exact Or.inr (Or.inl ⟨_, _, rfl⟩)
      · subst h; exact Or.inr (Or.inr ⟨rfl, hc⟩)

/-- An outcome that is a cursor, a parse error or the read beyond the terminator is not the
exhaustion of the fuel. -/
theorem ne_outOfFuel {t : List Nat} {r : Except JsonError Nat}
    (h : (∃ n, r = Except.ok n)
      ∨ ∃ e, r = Except.error e
        ∧ ((∃ msg obj, e = JsonParseException msg obj)
          ∨ (e = outOfBounds ∧ ∃ i, byteAt t i = 35 ∧ ∀ j, i < j → byteAt t j ≠ 10))) :
    r ≠ Except.error outOfFuel := by
  rcases h with ⟨n, rfl⟩ | ⟨e, rfl, ⟨msg, obj, rfl⟩ | ⟨rfl, -⟩⟩
  · intro h; cases h
  · intro h; cases h
  · intro h; cases h

/-- C31 (code defect in the comment loop). For every text `t` and receiver: a successful call
of `parseValue`, `parseString`, `parseObject` or `parseArray`, and of the number branch of
`parseValue`, returns a cursor strictly greater than the one it was given; with two units of
fuel for every byte from the cursor on, one for each nested call and one for each iteration
of a loop, the recursion does not run out of fuel; `parse` returns, or raises a parse error,
or reads beyond the terminator in a `#` comment that no newline closes, so that it returns or
raises a parse error on every text in which a newline follows each `#`; the activations of
`parseValue` nested in a call at `cur` are at most one or at most `t.length - cur`, in a loop
entered at `cur` at most `t.length - cur`, and in `parse` fewer than the text has bytes. On
the text `{ # x` the comment loop leaves the text and `parse` does not return. -/
theorem C31_progress_and_termination (t : List Nat) (self : JsonValue) :
    (∀ f cur n, (parseValue f t self cur).2 = Except.ok n → cur < n)
      ∧ (∀ cur s n, parseString t cur = Except.ok (s, n) → cur + 1 < n)
      ∧ (∀ f cur n, (parseObject f t self cur).2 = Except.ok n → cur < n)
      ∧ (∀ f cur n, (parseArray f t self cur).2 = Except.ok n → cur < n)
      ∧ (∀ cur n, (parseNumber t self cur).2 = Except.ok n → cur < n)
      ∧ (∀ f cur, 2 * (t.length - cur) + 2 ≤ f →
          (parseValue f t self cur).2 ≠ Except.error outOfFuel
            ∧ (parseObject f t self cur).2 ≠ Except.error outOfFuel
            ∧ (parseArray f t self cur).2 ≠ Except.error outOfFuel)
      ∧ ((parse self t).2 = Except.ok ()
          ∨ (∃ msg obj, (parse self t).2 = Except.error (JsonParseException msg obj))
          ∨ ((parse self t).2 = Except.error outOfBounds
            ∧ ∃ i, byteAt t i = 35 ∧ ∀ j, i < j → byteAt t j ≠ 10))
      ∧ ((∀ i, byteAt t i = 35 → ∃ j, i < j ∧ byteAt t j = 10) →
          (parse self t).2 = Except.ok ()
            ∨ ∃ msg obj, (parse self t).2 = Except.error (JsonParseException msg obj))
      ∧ (∀ f cur, (depthValue f t cur ≤ 1 ∨ depthValue f t cur ≤ t.length - cur)
          ∧ depthObjectLoop f t cur ≤ t.length - cur
          ∧ depthArrayLoop f t cur ≤ t.length - cur)
      ∧ depthParse t ≤ t.length - 1
      ∧ (parse JsonValue.fresh (lit "\x7b # x")).2 = Except.error outOfBounds := by
  refine ⟨?_, ?_, ?_, ?_, ?_, ?_, parse_outcome self t, ?_, ?_, depthParse_lt t, by decide!⟩
  · intro f cur n h
    exact (parse_progress f).1 _ _ _ _ _ (pair_eq_of_snd h)
  · intro cur s n h
    exact parseString_progress h
  · intro f cur n h
    exact (parse_progress f).2.1 _ _ _ _ _ _ (pair_eq_of_snd h)
  · intro f cur n h
    exact (parse_progress f).2.2 _ _ _ _ _ _ (pair_eq_of_snd h)
  · intro cur n h
    exact parseNumber_progress (pair_eq_of_snd h)
  · intro f cur hf
    obtain ⟨hv, ho, ha⟩ := parse_outcome_fuel t f
    exact ⟨ne_outOfFuel (hv self cur (by omega)), ne_outOfFuel (ho _ cur cur hf),
      ne_outOfFuel (ha _ cur cur hf)⟩
  · intro hclosed
    rcases parse_outcome self t with h | h | ⟨-, i, hi, hno⟩
    · exact Or.inl h
    · exact Or.inr h
    · obtain ⟨j, hj, hj10⟩ := hclosed i hi
      exact absurd hj10 (hno j hj)
  · intro f cur
    exact ⟨(depth_bound f).1 t cur, (depth_bound f).2.1 t cur, (depth_bound f).2.2 t cur⟩

/-- C31 on the 14 bytes `{ # c`, newline, `"a":[1]}`: the array at index 10 is parsed up to
index 13, the one `#` is followed by a newline and `parse` returns, with two activations of
`parseValue` nested; without the newline and what follows it `parse` does not return. -/
theorem C31_progress_and_termination_witness :
    (parseValue 3 (lit "\x7b # c\n\"a\":[1]\x7d") JsonValue.fresh 10).2 = Except.ok 13
      ∧ 10 < 13
      ∧ (∀ i, byteAt (lit "\x7b # c\n\"a\":[1]\x7d") i = 35 →
          ∃ j, i < j ∧ byteAt (lit "\x7b # c\n\"a\":[1]\x7d") j = 10)
      ∧ ((parse JsonValue.fresh (lit "\x7b # c\n\"a\":[1]\x7d")).2 = Except.ok ()
          ∨ ∃ msg obj, (parse JsonValue.fresh (lit "\x7b # c\n\"a\":[1]\x7d")).2
              = Except.error (JsonParseException msg obj))
      ∧ (parse JsonValue.fresh (lit "\x7b # c\n\"a\":[1]\x7d")).2 = Except.ok ()
      ∧ depthParse (lit "\x7b # c\n\"a\":[1]\x7d") = 2
      ∧ (lit "\x7b # c\n\"a\":[1]\x7d").length = 14
      ∧ (parse JsonValue.fresh (lit "\x7b # c")).2 = Except.error outOfBounds := by
  have hclosed : ∀ i, byteAt (lit "\x7b # c\n\"a\":[1]\x7d") i = 35 →
      ∃ j, i < j ∧ byteAt (lit "\x7b # c\n\"a\":[1]\x7d") j = 10 := by
    intro i hi
    refine ⟨5, ?_, by decide⟩
    by_contra hlt
    have h := byteAt_ne_of_all (l := (lit "\x7b # c\n\"a\":[1]\x7d").drop 5) (c := 35)
      (by decide) (by decide) (i - 5)
    rw [byteAt_drop, show 5 + (i - 5) = i by omega] at h
    exact h hi
  exact ⟨by decide!,
    (C31_progress_and_termination (lit "\x7b # c\n\"a\":[1]\x7d") JsonValue.fresh).1 3 10 13
      (by decide!),
    hclosed,
    (C31_progress_and_termination (lit "\x7b # c\n\"a\":[1]\x7d")
      JsonValue.fresh).2.2.2.2.2.2.2.1 hclosed,
    by decide!, by decide!, by decide, by decide!⟩

theorem blank_append {a b : List Nat} (ha : Blank a) (hb : Blank b) : Blank (a ++ b) := by
  induction ha with
  | nil => exact hb
  | space hc _ ih => exact Blank.space hc ih
  | @comment body rest hbody _ ih =>
    have : 35 :: (body ++ 10 :: rest) ++ b = 35 :: (body ++ 10 :: (rest ++ b)) := by simp
    rw [this]
    exact Blank.comment hbody ih

/-- A comment is a gap text, and so is a gap text with a comment put into it. -/
theorem blank_comment {c : List Nat} (hc : ∀ x ∈ c, x ≠ 10) {a b : List Nat} (ha : Blank a)
    (hb : Blank b) : Blank (a ++ 35 :: (c ++ 10 :: b)) :=
  blank_append ha (Blank.comment hc hb)

/-- A gap followed by a byte starts with white space, with `#`, or it is empty. -/
theorem blank_head {b : List Nat} (hb : Blank b) (x : Nat) (r : List Nat) :
    ∃ c r1, b ++ x :: r = c :: r1 ∧ (isspace c = true ∨ c = 35 ∨ (c = x ∧ b = [])) := by
  cases hb with
  | nil => exact ⟨x, r, rfl, Or.inr (Or.inr ⟨rfl, rfl⟩)⟩
  | space hc _ => exact ⟨_, _, rfl, Or.inl hc⟩
  | comment _ _ => exact ⟨35, _, rfl, Or.inr (Or.inl rfl)⟩

/-- A gap before a byte that is neither white space nor `#`: `skipWhitespace` stops at that
byte. -/
theorem skipWhitespace_gap {t : List Nat} {cur : Nat} {b : List Nat} {x : Nat} {r : List Nat}
    (hb : Blank b) (h : t.drop cur = b ++ x :: r) (hx : isspace x = false) (h35 : x ≠ 35) :
    skipWhitespace t cur = Except.ok (cur + b.length) := by
  rw [skipWhitespace_blank hb cur (x :: r) h]
  exact skipWhitespace_stay (drop_add_of_drop h) hx h35

/-- The gap before a value belongs to the text of the value. -/
theorem readsValue_blank {b vt : List Nat} {v : JsonValue} (hb : Blank b)
    (hv : ReadsValue vt v) : ReadsValue (b ++ vt) v := by
  intro f t cur c rest ht hc hf
  have ht' : t.drop cur = b ++ (vt ++ c :: rest) := by rw [ht]; simp
  have hlen := length_of_drop ht'
  simp only [List.length_append, List.length_cons] at hlen
  have h2 := hv f t (cur + b.length) c rest (drop_add_of_drop ht') hc (by omega)
  have hs := skipWhitespace_blank hb cur _ ht'
  cases f with
  | zero => omega
  | succ f =>
    rw [parseValue, hs, ← parseValue, h2]
    simp only [List.length_append, Prod.mk.injEq, Except.ok.injEq, true_and]
    omega

theorem membersText_cons_cons (m m1 : Member) (rest : List Member) :
    membersText (m :: m1 :: rest) = m.text ++ 44 :: membersText (m1 :: rest) := by
  simp [membersText]

theorem afterValue_of_blank {b : List Nat} (hb : Blank b) {x : Nat} (r : List Nat)
    (hx : x = 44 ∨ x = 125) : ∃ c r1, b ++ x :: r = c :: r1 ∧ afterValue c := by
  obtain ⟨c, r1, h, hc⟩ := blank_head hb x r
  refine ⟨c, r1, h, ?_⟩
  unfold afterValue
  rcases hc with hc | hc | ⟨hc, -⟩
  · exact Or.inl hc
  · exact Or.inr (Or.inl hc)
  · rcases hx with hx | hx
    · exact Or.inr (Or.inr (Or.inl (hc.trans hx)))
    · exact Or.inr (Or.inr (Or.inr (Or.inl (hc.trans hx))))

/-- One turn of the loop of `parseObject` on the text of a member followed by a gap and a
comma or a closing brace: the entry is stored and the loop goes on after the comma, or at the
brace. -/
theorem parseObjectLoop_member {m : Member} (hm : m.ok) {t : List Nat} {cur x : Nat}
    {gap r : List Nat} (hgap : Blank gap) (hx : x = 44 ∨ x = 125)
    (ht : t.drop cur = m.text ++ gap ++ x :: r) (f : Nat) (self : JsonValue) (os : Nat)
    (hf : 2 * (t.length - cur) + 1 ≤ f) :
    parseObjectLoop (f + 1) t self os cur
      = parseObjectLoop f t
          { self with
            nameValPairs_f := mapAssign self.nameValPairs_f m.name m.value,
            nameValsInOrder_f := self.nameValsInOrder_f ++ [(m.name, m.value)] }
          (cur + m.beforeKey.length)
          (cur + m.text.length + gap.length + (if x = 44 then 1 else 0)) := by
  obtain ⟨hb0, ⟨hq, hkey⟩, hb1, hb2, hval, hb3⟩ := hm
  obtain ⟨kb, hkb⟩ : ∃ kb, m.keyText = 34 :: kb := by
    cases hk : m.keyText with
    | nil => rw [hk] at hq; simp at hq
    | cons a kb =>
      rw [hk] at hq
      simp only [List.head?_cons, Option.some.injEq] at hq
      exact ⟨kb, by rw [hq]⟩
  have hlen := length_of_drop ht
  -- the text from the cursor on, gap by gap
  have e0 : t.drop cur = m.beforeKey ++ 34 :: (kb ++ (m.beforeColon ++ 58 :: (m.afterColon
      ++ m.valueText ++ (m.afterMember ++ gap ++ x :: r)))) := by
    rw [ht, Member.text, hkb]
    simp
  have hs0 := skipWhitespace_gap hb0 e0 (by decide) (by decide)
  have e1 := drop_add_of_drop e0
  have hbyte : byteAt t (cur + m.beforeKey.length) = 34 := byteAt_of_drop e1
  have e1' : t.drop (cur + m.beforeKey.length) = m.keyText ++ (m.beforeColon ++ 58 ::
      (m.afterColon ++ m.valueText ++ (m.afterMember ++ gap ++ x :: r))) := by
    rw [e1, hkb]
    simp
  have hps := hkey t (cur + m.beforeKey.length) _ e1'
  have e2 := drop_add_of_drop e1'
  have hs1 := skipWhitespace_gap hb1 e2 (by decide) (by decide)
  have e3 := drop_add_of_drop e2
  have hcolon : byteAt t (cur + m.beforeKey.length + m.keyText.length + m.beforeColon.length)
      = 58 := byteAt_of_drop e3
  have e4 := drop_succ_of_drop e3
  obtain ⟨c, r1, hcr, hc⟩ := afterValue_of_blank (blank_append hb3 hgap) r hx
  have e4' : t.drop (cur + m.beforeKey.length + m.keyText.length + m.beforeColon.length + 1)
      = (m.afterColon ++ m.valueText) ++ c :: r1 := by
    rw [e4, ← hcr]
  have hlen4 := length_of_drop e4'
  simp only [List.length_append, List.length_cons] at hlen4
  have hpv := readsValue_blank hb2 hval f t _ c r1 e4' hc (by omega)
  have e5 : t.drop (cur + m.beforeKey.length + m.keyText.length + m.beforeColon.length + 1
      + (m.afterColon ++ m.valueText).length) = (m.afterMember ++ gap) ++ x :: r := by
    have := drop_add_of_drop e4'
    rw [this, ← hcr]
  have hx1 : isspace x = false := by rcases hx with h | h <;> subst h <;> decide
  have hx2 : x ≠ 35 := by rcases hx with h | h <;> omega
  have hs3 := skipWhitespace_gap (blank_append hb3 hgap) e5 hx1 hx2
  have e6 := drop_add_of_drop e5
  have hsep := byteAt_of_drop e6
  rw [parseObjectLoop, hs0]
  simp only [hbyte, show ¬ (34 : Nat) = 125 by decide, show ¬ (34 : Nat) = 0 by decide,
    if_false, hps, hs1, hcolon, ne_eq, not_true_eq_false, hpv, hs3, hsep]
  have htl : m.text.length = m.beforeKey.length + m.keyText.length + m.beforeColon.length + 1
      + m.afterColon.length + m.valueText.length + m.afterMember.length := by
    simp [Member.text]
    omega
  rcases hx with hx | hx
  · subst hx
    simp only [if_true]
    congr 1
    simp only [List.length_append]
    omega
  · subst hx
    simp only [show ¬ (125 : Nat) = 44 by decide, if_false, if_true]
    congr 1
    simp only [List.length_append]
    omega

/-- The loop of `parseObject` on the text of the members, a last gap and the closing brace:
the entries of the members are stored in order, whatever the gaps hold, and the cursor ends
after the brace. -/
theorem parseObjectLoop_members : ∀ (ms : List Member), (∀ m ∈ ms, m.ok) →
    ∀ (f : Nat) (t : List Nat) (cur : Nat) (self : JsonValue) (os : Nat) (last r : List Nat),
      Blank last → t.drop cur = membersText ms ++ last ++ 125 :: r →
      2 * (t.length - cur) + 2 ≤ f →
      parseObjectLoop f t self os cur
        = ({ self with
              nameValPairs_f := assignAll self.nameValPairs_f (memberEntries ms),
              nameValsInOrder_f := self.nameValsInOrder_f ++ memberEntries ms },
            Except.ok (cur + (membersText ms).length + last.length + 1)) := by
  intro ms
  induction ms with
  | nil =>
    intro _ f t cur self os last r hlast ht hf
    simp only [membersText, List.nil_append] at ht
    cases f with
    | zero => omega
    | succ f =>
      rw [parseObjectLoop, skipWhitespace_gap hlast ht (by decide) (by decide)]
      simp only [byteAt_of_drop (drop_add_of_drop ht), if_true]
      refine Prod.ext ?_ ?_
      · cases self; simp [assignAll, memberEntries]
      · simp [membersText]
  | cons m rest ih =>
    intro hall f t cur self os last r hlast ht hf
    have hm := hall m (List.mem_cons_self _ _)
    have hrest : ∀ x ∈ rest, x.ok := fun x hx => hall x (List.mem_cons_of_mem _ hx)
    have hlen := length_of_drop ht
    have htext : 1 ≤ m.text.length := by
      simp only [Member.text, List.length_append, List.length_cons, List.length_nil]
      omega
    cases f with
    | zero => omega
    | succ f =>
      cases rest with
      | nil =>
        simp only [membersText] at ht hlen ⊢
        simp only [List.length_append, List.length_cons] at hlen
        rw [parseObjectLoop_member hm hlast (Or.inr rfl) ht f self os (by omega)]
        simp only [show ¬ (125 : Nat) = 44 by decide, if_false, Nat.add_zero]
        have ht2 : t.drop (cur + m.text.length + last.length)
            = membersText [] ++ [] ++ 125 :: r := by
          have := drop_add_of_drop (drop_add_of_drop (by rw [ht, List.append_assoc] :
            t.drop cur = m.text ++ (last ++ 125 :: r)))
          simpa [membersText] using this
        rw [ih (fun x hx => by simp at hx) f t _ _ _ [] r Blank.nil ht2 (by omega)]
        refine Prod.ext ?_ ?_
        · simp [assignAll, memberEntries]
        · simp [membersText]
      | cons m1 rest1 =>
        rw [membersText_cons_cons] at ht hlen ⊢
        simp only [List.length_append, List.length_cons] at hlen
        have ht1 : t.drop cur = m.text ++ [] ++ 44 :: (membersText (m1 :: rest1) ++ last
            ++ 125 :: r) := by
          rw [ht]; simp
        rw [parseObjectLoop_member hm Blank.nil (Or.inl rfl) ht1 f self os (by omega)]
        simp only [if_true, List.length_nil, Nat.add_zero]
        have ht2 : t.drop (cur + m.text.length + 1)
            = membersText (m1 :: rest1) ++ last ++ 125 :: r := by
          have := drop_succ_of_drop (drop_add_of_drop (by rw [ht1, List.append_nil] :
            t.drop cur = m.text ++ 44 :: (membersText (m1 :: rest1) ++ last ++ 125 :: r)))
          exact this
        rw [ih hrest f t _ _ _ last r hlast ht2 (by omega)]
        refine Prod.ext ?_ ?_
        · simp [assignAll, memberEntries]
        · simp only [List.length_append, List.length_cons, Except.ok.injEq]
          omega

/-- The text of an object spells the Object of its members, whatever its gaps hold. -/
theorem readsValue_object {ms : List Member} (hall : ∀ m ∈ ms, m.ok) {last : List Nat}
    (hlast : Blank last) : ReadsValue (objectText ms last) (objectValue ms) := by
  intro f t cur c rest ht _ hf
  have ht1 : t.drop cur = 123 :: (membersText ms ++ last ++ 125 :: (c :: rest)) := by
    rw [ht, objectText]; simp
  have hlen := length_of_drop ht1
  simp only [List.length_append, List.length_cons] at hlen
  cases f with
  | zero => omega
  | succ f =>
    rw [parseValue, skipWhitespace_stay ht1 (by decide) (by decide)]
    simp only [byteAt_of_drop ht1, show ¬ (123 : Nat) = 0 by decide,
      show ¬ (123 : Nat) = 34 by decide, if_false, if_true]
    rw [parseObjectLoop_members ms hall f t (cur + 1) _ _ last (c :: rest) hlast
      (drop_succ_of_drop ht1) (by omega)]
    refine Prod.ext ?_ ?_
    · simp [objectValue, JsonValue.fresh]
    · simp only [objectText, List.length_append, List.length_cons, List.length_nil,
        Except.ok.injEq]
      omega

/-- The text of an object between two gaps is accepted by `parse`, and the tree is the Object
of its members, whatever the gaps hold. -/
theorem parse_objectText {ms : List Member} (hall : ∀ m ∈ ms, m.ok) {last b0 b1 : List Nat}
    (hlast : Blank last) (h0 : Blank b0) (h1 : Blank b1) :
    parse JsonValue.fresh (b0 ++ objectText ms last ++ b1) = (objectValue ms, Except.ok ()) := by
  generalize ht : b0 ++ objectText ms last ++ b1 = t
  have ht0 : t.drop 0 = b0 ++ 123 :: (membersText ms ++ last ++ 125 :: (b1 ++ [])) := by
    rw [List.drop_zero, ← ht, objectText]; simp
  have hlen := length_of_drop ht0
  simp only [List.length_append, List.length_cons, List.length_nil] at hlen
  have hs0 := skipWhitespace_gap h0 ht0 (by decide) (by decide)
  have e1 := drop_add_of_drop ht0
  have e2 := drop_succ_of_drop e1
  have hobj := parseObjectLoop_members ms hall (parseFuel t) t (0 + b0.length + 1)
    { JsonValue.fresh with type_f := JSON_OBJECT } (0 + b0.length + 1) last (b1 ++ []) hlast e2
    (by unfold parseFuel; omega)
  have e3 : t.drop (0 + b0.length + 1 + (membersText ms).length + last.length + 1)
      = b1 ++ [] := by
    have h := drop_succ_of_drop (drop_add_of_drop (drop_add_of_drop (by
      rw [e2, List.append_assoc] :
      t.drop (0 + b0.length + 1) = membersText ms ++ (last ++ 125 :: (b1 ++ [])))))
    exact h
  have hs1 : skipWhitespace t (0 + b0.length + 1 + (membersText ms).length + last.length + 1)
      = Except.ok (0 + b0.length + 1 + (membersText ms).length + last.length + 1
        + b1.length) := by
    rw [skipWhitespace_blank h1 _ [] e3]
    exact skipWhitespace_end (drop_add_of_drop e3)
  have hend := byteAt_of_drop_nil (drop_add_of_drop e3)
  unfold parse
  rw [hs0]
  simp only [byteAt_of_drop e1, ne_eq, not_true_eq_false, if_false]
  unfold parseObject
  rw [hobj]
  simp only [hs1, hend, not_true_eq_false, if_false]
  refine Prod.ext ?_ rfl
  simp [objectValue, JsonValue.fresh]

theorem elementsText_cons_cons (e e1 : Element) (rest : List Element) :
    elementsText (e :: e1 :: rest) = e.text ++ 44 :: elementsText (e1 :: rest) := by
  simp [elementsText]

theorem afterValue_of_blank_bracket {b : List Nat} (hb : Blank b) {x : Nat} (r : List Nat)
    (hx : x = 44 ∨ x = 93) : ∃ c r1, b ++ x :: r = c :: r1 ∧ afterValue c := by
  obtain ⟨c, r1, h, hc⟩ := blank_head hb x r
  refine ⟨c, r1, h, ?_⟩
  unfold afterValue
  rcases hc with hc | hc | ⟨hc, -⟩
  · exact Or.inl hc
  · exact Or.inr (Or.inl hc)
  · rcases hx with hx | hx
    · exact Or.inr (Or.inr (Or.inl (hc.trans hx)))
    · exact Or.inr (Or.inr (Or.inr (Or.inr (hc.trans hx))))

/-- One turn of the loop of `parseArray` on the gap before an element and the text of its
value: the value is appended and the loop goes on after the text. -/
theorem parseArrayLoop_element {e : Element} (he : e.ok) {t : List Nat} {cur c : Nat}
    {r : List Nat} (hc : afterValue c) (ht : t.drop cur = e.beforeValue ++ e.valueText ++ c :: r)
    (f : Nat) (self : JsonValue) (os : Nat) (hf : 2 * (t.length - cur) + 1 ≤ f) :
    parseArrayLoop (f + 1) t self os cur
      = parseArrayLoop f t { self with theArray_f := self.theArray_f ++ [e.value] } os
          (cur + e.beforeValue.length + e.valueText.length) := by
  obtain ⟨hb0, hval, -, x, tail, hvt, hx1, hx2, hx3, hx4, hx5⟩ := he
  have e0 : t.drop cur = e.beforeValue ++ x :: (tail ++ c :: r) := by
    rw [ht, hvt]; simp
  have hlen := length_of_drop e0
  simp only [List.length_append, List.length_cons] at hlen
  have hs0 := skipWhitespace_gap hb0 e0 hx1 hx2
  have e1 := drop_add_of_drop e0
  have hbyte := byteAt_of_drop e1
  have e1' : t.drop (cur + e.beforeValue.length) = e.valueText ++ c :: r := by
    rw [e1, hvt]; simp
  have hpv := hval f t _ c r e1' hc (by omega)
  rw [parseArrayLoop, hs0]
  simp only [hbyte, hx3, hx4, hx5, if_false, hpv]

/-- One turn of the loop of `parseArray` on a gap and a comma: the loop goes on after the
comma. -/
theorem parseArrayLoop_gap_comma {t : List Nat} {cur : Nat} {gap r : List Nat}
    (hgap : Blank gap) (ht : t.drop cur = gap ++ 44 :: r) (f : Nat) (self : JsonValue)
    (os : Nat) :
    parseArrayLoop (f + 1) t self os cur
      = parseArrayLoop f t self os (cur + gap.length + 1) := by
  rw [parseArrayLoop, skipWhitespace_gap hgap ht (by decide) (by decide)]
  simp [byteAt_of_drop (drop_add_of_drop ht)]

/-- The loop of `parseArray` on the text of the elements, a last gap and the closing
bracket: the values of the elements are appended in order, whatever the gaps hold, and the
cursor ends after the bracket. -/
theorem parseArrayLoop_elements_text : ∀ (es : List Element), (∀ e ∈ es, e.ok) →
    ∀ (f : Nat) (t : List Nat) (cur : Nat) (self : JsonValue) (os : Nat) (last r : List Nat),
      Blank last → t.drop cur = elementsText es ++ last ++ 93 :: r →
      2 * (t.length - cur) + 2 ≤ f →
      parseArrayLoop f t self os cur
        = ({ self with theArray_f := self.theArray_f ++ es.map (fun e => e.value) },
            Except.ok (cur + (elementsText es).length + last.length + 1)) := by
  intro es
  induction es with
  | nil =>
    intro _ f t cur self os last r hlast ht hf
    simp only [elementsText, List.nil_append] at ht
    cases f with
    | zero => omega
    | succ f =>
      rw [parseArrayLoop, skipWhitespace_gap hlast ht (by decide) (by decide)]
      simp only [byteAt_of_drop (drop_add_of_drop ht), show ¬ (93 : Nat) = 0 by decide,
        if_false, if_true]
      refine Prod.ext ?_ ?_
      · cases self; simp
      · simp [elementsText]
  | cons e rest ih =>
    intro hall f t cur self os last r hlast ht hf
    have he := hall e (List.mem_cons_self _ _)
    have hrest : ∀ x ∈ rest, x.ok := fun x hx => hall x (List.mem_cons_of_mem _ hx)
    have hlen := length_of_drop ht
    obtain ⟨x, tail, hvt, -⟩ := he.2.2.2
    have hvlen : 1 ≤ e.valueText.length := by rw [hvt]; simp
    have htl : e.text.length
        = e.beforeValue.length + e.valueText.length + e.afterElement.length := by
      simp only [Element.text, List.length_append]
    cases f with
    | zero => omega
    | succ f =>
      cases rest with
      | nil =>
        simp only [elementsText] at ht hlen ⊢
        simp only [List.length_append, List.length_cons] at hlen
        obtain ⟨c, r1, hcr, hc⟩ := afterValue_of_blank_bracket (blank_append he.2.2.1 hlast) r
          (Or.inr rfl)
        have ht1 : t.drop cur = e.beforeValue ++ e.valueText ++ c :: r1 := by
          rw [ht, ← hcr, Element.text]; simp
        rw [parseArrayLoop_element he hc ht1 f self os (by omega)]
        have ht2 : t.drop (cur + e.beforeValue.length + e.valueText.length)
            = elementsText [] ++ (e.afterElement ++ last) ++ 93 :: r := by
          have := drop_add_of_drop (drop_add_of_drop (by rw [ht1, List.append_assoc] :
            t.drop cur = e.beforeValue ++ (e.valueText ++ c :: r1)))
          rw [this, ← hcr]
          simp [elementsText]
        rw [ih (fun x hx => by simp at hx) f t _ _ _ (e.afterElement ++ last) r
          (blank_append he.2.2.1 hlast) ht2 (by omega)]
        refine Prod.ext ?_ ?_
        · simp
        · simp only [elementsText, List.length_nil, List.length_append, Except.ok.injEq]
          omega
      | cons e1 rest1 =>
        rw [elementsText_cons_cons] at ht hlen ⊢
        simp only [List.length_append, List.length_cons] at hlen
        obtain ⟨c, r1, hcr, hc⟩ := afterValue_of_blank_bracket he.2.2.1
          (elementsText (e1 :: rest1) ++ last ++ 93 :: r) (Or.inl rfl)
        have ht1 : t.drop cur = e.beforeValue ++ e.valueText ++ c :: r1 := by
          rw [ht, ← hcr, Element.text]; simp
        rw [parseArrayLoop_element he hc ht1 f self os (by omega)]
        have ht2 : t.drop (cur + e.beforeValue.length + e.valueText.length)
            = e.afterElement ++ 44 :: (elementsText (e1 :: rest1) ++ last ++ 93 :: r) := by
          have := drop_add_of_drop (drop_add_of_drop (by rw [ht1, List.append_assoc] :
            t.drop cur = e.beforeValue ++ (e.valueText ++ c :: r1)))
          rw [this, ← hcr]
        cases f with
        | zero => omega
        | succ f =>
          rw [parseArrayLoop_gap_comma he.2.2.1 ht2 f _ os]
          rw [ih hrest f t _ _ _ last r hlast (drop_succ_of_drop (drop_add_of_drop ht2))
            (by omega)]
          refine Prod.ext ?_ ?_
          · simp
          · simp only [List.length_append, List.length_cons, Except.ok.injEq]
            omega

/-- The text of an array spells the Array of its elements, whatever its gaps hold. -/
theorem readsValue_array {es : List Element} (hall : ∀ e ∈ es, e.ok) {last : List Nat}
    (hlast : Blank last) : ReadsValue (arrayText es last) (arrayValue es) := by
  intro f t cur c rest ht _ hf
  have ht1 : t.drop cur = 91 :: (elementsText es ++ last ++ 93 :: (c :: rest)) := by
    rw [ht, arrayText]; simp
  have hlen := length_of_drop ht1
  simp only [List.length_append, List.length_cons] at hlen
  cases f with
  | zero => omega
  | succ f =>
    rw [parseValue, skipWhitespace_stay ht1 (by decide) (by decide)]
    simp only [byteAt_of_drop ht1, show ¬ (91 : Nat) = 0 by decide,
      show ¬ (91 : Nat) = 34 by decide, show ¬ (91 : Nat) = 123 by decide, if_false, if_true]
    rw [parseArrayLoop_elements_text es hall f t (cur + 1) _ _ last (c :: rest) hlast
      (drop_succ_of_drop ht1) (by omega)]
    refine Prod.ext ?_ ?_
    · simp [arrayValue, JsonValue.fresh]
    · simp only [arrayText, List.length_append, List.length_cons, List.length_nil,
        Except.ok.injEq]
      omega

theorem afterValue_facts {c : Nat} (h : afterValue c) :
    isDigitOf 10 c = false ∧ c ≠ 69 ∧ c ≠ 101 ∧ c ≠ 46 := by
  have key : ∀ x : Nat, x ≤ 125 → (isspace x = true ∨ x = 35 ∨ x = 44 ∨ x = 125 ∨ x = 93) →
      isDigitOf 10 x = false ∧ x ≠ 69 ∧ x ≠ 101 ∧ x ≠ 46 := by decide
  have hle : c ≤ 125 := by
    unfold afterValue at h
    rcases h with h | h | h | h | h
    · simp only [isspace, Bool.or_eq_true, beq_iff_eq, Bool.and_eq_true, decide_eq_true_eq] at h
      omega
    all_goals omega
  exact key c hle h

/-- A quoted run of bytes without double quote, backslash and NUL spells itself as a key. -/
theorem readsString_plain {s : List Nat} (hs : bytesAvoid [34, 92, 0] s = true) :
    ReadsString (34 :: (s ++ [34])) s := by
  refine ⟨rfl, ?_⟩
  intro t cur rest ht
  have ht1 : t.drop cur = 34 :: (s ++ 34 :: rest) := by rw [ht]; simp
  rw [parseString_plain ht1 hs]
  have hl : (34 :: (s ++ [34])).length = s.length + 2 := by simp
  rw [hl, Nat.add_assoc]

/-- A run of decimal digits that does not start with 0 spells the Integer it writes, when
that is below `LONG_MAX`. -/
theorem readsValue_digits {d : Nat} {ds : List Nat} (hd : 49 ≤ d ∧ d ≤ 57)
    (hds : ∀ x ∈ ds, 48 ≤ x ∧ x ≤ 57) (hval : (digitsValue 10 (d :: ds) : Int) < LONG_MAX) :
    ReadsValue (d :: ds)
      { JsonValue.fresh with
        type_f := JSON_NUMBER, theInteger_f := (digitsValue 10 (d :: ds) : Int) } := by
  intro f t cur c rest ht hc hf
  obtain ⟨hc1, hc2, hc3, hc4⟩ := afterValue_facts hc
  have ht1 : t.drop cur = d :: (ds ++ c :: rest) := by rw [ht]; simp
  have hlen := length_of_drop ht1
  simp only [List.length_append, List.length_cons] at hlen
  have hdig : ∀ x ∈ d :: ds, isDigitOf 10 x = true := by
    have key : ∀ x : Nat, x ≤ 57 → 48 ≤ x → isDigitOf 10 x = true := by decide
    intro x hx
    rcases List.mem_cons.1 hx with hx | hx
    · rw [hx]; exact key d hd.2 (by omega)
    · exact key x (hds x hx).2 (hds x hx).1
  have hsp : isspace d = false := isspace_of_ge (by omega)
  have hstl : strtolAt (d :: (ds ++ c :: rest))
      = ((digitsValue 10 (d :: ds) : Int), (d :: ds).length) := by
    rw [strtolAt_unsigned hsp (by omega) (by omega)]
    unfold strtolUnsigned
    rw [hexPrefix_of_head (by omega)]
    have e : (List.head? (d :: (ds ++ c :: rest)) == some 48) = false := by
      simp only [List.head?_cons, beq_eq_false_iff_ne, ne_eq, Option.some.injEq]
      omega
    simp only [Bool.false_eq_true, if_false, e]
    unfold strtolRun
    rw [← List.cons_append, takeWhile_run hdig hc1]
    simp only [List.isEmpty_cons, Bool.false_eq_true, if_false, saturate]
    rw [if_neg (by omega)]
  have hs : strtol t cur = ((digitsValue 10 (d :: ds) : Int), cur + (d :: ds).length) := by
    rw [strtol_of_drop ht1, hstl]
  have hb : byteAt t (cur + (d :: ds).length) = c :=
    byteAt_of_drop (drop_add_of_drop (by rw [ht1]; simp :
      t.drop cur = (d :: ds) ++ c :: rest))
  cases f with
  | zero => omega
  | succ f =>
    rw [parseValue_number JsonValue.fresh (skipWhitespace_stay ht1 hsp (by omega)) ht1
      (Or.inr ⟨by omega, hd.2⟩)]
    unfold parseNumber
    simp only [hs, hb]
    have hnn : (0 : Int) ≤ (digitsValue 10 (d :: ds) : Int) := Int.ofNat_nonneg _
    rw [if_neg (by unfold LONG_MIN; omega), if_neg (by simp only [List.length_cons]; omega),
      if_neg (by omega)]

/-- C15: with the cursor at a comment, a `#`, a body `c` without newline and a newline,
followed by the text `r`, `skipWhitespace` gives what it gives with the cursor at the start of
`r`, which is what it gives on the text `r` alone, counted from the start of `r`: it stops at
the same byte of `r`, or fails in the same way. So `parseValue` and the loops of `parseObject`
and `parseArray`, which all start with `skipWhitespace`, give with the cursor at the comment
what they give with the cursor after it; the texts `{ # comment`, newline, ` "k": 1 }`
and `{ "k": 1 }` give the same tree, and so do the text `{"k":[1,2]}` and the same text with a
comment before the opening brace, before the key, before and after the colon, after the first
element, after the array and after the closing brace. The comment put anywhere into a gap (a run of white
space and comments) gives a gap, and the tree does not depend on what the gaps hold, at any
place where `parse`, `parseObject`, `parseArray` and `parseValue` skip white space: a gap
before a value belongs to the text of the value; the text of an object, with gaps before each
key, before and after each colon, after each value and before the closing brace, spells the
Object of its keys and values; the text of an array, with gaps before and after each element
and before the closing bracket, spells the Array of its values; and `parse` of an object text
with a gap before it and a gap after it accepts the text and gives that Object. Hence two
object texts with the same keys and values and any gaps give the same tree. -/
theorem C15_comment_is_skipped (t : List Nat) (cur : Nat) (c r : List Nat)
    (h : t.drop cur = 35 :: (c ++ 10 :: r)) (hc : ∀ x ∈ c, x ≠ 10) :
    skipWhitespace t cur = skipWhitespace t (cur + c.length + 2)
      ∧ skipWhitespace t cur = (skipWhitespace r 0).map (fun q => cur + c.length + 2 + q)
      ∧ skipWhitespace (35 :: (c ++ 10 :: r)) 0
          = (skipWhitespace r 0).map (fun q => c.length + 2 + q)
      ∧ (∀ f self, parseValue f t self cur = parseValue f t self (cur + c.length + 2))
      ∧ (∀ f self os, parseObjectLoop f t self os cur
          = parseObjectLoop f t self os (cur + c.length + 2))
      ∧ (∀ f self os, parseArrayLoop f t self os cur
          = parseArrayLoop f t self os (cur + c.length + 2))
      ∧ parse JsonValue.fresh (lit "\x7b # comment\n \"k\": 1 \x7d")
          = parse JsonValue.fresh (lit "\x7b \"k\": 1 \x7d")
      ∧ parse JsonValue.fresh
            (lit "# s\n\x7b # a\n\"k\" # b\n: # v\n[1 # c\n, 2] # d\n\x7d # e\n")
          = parse JsonValue.fresh (lit "\x7b\"k\":[1,2]\x7d")
      ∧ (∀ a b, Blank a → Blank b → Blank (a ++ 35 :: (c ++ 10 :: b)))
      ∧ (∀ b vt v, Blank b → ReadsValue vt v → ReadsValue (b ++ vt) v)
      ∧ (∀ ms last, (∀ m ∈ ms, Member.ok m) → Blank last →
          ReadsValue (objectText ms last) (objectValue ms))
      ∧ (∀ es last, (∀ e ∈ es, Element.ok e) → Blank last →
          ReadsValue (arrayText es last) (arrayValue es))
      ∧ (∀ ms last b0 b1, (∀ m ∈ ms, Member.ok m) → Blank last → Blank b0 → Blank b1 →
          parse JsonValue.fresh (b0 ++ objectText ms last ++ b1)
            = (objectValue ms, Except.ok ()))
      ∧ (∀ ms ms1 last last1 b0 b1 b2 b3, (∀ m ∈ ms, Member.ok m) →
          (∀ m ∈ ms1, Member.ok m) → Blank last → Blank last1 → Blank b0 → Blank b1 →
          Blank b2 → Blank b3 → memberEntries ms = memberEntries ms1 →
          parse JsonValue.fresh (b0 ++ objectText ms last ++ b1)
            = parse JsonValue.fresh (b2 ++ objectText ms1 last1 ++ b3)) := by
  have hl := length_of_drop h
  simp only [List.length_cons, List.length_append] at hl
  have hr : t.drop (cur + c.length + 2) = r := by
    have := drop_succ_of_drop (drop_add_of_drop (drop_succ_of_drop h))
    rw [← this]
    congr 1
    omega
  have e1 := skipWhitespace_comment h hc
  have e2 : skipWhitespace t cur = (skipWhitespace r 0).map (fun q => cur + c.length + 2 + q) := by
    rw [e1, skipWhitespace_shift t (cur + c.length + 2) (by omega), hr]
  refine ⟨e1, e2, ?_, ?_, ?_, ?_, by rfl, by rfl, fun a b ha hb => blank_comment hc ha hb,
    fun b vt v hb hv => readsValue_blank hb hv,
    fun ms last hall hlast => readsValue_object hall hlast,
    fun es last hall hlast => readsValue_array hall hlast,
    fun ms last b0 b1 hall hlast h0 h1 => parse_objectText hall hlast h0 h1, ?_⟩
  rotate_left
  · intro f self
    cases f with
    | zero => rfl
    | succ f => rw [parseValue, parseValue, e1]
  · intro f self os
    cases f with
    | zero => rfl
    | succ f => rw [parseObjectLoop, parseObjectLoop, e1]
  · intro f self os
    cases f with
    | zero => rfl
    | succ f => rw [parseArrayLoop, parseArrayLoop, e1]
  · intro ms ms1 last last1 b0 b1 b2 b3 hall hall1 hlast hlast1 h0 h1 h2 h3 hent
    rw [parse_objectText hall hlast h0 h1, parse_objectText hall1 hlast1 h2 h3]
    unfold objectValue
    rw [hent]
  have e3 : skipWhitespace (35 :: (c ++ 10 :: r)) 0
      = skipWhitespace (35 :: (c ++ 10 :: r)) (0 + c.length + 2) :=
    skipWhitespace_comment (List.drop_zero _) hc
  rw [e3, skipWhitespace_shift _ (0 + c.length + 2)
    (by simp only [List.length_cons, List.length_append]; omega)]
  have hd : (35 :: (c ++ 10 :: r)).drop (0 + c.length + 2) = r := by
    have := drop_succ_of_drop (drop_add_of_drop (drop_succ_of_drop
      (List.drop_zero (35 :: (c ++ 10 :: r)))))
    rw [show 0 + c.length + 2 = 0 + 1 + c.length + 1 by omega]
    exact this
  rw [hd]
  simp only [Nat.zero_add]

/-- C15 at the text ` # c`, newline, two spaces, `x`, with the cursor at the first byte:
`skipWhitespace` stops at the `x`, at index 7, as it does from index 5, after the comment.
And at the text `# s`, newline, `{ # a`, newline, `"k" # b`, newline, `: 1 # d`, newline,
`} # e`, newline, with a comment before the opening brace, before the key, before the colon,
after the value and after the closing brace: `parse` gives the tree of `{"k":1}`; a comment
after an element of an array changes nothing either. -/
theorem C15_comment_is_skipped_witness :
    skipWhitespace (lit " # c\n  x") 1 = Except.ok 7
      ∧ skipWhitespace (lit " # c\n  x") 1 = skipWhitespace (lit " # c\n  x") (1 + 2 + 2)
      ∧ skipWhitespace (lit "  x") 0 = Except.ok 2
      ∧ parse JsonValue.fresh (lit "# s\n\x7b # a\n\"k\" # b\n: 1 # d\n\x7d # e\n")
        = ({ JsonValue.fresh with
              type_f := JSON_OBJECT,
              nameValPairs_f := [(lit "k",
                { JsonValue.fresh with type_f := JSON_NUMBER, theInteger_f := 1 })],
              nameValsInOrder_f := [(lit "k",
                { JsonValue.fresh with type_f := JSON_NUMBER, theInteger_f := 1 })] },
            Except.ok ())
      ∧ parse JsonValue.fresh (lit "# s\n\x7b # a\n\"k\" # b\n: 1 # d\n\x7d # e\n")
        = parse JsonValue.fresh (lit "\x7b\"k\":1\x7d")
      ∧ parse JsonValue.fresh (lit "\x7b\"k\":[1 # c\n,2 # d\n]\x7d")
        = parse JsonValue.fresh (lit "\x7b\"k\":[1,2]\x7d") :=
  ⟨by decide!,
    (C15_comment_is_skipped (lit " # c\n  x") 1 (lit " c") (lit "  x") (by decide)
      (by decide)).1,
    by decide!,
    (C15_comment_is_skipped (lit " # c\n  x") 1 (lit " c") (lit "  x") (by decide)
      (by decide)).2.2.2.2.2.2.2.2.2.2.2.2.1
      [{ beforeKey := [32, 35, 32, 97, 10], keyText := [34, 107, 34], name := [107],
         beforeColon := [32, 35, 32, 98, 10], afterColon := [32], valueText := [49],
         value := { JsonValue.fresh with
           type_f := JSON_NUMBER, theInteger_f := (digitsValue 10 [49] : Int) },
         afterMember := [32, 35, 32, 100, 10] }] [] [35, 32, 115, 10] [32, 35, 32, 101, 10]
      (fun m hm => by
        rw [List.mem_singleton.1 hm]
        exact ⟨Blank.space (by decide) (@Blank.comment [32, 97] [] (by decide) Blank.nil),
          @readsString_plain [107] (by decide),
          Blank.space (by decide) (@Blank.comment [32, 98] [] (by decide) Blank.nil),
          Blank.space (by decide) Blank.nil,
          @readsValue_digits 49 [] (by decide) (by simp) (by decide),
          Blank.space (by decide) (@Blank.comment [32, 100] [] (by decide) Blank.nil)⟩)
      Blank.nil (@Blank.comment [32, 115] [] (by decide) Blank.nil)
      (Blank.space (by decide) (@Blank.comment [32, 101] [] (by decide) Blank.nil)),
    by rfl, by rfl⟩

end Jsonparser
